import Mathlib

/-! # Copy propagation (compiler/optimizations/copyPropagation.cpp)

A shallow embedding of the copy-propagation pass: the invalidation oracle
`invalidateCopies`, the available-copy maps with `makeAvailable` and
`removeAvailable`, the per-block propagator `localCopyPropagationCore`, the
passes `localCopyPropagation`, `globalCopyPropagation` and
`singleAssignmentRefPropagation`, and the driver `copyPropagation`.

Pointers are rendered as follows.  A `Symbol*` is a `Symbol` value (its `addr`
field stands for the address, so pointer equality is equality of values).  A
`SymExpr*` that is only tested for set membership is the `id` of the node; a
`SymExpr*` that is dereferenced later (`_LHS`, `_RHS`) is the position of the
node in the function, and `->var` reads the tree as it is at that moment.
-/

namespace CopyPropagation

/-! ## The IR -/

/-- Primitive tags the pass looks at; every other primitive is `PRIMITIVE_OTHER`. -/
inductive PrimitiveTag where
  | PRIMITIVE_MOVE
  | PRIMITIVE_SET_REF
  | PRIMITIVE_GET_REF
  | PRIMITIVE_GET_MEMBER
  | PRIMITIVE_GET_MEMBER_VALUE
  | PRIMITIVE_SET_MEMBER
  | PRIMITIVE_GET_REAL
  | PRIMITIVE_GET_IMAG
  | PRIMITIVE_OTHER (code : Nat)
  deriving DecidableEq, Repr

/-- What the pass reads of a `Type`: `refType != NULL`, `isRecordType(t)`,
`is_complex_type(t)` and `isReference(t)`. -/
structure ChplType where
  refType : Bool
  isRecordType : Bool
  is_complex_type : Bool
  isReference : Bool
  deriving DecidableEq, Repr

/-- A `Symbol`.  `isVarSymbol` says whether `toVarSymbol` succeeds. -/
structure Symbol where
  addr : Nat
  isVarSymbol : Bool
  type : ChplType
  isConcurrent : Bool
  isConstant : Bool
  isImmediate : Bool
  deriving DecidableEq, Repr

/-- Expression trees.  A `SymExpr` node carries its identity `id` (the value of
the `SymExpr*`) and its mutable field `var`.  A `CallExpr` is a primitive
(`primitive = some tag`) or a call through `baseExpr`.  `DefExpr` carries the
defined symbol and its sub-expressions (`exprType`, `init`); `Other` is any
other node kind. -/
inductive Expr where
  | SymExpr (id : Nat) (var : Symbol)
  | CallExpr (primitive : Option PrimitiveTag) (baseExpr : Option Expr) (argList : List Expr)
  | DefExpr (sym : Symbol) (children : List Expr)
  | Other (children : List Expr)
  deriving Repr

/-- The parent of a node when that parent is a `CallExpr` (`toCallExpr(se->parentExpr)`):
the parent's primitive tag and the place of the node among the parent's actuals
(`1` for `parent->get(1)`, `0` for `baseExpr`). -/
structure ParentCall where
  primitive : Option PrimitiveTag
  index : Nat
  deriving DecidableEq, Repr

/-- Test `parent->isPrimitive(tag)`. -/
def ParentCall.isPrimitive (parent : ParentCall) (tag : PrimitiveTag) : Bool :=
  parent.primitive == some tag

/-- A `SymExpr` as the pass sees it through a `SymExpr*`: identity, current
`var`, and `toCallExpr(parentExpr)`. -/
structure SymExprNode where
  id : Nat
  var : Symbol
  parentExpr : Option ParentCall
  deriving DecidableEq, Repr

mutual
/-- The `SymExpr`s among `collect_asts(expr)`, in the pre-order in which
`collect_asts` lists a node before its children (`baseExpr` before `argList`).
The first argument is the parent call of `expr`, if its parent is a call. -/
def collectSymExprs : Option ParentCall → Expr → List SymExprNode
  | parent, .SymExpr id var => [⟨id, var, parent⟩]
  | _, .CallExpr primitive baseExpr argList =>
      collectBase primitive baseExpr ++ collectActuals primitive 1 argList
  | _, .DefExpr _ children => collectChildren children
  | _, .Other children => collectChildren children
/-- The `baseExpr` of a call. -/
def collectBase (primitive : Option PrimitiveTag) : Option Expr → List SymExprNode
  | none => []
  | some e => collectSymExprs (some ⟨primitive, 0⟩) e
/-- The actuals of a call, from position `i` on. -/
def collectActuals (primitive : Option PrimitiveTag) : Nat → List Expr → List SymExprNode
  | _, [] => []
  | i, e :: es => collectSymExprs (some ⟨primitive, i⟩) e ++ collectActuals primitive (i + 1) es
/-- Children of a node that is not a call. -/
def collectChildren : List Expr → List SymExprNode
  | [] => []
  | e :: es => collectSymExprs none e ++ collectChildren es
end

mutual
/-- Assign `se->var = f se` at every `SymExpr` of `expr` (the effect of a loop
over `collect_asts(expr)` whose body writes only the `var` of the node it visits). -/
def rebindSymExprs (f : SymExprNode → Symbol) : Option ParentCall → Expr → Expr
  | parent, .SymExpr id var => .SymExpr id (f ⟨id, var, parent⟩)
  | _, .CallExpr primitive baseExpr argList =>
      .CallExpr primitive (rebindBase f primitive baseExpr) (rebindActuals f primitive 1 argList)
  | _, .DefExpr sym children => .DefExpr sym (rebindChildren f children)
  | _, .Other children => .Other (rebindChildren f children)
/-- The `baseExpr` of a call. -/
def rebindBase (f : SymExprNode → Symbol) (primitive : Option PrimitiveTag) :
    Option Expr → Option Expr
  | none => none
  | some e => some (rebindSymExprs f (some ⟨primitive, 0⟩) e)
/-- The actuals of a call, from position `i` on. -/
def rebindActuals (f : SymExprNode → Symbol) (primitive : Option PrimitiveTag) :
    Nat → List Expr → List Expr
  | _, [] => []
  | i, e :: es =>
      rebindSymExprs f (some ⟨primitive, i⟩) e :: rebindActuals f primitive (i + 1) es
/-- Children of a node that is not a call. -/
def rebindChildren (f : SymExprNode → Symbol) : List Expr → List Expr
  | [] => []
  | e :: es => rebindSymExprs f none e :: rebindChildren f es
end

/-! ## The invalidation oracle -/

/-- Source: `invalidateCopies(se, defSet, useSet)`. -/
def invalidateCopies (se : SymExprNode) (defSet useSet : List Nat) : Bool :=
  if defSet.contains se.id then true
  else if useSet.contains se.id then
    match se.parentExpr with
    | some parent =>
      if parent.isPrimitive .PRIMITIVE_SET_REF then true
      else if se.var.type.isRecordType &&
          (parent.isPrimitive .PRIMITIVE_GET_MEMBER ||
            (parent.isPrimitive .PRIMITIVE_SET_MEMBER && parent.index == 1)) then true
      else if se.var.type.is_complex_type &&
          (parent.isPrimitive .PRIMITIVE_GET_REAL ||
            parent.isPrimitive .PRIMITIVE_GET_IMAG) then true
      else false
    | none => false
  else false

/-! ## The available-copy maps -/

/-- A `Map<K,V*>`: `get` answers `none` for `NULL`, also for a key never put. -/
structure Map (K : Type) (V : Type) where
  get : K → Option V

/-- The map with no entry. -/
def Map.empty {K V : Type} : Map K V := ⟨fun _ => none⟩

/-- Source: `put(key, value)`; `put(key, NULL)` is `put key none`. -/
def Map.put {K V : Type} [DecidableEq K] (m : Map K V) (key : K) (value : Option V) : Map K V :=
  ⟨fun k => if k = key then value else m.get k⟩

/-- Source: `typedef Map<Symbol*,Symbol*> AvailableMap`. -/
abbrev AvailableMap := Map Symbol Symbol

/-- Source: `typedef Map<Symbol*,Vec<Symbol*>*> ReverseAvailableMap`. -/
abbrev ReverseAvailableMap := Map Symbol (List Symbol)

/-- The two maps every routine passes along together. -/
structure Copies where
  available : AvailableMap
  reverseAvailable : ReverseAvailableMap

/-- Both maps empty, as declared at the start of a block. -/
def Copies.empty : Copies := ⟨Map.empty, Map.empty⟩

/-- Source: `makeAvailable(available, reverseAvailable, key, value)`. -/
def makeAvailable (c : Copies) (key value : Symbol) : Copies :=
  let keys : List Symbol :=
    match c.reverseAvailable.get value with
    | some ks => ks
    | none => []
  let keys := keys ++ [key]
  ⟨c.available.put key (some value), c.reverseAvailable.put value (some keys)⟩

/-- Source: `removeAvailable(available, reverseAvailable, sym)`. -/
def removeAvailable (c : Copies) (sym : Symbol) : Copies :=
  let available :=
    match c.reverseAvailable.get sym with
    | some keys =>
        keys.foldl
          (fun (av : AvailableMap) key =>
            if av.get key = some sym then av.put key none else av)
          c.available
    | none => c.available
  ⟨available.put sym none, c.reverseAvailable⟩

/-! ## The local propagator -/

/-- Body of the first loop of `localCopyPropagationCore`: the `var` of `se`
after the iteration that visits it. -/
def propagateUse (available : AvailableMap) (useSet defSet : List Nat)
    (se : SymExprNode) : Symbol :=
  if useSet.contains se.id then
    match available.get se.var with
    | some sym => if !invalidateCopies se defSet useSet then sym else se.var
    | none => se.var
  else se.var

/-- Second loop of `localCopyPropagationCore`, over the `SymExpr`s of the statement. -/
def invalidateAvailable (useSet defSet : List Nat) (c : Copies)
    (asts : List SymExprNode) : Copies :=
  asts.foldl
    (fun c se => if invalidateCopies se defSet useSet then removeAvailable c se.var else c) c

/-- The test of the third part of the loop body: `expr` is a `PRIMITIVE_MOVE`
call whose `get(1)` and `get(2)` are `SymExpr`s `lhs`, `rhs` with
`lhs->var != rhs->var`, `lhs` in `defSet`, and `rhs` in `useSet` or constant or
immediate.  Answers `(lhs, rhs)` as `(id, var)` pairs. -/
def copyStatement (useSet defSet : List Nat) (expr : Expr) :
    Option ((Nat × Symbol) × (Nat × Symbol)) :=
  match expr with
  | .CallExpr (some .PRIMITIVE_MOVE) _ (.SymExpr lid lvar :: .SymExpr rid rvar :: _) =>
      if lvar ≠ rvar then
        if defSet.contains lid then
          if useSet.contains rid || rvar.isConstant || rvar.isImmediate then
            some ((lid, lvar), (rid, rvar))
          else none
        else none
      else none
  | _ => none

/-- First loop of the body of `localCopyPropagationCore` on one statement. -/
def propagateStatement (useSet defSet : List Nat) (available : AvailableMap)
    (expr : Expr) : Expr :=
  rebindSymExprs (propagateUse available useSet defSet) none expr

/-- Third part of the loop body. -/
def insertCopy (useSet defSet : List Nat) (c : Copies) (expr : Expr) : Copies :=
  match copyStatement useSet defSet expr with
  | some (lhs, rhs) => makeAvailable c lhs.2 rhs.2
  | none => c

/-- One iteration of the outer loop of `localCopyPropagationCore`: the statement
after rebinding, and the maps after it. -/
def localStep (useSet defSet : List Nat) (c : Copies) (expr : Expr) : Expr × Copies :=
  let expr1 := propagateStatement useSet defSet c.available expr
  let c1 := invalidateAvailable useSet defSet c (collectSymExprs none expr1)
  (expr1, insertCopy useSet defSet c1 expr1)

/-- Source: `localCopyPropagationCore(bb, available, reverseAvailable, useSet, defSet)`,
on the statements of `bb`.  Answers the statements after rebinding and the
maps at the end of the block. -/
def localCopyPropagationCore (useSet defSet : List Nat) :
    List Expr → Copies → List Expr × Copies
  | [], c => ([], c)
  | expr :: rest, c =>
      let r := localStep useSet defSet c expr
      let rs := localCopyPropagationCore useSet defSet rest r.2
      (r.1 :: rs.1, rs.2)

/-! ## Functions and basic blocks -/

/-- A `BasicBlock`: its statements, and the ids (indices in `fn->basicBlocks`)
of its predecessors and successors. -/
structure BasicBlock where
  exprs : List Expr
  ins : List Nat
  outs : List Nat
  deriving Repr

/-- A `FnSymbol` after `buildBasicBlocks(fn)`. -/
structure FnSymbol where
  basicBlocks : List BasicBlock
  getReturnSymbol : Symbol
  deriving Repr

/-- The fields `defs` and `uses` of every `Symbol` as `compute_sym_uses(fn)`
leaves them: for each symbol the ids of the `SymExpr`s listed. -/
structure SymUses where
  defs : Symbol → List Nat
  uses : Symbol → List Nat

/-- Source: `isCandidateForCopyPropagation(fn, var)`. -/
def isCandidateForCopyPropagation (fn : FnSymbol) (var : Symbol) : Bool :=
  decide (var ≠ fn.getReturnSymbol) && var.type.refType && !var.isConcurrent

/-- The test of the loop that fills `locals`, on one statement. -/
def candidateLocal (fn : FnSymbol) : Expr → Option Symbol
  | .DefExpr sym _ =>
      if sym.isVarSymbol && isCandidateForCopyPropagation fn sym then some sym else none
  | _ => none

/-- The vector `locals` of both drivers. -/
def candidateLocals (fn : FnSymbol) : List Symbol :=
  fn.basicBlocks.flatMap (fun bb => bb.exprs.filterMap (candidateLocal fn))

/-- The set `useSet` of both drivers. -/
def buildUseSet (su : SymUses) (locals : List Symbol) : List Nat :=
  locals.flatMap su.uses

/-- The set `defSet` of both drivers. -/
def buildDefSet (su : SymUses) (locals : List Symbol) : List Nat :=
  locals.flatMap su.defs

/-- Source: `localCopyPropagation(fn)`.  `compute_sym_uses` is the routine of
that name, which this file calls and does not define. -/
def localCopyPropagation (compute_sym_uses : FnSymbol → SymUses) (fn : FnSymbol) : FnSymbol :=
  let su := compute_sym_uses fn
  let locals := candidateLocals fn
  let useSet := buildUseSet su locals
  let defSet := buildDefSet su locals
  ⟨fn.basicBlocks.map (fun bb =>
      ⟨(localCopyPropagationCore useSet defSet bb.exprs Copies.empty).1, bb.ins, bb.outs⟩),
    fn.getReturnSymbol⟩

/-! ## The global propagator -/

/-- A `SymExpr*` kept in `_LHS`, `_RHS`, `LHS` or `RHS`: the actual number
`actual` of statement `stmt` of basic block `bb`. -/
structure SymExprPtr where
  bb : Nat
  stmt : Nat
  actual : Nat
  deriving DecidableEq, Repr

/-- Entry `i` of the parallel vectors `LHS` and `RHS`. -/
structure CopyPair where
  lhs : SymExprPtr
  rhs : SymExprPtr
  deriving DecidableEq, Repr

/-- The `var` of actual number `k` of a call, when that actual is a `SymExpr`. -/
def actualVar : Expr → Nat → Option Symbol
  | .CallExpr _ _ argList, k =>
      match argList.get? (k - 1) with
      | some (.SymExpr _ var) => some var
      | _ => none
  | _, _ => none

/-- Read `p->var` in the function as it is now. -/
def derefVar (blocks : List BasicBlock) (p : SymExprPtr) : Option Symbol :=
  match blocks.get? p.bb with
  | some bb =>
      match bb.exprs.get? p.stmt with
      | some expr => actualVar expr p.actual
      | none => none
  | none => none

/-- Test `LHS.v[i]->var == sym || RHS.v[i]->var == sym`. -/
def CopyPair.mentions (blocks : List BasicBlock) (p : CopyPair) (sym : Symbol) : Bool :=
  decide (derefVar blocks p.lhs = some sym) || decide (derefVar blocks p.rhs = some sym)

/-- The loop `for (i = start; i < _LHS.n; i++)` that zeroes the entries of
`_LHS`, `_RHS` mentioning `sym`. -/
def sparseInvalidate (blocks : List BasicBlock) (start : Nat) (sym : Symbol)
    (pairs : List (Option CopyPair)) : List (Option CopyPair) :=
  pairs.take start ++
    (pairs.drop start).map (fun e =>
      match e with
      | some p => if p.mentions blocks sym then none else some p
      | none => none)

/-- Body of the statement loop that fills `_LHS`, `_RHS`, for statement `si` of
block `bi`. -/
def sparseStatement (useSet defSet : List Nat) (blocks : List BasicBlock) (start bi si : Nat)
    (pairs : List (Option CopyPair)) (expr : Expr) : List (Option CopyPair) :=
  let pairs1 :=
    (collectSymExprs none expr).foldl
      (fun ps se =>
        if invalidateCopies se defSet useSet then sparseInvalidate blocks start se.var ps
        else ps)
      pairs
  match copyStatement useSet defSet expr with
  | some _ => pairs1 ++ [some ⟨⟨bi, si, 1⟩, ⟨bi, si, 2⟩⟩]
  | none => pairs1

/-- The statement loop over one block, from statement `si` on. -/
def sparseBlock (useSet defSet : List Nat) (blocks : List BasicBlock) (start bi : Nat) :
    Nat → List Expr → List (Option CopyPair) → List (Option CopyPair)
  | _, [], pairs => pairs
  | si, expr :: rest, pairs =>
      sparseBlock useSet defSet blocks start bi (si + 1) rest
        (sparseStatement useSet defSet blocks start bi si pairs expr)

/-- The block loop that computes `_LHS`, `_RHS` (first component) and `_N`
(second component), from block `bi` on. -/
def sparseBlocks (useSet defSet : List Nat) (blocks : List BasicBlock) :
    Nat → List BasicBlock → List (Option CopyPair) × List Nat →
      List (Option CopyPair) × List Nat
  | _, [], s => s
  | bi, bb :: rest, s =>
      let pairs := sparseBlock useSet defSet blocks s.1.length bi 0 bb.exprs s.1
      sparseBlocks useSet defSet blocks (bi + 1) rest (pairs, s.2 ++ [pairs.length])

/-- The loop `while (j < _N.v[i])` of the densification, run `fuel` times. -/
def denseLoop (sparse : List (Option CopyPair)) :
    Nat → Nat → List CopyPair → Nat × List CopyPair
  | 0, j, dense => (j, dense)
  | fuel + 1, j, dense =>
      denseLoop sparse fuel (j + 1)
        (match sparse.getD j none with
         | some p => dense ++ [p]
         | none => dense)

/-- The block loop of the densification over the entries `_N.v[i]`; the state
is `j`, `LHS`/`RHS` and `N`. -/
def densify (sparse : List (Option CopyPair)) :
    List Nat → Nat × List CopyPair × List Nat → Nat × List CopyPair × List Nat
  | [], s => s
  | stop :: rest, (j, dense, N) =>
      let r := denseLoop sparse (stop - j) j dense
      densify sparse rest (r.1, r.2, N ++ [r.2.length])

/-- The loop `while (j < N.v[i]) copy->v[j] = true`, run `fuel` times. -/
def copyLoop : Nat → Nat → List Bool → Nat × List Bool
  | 0, j, copy => (j, copy)
  | fuel + 1, j, copy => copyLoop fuel (j + 1) (copy.set j true)

/-- The block loop that builds `COPY`, over the entries `N.v[i]`, with `size`
the length `N.v[n-1]` of every vector. -/
def buildCOPY (size : Nat) : List Nat → Nat × List (List Bool) → Nat × List (List Bool)
  | [], s => s
  | stop :: rest, (j, COPY) =>
      let r := copyLoop (stop - j) j (List.replicate size false)
      buildCOPY size rest (r.1, COPY ++ [r.2])

/-- The loop `for j in js: if (LHS.v[j]->var == sym || RHS.v[j]->var == sym) kill->v[j] = true`. -/
def killLoop (blocks : List BasicBlock) (dense : List CopyPair) (sym : Symbol)
    (js : List Nat) (kill : List Bool) : List Bool :=
  js.foldl
    (fun k j =>
      match dense.get? j with
      | some p => if p.mentions blocks sym then k.set j true else k
      | none => k)
    kill

/-- The two loops run for an invalidating `SymExpr` of a block whose own pairs
are `start .. stop-1`. -/
def killSymbol (blocks : List BasicBlock) (dense : List CopyPair) (start stop : Nat)
    (sym : Symbol) (kill : List Bool) : List Bool :=
  killLoop blocks dense sym (List.range' stop (dense.length - stop))
    (killLoop blocks dense sym (List.range start) kill)

/-- The statement loop of the kill-set computation on one block. -/
def killBlock (useSet defSet : List Nat) (blocks : List BasicBlock) (dense : List CopyPair)
    (start stop : Nat) (exprs : List Expr) (kill : List Bool) : List Bool :=
  exprs.foldl
    (fun k expr =>
      (collectSymExprs none expr).foldl
        (fun k se =>
          if invalidateCopies se defSet useSet then killSymbol blocks dense start stop se.var k
          else k)
        k)
    kill

/-- The block loop that computes `KILL`, from block `i` on, with `start` the
value of that variable. -/
def buildKILL (useSet defSet : List Nat) (blocks : List BasicBlock) (dense : List CopyPair)
    (N : List Nat) (size : Nat) : Nat → Nat → List BasicBlock → List (List Bool)
  | _, _, [] => []
  | i, start, bb :: rest =>
      let stop := N.getD i 0
      killBlock useSet defSet blocks dense start stop bb.exprs (List.replicate size false) ::
        buildKILL useSet defSet blocks dense N size (i + 1) stop rest

/-- The loop `for (j = 0; j < LHS.n; j++) v[j] = true`. -/
def setAll (n : Nat) (v : List Bool) : List Bool :=
  (List.range n).foldl (fun v j => v.set j true) v

/-- The vectors `IN` as handed to the flow analysis: all false for block 0,
bits `0 .. LHS.n-1` true for every other block. -/
def initialIN (n size pairs : Nat) : List (List Bool) :=
  (List.range n).map (fun i =>
    if 1 ≤ i then setAll pairs (List.replicate size false) else List.replicate size false)

/-- The type of `forwardFlowAnalysis(fn, GEN, KILL, IN, OUT, intersect)`, which
this file calls and does not define: from the blocks and the four families of
vectors to the final `IN` and `OUT`. -/
abbrev FlowAnalysis :=
  List BasicBlock → List (List Bool) → List (List Bool) → List (List Bool) →
    List (List Bool) → Bool → List (List Bool) × List (List Bool)

/-- The loop of step 6 that seeds the maps of a block from `IN.v[i]`, from pair
`j` on; the state is the maps and `proceed`. -/
def seedCopies (blocks : List BasicBlock) (inBits : List Bool) :
    Nat → List CopyPair → Copies × Bool → Copies × Bool
  | _, [], s => s
  | j, p :: rest, s =>
      seedCopies blocks inBits (j + 1) rest
        (if inBits.getD j false then
          (match derefVar blocks p.lhs, derefVar blocks p.rhs with
            | some l, some r => makeAvailable s.1 l r
            | _, _ => s.1, true)
         else s)

/-- Body of the last block loop of `globalCopyPropagation` for block `i`. -/
def globalStep (useSet defSet : List Nat) (dense : List CopyPair) (IN : List (List Bool))
    (blocks : List BasicBlock) (i : Nat) : List BasicBlock :=
  match blocks.get? i with
  | none => blocks
  | some bb =>
      let s := seedCopies blocks (IN.getD i []) 0 dense (Copies.empty, false)
      if s.2 then
        blocks.set i ⟨(localCopyPropagationCore useSet defSet bb.exprs s.1).1, bb.ins, bb.outs⟩
      else blocks

/-- Everything `globalCopyPropagation` computes before it rewrites a block. -/
structure GlobalAnalysis where
  useSet : List Nat
  defSet : List Nat
  sparse : List (Option CopyPair)
  sparseN : List Nat
  dense : List CopyPair
  N : List Nat
  COPY : List (List Bool)
  KILL : List (List Bool)
  IN0 : List (List Bool)
  OUT0 : List (List Bool)
  IN : List (List Bool)
  OUT : List (List Bool)

/-- The part of `globalCopyPropagation` from `compute_sym_uses(fn)` to the
return of `forwardFlowAnalysis`. -/
def globalAnalysis (compute_sym_uses : FnSymbol → SymUses) (flow : FlowAnalysis)
    (fn : FnSymbol) : GlobalAnalysis :=
  let su := compute_sym_uses fn
  let locals := candidateLocals fn
  let useSet := buildUseSet su locals
  let defSet := buildDefSet su locals
  let blocks := fn.basicBlocks
  let n := blocks.length
  let sp := sparseBlocks useSet defSet blocks 0 blocks ([], [])
  let d := densify sp.1 sp.2 (0, [], [])
  let dense := d.2.1
  let N := d.2.2
  let size := N.getD (n - 1) 0
  let COPY := (buildCOPY size N (0, [])).2
  let KILL := buildKILL useSet defSet blocks dense N size 0 0 blocks
  let IN0 := initialIN n size dense.length
  let OUT0 := List.replicate n (List.replicate size false)
  let r := flow blocks COPY KILL IN0 OUT0 true
  ⟨useSet, defSet, sp.1, sp.2, dense, N, COPY, KILL, IN0, OUT0, r.1, r.2⟩

/-- Source: `globalCopyPropagation(fn)`. -/
def globalCopyPropagation (compute_sym_uses : FnSymbol → SymUses) (flow : FlowAnalysis)
    (fn : FnSymbol) : FnSymbol :=
  if fn.basicBlocks.length ≤ 1 then fn
  else
    let a := globalAnalysis compute_sym_uses flow fn
    ⟨(List.range fn.basicBlocks.length).foldl
        (globalStep a.useSet a.defSet a.dense a.IN) fn.basicBlocks,
      fn.getReturnSymbol⟩

/-! ## The routines this file calls and does not define -/

/-- Modelled from the spec: `compute_sym_uses` is not part of this file; the
spec says a symbol's `defs` are the occurrences that write it and its `uses`
the occurrences that read it.  Here the occurrence written is the first actual
of a `PRIMITIVE_MOVE`, and every other occurrence is read. -/
def symExprWrites (se : SymExprNode) : Bool :=
  match se.parentExpr with
  | some parent => parent.isPrimitive .PRIMITIVE_MOVE && parent.index == 1
  | none => false

/-- Modelled from the spec: every `SymExpr` of the function, block by block
(see `symExprWrites`). -/
def allSymExprs (fn : FnSymbol) : List SymExprNode :=
  fn.basicBlocks.flatMap (fun bb => bb.exprs.flatMap (collectSymExprs none))

/-- Modelled from the spec: `compute_sym_uses(fn)`, with `defs` the occurrences
of the symbol that write it and `uses` those that read it (see `symExprWrites`). -/
def compute_sym_uses (fn : FnSymbol) : SymUses :=
  ⟨fun sym =>
      ((allSymExprs fn).filter (fun se => decide (se.var = sym) && symExprWrites se)).map
        (fun se => se.id),
    fun sym =>
      ((allSymExprs fn).filter (fun se => decide (se.var = sym) && !symExprWrites se)).map
        (fun se => se.id)⟩

/-- Bit `j` of vector `i` of a family, false outside it. -/
def bit (V : List (List Bool)) (i j : Nat) : Bool :=
  (V.getD i []).getD j false

/-- Modelled from the spec: the new `IN(b)`, the intersection (or, without
`intersect`, the union) of the predecessors' `OUT`; a block without
predecessor keeps its `IN`. -/
def flowIn (ins : List Nat) (OUT : List (List Bool)) (intersect : Bool)
    (oldIn : List Bool) : List Bool :=
  if ins.isEmpty then oldIn
  else
    (List.range oldIn.length).map (fun j =>
      if intersect then ins.all (fun p => bit OUT p j) else ins.any (fun p => bit OUT p j))

/-- Modelled from the spec: `OUT(b) = GEN(b) ∪ (IN(b) − KILL(b))`. -/
def flowOut (gen kill inBits : List Bool) : List Bool :=
  (List.range inBits.length).map (fun j =>
    gen.getD j false || (inBits.getD j false && !kill.getD j false))

/-- Modelled from the spec: one sweep of the iteration over the blocks, in order. -/
def flowSweep (GEN KILL : List (List Bool)) (intersect : Bool) :
    Nat → List BasicBlock → List (List Bool) × List (List Bool) →
      List (List Bool) × List (List Bool)
  | _, [], s => s
  | i, bb :: rest, s =>
      let newIn := flowIn bb.ins s.2 intersect (s.1.getD i [])
      let newOut := flowOut (GEN.getD i []) (KILL.getD i []) newIn
      flowSweep GEN KILL intersect (i + 1) rest (s.1.set i newIn, s.2.set i newOut)

/-- Modelled from the spec: sweeps repeated until one changes nothing, at most
`fuel` times. -/
def flowIterate (blocks : List BasicBlock) (GEN KILL : List (List Bool)) (intersect : Bool) :
    Nat → List (List Bool) × List (List Bool) → List (List Bool) × List (List Bool)
  | 0, s => s
  | fuel + 1, s =>
      let t := flowSweep GEN KILL intersect 0 blocks s
      if t = s then s else flowIterate blocks GEN KILL intersect fuel t

/-- Modelled from the spec: `forwardFlowAnalysis`, the generic fixpoint solver
(`OUT(b) = GEN(b) ∪ (IN(b) − KILL(b))`, `IN(b) = ∩` of the predecessors' `OUT`),
which is not part of this file. -/
def forwardFlowAnalysis : FlowAnalysis :=
  fun blocks GEN KILL IN OUT intersect =>
    flowIterate blocks GEN KILL intersect (blocks.length * ((IN.getD 0 []).length + 1) + 1)
      (IN, OUT)

/-- The equations the spec gives for the result of the flow analysis with
`intersect` set: `OUT(b) = GEN(b) ∪ (IN(b) − KILL(b))` for every block, and
`IN(b) = ∩ OUT(p)` over the predecessors `p` of every block that has one. -/
def IsFlowFixpoint (blocks : List BasicBlock) (GEN KILL IN OUT : List (List Bool)) : Prop :=
  ∀ i bb, blocks.get? i = some bb → ∀ j,
    bit OUT i j = (bit GEN i j || (bit IN i j && !bit KILL i j)) ∧
    (bb.ins ≠ [] → bit IN i j = bb.ins.all (fun p => bit OUT p j))

/-! ## States of the maps -/

/-- The maps that `makeAvailable` and `removeAvailable` can produce from the
empty maps. -/
inductive Reachable : Copies → Prop where
  | empty : Reachable Copies.empty
  | make (c : Copies) (key value : Symbol) : Reachable c → Reachable (makeAvailable c key value)
  | remove (c : Copies) (sym : Symbol) : Reachable c → Reachable (removeAvailable c sym)

/-- Every entry of the forward map is recorded in the reverse map. -/
def Indexed (c : Copies) : Prop :=
  ∀ k v, c.available.get k = some v → ∃ ks, c.reverseAvailable.get v = some ks ∧ k ∈ ks

/-! ## Sample functions -/

/-- A type with a reference type, neither record nor complex. -/
def sampleType : ChplType := ⟨true, false, false, false⟩

/-- The local variable number `n`. -/
def sampleVar (n : Nat) : Symbol := ⟨n, true, sampleType, false, false, false⟩

/-- The statement `l := r`, whose two `SymExpr`s have ids `id` and `id + 1`. -/
def sampleMove (id l r : Nat) : Expr :=
  .CallExpr (some .PRIMITIVE_MOVE) none [.SymExpr id (sampleVar l), .SymExpr (id + 1) (sampleVar r)]

/-- A statement that reads variable `v` through the `SymExpr` `id`. -/
def sampleUse (id v : Nat) : Expr :=
  .CallExpr (some (.PRIMITIVE_OTHER 0)) none [.SymExpr id (sampleVar v)]

/-- The declaration of variable `v`. -/
def sampleDef (v : Nat) : Expr := .DefExpr (sampleVar v) []

/-- Blocks `{def 1..3}` and `{v1 := v2; v3 := v1; use(v3)}`. -/
def chainFn : FnSymbol :=
  ⟨[⟨[sampleDef 1, sampleDef 2, sampleDef 3], [], [1]⟩,
    ⟨[sampleMove 10 1 2, sampleMove 20 3 1, sampleUse 30 3], [0], []⟩], sampleVar 99⟩

/-- Blocks `{def 1..3}` and `{v1 := v2; v3 := &v1; use(v1)}`. -/
def setRefFn : FnSymbol :=
  ⟨[⟨[sampleDef 1, sampleDef 2, sampleDef 3], [], [1]⟩,
    ⟨[sampleMove 10 1 2,
      .CallExpr (some .PRIMITIVE_MOVE) none
        [.SymExpr 20 (sampleVar 3),
         .CallExpr (some .PRIMITIVE_SET_REF) none [.SymExpr 21 (sampleVar 1)]],
      sampleUse 30 1], [0], []⟩], sampleVar 99⟩

/-! ## The pairs of the global propagator, block by block -/

/-- The pairs of block `bi` that are still in `_LHS`, `_RHS` at the end of the
block: the entries the block adds to `LHS`, `RHS`. -/
def blockPairs (useSet defSet : List Nat) (blocks : List BasicBlock) (bi : Nat)
    (bb : BasicBlock) : List CopyPair :=
  (sparseBlock useSet defSet blocks 0 bi 0 bb.exprs []).filterMap id

/-- The lists `blockPairs` of the blocks from block `bi` on. -/
def pairsFrom (useSet defSet : List Nat) (blocks : List BasicBlock) :
    Nat → List BasicBlock → List (List CopyPair)
  | _, [] => []
  | bi, bb :: rest => blockPairs useSet defSet blocks bi bb ::
      pairsFrom useSet defSet blocks (bi + 1) rest

/-- Running sums `base + l0, base + l0 + l1, ...`. -/
def runningSums : Nat → List Nat → List Nat
  | _, [] => []
  | base, l :: ls => (base + l) :: runningSums (base + l) ls
/-- The number of pairs of the blocks before block `i`, given the lists of the
blocks. -/
def pairOffset (ds : List (List CopyPair)) (i : Nat) : Nat :=
  ((ds.take i).map List.length).sum
/-- A decision procedure for `IsFlowFixpoint` on vectors of length at most `size`. -/
def flowFixpointCheck (blocks : List BasicBlock) (GEN KILL IN OUT : List (List Bool))
    (size : Nat) : Bool :=
  GEN.all (fun v => decide (v.length ≤ size)) && KILL.all (fun v => decide (v.length ≤ size)) &&
  IN.all (fun v => decide (v.length ≤ size)) && OUT.all (fun v => decide (v.length ≤ size)) &&
  (List.range blocks.length).all (fun i =>
    (List.range size).all (fun j =>
      (bit OUT i j == (bit GEN i j || (bit IN i j && !bit KILL i j))) &&
      (((blocks.getD i ⟨[], [], []⟩).ins.isEmpty) ||
        (bit IN i j == (blocks.getD i ⟨[], [], []⟩).ins.all (fun p => bit OUT p j)))))

/-- Blocks `{def 1, 2}`, `{v1 := v2}`, `{use(v1)}` in a chain. -/
def crossFn : FnSymbol :=
  ⟨[⟨[sampleDef 1, sampleDef 2], [], [1]⟩,
    ⟨[sampleMove 10 1 2], [0], [2]⟩,
    ⟨[sampleUse 30 1], [1], []⟩], sampleVar 99⟩

/-- Blocks `{def 1, 2, 4; v2 := v4}`, `{v1 := v2}`, `{use(v1)}`, `{}`, `{}`:
block 0 branches to blocks 1 and 3, block 1 to blocks 2 and 4. -/
def chainCrossFn : FnSymbol :=
  ⟨[⟨[sampleDef 1, sampleDef 2, sampleDef 4, sampleMove 10 2 4], [], [1, 3]⟩,
    ⟨[sampleMove 20 1 2], [0], [2, 4]⟩,
    ⟨[sampleUse 30 1], [1], []⟩,
    ⟨[], [0], []⟩,
    ⟨[], [1], []⟩], sampleVar 99⟩

/-- Blocks `{def 1, 2, 4, 5; v2 := v4}`, `{v1 := v2; v4 := v5}`, `{use(v1)}`,
`{}`, `{}`: block 0 branches to blocks 1 and 3, block 1 to blocks 2 and 4. -/
def killedSourceFn : FnSymbol :=
  ⟨[⟨[sampleDef 1, sampleDef 2, sampleDef 4, sampleDef 5, sampleMove 10 2 4], [], [1, 3]⟩,
    ⟨[sampleMove 20 1 2, sampleMove 40 4 5], [0], [2, 4]⟩,
    ⟨[sampleUse 30 1], [1], []⟩,
    ⟨[], [0], []⟩,
    ⟨[], [1], []⟩], sampleVar 99⟩

/-- Blocks `{def 1, 2}`, `{v1 := v2}`, `{}`, `{use(v1)}`: block 0 branches to
blocks 1 and 2, which join in block 3. -/
def joinFn : FnSymbol :=
  ⟨[⟨[sampleDef 1, sampleDef 2], [], [1, 2]⟩,
    ⟨[sampleMove 10 1 2], [0], [3]⟩,
    ⟨[], [0], [3]⟩,
    ⟨[sampleUse 30 1], [1, 2], []⟩], sampleVar 99⟩

/-- Blocks `{def 1, 2, 4; v2 := v4}`, `{use(v1)}`, `{v1 := v2}`, `{}`: block 0
branches to blocks 2 and 3, block 2 branches back to block 1 and to block 3.
No block holds two statements on the same symbols, so the local pass leaves
the function as it is. -/
def backEdgeFn : FnSymbol :=
  ⟨[⟨[sampleDef 1, sampleDef 2, sampleDef 4, sampleMove 10 2 4], [], [2, 3]⟩,
    ⟨[sampleUse 30 1], [2], []⟩,
    ⟨[sampleMove 20 1 2], [0], [1, 3]⟩,
    ⟨[], [0, 2], []⟩], sampleVar 99⟩

/-- Whether `sym` is the left-hand symbol of a statement of the function that
passes the test of the third part of the loop body (a candidate move). -/
def isCopyDestination (useSet defSet : List Nat) (blocks : List BasicBlock)
    (sym : Symbol) : Bool :=
  blocks.any (fun bb => bb.exprs.any (fun e =>
    match copyStatement useSet defSet e with
    | some pr => decide (pr.1.2 = sym)
    | none => false))

/-- Whether no `SymExpr` of the use-set references the left-hand symbol of a
candidate move. -/
def usesNoCopyDestination (useSet defSet : List Nat) (blocks : List BasicBlock) : Bool :=
  blocks.all (fun bb => bb.exprs.all (fun e => (collectSymExprs none e).all (fun se =>
    !(useSet.contains se.id && isCopyDestination useSet defSet blocks se.var))))

/-! ## More sample functions -/

/-- A variable that is marked concurrent. -/
def concurrentVar (n : Nat) : Symbol := ⟨n, true, sampleType, true, false, false⟩

/-- One block `{def c1, c2, c3; c1 := c2; c3 := c1; use(c3)}` on concurrent
variables, followed by an empty block. -/
def noCandidateFn : FnSymbol :=
  ⟨[⟨[.DefExpr (concurrentVar 1) [], .DefExpr (concurrentVar 2) [], .DefExpr (concurrentVar 3) [],
      .CallExpr (some .PRIMITIVE_MOVE) none
        [.SymExpr 10 (concurrentVar 1), .SymExpr 11 (concurrentVar 2)],
      .CallExpr (some .PRIMITIVE_MOVE) none
        [.SymExpr 20 (concurrentVar 3), .SymExpr 21 (concurrentVar 1)],
      .CallExpr (some (.PRIMITIVE_OTHER 0)) none [.SymExpr 30 (concurrentVar 3)]], [], [1]⟩,
    ⟨[.CallExpr (some (.PRIMITIVE_OTHER 0)) none [.SymExpr 40 (concurrentVar 3)]], [0], []⟩],
    sampleVar 99⟩

/-- The single block `{def 1, 2; v1 := v2; use(v1)}`. -/
def singleBlockFn : FnSymbol :=
  ⟨[⟨[sampleDef 1, sampleDef 2, sampleMove 10 1 2, sampleUse 30 1], [], []⟩], sampleVar 99⟩

/-! ## The driver -/

/-- A call made by `copyPropagation`, with the position in `gFns` of the function
it is made on. -/
inductive PassCall where
  | localCopyPropagation (fn : Nat)
  | deadVariableElimination (fn : Nat)
  | deadExpressionElimination (fn : Nat)
  | globalCopyPropagation (fn : Nat)
  deriving DecidableEq, Repr

/-- A call of the pass `pass`, recorded as `call`, in the course of the calls
on one function: the function the pass leaves, and the call added to the
calls made so far. -/
def callPass (call : PassCall) (pass : FnSymbol → FnSymbol) (s : FnSymbol × List PassCall) :
    FnSymbol × List PassCall :=
  (pass s.1, s.2 ++ [call])

/-- Body of the loop of `copyPropagation` for function number `i`: the function
after the calls, and the calls in the order they are made.
`deadVariableElimination` and `deadExpressionElimination` are the routines of
those names, which this file calls and does not define. -/
def copyPropagationBody (fNoCopyPropagation fNoFlowAnalysis : Bool)
    (compute_sym_uses : FnSymbol → SymUses) (flow : FlowAnalysis)
    (deadVariableElimination deadExpressionElimination : FnSymbol → FnSymbol)
    (i : Nat) (fn : FnSymbol) : FnSymbol × List PassCall :=
  let s1 : FnSymbol × List PassCall :=
    if !fNoCopyPropagation then
      callPass (PassCall.localCopyPropagation i) (localCopyPropagation compute_sym_uses) (fn, [])
    else (fn, [])
  let s2 := callPass (PassCall.deadVariableElimination i) deadVariableElimination s1
  let s3 := callPass (PassCall.deadExpressionElimination i) deadExpressionElimination s2
  if !fNoCopyPropagation && !fNoFlowAnalysis then
    let s4 := callPass (PassCall.globalCopyPropagation i)
      (globalCopyPropagation compute_sym_uses flow) s3
    let s5 := callPass (PassCall.deadVariableElimination i) deadVariableElimination s4
    callPass (PassCall.deadExpressionElimination i) deadExpressionElimination s5
  else s3

/-- The loop `forv_Vec(FnSymbol, fn, gFns)` of `copyPropagation`, from function
number `i` on. -/
def copyPropagationLoop (fNoCopyPropagation fNoFlowAnalysis : Bool)
    (compute_sym_uses : FnSymbol → SymUses) (flow : FlowAnalysis)
    (deadVariableElimination deadExpressionElimination : FnSymbol → FnSymbol) :
    Nat → List FnSymbol → List FnSymbol × List PassCall
  | _, [] => ([], [])
  | i, fn :: rest =>
      let r := copyPropagationBody fNoCopyPropagation fNoFlowAnalysis compute_sym_uses flow
        deadVariableElimination deadExpressionElimination i fn
      let rs := copyPropagationLoop fNoCopyPropagation fNoFlowAnalysis compute_sym_uses flow
        deadVariableElimination deadExpressionElimination (i + 1) rest
      (r.1 :: rs.1, r.2 ++ rs.2)

/-- Source: `copyPropagation()`, on the flags `fBaseline`, `fNoCopyPropagation`,
`fNoFlowAnalysis` and the functions `gFns`: the functions afterwards and the
calls made, in order. -/
def copyPropagation (fBaseline fNoCopyPropagation fNoFlowAnalysis : Bool)
    (compute_sym_uses : FnSymbol → SymUses) (flow : FlowAnalysis)
    (deadVariableElimination deadExpressionElimination : FnSymbol → FnSymbol)
    (gFns : List FnSymbol) : List FnSymbol × List PassCall :=
  if fBaseline then (gFns, [])
  else
    copyPropagationLoop fNoCopyPropagation fNoFlowAnalysis compute_sym_uses flow
      deadVariableElimination deadExpressionElimination 0 gFns


/-- The calls the driver makes on function number `i` when it is not in
baseline mode, as the description of the driver lists them. -/
def driverCalls (fNoCopyPropagation fNoFlowAnalysis : Bool) (i : Nat) : List PassCall :=
  (if fNoCopyPropagation then [] else [PassCall.localCopyPropagation i]) ++
  [PassCall.deadVariableElimination i, PassCall.deadExpressionElimination i] ++
  (if fNoCopyPropagation || fNoFlowAnalysis then []
   else [PassCall.globalCopyPropagation i, PassCall.deadVariableElimination i,
     PassCall.deadExpressionElimination i])

/-- The function the driver leaves for one function of `gFns` when it is not
in baseline mode, as the description of the driver has it: local copy
propagation unless copy propagation is disabled, the two dead-code
eliminations, and, unless copy propagation or flow analysis is disabled,
global copy propagation and the two dead-code eliminations again. -/
def driverResult (fNoCopyPropagation fNoFlowAnalysis : Bool)
    (compute_sym_uses : FnSymbol → SymUses) (flow : FlowAnalysis)
    (deadVariableElimination deadExpressionElimination : FnSymbol → FnSymbol)
    (fn : FnSymbol) : FnSymbol :=
  if fNoCopyPropagation then deadExpressionElimination (deadVariableElimination fn)
  else if fNoFlowAnalysis then
    deadExpressionElimination (deadVariableElimination
      (localCopyPropagation compute_sym_uses fn))
  else
    deadExpressionElimination (deadVariableElimination
      (globalCopyPropagation compute_sym_uses flow
        (deadExpressionElimination (deadVariableElimination
          (localCopyPropagation compute_sym_uses fn)))))

/-! ## Reference propagation -/

mutual
/-- The expressions among `collect_asts(expr)`: the node, then the nodes below
it (`baseExpr` before `argList`). -/
def collectAsts : Expr → List Expr
  | .SymExpr id var => [.SymExpr id var]
  | .CallExpr primitive baseExpr argList =>
      .CallExpr primitive baseExpr argList ::
        (collectAstsBase baseExpr ++ collectAstsList argList)
  | .DefExpr sym children => .DefExpr sym children :: collectAstsList children
  | .Other children => .Other children :: collectAstsList children
/-- The `baseExpr` of a call. -/
def collectAstsBase : Option Expr → List Expr
  | none => []
  | some e => collectAsts e
/-- A list of children. -/
def collectAstsList : List Expr → List Expr
  | [] => []
  | e :: es => collectAsts e ++ collectAstsList es
end

mutual
/-- The tree after `old->replace(new)` at every node `old` for which `f old` is
`some new`, found from the root down; the replacement is not searched again. -/
def rewriteExpr (f : Expr → Option Expr) : Expr → Expr
  | .SymExpr id var =>
      match f (.SymExpr id var) with
      | some r => r
      | none => .SymExpr id var
  | .CallExpr primitive baseExpr argList =>
      match f (.CallExpr primitive baseExpr argList) with
      | some r => r
      | none => .CallExpr primitive (rewriteBase f baseExpr) (rewriteList f argList)
  | .DefExpr sym children =>
      match f (.DefExpr sym children) with
      | some r => r
      | none => .DefExpr sym (rewriteList f children)
  | .Other children =>
      match f (.Other children) with
      | some r => r
      | none => .Other (rewriteList f children)
/-- The `baseExpr` of a call. -/
def rewriteBase (f : Expr → Option Expr) : Option Expr → Option Expr
  | none => none
  | some e => some (rewriteExpr f e)
/-- A list of children. -/
def rewriteList (f : Expr → Option Expr) : List Expr → List Expr
  | [] => []
  | e :: es => rewriteExpr f e :: rewriteList f es
end

mutual
/-- Source: `expr->copy()`.  The `SymExpr`s of the copy are new nodes: they get
the ids `next`, `next + 1`, ...; the second component is the first id not used. -/
def copyExpr : Expr → Nat → Expr × Nat
  | .SymExpr _ var, next => (.SymExpr next var, next + 1)
  | .CallExpr primitive baseExpr argList, next =>
      let b := copyBase baseExpr next
      let a := copyList argList b.2
      (.CallExpr primitive b.1 a.1, a.2)
  | .DefExpr sym children, next =>
      let c := copyList children next
      (.DefExpr sym c.1, c.2)
  | .Other children, next =>
      let c := copyList children next
      (.Other c.1, c.2)
/-- The `baseExpr` of a call. -/
def copyBase : Option Expr → Nat → Option Expr × Nat
  | none, next => (none, next)
  | some e, next =>
      let c := copyExpr e next
      (some c.1, c.2)
/-- A list of children. -/
def copyList : List Expr → Nat → List Expr × Nat
  | [], next => ([], next)
  | e :: es, next =>
      let c := copyExpr e next
      let cs := copyList es c.2
      (c.1 :: cs.1, cs.2)
end

/-- Whether the node is the `SymExpr` with this id. -/
def isSymExprWithId (id : Nat) : Expr → Bool
  | .SymExpr i _ => i == id
  | _ => false

/-- Whether the node is a call that has the `SymExpr` with this id as `baseExpr`
or among its actuals: whether it is `toCallExpr(se->parentExpr)`. -/
def hasDirectChild (id : Nat) : Expr → Bool
  | .CallExpr _ baseExpr argList =>
      (match baseExpr with
        | some e => isSymExprWithId id e
        | none => false) || argList.any (isSymExprWithId id)
  | _ => false

/-- Test `call->isPrimitive(tag)` on a node. -/
def Expr.isPrimitive (e : Expr) (tag : PrimitiveTag) : Bool :=
  match e with
  | .CallExpr (some t) _ _ => t == tag
  | _ => false

/-- Source: `call->get(k)`, the actual number `k` (from 1). -/
def Expr.get (e : Expr) (k : Nat) : Option Expr :=
  match e with
  | .CallExpr _ _ argList => argList.get? (k - 1)
  | _ => none

/-- The call after `call->get(k)->replace(new)`. -/
def Expr.setActual (e : Expr) (k : Nat) (new : Expr) : Expr :=
  match e with
  | .CallExpr primitive baseExpr argList => .CallExpr primitive baseExpr (argList.set (k - 1) new)
  | .SymExpr id var => .SymExpr id var
  | .DefExpr sym children => .DefExpr sym children
  | .Other children => .Other children

/-- The nodes of the function, statement after statement.  The statements of
the function are the statements of its blocks, in order. -/
def functionAsts (blocks : List BasicBlock) : List Expr :=
  blocks.flatMap (fun bb => bb.exprs.flatMap collectAsts)

/-- Read `toCallExpr(se->parentExpr)` for the `SymExpr` with this id in the
function as it is now; `none` when the node has no parent call there. -/
def parentCall (blocks : List BasicBlock) (id : Nat) : Option Expr :=
  (functionAsts blocks).find? (hasDirectChild id)

/-- Whether the `SymExpr` with this id is in the function (`se->parentExpr` is
not `NULL`; a node that was replaced has no parent). -/
def inTree (blocks : List BasicBlock) (id : Nat) : Bool :=
  (functionAsts blocks).any (isSymExprWithId id)

/-- Apply `f` to every statement of every block. -/
def mapStatements (f : Expr → Expr) (blocks : List BasicBlock) : List BasicBlock :=
  blocks.map (fun bb => ⟨bb.exprs.map f, bb.ins, bb.outs⟩)

/-- Source: `se->replace(new)` for the `SymExpr` with this id. -/
def replaceSymExpr (id : Nat) (new : Expr) (blocks : List BasicBlock) : List BasicBlock :=
  mapStatements (rewriteExpr (fun e => if isSymExprWithId id e then some new else none)) blocks

/-- Source: `parent->replace(g parent)` for the call `parent` picked out by `pred`. -/
def replaceCall (pred : Expr → Bool) (g : Expr → Expr) (blocks : List BasicBlock) :
    List BasicBlock :=
  mapStatements
    (rewriteExpr (fun e =>
      match e with
      | .CallExpr _ _ _ => if pred e then some (g e) else none
      | _ => none))
    blocks

/-- The loop of `findRefDef` over `var->defs`; `ret` is the def whose parent
call the variable `ret` of the source points to. -/
def findRefDefLoop (typeInfo : Expr → ChplType) (blocks : List BasicBlock) :
    List Nat → Option Nat → Option Nat
  | [], ret => ret
  | d :: rest, ret =>
      match parentCall blocks d with
      | some call =>
          if call.isPrimitive .PRIMITIVE_MOVE &&
              (match call.get 2 with
                | some a => (typeInfo a).isReference
                | none => false) then
            match ret with
            | some _ => none
            | none => findRefDefLoop typeInfo blocks rest (some d)
          else findRefDefLoop typeInfo blocks rest ret
      | none => findRefDefLoop typeInfo blocks rest ret

/-- Source: `findRefDef(var)`, given `var->defs`.  The call found is given by
the def whose parent it is.  `typeInfo` is `Expr::typeInfo()`, which this file
calls and does not define. -/
def findRefDef (typeInfo : Expr → ChplType) (blocks : List BasicBlock) (defs : List Nat) :
    Option Nat :=
  findRefDefLoop typeInfo blocks defs none

/-- The vector `uses` of `sym` after `sym->uses.add(se)`. -/
def SymUses.addUse (su : SymUses) (sym : Symbol) (id : Nat) : SymUses :=
  ⟨su.defs, fun s => if s = sym then su.uses s ++ [id] else su.uses s⟩

/-- The vector `defs` of `sym` after `sym->defs.add(se)`. -/
def SymUses.addDef (su : SymUses) (sym : Symbol) (id : Nat) : SymUses :=
  ⟨fun s => if s = sym then su.defs s ++ [id] else su.defs s, su.uses⟩

/-- The state of the first loop of `singleAssignmentRefPropagation`: the
function, the vectors `defs` and `uses`, and the id the next new node gets. -/
structure RefState where
  blocks : List BasicBlock
  su : SymUses
  next : Nat

/-- Body of the loop over `var->uses` in the first loop; `rvar` is `rhs->var`. -/
def aliasUse (rvar : Symbol) (s : RefState) (se : Nat) : RefState :=
  if inTree s.blocks se then
    ⟨replaceSymExpr se (.SymExpr s.next rvar) s.blocks, s.su.addUse rvar s.next, s.next + 1⟩
  else s

/-- Body of the loop over `var->defs` in the first loop; `move` is the parent
call of the def `d0`. -/
def aliasDef (d0 : Nat) (rvar : Symbol) (s : RefState) (se : Nat) : RefState :=
  match parentCall s.blocks se with
  | some parent =>
      if hasDirectChild d0 parent then s
      else ⟨replaceSymExpr se (.SymExpr s.next rvar) s.blocks, s.su.addDef rvar s.next, s.next + 1⟩
  | none => s

/-- Source: the loop `forv_Vec(SymExpr, se, var->uses)` of the first loop, from
entry number `i` of `var->uses` on.  `forv_Vec` reads the length of the vector
at every turn, so that an entry the body adds to `var->uses` (which it does
when `rhs->var` is `var` itself) is visited in its turn; `fuel` bounds the
number of turns, and the result is `none` when the loop has not ended within
it. -/
def aliasUsesLoop (var rvar : Symbol) : Nat → Nat → RefState → Option RefState
  | 0, _, _ => none
  | fuel + 1, i, s =>
      match (s.su.uses var).get? i with
      | none => some s
      | some se => aliasUsesLoop var rvar fuel (i + 1) (aliasUse rvar s se)

/-- Source: the loop `forv_Vec(SymExpr, se, var->defs)` of the first loop, from
entry number `i` of `var->defs` on, the entries the body adds to `var->defs`
included; `fuel` bounds the number of turns. -/
def aliasDefsLoop (var : Symbol) (d0 : Nat) (rvar : Symbol) :
    Nat → Nat → RefState → Option RefState
  | 0, _, _ => none
  | fuel + 1, i, s =>
      match (s.su.defs var).get? i with
      | none => some s
      | some se => aliasDefsLoop var d0 rvar fuel (i + 1) (aliasDef d0 rvar s se)

/-- Body of the first loop of `singleAssignmentRefPropagation` for the
`VarSymbol` `var`; `fuel` bounds the turns of each of the two inner loops, and
the result is `none` when one of them has not ended within it. -/
def aliasVar (typeInfo : Expr → ChplType) (fuel : Nat) (s : RefState) (var : Symbol) :
    Option RefState :=
  if var.type.isReference then
    match findRefDef typeInfo s.blocks (s.su.defs var) with
    | some d0 =>
        match (parentCall s.blocks d0).bind (fun move => move.get 2) with
        | some (.SymExpr _ rvar) =>
            if rvar.type.isReference then
              match aliasUsesLoop var rvar fuel 0 s with
              | some s1 => aliasDefsLoop var d0 rvar fuel 0 s1
              | none => none
            else some s
        | _ => some s
    | none => some s
  else some s

/-- The first loop of `singleAssignmentRefPropagation` over the `VarSymbol`s
given. -/
def aliasLoop (typeInfo : Expr → ChplType) (fuel : Nat) :
    List Symbol → RefState → Option RefState
  | [], s => some s
  | var :: vars, s =>
      match aliasVar typeInfo fuel s var with
      | some s1 => aliasLoop typeInfo fuel vars s1
      | none => none

/-- The `VarSymbol`s among `collect_asts(fn)`: the symbols of the declarations
among the statements of the blocks (where the loops that fill `locals` look
for them too). -/
def declaredVars (blocks : List BasicBlock) : List Symbol :=
  blocks.flatMap (fun bb => bb.exprs.filterMap (fun e =>
    match e with
    | .DefExpr sym _ => if sym.isVarSymbol then some sym else none
    | _ => none))
/-- The state of the loops of the second loop of
`singleAssignmentRefPropagation` for one variable. -/
structure ElimState where
  blocks : List BasicBlock
  next : Nat
  stillAlive : Bool

/-- Body of the loop over `var->uses` when `rhs` is a `PRIMITIVE_SET_REF` call
with first actual `a1`. -/
def setRefUse (rhs a1 : Expr) (s : ElimState) (se : Nat) : ElimState :=
  match parentCall s.blocks se with
  | some parent =>
      if parent.isPrimitive .PRIMITIVE_GET_REF then
        let c := copyExpr a1 s.next
        ⟨replaceCall (fun e => hasDirectChild se e && e.isPrimitive .PRIMITIVE_GET_REF)
          (fun _ => c.1) s.blocks, c.2, s.stillAlive⟩
      else if parent.isPrimitive .PRIMITIVE_GET_MEMBER_VALUE ||
          parent.isPrimitive .PRIMITIVE_GET_MEMBER then
        let c := copyExpr a1 s.next
        ⟨replaceCall
          (fun e => hasDirectChild se e &&
            (e.isPrimitive .PRIMITIVE_GET_MEMBER_VALUE || e.isPrimitive .PRIMITIVE_GET_MEMBER))
          (fun e => e.setActual 1 c.1) s.blocks, c.2, s.stillAlive⟩
      else if parent.isPrimitive .PRIMITIVE_MOVE then
        let c := copyExpr rhs s.next
        ⟨replaceCall (fun e => hasDirectChild se e && e.isPrimitive .PRIMITIVE_MOVE)
          (fun e => e.setActual 2 c.1) s.blocks, c.2, s.stillAlive⟩
      else ⟨s.blocks, s.next, true⟩
  | none => ⟨s.blocks, s.next, true⟩

/-- Body of the loop over `var->defs` when `rhs` is a `PRIMITIVE_SET_REF` call
with first actual `a1`; `move` is the parent call of the def `d0`. -/
def setRefDef (d0 : Nat) (a1 : Expr) (s : ElimState) (se : Nat) : ElimState :=
  match parentCall s.blocks se with
  | some parent =>
      if hasDirectChild d0 parent then s
      else if parent.isPrimitive .PRIMITIVE_MOVE then
        let c := copyExpr a1 s.next
        ⟨replaceCall
          (fun e => hasDirectChild se e && e.isPrimitive .PRIMITIVE_MOVE && !hasDirectChild d0 e)
          (fun e => e.setActual 1 c.1) s.blocks, c.2, s.stillAlive⟩
      else ⟨s.blocks, s.next, true⟩
  | none => ⟨s.blocks, s.next, true⟩

/-- Body of the loop over `var->uses` when `rhs` is a `PRIMITIVE_GET_MEMBER`
call with actuals `a1`, `a2`. -/
def getMemberUse (rhs a1 a2 : Expr) (s : ElimState) (se : Nat) : ElimState :=
  match parentCall s.blocks se with
  | some parent =>
      if parent.isPrimitive .PRIMITIVE_GET_REF then
        let c1 := copyExpr a1 s.next
        let c2 := copyExpr a2 c1.2
        ⟨replaceCall (fun e => hasDirectChild se e && e.isPrimitive .PRIMITIVE_GET_REF)
          (fun _ => .CallExpr (some .PRIMITIVE_GET_MEMBER_VALUE) none [c1.1, c2.1]) s.blocks,
          c2.2, s.stillAlive⟩
      else if parent.isPrimitive .PRIMITIVE_MOVE then
        let c := copyExpr rhs s.next
        ⟨replaceCall (fun e => hasDirectChild se e && e.isPrimitive .PRIMITIVE_MOVE)
          (fun e => e.setActual 2 c.1) s.blocks, c.2, s.stillAlive⟩
      else ⟨s.blocks, s.next, true⟩
  | none => ⟨s.blocks, s.next, true⟩

/-- Body of the loop over `var->defs` when `rhs` is a `PRIMITIVE_GET_MEMBER`
call with actuals `a1`, `a2`; `move` is the parent call of the def `d0`. -/
def getMemberDef (d0 : Nat) (a1 a2 : Expr) (s : ElimState) (se : Nat) : ElimState :=
  match parentCall s.blocks se with
  | some parent =>
      if hasDirectChild d0 parent then s
      else if parent.isPrimitive .PRIMITIVE_MOVE then
        let c1 := copyExpr a1 s.next
        let c2 := copyExpr a2 c1.2
        ⟨replaceCall
          (fun e => hasDirectChild se e && e.isPrimitive .PRIMITIVE_MOVE && !hasDirectChild d0 e)
          (fun e =>
            match e.get 2 with
            | some v => .CallExpr (some .PRIMITIVE_SET_MEMBER) none [c1.1, c2.1, v]
            | none => e)
          s.blocks, c2.2, s.stillAlive⟩
      else ⟨s.blocks, s.next, true⟩
  | none => ⟨s.blocks, s.next, true⟩

/-- Source: `var->defPoint->remove()`: the declaration of `var` leaves the
statements. -/
def removeDefPoint (var : Symbol) (blocks : List BasicBlock) : List BasicBlock :=
  blocks.map (fun bb =>
    ⟨bb.exprs.filter (fun e =>
      match e with
      | .DefExpr sym _ => decide (sym ≠ var)
      | _ => true), bb.ins, bb.outs⟩)

/-- Source: `se->getStmtExpr()->remove()` for the `SymExpr` with this id: the
statement that holds it leaves the statements.  A node that is no longer in
the function is in no statement. -/
def removeStmtOf (id : Nat) (blocks : List BasicBlock) : List BasicBlock :=
  blocks.map (fun bb =>
    ⟨bb.exprs.filter (fun e => !(collectAsts e).any (isSymExprWithId id)), bb.ins, bb.outs⟩)

/-- The two removals under `if (!stillAlive)`; `defs` is `var->defs`. -/
def removeDead (var : Symbol) (defs : List Nat) (blocks : List BasicBlock) : List BasicBlock :=
  match defs with
  | d :: _ => removeStmtOf d (removeDefPoint var blocks)
  | [] => removeDefPoint var blocks

/-- The two loops of the second loop for one variable whose `rhs` is the call
given, with `stillAlive` at the end. -/
def eliminateLoops (uses defs : List Nat) (d0 : Nat) (rhs : Expr)
    (blocks : List BasicBlock) (next : Nat) : ElimState :=
  match rhs with
  | .CallExpr (some .PRIMITIVE_SET_REF) _ (a1 :: _) =>
      defs.foldl (setRefDef d0 a1) (uses.foldl (setRefUse rhs a1) ⟨blocks, next, false⟩)
  | .CallExpr (some .PRIMITIVE_GET_MEMBER) _ (a1 :: a2 :: _) =>
      defs.foldl (getMemberDef d0 a1 a2) (uses.foldl (getMemberUse rhs a1 a2) ⟨blocks, next, false⟩)
  | _ => ⟨blocks, next, true⟩

/-- Body of the second loop of `singleAssignmentRefPropagation` for the
`VarSymbol` `var`; `su` holds the vectors `defs` and `uses` of the second
`compute_sym_uses(fn)`. -/
def eliminateVar (typeInfo : Expr → ChplType) (su : SymUses) (s : List BasicBlock × Nat)
    (var : Symbol) : List BasicBlock × Nat :=
  if var.type.isReference then
    match findRefDef typeInfo s.1 (su.defs var) with
    | some d0 =>
        match (parentCall s.1 d0).bind (fun move => move.get 2) with
        | some rhs =>
            if rhs.isPrimitive .PRIMITIVE_SET_REF || rhs.isPrimitive .PRIMITIVE_GET_MEMBER then
              let r := eliminateLoops (su.uses var) (su.defs var) d0 rhs s.1 s.2
              if !r.stillAlive then (removeDead var (su.defs var) r.blocks, r.next)
              else (r.blocks, r.next)
            else s
        | none => s
    | none => s
  else s

/-- An id no `SymExpr` of the function has. -/
def freshId (fn : FnSymbol) : Nat :=
  ((allSymExprs fn).map (fun se => se.id)).foldl max 0 + 1

/-- Source: `singleAssignmentRefPropagation(fn)`; `fuel` bounds the turns of
each loop over `var->uses` and `var->defs` of the first loop, and the result
is `none` when one of them has not ended within it. -/
def singleAssignmentRefPropagation (fuel : Nat) (compute_sym_uses : FnSymbol → SymUses)
    (typeInfo : Expr → ChplType) (fn : FnSymbol) : Option FnSymbol :=
  match aliasLoop typeInfo fuel (declaredVars fn.basicBlocks)
      ⟨fn.basicBlocks, compute_sym_uses fn, freshId fn⟩ with
  | some s1 =>
      let su := compute_sym_uses ⟨s1.blocks, fn.getReturnSymbol⟩
      let s2 := (declaredVars s1.blocks).foldl (eliminateVar typeInfo su) (s1.blocks, s1.next)
      some ⟨s2.1, fn.getReturnSymbol⟩
  | none => none

/-- Modelled from the spec: `Expr::typeInfo()` is not part of this file.  A
`SymExpr` has the type of its symbol; the "take address" and "get member"
primitives give a reference; any other expression is taken to give a value. -/
def typeInfo : Expr → ChplType
  | .SymExpr _ var => var.type
  | .CallExpr (some .PRIMITIVE_SET_REF) _ _ => ⟨false, false, false, true⟩
  | .CallExpr (some .PRIMITIVE_GET_MEMBER) _ _ => ⟨false, false, false, true⟩
  | _ => ⟨true, false, false, false⟩

/-- A reference type. -/
def sampleRefType : ChplType := ⟨false, false, false, true⟩

/-- The reference variable number `n`. -/
def sampleRef (n : Nat) : Symbol := ⟨n, true, sampleRefType, false, false, false⟩
/-- One block `{def r1; def r2; r2 := call(); r1 := r2; use(r1)}` on the
reference variables `r1`, `r2`.  Neither has a type with a reference type, so
the function has no candidate local. -/
def aliasFn : FnSymbol :=
  ⟨[⟨[.DefExpr (sampleRef 1) [], .DefExpr (sampleRef 2) [],
      .CallExpr (some .PRIMITIVE_MOVE) none
        [.SymExpr 5 (sampleRef 2), .CallExpr (some (.PRIMITIVE_OTHER 1)) none []],
      .CallExpr (some .PRIMITIVE_MOVE) none [.SymExpr 10 (sampleRef 1), .SymExpr 11 (sampleRef 2)],
      .CallExpr (some (.PRIMITIVE_OTHER 0)) none [.SymExpr 30 (sampleRef 1)]], [], []⟩],
    sampleVar 99⟩

/-- One block `{def r1; r1 := r2; use(r1); use(r1)}`: the reference variable
`r1` is set once, to the reference `r2`, which the function does not declare
(a formal), and is used twice. -/
def aliasFormalFn : FnSymbol :=
  ⟨[⟨[.DefExpr (sampleRef 1) [],
      .CallExpr (some .PRIMITIVE_MOVE) none [.SymExpr 10 (sampleRef 1), .SymExpr 11 (sampleRef 2)],
      .CallExpr (some (.PRIMITIVE_OTHER 0)) none [.SymExpr 30 (sampleRef 1)],
      .CallExpr (some (.PRIMITIVE_OTHER 0)) none [.SymExpr 31 (sampleRef 1)]], [], []⟩],
    sampleVar 99⟩

/-- One block `{def r2; def r1; r2 := call(); r1 := r2; use(r1); use(r1)}`:
the reference variable `r1`, declared after `r2`, is set once, to the
reference `r2`, and is used twice; `r2` is set from a call, which is no
reference for `typeInfo`. -/
def aliasLocalFn : FnSymbol :=
  ⟨[⟨[.DefExpr (sampleRef 2) [], .DefExpr (sampleRef 1) [],
      .CallExpr (some .PRIMITIVE_MOVE) none
        [.SymExpr 5 (sampleRef 2), .CallExpr (some (.PRIMITIVE_OTHER 1)) none []],
      .CallExpr (some .PRIMITIVE_MOVE) none [.SymExpr 10 (sampleRef 1), .SymExpr 11 (sampleRef 2)],
      .CallExpr (some (.PRIMITIVE_OTHER 0)) none [.SymExpr 30 (sampleRef 1)],
      .CallExpr (some (.PRIMITIVE_OTHER 0)) none [.SymExpr 31 (sampleRef 1)]], [], []⟩],
    sampleVar 99⟩

/-- One block `{def r1; r1 := r1}`, the source of the move being the `SymExpr`
`k` of `r1`. -/
def selfAliasBlocks (k : Nat) : List BasicBlock :=
  [⟨[.DefExpr (sampleRef 1) [],
      .CallExpr (some .PRIMITIVE_MOVE) none [.SymExpr 10 (sampleRef 1), .SymExpr k (sampleRef 1)]],
    [], []⟩]

/-- The function `{def r1; r1 := r1}`: the reference variable `r1` is set
once, to itself. -/
def selfAliasFn : FnSymbol :=
  ⟨selfAliasBlocks 11, sampleVar 99⟩

/-- Blocks `{def r1; def v2; def v3}`, `{r1 := v3}`, `{r1 := &v2}`, with `r1` a
reference variable: block 0 jumps to block 2 and block 2 jumps back to block 1,
so the reference is set before the store through it runs, and the store comes
first in the text. -/
def storeFirstFn : FnSymbol :=
  ⟨[⟨[.DefExpr (sampleRef 1) [], sampleDef 2, sampleDef 3], [], [2]⟩,
    ⟨[.CallExpr (some .PRIMITIVE_MOVE) none
        [.SymExpr 10 (sampleRef 1), .SymExpr 11 (sampleVar 3)]], [2], []⟩,
    ⟨[.CallExpr (some .PRIMITIVE_MOVE) none
        [.SymExpr 20 (sampleRef 1),
         .CallExpr (some .PRIMITIVE_SET_REF) none [.SymExpr 21 (sampleVar 2)]]], [0], [1]⟩],
    sampleVar 99⟩

/-- Blocks `{def r1; def v2; def v3}`, `{r1 := &v2}`, `{r1 := v3; v3 := *r1}` in
a chain, with `r1` a reference variable. -/
def storeLastFn : FnSymbol :=
  ⟨[⟨[.DefExpr (sampleRef 1) [], sampleDef 2, sampleDef 3], [], [1]⟩,
    ⟨[.CallExpr (some .PRIMITIVE_MOVE) none
        [.SymExpr 20 (sampleRef 1),
         .CallExpr (some .PRIMITIVE_SET_REF) none [.SymExpr 21 (sampleVar 2)]]], [0], [2]⟩,
    ⟨[.CallExpr (some .PRIMITIVE_MOVE) none
        [.SymExpr 10 (sampleRef 1), .SymExpr 11 (sampleVar 3)],
      .CallExpr (some .PRIMITIVE_MOVE) none
        [.SymExpr 40 (sampleVar 3),
         .CallExpr (some .PRIMITIVE_GET_REF) none [.SymExpr 41 (sampleRef 1)]]], [1], []⟩],
    sampleVar 99⟩

/-- One block `{def r2; r2 := call(); use(r2)}`: the only reference variable is
set from a call, which is no reference for `typeInfo`. -/
def refCallFn : FnSymbol :=
  ⟨[⟨[.DefExpr (sampleRef 2) [],
      .CallExpr (some .PRIMITIVE_MOVE) none
        [.SymExpr 5 (sampleRef 2), .CallExpr (some (.PRIMITIVE_OTHER 1)) none []],
      .CallExpr (some (.PRIMITIVE_OTHER 0)) none [.SymExpr 30 (sampleRef 2)]], [], []⟩],
    sampleVar 99⟩

/-- Whether the node is not a call that has a `PRIMITIVE_SET_REF` or a
`PRIMITIVE_GET_MEMBER` call among its actuals. -/
def noRefSource : Expr → Bool
  | .CallExpr _ _ argList =>
      argList.all (fun a =>
        !(a.isPrimitive .PRIMITIVE_SET_REF || a.isPrimitive .PRIMITIVE_GET_MEMBER))
  | _ => true

/-- Statement `e'` stands where statement `e` stood and has kept what makes it
a declaration or the move `var := rvar` that sets `d0`: a declaration is
still the declaration of the same symbol, and the `PRIMITIVE_MOVE` whose
actuals are the `SymExpr` `d0` of `var` and a `SymExpr` of `rvar` is still
one, with the same `SymExpr` on the left. -/
def KeepsMove (d0 : Nat) (var rvar : Symbol) (e e' : Expr) : Prop :=
  (∀ sym children, e = .DefExpr sym children → ∃ children', e' = .DefExpr sym children') ∧
  (∀ base r, e = .CallExpr (some .PRIMITIVE_MOVE) base [.SymExpr d0 var, .SymExpr r rvar] →
    ∃ base' r',
      e' = .CallExpr (some .PRIMITIVE_MOVE) base' [.SymExpr d0 var, .SymExpr r' rvar])


/-! ## The soundness invariant of the local propagator -/

/-- What the forward map holds at a statement boundary of a block, `done`
being the statements before the boundary as the pass has left them: every
entry `dst -> src` was inserted by one of these statements, a move whose
left-hand symbol is `dst` and right-hand symbol is `src`, and in no statement
after that move is there an occurrence for which `invalidateCopies` is true
and whose symbol is `dst` or `src`. -/
def SoundCopies (useSet defSet : List Nat) (done : List Expr) (c : Copies) : Prop :=
  ∀ dst src, c.available.get dst = some src →
    ∃ before e after lid rid, done = before ++ e :: after ∧
      copyStatement useSet defSet e = some ((lid, dst), (rid, src)) ∧
      ∀ e' ∈ after, ∀ se ∈ collectSymExprs none e',
        invalidateCopies se defSet useSet = true → se.var ≠ dst ∧ se.var ≠ src

/-- The symbol has an occurrence of the def-set among the statements. -/
def DefinedIn (defSet : List Nat) (exprs : List Expr) (sym : Symbol) : Prop :=
  ∃ e ∈ exprs, ∃ se ∈ collectSymExprs none e, se.id ∈ defSet ∧ se.var = sym

/-- What `compute_sym_uses` is taken to give on the moves of a block: the
second actual of a move is not listed as a def, and it is listed as a use
when its symbol has a def of the def-set in the block. -/
def RhsAreUses (useSet defSet : List Nat) (exprs : List Expr) : Prop :=
  ∀ e ∈ exprs, ∀ base lid lvar rid rvar rest,
    e = .CallExpr (some .PRIMITIVE_MOVE) base (.SymExpr lid lvar :: .SymExpr rid rvar :: rest) →
    rid ∉ defSet ∧ (DefinedIn defSet exprs rvar → rid ∈ useSet)

/-- No source symbol of an entry of the forward map is a key of it. -/
def NoChain (c : Copies) : Prop :=
  ∀ dst src, c.available.get dst = some src → c.available.get src = none

end CopyPropagation

/-! # Task pool and worker threads (runtime/threads-pthreads/chpl_cfg_threads.c)

A shallow embedding of the state that `threading_lock` protects and of the
critical sections that change it.  The task pool is the list of the entries
from `task_pool_head` along `next`; an entry is named by its address `id`.
Every worker thread is listed with what it is doing.  The counters are `int`s
and are rendered as integers: each of them counts threads that exist, far
fewer than `2^31`.  Calls of `pthread_cond_signal`, `pthread_create`,
`chpl_warning` and `chpl_free` are counted or listed in the state.
-/

namespace ChplThreads

/-- Source: `task_pool_t`, a task pool entry, with its address `id`; `fn` is the
field `fun`, and `next` is the order of the pool. -/
structure task_pool_t where
  id : Nat
  fn : Nat
  arg : Nat
  serial_state : Bool
  begun : Bool
  task_list : Option Nat
  deriving DecidableEq, Repr

/-- What a worker thread (a thread running `chpl_begin_helper`) is doing:
running the function of a task, or, past `running_cnt--`, waiting for a task. -/
inductive Worker where
  | executing (task : task_pool_t)
  | waiting
  deriving DecidableEq, Repr

/-- The variables protected by `threading_lock`, the worker threads, and the
calls made so far: `completed` lists the task list entries whose `completed`
is set, `freed` the pool entries passed to `chpl_free`, `signals` counts
`pthread_cond_signal(&wakeup_signal)`, `creations` counts `pthread_create`,
`warnings` counts `chpl_warning`. -/
structure Scheduler where
  task_pool : List task_pool_t
  waking_cnt : Int
  running_cnt : Int
  threads_cnt : Int
  warning_issued : Bool
  workers : List Worker
  completed : List Nat
  freed : List Nat
  signals : Nat
  creations : Nat
  warnings : Nat
  deriving DecidableEq, Repr

/-- Source: `initChplThreads()`, the part on the pool and the counters. -/
def initChplThreads : Scheduler :=
  { task_pool := [], waking_cnt := 0, running_cnt := 0, threads_cnt := 0,
    warning_issued := false, workers := [], completed := [], freed := [],
    signals := 0, creations := 0, warnings := 0 }

/-- Source: `skip_over_begun_tasks()`. -/
def skip_over_begun_tasks (s : Scheduler) : Scheduler :=
  { s with
    task_pool := s.task_pool.dropWhile (fun t => t.begun)
    freed := s.freed ++ (s.task_pool.takeWhile (fun t => t.begun)).map (fun t => t.id) }

/-- Source: `add_to_task_pool(fp, a, serial, task_list)`; `id` is the address
`chpl_alloc` returns. -/
def add_to_task_pool (s : Scheduler) (id fp a : Nat) (serial : Bool)
    (task_list : Option Nat) : Scheduler :=
  { s with task_pool := s.task_pool ++ [⟨id, fp, a, serial, false, task_list⟩] }

/-- Source: `launch_next_task()`; `created` says whether `pthread_create`
succeeds (returns 0) if it is called. -/
def launch_next_task (created : Bool) (s : Scheduler) : Scheduler :=
  if s.warning_issued then s
  else
    let s1 := skip_over_begun_tasks s
    match s1.task_pool with
    | [] => s1
    | task :: rest =>
        if created then
          { s1 with
            threads_cnt := s1.threads_cnt + 1
            running_cnt := s1.running_cnt + 1
            task_pool := rest
            workers := s1.workers ++ [Worker.executing { task with begun := true }]
            creations := s1.creations + 1 }
        else
          { s1 with
            warning_issued := true
            creations := s1.creations + 1
            warnings := s1.warnings + 1 }

/-- The loop `for (; howMany && (maxThreads == 0 || threads_cnt + 1 < maxThreads); howMany--)`
of `schedule_next_task`; `outcomes` gives, iteration after iteration, whether
`pthread_create` succeeds. -/
def launchLoop (maxThreads : Int) : Nat → List Bool → Scheduler → Scheduler
  | 0, _, s => s
  | howMany + 1, outcomes, s =>
      if maxThreads = 0 ∨ s.threads_cnt + 1 < maxThreads then
        launchLoop maxThreads howMany outcomes.tail (launch_next_task (outcomes.headD true) s)
      else s

/-- Source: `schedule_next_task(howMany)`, for the count `howMany` of tasks
just added. -/
def schedule_next_task (maxThreads : Int) (outcomes : List Bool) (howMany : Nat)
    (s : Scheduler) : Scheduler :=
  if s.threads_cnt > s.running_cnt + s.waking_cnt then
    let idle_cnt := s.threads_cnt - s.running_cnt - s.waking_cnt
    if idle_cnt ≥ howMany then
      launchLoop maxThreads 0 outcomes
        { s with waking_cnt := s.waking_cnt + howMany, signals := s.signals + 1 }
    else
      launchLoop maxThreads (howMany - idle_cnt.toNat) outcomes
        { s with waking_cnt := s.waking_cnt + idle_cnt, signals := s.signals + 1 }
  else launchLoop maxThreads howMany outcomes s

/-- Source: the critical section of `chpl_begin` (the branch that adds the
task to the pool). -/
def chpl_begin (maxThreads : Int) (outcomes : List Bool) (id fp a : Nat) (serial_state : Bool)
    (s : Scheduler) : Scheduler :=
  schedule_next_task maxThreads outcomes 1 (add_to_task_pool s id fp a serial_state none)

/-- The loop of `chpl_process_task_list` that adds the tasks of the list but
the first to the pool; each task is given by the address of its pool entry,
its function, its argument and its task list entry. -/
def addTaskList (s : Scheduler) : List (Nat × Nat × Nat × Nat) → Scheduler
  | [] => s
  | (id, fp, a, entry) :: rest =>
      addTaskList (add_to_task_pool s id fp a false (some entry)) rest

/-- Source: the first critical section of `chpl_process_task_list` (not in
serial mode): the tasks are added, then `schedule_next_task(task_cnt)`. -/
def process_task_list_add (maxThreads : Int) (outcomes : List Bool)
    (tasks : List (Nat × Nat × Nat × Nat)) (s : Scheduler) : Scheduler :=
  schedule_next_task maxThreads outcomes tasks.length (addTaskList s tasks)

/-- Source: `chpl_begin_helper`, from the lock after the task's function
returns to `running_cnt--`, for worker number `i`. -/
def worker_finish (i : Nat) (s : Scheduler) : Option Scheduler :=
  match s.workers.get? i with
  | some (Worker.executing task) =>
      some { s with
        running_cnt := s.running_cnt - 1
        workers := s.workers.set i Worker.waiting
        freed := s.freed ++ [task.id]
        completed :=
          match task.task_list with
          | some entry => s.completed ++ [entry]
          | none => s.completed }
  | _ => none

/-- Source: `chpl_begin_helper`, worker number `i` past the wait on
`wakeup_signal`: `skip_over_begun_tasks()`, and, when the pool is not empty
then, the start of the task at its head.  When the pool is empty the worker
waits again. -/
def worker_take (i : Nat) (s : Scheduler) : Option Scheduler :=
  match s.workers.get? i with
  | some Worker.waiting =>
      let s1 := skip_over_begun_tasks s
      match s1.task_pool with
      | [] => some s1
      | task :: rest =>
          let waking := if s1.waking_cnt > 0 then s1.waking_cnt - 1 else s1.waking_cnt
          some { s1 with
            waking_cnt := waking
            running_cnt := s1.running_cnt + 1
            task_pool := rest
            workers := s1.workers.set i (Worker.executing { task with begun := true })
            signals := if rest ≠ [] ∧ waking > 0 then s1.signals + 1 else s1.signals }
  | _ => none

/-- Write `f` into the pool entry at address `id`, in the pool or in the hands
of a worker. -/
def updateEntry (id : Nat) (f : task_pool_t → task_pool_t) (s : Scheduler) : Scheduler :=
  { s with
    task_pool := s.task_pool.map (fun t => if t.id = id then f t else t)
    workers := s.workers.map (fun w =>
      match w with
      | Worker.executing t => if t.id = id then Worker.executing (f t) else Worker.executing t
      | Worker.waiting => Worker.waiting) }

/-- Read the pool entry at address `id`. -/
def findEntry (id : Nat) (s : Scheduler) : Option task_pool_t :=
  match s.task_pool.find? (fun t => t.id = id) with
  | some t => some t
  | none =>
      s.workers.findSome? (fun w =>
        match w with
        | Worker.executing t => if t.id = id then some t else none
        | Worker.waiting => none)

/-- Source: the critical section of the second loop of
`chpl_process_task_list` for the task list entry `entry` whose
`task_pool_entry` is at address `id`. -/
def joiner_claim (entry id : Nat) (s : Scheduler) : Scheduler :=
  if entry ∈ s.completed then s
  else
    match findEntry id s with
    | some t =>
        if t.begun then updateEntry id (fun t => { t with task_list := none }) s
        else
          { updateEntry id (fun t => { t with begun := true }) s with
            waking_cnt := if s.waking_cnt > 0 then s.waking_cnt - 1 else s.waking_cnt }
    | none => s

/-- One critical section: the state when `threading_lock` is taken and the
state when it is released (by `chpl_mutex_unlock` or by `pthread_cond_wait`).
`schedule_next_task` and `launch_next_task` are also steps of their own. -/
inductive Step (maxThreads : Int) : Scheduler → Scheduler → Prop where
  | chpl_begin (s : Scheduler) (outcomes : List Bool) (id fp a : Nat) (serial_state : Bool) :
      Step maxThreads s (chpl_begin maxThreads outcomes id fp a serial_state s)
  | process_task_list_add (s : Scheduler) (outcomes : List Bool)
      (tasks : List (Nat × Nat × Nat × Nat)) :
      Step maxThreads s (process_task_list_add maxThreads outcomes tasks s)
  | schedule_next_task (s : Scheduler) (outcomes : List Bool) (howMany : Nat) :
      Step maxThreads s (schedule_next_task maxThreads outcomes howMany s)
  | launch_next_task (s : Scheduler) (created : Bool) :
      Step maxThreads s (launch_next_task created s)
  | worker_finish (s s' : Scheduler) (i : Nat) :
      worker_finish i s = some s' → Step maxThreads s s'
  | worker_take (s s' : Scheduler) (i : Nat) :
      worker_take i s = some s' → Step maxThreads s s'
  | joiner_claim (s : Scheduler) (entry id : Nat) :
      Step maxThreads s (joiner_claim entry id s)

/-- The states reachable from the state set by `initChplThreads`. -/
inductive Reachable (maxThreads : Int) : Scheduler → Prop where
  | init : Reachable maxThreads initChplThreads
  | step (s s' : Scheduler) : Reachable maxThreads s → Step maxThreads s s' →
      Reachable maxThreads s'

/-- The number of workers that are running the function of a task. -/
def executingCount (workers : List Worker) : Nat :=
  (workers.filter (fun w =>
    match w with
    | Worker.executing _ => true
    | Worker.waiting => false)).length

/-- What the counters say about the worker threads: `running_cnt` is the
number of workers running a task, `threads_cnt` the number of workers,
`waking_cnt` is not negative, and the workers promised a task or running one
are no more than there are. -/
def CountersInv (s : Scheduler) : Prop :=
  s.running_cnt = (executingCount s.workers : Int) ∧
  s.threads_cnt = (s.workers.length : Int) ∧
  0 ≤ s.waking_cnt ∧
  s.running_cnt + s.waking_cnt ≤ s.threads_cnt

/-- One critical section entered through a function other threads can call:
`chpl_begin`, `chpl_process_task_list` (its first critical section, and the one
of its second loop), and the worker loop `chpl_begin_helper`.
`schedule_next_task` and `launch_next_task` are `static` and run only inside
these. -/
inductive CriticalSection (maxThreads : Int) : Scheduler → Scheduler → Prop where
  | chpl_begin (s : Scheduler) (outcomes : List Bool) (id fp a : Nat) (serial_state : Bool) :
      CriticalSection maxThreads s (chpl_begin maxThreads outcomes id fp a serial_state s)
  | process_task_list_add (s : Scheduler) (outcomes : List Bool)
      (tasks : List (Nat × Nat × Nat × Nat)) :
      CriticalSection maxThreads s (process_task_list_add maxThreads outcomes tasks s)
  | worker_finish (s s' : Scheduler) (i : Nat) :
      worker_finish i s = some s' → CriticalSection maxThreads s s'
  | worker_take (s s' : Scheduler) (i : Nat) :
      worker_take i s = some s' → CriticalSection maxThreads s s'
  | joiner_claim (s : Scheduler) (entry id : Nat) :
      CriticalSection maxThreads s (joiner_claim entry id s)

/-- The states reachable from the state set by `initChplThreads` through the
critical sections of `CriticalSection`. -/
inductive ReachableByCalls (maxThreads : Int) : Scheduler → Prop where
  | init : ReachableByCalls maxThreads initChplThreads
  | step (s s' : Scheduler) : ReachableByCalls maxThreads s →
      CriticalSection maxThreads s s' → ReachableByCalls maxThreads s'

/-- A state with one worker thread, which waits for a task. -/
def oneIdleWorker : Scheduler :=
  { initChplThreads with threads_cnt := 1, workers := [Worker.waiting] }

/-- One critical section of some thread, named by the function that runs it
(the arguments are those of the functions of the same names above). -/
inductive Event where
  | chpl_begin (outcomes : List Bool) (id fp a : Nat) (serial_state : Bool)
  | process_task_list_add (outcomes : List Bool) (tasks : List (Nat × Nat × Nat × Nat))
  | worker_finish (i : Nat)
  | worker_take (i : Nat)
  | joiner_claim (entry id : Nat)
  deriving DecidableEq, Repr

/-- The state after the critical section of an event; `none` when the thread
is not at that point (the worker is not there, or is not waiting, or is not
running a task). -/
def Event.apply (maxThreads : Int) : Event → Scheduler → Option Scheduler
  | Event.chpl_begin outcomes id fp a serial_state, s =>
      some (ChplThreads.chpl_begin maxThreads outcomes id fp a serial_state s)
  | Event.process_task_list_add outcomes tasks, s =>
      some (ChplThreads.process_task_list_add maxThreads outcomes tasks s)
  | Event.worker_finish i, s => ChplThreads.worker_finish i s
  | Event.worker_take i, s => ChplThreads.worker_take i s
  | Event.joiner_claim entry id, s => some (ChplThreads.joiner_claim entry id s)

/-- The addresses of the pool entries an event adds with `add_to_task_pool`,
in the order of the calls. -/
def Event.added : Event → List Nat
  | Event.chpl_begin _ id _ _ _ => [id]
  | Event.process_task_list_add _ tasks => tasks.map (fun task => task.1)
  | _ => []

/-- Whether the event is the critical section of the second loop of
`chpl_process_task_list`. -/
def Event.isJoinerClaim : Event → Bool
  | Event.joiner_claim _ _ => true
  | _ => false

/-- The addresses of the pool entries that worker threads have begun between
two states of the worker list, in the order of the workers: a worker that
waited and now runs a task (`chpl_begin_helper`), and a worker that was not
there and runs a task (created by `launch_next_task`, which appends it). -/
def startedBy : List Worker → List Worker → List Nat
  | _, [] => []
  | [], Worker.executing task :: new => task.id :: startedBy [] new
  | [], Worker.waiting :: new => startedBy [] new
  | Worker.waiting :: old, Worker.executing task :: new => task.id :: startedBy old new
  | _ :: old, _ :: new => startedBy old new

/-- Run the critical sections `events` one after the other from `s`: the final
state and the addresses of the pool entries begun by worker threads, in the
order they were begun; `none` when an event cannot happen where it stands. -/
def runLog (maxThreads : Int) : List Event → Scheduler → Option (Scheduler × List Nat)
  | [], s => some (s, [])
  | e :: events, s =>
      match e.apply maxThreads s with
      | none => none
      | some s' =>
          match runLog maxThreads events s' with
          | none => none
          | some (t, log) => some (t, startedBy s.workers s'.workers ++ log)

/-- The addresses of all the pool entries the events add, in order. -/
def addedBy : List Event → List Nat
  | [] => []
  | e :: events => e.added ++ addedBy events

/-- What a state keeps of an earlier one when worker threads have been created
in between and no entry of the pool had begun: the new workers come after the
old ones, and the pool entries they have begun were the first of the pool. -/
def Launched (s s' : Scheduler) : Prop :=
  (∀ x ∈ s'.task_pool, x.begun = false) ∧
  ∃ extra, s'.workers = s.workers ++ extra ∧
    startedBy [] extra ++ s'.task_pool.map (fun t => t.id) = s.task_pool.map (fun t => t.id)

/-- A state without worker threads: no thread has been created, and the
counters are all zero. -/
def NoWorker (s : Scheduler) : Prop :=
  s.workers = [] ∧ s.threads_cnt = 0 ∧ s.running_cnt = 0 ∧ s.waking_cnt = 0

/-- Source: `task_pool_t` as it lies in memory, with the pointer `next` to the
entry added after it (`fn` is the field `fun`). -/
structure PoolEntry where
  fn : Nat
  arg : Nat
  serial_state : Bool
  task_list : Option Nat
  begun : Bool
  next : Option Nat
  deriving DecidableEq, Repr

/-- The task pool as the pointers make it: the memory that holds the pool
entries (`none` at an address that is not allocated), `task_pool_head` and
`task_pool_tail` (`none` is the null pointer), and the variables that
`launch_next_task` and the worker write with them. -/
structure PoolMem where
  mem : Nat → Option PoolEntry
  task_pool_head : Option Nat
  task_pool_tail : Option Nat
  threads_cnt : Int
  running_cnt : Int
  warning_issued : Bool

/-- Write an entry at an address, or free the address (`none`). -/
def PoolMem.store (m : PoolMem) (p : Nat) (e : Option PoolEntry) : PoolMem :=
  { m with mem := fun q => if q = p then e else m.mem q }

/-- The statement `if (task_pool_head == NULL) task_pool_tail = NULL;`. -/
def PoolMem.resetTail (m : PoolMem) : PoolMem :=
  match m.task_pool_head with
  | none => { m with task_pool_tail := none }
  | some _ => m

/-- Source: `skip_over_begun_tasks()` on the pointers; the loop runs at most
`fuel` times, and the result is `none` when it would run longer or reads an
address that is not allocated. -/
def PoolMem.skip_over_begun_tasks : Nat → PoolMem → Option PoolMem
  | 0, _ => none
  | fuel + 1, m =>
      match m.task_pool_head with
      | none => some m
      | some task =>
          match m.mem task with
          | none => none
          | some e =>
              if e.begun then
                PoolMem.skip_over_begun_tasks fuel
                  ({ m with task_pool_head := e.next }.store task none).resetTail
              else some m

/-- Source: `add_to_task_pool(fp, a, serial, task_list)` on the pointers;
`task` is the address `chpl_alloc` returns. -/
def PoolMem.add_to_task_pool (m : PoolMem) (task fp a : Nat) (serial : Bool)
    (task_list : Option Nat) : Option PoolMem :=
  let m1 := m.store task (some ⟨fp, a, serial, task_list, false, none⟩)
  match m1.task_pool_tail with
  | some tail =>
      match m1.mem tail with
      | none => none
      | some e =>
          some { m1.store tail (some { e with next := some task }) with
            task_pool_tail := some task }
  | none => some { m1 with task_pool_head := some task, task_pool_tail := some task }

/-- Source: `chpl_begin_helper`, from `running_cnt++` to the reset of
`task_pool_tail`: the worker takes the entry at the head of the pool; `none`
when the pool is empty (the assertion before it fails). -/
def PoolMem.chpl_begin_helper_pop (m : PoolMem) : Option PoolMem :=
  match m.task_pool_head with
  | none => none
  | some task =>
      match m.mem task with
      | none => none
      | some e =>
          some ({ m.store task (some { e with begun := true }) with
            running_cnt := m.running_cnt + 1
            task_pool_head := e.next }).resetTail

/-- Source: `launch_next_task()` on the pointers; `created` says whether
`pthread_create` succeeds if it is called. -/
def PoolMem.launch_next_task (created : Bool) (fuel : Nat) (m : PoolMem) : Option PoolMem :=
  if m.warning_issued then some m
  else
    match m.skip_over_begun_tasks fuel with
    | none => none
    | some m1 =>
        match m1.task_pool_head with
        | none => some m1
        | some task =>
            if created then
              match m1.mem task with
              | none => none
              | some e =>
                  some ({ m1.store task (some { e with begun := true }) with
                    threads_cnt := m1.threads_cnt + 1
                    running_cnt := m1.running_cnt + 1
                    task_pool_head := e.next }).resetTail
            else some { m1 with warning_issued := true }

/-- The entries met from the pointer `p` on, following `next` to the null
pointer. -/
def chain (mem : Nat → Option PoolEntry) : List Nat → Option Nat → Prop
  | [], p => p = none
  | a :: l, p => p = some a ∧ ∃ e, mem a = some e ∧ chain mem l e.next

/-- The pool is consistent: `task_pool_head` and `task_pool_tail` are both
null or both not null, and then the tail is the last entry met from the head,
the one whose `next` is null. -/
def PoolMem.Consistent (m : PoolMem) : Prop :=
  (m.task_pool_head = none ↔ m.task_pool_tail = none) ∧
  ∀ tail, m.task_pool_tail = some tail → ∃ l, chain m.mem (l ++ [tail]) m.task_pool_head

/-- A pool of two entries, at the addresses 1 and 2; the first has begun. -/
def samplePool : PoolMem :=
  { mem := fun p =>
      if p = 1 then some ⟨7, 8, false, none, true, some 2⟩
      else if p = 2 then some ⟨7, 9, false, none, false, none⟩
      else none
    task_pool_head := some 1
    task_pool_tail := some 2
    threads_cnt := 0
    running_cnt := 0
    warning_issued := false }

/-- Source: `struct chpl_task_list`, an entry of a task list (`fn` is the
field `fun`; `task_pool_entry` is `none` until it is written).  The store
`task->task_list->completed = true` of a worker is recorded in
`Scheduler.completed`. -/
structure chpl_task_list where
  fn : Nat
  arg : Nat
  task_pool_entry : Option Nat
  next : Nat
  completed : Bool
  deriving DecidableEq, Repr

/-- What the thread that runs `chpl_process_task_list` does, in order: the
call of a task's function on this thread, the calls of `add_to_task_pool` and
`schedule_next_task`, the store of a null `task_list` in a pool entry, and
`chpl_free` of a task list entry. -/
inductive Action where
  | run (fn arg : Nat)
  | add_to_task_pool (fp a : Nat) (serial : Bool) (task_list : Nat)
  | schedule_next_task (howMany : Nat)
  | clear_task_list (task_pool_entry : Nat)
  | chpl_free (task : Nat)
  deriving DecidableEq, Repr

/-- Why a run of `chpl_process_task_list` does not return: an `assert` fails,
a pointer that is null or freed is read, or the loops run longer than the
bound given. -/
inductive Fault where
  | assertion
  | memory
  | fuel
  deriving DecidableEq, Repr

/-- The state `chpl_process_task_list` works on: the scheduler, the memory
that holds the task list entries (`none` at an address that is not
allocated), and what the calling thread has done. -/
structure ProcessState where
  sched : Scheduler
  lists : Nat → Option chpl_task_list
  actions : List Action

/-- Source: `(*task->fun)(task->arg)` on the calling thread; what the function
does is not followed. -/
def ProcessState.run (st : ProcessState) (fn arg : Nat) : ProcessState :=
  { st with actions := st.actions ++ [Action.run fn arg] }

/-- Source: `chpl_free(task, 0, 0)` of a task list entry. -/
def ProcessState.chpl_free (st : ProcessState) (task : Nat) : ProcessState :=
  { st with
    lists := fun q => if q = task then none else st.lists q
    actions := st.actions ++ [Action.chpl_free task] }

/-- Source: the loop of the serial branch of `chpl_process_task_list`,
`do { task = next_task; (*task->fun)(task->arg); next_task = task->next;
chpl_free(task); } while (task != task_list)`. -/
def serialLoop (task_list : Nat) : Nat → Nat → ProcessState → Except Fault ProcessState
  | 0, _, _ => Except.error Fault.fuel
  | fuel + 1, next_task, st =>
      match st.lists next_task with
      | none => Except.error Fault.memory
      | some task =>
          let st1 := (st.run task.fn task.arg).chpl_free next_task
          if next_task ≠ task_list then serialLoop task_list fuel task.next st1
          else Except.ok st1

/-- Source: the first loop of the other branch, under the lock,
`do { task = next_task; task->task_pool_entry = add_to_task_pool(task->fun,
task->arg, serial, task); next_task = task->next; task_cnt++; }
while (task != task_list)`; `alloc k` is the address `chpl_alloc` returns in
the call made with `task_cnt = k`.  The result has the final `task_cnt`. -/
def addLoop (alloc : Nat → Nat) (serial : Bool) (task_list : Nat) :
    Nat → Nat → Nat → ProcessState → Except Fault (ProcessState × Nat)
  | 0, _, _, _ => Except.error Fault.fuel
  | fuel + 1, next_task, task_cnt, st =>
      match st.lists next_task with
      | none => Except.error Fault.memory
      | some task =>
          let st1 : ProcessState :=
            { sched := add_to_task_pool st.sched (alloc task_cnt) task.fn task.arg serial
                (some next_task)
              lists := fun q =>
                if q = next_task then some { task with task_pool_entry := some (alloc task_cnt) }
                else st.lists q
              actions := st.actions ++ [Action.add_to_task_pool task.fn task.arg serial next_task] }
          if next_task ≠ task_list then addLoop alloc serial task_list fuel task.next (task_cnt + 1) st1
          else Except.ok (st1, task_cnt + 1)

/-- Source: `chpl_process_task_list` from its start to `chpl_free(first_task)`
in the branch that is not serial; `ndebug` says whether `NDEBUG` is defined
(the file defines it under `__OPTIMIZE__`), which makes `assert` a no-op.
The result has the value of `next_task`. -/
def process_task_list_first (maxThreads : Int) (ndebug : Bool) (outcomes : List Bool)
    (alloc : Nat → Nat) (fuel : Nat) (task_list : Option Nat) (st : ProcessState) :
    Except Fault (ProcessState × Nat) :=
  match task_list with
  | none => Except.error (if ndebug then Fault.memory else Fault.assertion)
  | some last =>
      match st.lists last with
      | none => Except.error Fault.memory
      | some task =>
          if ndebug = false ∧ task.next = last then Except.error Fault.assertion
          else
            match st.lists task.next with
            | none => Except.error Fault.memory
            | some first =>
                match addLoop alloc false last fuel first.next 0 st with
                | Except.error fault => Except.error fault
                | Except.ok (st1, task_cnt) =>
                    let st2 : ProcessState :=
                      { st1 with
                        sched := schedule_next_task maxThreads outcomes task_cnt st1.sched
                        actions := st1.actions ++ [Action.schedule_next_task task_cnt] }
                    match st2.lists task.next with
                    | none => Except.error Fault.memory
                    | some first_task =>
                        Except.ok
                          ((st2.run first_task.fn first_task.arg).chpl_free task.next,
                            first_task.next)

/-- The critical sections of other threads, one after the other; one that
cannot happen where it stands is left out. -/
def runEvents (maxThreads : Int) : List Event → Scheduler → Scheduler
  | [], s => s
  | e :: events, s => runEvents maxThreads events ((e.apply maxThreads s).getD s)

/-- Source: the test `task->completed` of the second loop. -/
def ProcessState.isCompleted (st : ProcessState) (task : Nat) (entry : chpl_task_list) : Bool :=
  entry.completed || decide (task ∈ st.sched.completed)

/-- Source: the body of the second loop of `chpl_process_task_list` for the
list entry `task` at the address `next_task`, from `if (!task->completed)` to
the call of `task_to_run_fun`.  `env` gives the critical sections of the other
threads: its first list runs before the first test of `task->completed`, its
second list between that test and the lock. -/
def joinerVisit (maxThreads : Int) (env : List (List Event)) (next_task : Nat)
    (task : chpl_task_list) (st0 : ProcessState) : Except Fault ProcessState :=
  let st : ProcessState :=
    { st0 with sched := runEvents maxThreads (env.headD []) st0.sched }
  let locked : ProcessState :=
    { st with sched := runEvents maxThreads (env.tail.headD []) st.sched }
  if st.isCompleted next_task task then Except.ok st
  else if locked.isCompleted next_task task then Except.ok locked
  else
    match task.task_pool_entry with
    | none => Except.error Fault.memory
    | some id =>
        match findEntry id locked.sched with
        | none => Except.error Fault.memory
        | some entry =>
            if entry.begun then
              Except.ok
                { locked with
                  sched := joiner_claim next_task id locked.sched
                  actions := locked.actions ++ [Action.clear_task_list id] }
            else
              Except.ok
                ({ locked with sched := joiner_claim next_task id locked.sched }.run
                  entry.fn entry.arg)

/-- Source: the second loop of `chpl_process_task_list`, from
`task = next_task` to `while (task != task_list)`; each turn of the loop takes
two lists of `env` (see `joinerVisit`). -/
def joinLoop (maxThreads : Int) (task_list : Nat) :
    Nat → List (List Event) → Nat → ProcessState → Except Fault ProcessState
  | 0, _, _, _ => Except.error Fault.fuel
  | fuel + 1, env, next_task, st0 =>
      match st0.lists next_task with
      | none => Except.error Fault.memory
      | some task =>
          match joinerVisit maxThreads env next_task task st0 with
          | Except.error fault => Except.error fault
          | Except.ok st1 =>
              let st2 := st1.chpl_free next_task
              if next_task ≠ task_list then
                joinLoop maxThreads task_list fuel env.tail.tail task.next st2
              else Except.ok st2

/-- Source: `chpl_process_task_list(task_list)`; `serial` is the value of
`chpl_get_serial()`. -/
def chpl_process_task_list (maxThreads : Int) (ndebug serial : Bool) (outcomes : List Bool)
    (alloc : Nat → Nat) (env : List (List Event)) (fuel : Nat) (task_list : Option Nat)
    (st : ProcessState) : Except Fault ProcessState :=
  if serial then
    match task_list with
    | none => Except.error (if ndebug then Fault.memory else Fault.assertion)
    | some last =>
        match st.lists last with
        | none => Except.error Fault.memory
        | some task =>
            if ndebug = false ∧ task.next = last then Except.error Fault.assertion
            else serialLoop last fuel task.next st
  else
    match process_task_list_first maxThreads ndebug outcomes alloc fuel task_list st with
    | Except.error fault => Except.error fault
    | Except.ok (st1, next_task) =>
        match task_list with
        | none => Except.error Fault.memory
        | some last => joinLoop maxThreads last fuel env next_task st1

/-- The task list entries met from the address `p` on, following `next`:
their addresses and what they hold. -/
def segment (lists : Nat → Option chpl_task_list) : List (Nat × chpl_task_list) → Nat → Prop
  | [], _ => True
  | (a, entry) :: l, p => p = a ∧ lists a = some entry ∧ segment lists l entry.next

/-- The entries of `group`, first to last, are a task list as
`chpl_add_to_task_list` leaves it: distinct entries, each pointing to the
next one and the last one to the first, `task_list` pointing to the last. -/
def Circular (lists : Nat → Option chpl_task_list) (task_list : Nat)
    (group : List (Nat × chpl_task_list)) : Prop :=
  (group.map (fun g => g.1)).Nodup ∧
  ∃ first last, group.head? = some first ∧ group.getLast? = some (task_list, last) ∧
    last.next = first.1 ∧ segment lists group first.1

/-- What the calling thread does in the serial loop on the entries given. -/
def serialActions : List (Nat × chpl_task_list) → List Action
  | [] => []
  | (a, entry) :: l => Action.run entry.fn entry.arg :: Action.chpl_free a :: serialActions l

/-- The arguments of the calls of `add_to_task_pool` for the entries given,
as `addTaskList` takes them; `alloc k` is the address of the first pool entry. -/
def poolTasks (alloc : Nat → Nat) : Nat → List (Nat × chpl_task_list) →
    List (Nat × Nat × Nat × Nat)
  | _, [] => []
  | k, (a, entry) :: l => (alloc k, entry.fn, entry.arg, a) :: poolTasks alloc (k + 1) l

/-- The calls of `add_to_task_pool` for the entries given. -/
def addActions : List (Nat × chpl_task_list) → List Action
  | [] => []
  | (a, entry) :: l => Action.add_to_task_pool entry.fn entry.arg false a :: addActions l

/-- The entries given once `task_pool_entry` is written in each. -/
def withPoolEntries (alloc : Nat → Nat) : Nat → List (Nat × chpl_task_list) →
    List (Nat × chpl_task_list)
  | _, [] => []
  | k, (a, entry) :: l =>
      (a, { entry with task_pool_entry := some (alloc k) }) :: withPoolEntries alloc (k + 1) l

/-- A task list of three entries at the addresses 11, 12 and 13, appended in
that order; `task_list` is 13. -/
def sampleLists : Nat → Option chpl_task_list := fun p =>
  if p = 11 then some ⟨101, 1, none, 12, false⟩
  else if p = 12 then some ⟨102, 2, none, 13, false⟩
  else if p = 13 then some ⟨103, 3, none, 11, false⟩
  else none

/-- The entries of `sampleLists`. -/
def sampleGroup : List (Nat × chpl_task_list) :=
  [(11, ⟨101, 1, none, 12, false⟩), (12, ⟨102, 2, none, 13, false⟩),
    (13, ⟨103, 3, none, 11, false⟩)]

/-- A task list of one entry, at the address 11. -/
def singleList : Nat → Option chpl_task_list := fun p =>
  if p = 11 then some ⟨101, 1, none, 11, false⟩ else none

/-- Whether the event is a critical section of a worker thread
(`chpl_begin_helper`). -/
def Event.isWorker : Event → Bool
  | Event.worker_finish _ => true
  | Event.worker_take _ => true
  | _ => false

/-- A task list entry whose `task_pool_entry` is written, as the arguments of
its call of `add_to_task_pool`: the address of the pool entry, the function,
the argument and the address of the list entry. -/
def taskOf (g : Nat × chpl_task_list) : Nat × Nat × Nat × Nat :=
  (g.2.task_pool_entry.getD 0, g.2.fn, g.2.arg, g.1)

/-- Where a task of a group is before the joiner reaches its list entry: its
pool entry is in the pool and has not begun; or a worker has begun it and runs
it; or the list entry is marked completed.  No other pool entry has the
address of its pool entry. -/
def Owned (s : Scheduler) (task : Nat × Nat × Nat × Nat) : Prop :=
  (s.task_pool.filter (fun t => decide (t.id = task.1)) =
      [⟨task.1, task.2.1, task.2.2.1, false, false, some task.2.2.2⟩] ∧
    (∀ t, Worker.executing t ∈ s.workers → t.id ≠ task.1) ∧
    task.2.2.2 ∉ s.completed) ∨
  ((∀ t ∈ s.task_pool, t.id ≠ task.1) ∧
    Worker.executing ⟨task.1, task.2.1, task.2.2.1, false, true, some task.2.2.2⟩ ∈ s.workers ∧
    (∀ t, Worker.executing t ∈ s.workers → t.id = task.1 →
      t = ⟨task.1, task.2.1, task.2.2.1, false, true, some task.2.2.2⟩) ∧
    task.2.2.2 ∉ s.completed) ∨
  task.2.2.2 ∈ s.completed

/-- A task that a worker has begun and that the joiner has let go of (the
`task_list` of its pool entry is null): the worker still runs it, or has
freed its pool entry after running it. -/
def Detached (s : Scheduler) (task : Nat × Nat × Nat × Nat) : Prop :=
  Worker.executing ⟨task.1, task.2.1, task.2.2.1, false, true, none⟩ ∈ s.workers ∨
  task.1 ∈ s.freed

/-- What the second loop of `chpl_process_task_list` has done for the tasks
given, in order, and what holds of each task in the state `s` the loop ends
in.  For each list entry the loop either finds it completed and only frees
it; or runs the task on the calling thread, then frees the entry; or finds the
task begun by a worker, stores a null `task_list` in its pool entry and frees
the list entry, without waiting for the worker. -/
inductive Joined (s : Scheduler) : List (Nat × Nat × Nat × Nat) → List Action → Prop where
  | nil : Joined s [] []
  | completed (task : Nat × Nat × Nat × Nat) (tasks : List (Nat × Nat × Nat × Nat))
      (actions : List Action) :
      task.2.2.2 ∈ s.completed → Joined s tasks actions →
      Joined s (task :: tasks) (Action.chpl_free task.2.2.2 :: actions)
  | run (task : Nat × Nat × Nat × Nat) (tasks : List (Nat × Nat × Nat × Nat))
      (actions : List Action) :
      Joined s tasks actions →
      Joined s (task :: tasks)
        (Action.run task.2.1 task.2.2.1 :: Action.chpl_free task.2.2.2 :: actions)
  | detached (task : Nat × Nat × Nat × Nat) (tasks : List (Nat × Nat × Nat × Nat))
      (actions : List Action) :
      Detached s task → Joined s tasks actions →
      Joined s (task :: tasks)
        (Action.clear_task_list task.1 :: Action.chpl_free task.2.2.2 :: actions)

/-- The number of workers that wait for a task. -/
def waitingCount (workers : List Worker) : Nat :=
  (workers.filter (fun w =>
    match w with
    | Worker.executing _ => false
    | Worker.waiting => true)).length

/-- Source: `chpl_begin(fp, a, ignore_serial, serial_state)`; `serial` is the
value of `chpl_get_serial()` and `id` the address `chpl_alloc` returns if it
is called.  The result has the value returned. -/
def ProcessState.chpl_begin (st : ProcessState) (maxThreads : Int) (outcomes : List Bool)
    (serial : Bool) (id fp a : Nat) (ignore_serial serial_state : Bool) : ProcessState × Int :=
  if !ignore_serial && serial then (st.run fp a, 0)
  else
    ({ st with sched := ChplThreads.chpl_begin maxThreads outcomes id fp a serial_state st.sched },
      0)

/-- Where the wait for a task of `chpl_begin_helper` gets to with the lock
held: the wait on `wakeup_signal`, the pool being empty; or the `assert`, with
the value of its condition `task_pool_head && !task_pool_head->begun`. -/
inductive WaitResult where
  | blocked (m : PoolMem)
  | asserted (m : PoolMem) (holds : Bool)

/-- Source: `chpl_begin_helper`, the loop
`do { while (!task_pool_head) { ... pthread_cond_wait ... } skip_over_begun_tasks(); }
while (!task_pool_head);` and the `assert` after it, from a point where the
lock is held to the next wait or to the `assert`.  A worker that is woken
goes through it again, in the state the other threads have left. -/
def PoolMem.chpl_begin_helper_wait (fuel : Nat) (m : PoolMem) : Option WaitResult :=
  match m.task_pool_head with
  | none => some (WaitResult.blocked m)
  | some _ =>
      match m.skip_over_begun_tasks fuel with
      | none => none
      | some m1 =>
          match m1.task_pool_head with
          | none => some (WaitResult.blocked m1)
          | some task =>
              match m1.mem task with
              | none => none
              | some e => some (WaitResult.asserted m1 (!e.begun))

/-- A call of `chpl_add_to_task_list`: the function and the argument passed,
the address `chpl_alloc` returns in it, and what the block at that address
holds when it is returned (the call does not write the field
`task_pool_entry`). -/
structure AddCall where
  fn : Nat
  arg : Nat
  task : Nat
  junk : chpl_task_list

/-- Source: `chpl_add_to_task_list`, `task->fun = fun; task->arg = arg;
task->completed = false; if (*task_list) { task->next = (*task_list)->next;
(*task_list)->next = task; } else task->next = task; *task_list = task;`, the
stores in the order of the source.  `task_list` is the handle `*task_list`,
and the result has the memory and the handle after the call. -/
def chpl_add_to_task_list (c : AddCall) (lists : Nat → Option chpl_task_list)
    (task_list : Option Nat) : Except Fault ((Nat → Option chpl_task_list) × Option Nat) :=
  let t0 : chpl_task_list := { c.junk with fn := c.fn, arg := c.arg, completed := false }
  let l1 : Nat → Option chpl_task_list := fun q => if q = c.task then some t0 else lists q
  match task_list with
  | some handle =>
      match l1 handle with
      | none => Except.error Fault.memory
      | some last =>
          let l2 : Nat → Option chpl_task_list := fun q =>
            if q = c.task then some { t0 with next := last.next } else l1 q
          match l2 handle with
          | none => Except.error Fault.memory
          | some last2 =>
              Except.ok (fun q => if q = handle then some { last2 with next := c.task } else l2 q,
                some c.task)
  | none =>
      Except.ok (fun q => if q = c.task then some { t0 with next := c.task } else l1 q,
        some c.task)

/-- The calls of `chpl_add_to_task_list` given, one after the other on the
same handle. -/
def addCalls : List AddCall → (Nat → Option chpl_task_list) → Option Nat →
    Except Fault ((Nat → Option chpl_task_list) × Option Nat)
  | [], lists, task_list => Except.ok (lists, task_list)
  | c :: cs, lists, task_list =>
      match chpl_add_to_task_list c lists task_list with
      | Except.error f => Except.error f
      | Except.ok st => addCalls cs st.1 st.2

/-- What a call of `chpl_add_to_task_list` sets of its entry, with the address
of the entry. -/
def AddCall.written (c : AddCall) : Nat × Nat × Nat × Option Nat × Bool :=
  (c.task, c.fn, c.arg, c.junk.task_pool_entry, false)

/-- The address of a task list entry and its fields other than `next`. -/
def entryFields (g : Nat × chpl_task_list) : Nat × Nat × Nat × Option Nat × Bool :=
  (g.1, g.2.fn, g.2.arg, g.2.task_pool_entry, g.2.completed)

/-- Three calls of `chpl_add_to_task_list`. -/
def sampleCalls : List AddCall :=
  [⟨7, 1, 11, ⟨0, 0, none, 0, true⟩⟩, ⟨7, 2, 12, ⟨0, 0, some 5, 3, true⟩⟩,
    ⟨8, 3, 13, ⟨9, 9, none, 11, false⟩⟩]

/-- Source: `struct _lockReport`, the blocking location of a thread
(`filename` is the address of the string). -/
structure lockReport where
  filename : Nat
  lineno : Int
  maybeLocked : Int
  next : Option Nat
  deriving DecidableEq, Repr

/-- The state of the block report: the flag `blockreport`, the memory that
holds the records (`none` at an address that is not allocated),
`lockReportHead`, `lockReportTail`, and for each thread the value of
`pthread_getspecific(lock_report_key)`. -/
structure ReportState where
  blockreport : Bool
  records : Nat → Option lockReport
  lockReportHead : Option Nat
  lockReportTail : Option Nat
  lock_report_key : Nat → Option Nat

/-- A store to the record at `p`. -/
def ReportState.storeRecord (st : ReportState) (p : Nat) (r : lockReport) : ReportState :=
  { st with records := fun q => if q = p then some r else st.records q }

/-- Source: `setBlockingLocation`, on the thread `self`: the value of
`pthread_getspecific(lock_report_key)` is dereferenced as it is. -/
def setBlockingLocation (self : Nat) (lineno : Int) (filename : Nat) (st : ReportState) :
    Except Fault ReportState :=
  if !st.blockreport then Except.ok st
  else
    match st.lock_report_key self with
    | none => Except.error Fault.memory
    | some lockRprt =>
        match st.records lockRprt with
        | none => Except.error Fault.memory
        | some r =>
            Except.ok (st.storeRecord lockRprt
              { r with filename := filename, lineno := lineno, maybeLocked := 1 })

/-- Source: `unsetBlockingLocation`, on the thread `self`. -/
def unsetBlockingLocation (self : Nat) (st : ReportState) : Except Fault ReportState :=
  if !st.blockreport then Except.ok st
  else
    match st.lock_report_key self with
    | none => Except.error Fault.memory
    | some lockRprt =>
        match st.records lockRprt with
        | none => Except.error Fault.memory
        | some r => Except.ok (st.storeRecord lockRprt { r with maybeLocked := 0 })

/-- Source: `initializeLockReportForThread`, on the thread `self`;
`newLockReport` is the address `chpl_alloc` returns and `junk` what the block
there holds (the fields `filename` and `lineno` are not written). -/
def initializeLockReportForThread (self newLockReport : Nat) (junk : lockReport)
    (st : ReportState) : Except Fault ReportState :=
  if !st.blockreport then Except.ok st
  else
    let st1 : ReportState :=
      { st.storeRecord newLockReport { junk with next := none, maybeLocked := 0 } with
        lock_report_key := fun t => if t = self then some newLockReport else st.lock_report_key t }
    match st1.lockReportHead with
    | some _ =>
        match st1.lockReportTail with
        | none => Except.error Fault.memory
        | some tail =>
            match st1.records tail with
            | none => Except.error Fault.memory
            | some r =>
                Except.ok { st1.storeRecord tail { r with next := some newLockReport } with
                  lockReportTail := some newLockReport }
    | none =>
        Except.ok { st1 with
          lockReportHead := some newLockReport
          lockReportTail := some newLockReport }

/-- Source: `chpl_thread_init`, on the thread `self`. -/
def chpl_thread_init (self newLockReport : Nat) (junk : lockReport) (st : ReportState) :
    Except Fault ReportState :=
  if st.blockreport then initializeLockReportForThread self newLockReport junk st
  else Except.ok st

/-- Source: `chpl_begin_helper`, the loop `while (!task_pool_head) {
setBlockingLocation(0, idleThreadName); pthread_cond_wait(...);
if (task_pool_head) unsetBlockingLocation(); }` as far as the records go:
`waits` has, for each `pthread_cond_wait` of the worker in turn, whether
`task_pool_head` is set when the worker wakes. -/
def workerWaits (self idleThreadName : Nat) : List Bool → ReportState → Except Fault ReportState
  | [], st => Except.ok st
  | woken :: waits, st =>
      match setBlockingLocation self 0 idleThreadName st with
      | Except.error f => Except.error f
      | Except.ok st1 =>
          if woken then
            match unsetBlockingLocation self st1 with
            | Except.error f => Except.error f
            | Except.ok st2 => workerWaits self idleThreadName waits st2
          else workerWaits self idleThreadName waits st1

/-- What a task of a worker does to the records: whether its function, which
is not part of this file, calls `chpl_thread_init` (with the address
`chpl_alloc` returns then and what the block holds), and the waits of the
worker after the task. -/
structure WorkerTask where
  init : Option (Nat × lockReport)
  waits : List Bool

/-- Source: `chpl_begin_helper` on the thread `self`, as far as the records
go: `(*task->fun)(task->arg)`, which is where `chpl_thread_init` can be
called (`chpl_begin_helper` and `launch_next_task` do not call it), then the
wait for the next task. -/
def chpl_begin_helper_report (self idleThreadName : Nat) :
    List WorkerTask → ReportState → Except Fault ReportState
  | [], st => Except.ok st
  | t :: ts, st =>
      match (match t.init with
          | some (newLockReport, junk) => chpl_thread_init self newLockReport junk st
          | none => Except.ok st) with
      | Except.error f => Except.error f
      | Except.ok st1 =>
          match workerWaits self idleThreadName t.waits st1 with
          | Except.error f => Except.error f
          | Except.ok st2 => chpl_begin_helper_report self idleThreadName ts st2

/-- The addresses of the records the calls of `chpl_thread_init` of the tasks
create, in order. -/
def initRecords (ts : List WorkerTask) : List Nat :=
  ts.filterMap (fun t => t.init.map (fun i => i.1))

/-- The records met from the pointer `p` on, following `next` to a null
pointer. -/
def reportChain (records : Nat → Option lockReport) : List Nat → Option Nat → Prop
  | [], p => p = none
  | a :: l, p => p = some a ∧ ∃ r, records a = some r ∧ reportChain records l r.next

/-- The list of the records is `l`: distinct records, linked from
`lockReportHead` on, `lockReportTail` on the last one. -/
def ReportState.Linked (st : ReportState) (l : List Nat) : Prop :=
  l.Nodup ∧ reportChain st.records l st.lockReportHead ∧ st.lockReportTail = l.getLast?

/-- The state `initChplThreads` leaves with `blockreport` set: the record of
the main thread (thread 0) at address 1, and no other. -/
def sampleReport : ReportState :=
  { blockreport := true
    records := fun p => if p = 1 then some ⟨0, 0, 0, none⟩ else none
    lockReportHead := some 1
    lockReportTail := some 1
    lock_report_key := fun t => if t = 0 then some 1 else none }

/-- The addresses of the pool entries that worker threads hold: a worker that
runs a task has taken its entry out of the pool and frees it afterwards. -/
def heldIds (workers : List Worker) : List Nat :=
  workers.filterMap (fun w =>
    match w with
    | Worker.executing t => some t.id
    | Worker.waiting => none)

/-- The addresses of the pool entries that are in the pool and have not
begun. -/
def notBegun (s : Scheduler) : List Nat :=
  (s.task_pool.filter (fun t => !t.begun)).map (fun t => t.id)

/-- The addresses of the pool entries that have begun and are not freed: in
the pool (a joiner has set `begun`), or in the hands of a worker. -/
def begunLive (s : Scheduler) : List Nat :=
  (s.task_pool.filter (fun t => t.begun)).map (fun t => t.id) ++ heldIds s.workers

/-- The addresses of all the pool entries allocated so far, those freed
included; an address names one allocation (`chpl_alloc` is taken not to
return an address again). -/
def allIds (s : Scheduler) : List Nat :=
  notBegun s ++ begunLive s ++ s.freed

/-- The entries that workers hold have begun. -/
def HeldBegun (s : Scheduler) : Prop :=
  ∀ t, Worker.executing t ∈ s.workers → t.begun = true

/-- Every pool entry is in one place: in the pool once, or held by one worker,
or freed once; and the entries that workers hold have begun. -/
def Exclusive (s : Scheduler) : Prop :=
  (allIds s).Nodup ∧ HeldBegun s

/-- The address of the pool entry whose `begun` the joiner sets in the
critical section of an event (`task->task_pool_entry->begun = true` in the
second loop of `chpl_process_task_list`), if it sets one. -/
def Event.claimed : Event → Scheduler → List Nat
  | Event.joiner_claim entry id, s =>
      if entry ∈ s.completed then []
      else
        match findEntry id s with
        | some t => if t.begun then [] else [id]
        | none => []
  | _, _ => []

/-- Run the critical sections `events` one after the other from `s`: the final
state and the addresses of the pool entries whose `begun` has been set, in
order, by a worker for itself, by `launch_next_task` for the thread it
creates, or by a joiner; `none` when an event cannot happen where it
stands. -/
def beginLog (maxThreads : Int) : List Event → Scheduler → Option (Scheduler × List Nat)
  | [], s => some (s, [])
  | e :: events, s =>
      match e.apply maxThreads s with
      | none => none
      | some s' =>
          match beginLog maxThreads events s' with
          | none => none
          | some (t, log) => some (t, startedBy s.workers s'.workers ++ e.claimed s ++ log)

/-- The account of the pool entries between two states, `begun` being the
entries whose `begun` has been set in between and `added` the entries added:
the entries that have not begun are those that had not, with those added and
without those begun; the entries begun, live or freed, are those there were,
with those begun; and what was freed stays freed. -/
def Moves (s s' : Scheduler) (begun added : List Nat) : Prop :=
  (∀ x, (notBegun s').count x + begun.count x = (notBegun s).count x + added.count x) ∧
  (∀ x, (begunLive s').count x + s'.freed.count x =
    (begunLive s).count x + s.freed.count x + begun.count x) ∧
  (∀ x, s.freed.count x ≤ s'.freed.count x)

/-- What `launch_next_task` and the loops around it do: workers are added, and
the entries they hold were the entries of the pool that had not begun. -/
def Launches (s s' : Scheduler) : Prop :=
  ∃ extra, s'.workers = s.workers ++ extra ∧ Moves s s' (startedBy [] extra) [] ∧
    (HeldBegun s → HeldBegun s')

/-- A state with no worker and one pool entry, which a joiner has claimed
(`begun` is set) and run. -/
def claimedEntry : Scheduler :=
  { initChplThreads with task_pool := [⟨5, 7, 8, false, true, some 13⟩] }

/-- A run of five critical sections: `chpl_begin` creates a worker for
entry 1; a task list adds entries 2 and 3, `pthread_create` failing; the
joiner claims entry 2; the worker finishes entry 1, then skips entry 2 and
takes entry 3. -/
def sampleTrace : List Event :=
  [Event.chpl_begin [] 1 7 8 false,
    Event.process_task_list_add [false] [(2, 7, 9, 12), (3, 7, 10, 13)],
    Event.joiner_claim 12 2, Event.worker_finish 0, Event.worker_take 0]

end ChplThreads

/-! ## Theorems -/

namespace CopyPropagation


open PrimitiveTag

theorem Map.get_put {K V : Type} [DecidableEq K] (m : Map K V) (key k : K) (value : Option V) :
    (m.put key value).get k = if k = key then value else m.get k := rfl

mutual
theorem collect_rebind (f : SymExprNode → Symbol) :
    ∀ (parent : Option ParentCall) (e : Expr),
      collectSymExprs parent (rebindSymExprs f parent e) =
        (collectSymExprs parent e).map (fun se => ⟨se.id, f se, se.parentExpr⟩)
  | parent, .SymExpr id var => by simp [collectSymExprs, rebindSymExprs]
  | _, .CallExpr primitive baseExpr argList => by
      simp [collectSymExprs, rebindSymExprs, collectBase_rebind f primitive baseExpr,
        collectActuals_rebind f primitive 1 argList]
  | _, .DefExpr _ children => by
      simp [collectSymExprs, rebindSymExprs, collectChildren_rebind f children]
  | _, .Other children => by
      simp [collectSymExprs, rebindSymExprs, collectChildren_rebind f children]
theorem collectBase_rebind (f : SymExprNode → Symbol) (primitive : Option PrimitiveTag) :
    ∀ (b : Option Expr),
      collectBase primitive (rebindBase f primitive b) =
        (collectBase primitive b).map (fun se => ⟨se.id, f se, se.parentExpr⟩)
  | none => by simp [collectBase, rebindBase]
  | some e => by simp [collectBase, rebindBase, collect_rebind f _ e]
theorem collectActuals_rebind (f : SymExprNode → Symbol) (primitive : Option PrimitiveTag) :
    ∀ (i : Nat) (l : List Expr),
      collectActuals primitive i (rebindActuals f primitive i l) =
        (collectActuals primitive i l).map (fun se => ⟨se.id, f se, se.parentExpr⟩)
  | _, [] => by simp [collectActuals, rebindActuals]
  | i, e :: es => by
      simp [collectActuals, rebindActuals, collect_rebind f _ e,
        collectActuals_rebind f primitive (i + 1) es]
theorem collectChildren_rebind (f : SymExprNode → Symbol) :
    ∀ (l : List Expr),
      collectChildren (rebindChildren f l) =
        (collectChildren l).map (fun se => ⟨se.id, f se, se.parentExpr⟩)
  | [] => by simp [collectChildren, rebindChildren]
  | e :: es => by
      simp [collectChildren, rebindChildren, collect_rebind f _ e, collectChildren_rebind f es]
end

theorem core_append (useSet defSet : List Nat) :
    ∀ (l1 l2 : List Expr) (c : Copies),
      localCopyPropagationCore useSet defSet (l1 ++ l2) c =
        ((localCopyPropagationCore useSet defSet l1 c).1 ++
            (localCopyPropagationCore useSet defSet l2
              (localCopyPropagationCore useSet defSet l1 c).2).1,
          (localCopyPropagationCore useSet defSet l2
              (localCopyPropagationCore useSet defSet l1 c).2).2)
  | [], l2, c => by simp [localCopyPropagationCore]
  | e :: l1, l2, c => by
      simp [localCopyPropagationCore, core_append useSet defSet l1 l2]

theorem core_length (useSet defSet : List Nat) :
    ∀ (l : List Expr) (c : Copies),
      (localCopyPropagationCore useSet defSet l c).1.length = l.length
  | [], c => by simp [localCopyPropagationCore]
  | e :: l, c => by simp [localCopyPropagationCore, core_length useSet defSet l]

/-- The statement at place `k` of the block after `localCopyPropagationCore` is
statement `k` rebound under the maps left by the statements before it. -/
theorem core_get (useSet defSet : List Nat) (exprs : List Expr) (c : Copies) (k : Nat)
    (expr : Expr) (h : exprs.get? k = some expr) :
    (localCopyPropagationCore useSet defSet exprs c).1.get? k =
      some (propagateStatement useSet defSet
        (localCopyPropagationCore useSet defSet (exprs.take k) c).2.available expr) := by
  have hk : k < exprs.length := by
    rcases List.get?_eq_some.1 h with ⟨hk, _⟩
    exact hk
  have hsplit : exprs = exprs.take k ++ expr :: exprs.drop (k + 1) := by
    have := List.get?_eq_some.1 h
    rcases this with ⟨hk', he⟩
    rw [← he]
    simp
  have hlen : (localCopyPropagationCore useSet defSet (exprs.take k) c).1.length = k := by
    rw [core_length]; simp; omega
  conv_lhs => rw [hsplit]
  rw [core_append]
  simp only [localCopyPropagationCore]
  rw [List.get?_eq_getElem?, List.getElem?_append_right (by omega)]
  simp [hlen, localStep]



theorem contains_iff_mem (l : List Nat) (a : Nat) : l.contains a = true ↔ a ∈ l := by
  simp [List.contains]

theorem invalidateCopies_of_def (se : SymExprNode) (defSet useSet : List Nat)
    (h : se.id ∈ defSet) : invalidateCopies se defSet useSet = true := by
  unfold invalidateCopies
  simp [h]

theorem invalidateCopies_move_use (id : Nat) (var : Symbol) (i : Nat) (defSet useSet : List Nat)
    (h : id ∉ defSet) :
    invalidateCopies ⟨id, var, some ⟨some PRIMITIVE_MOVE, i⟩⟩ defSet useSet = false := by
  unfold invalidateCopies
  by_cases hu : id ∈ useSet <;> simp [h, hu, ParentCall.isPrimitive]

theorem invalidateCopies_setRef (id : Nat) (var : Symbol) (i : Nat) (defSet useSet : List Nat)
    (h : id ∈ useSet ∨ id ∈ defSet) :
    invalidateCopies ⟨id, var, some ⟨some PRIMITIVE_SET_REF, i⟩⟩ defSet useSet = true := by
  unfold invalidateCopies
  by_cases hd : id ∈ defSet
  · simp [hd]
  · have hu : id ∈ useSet := h.resolve_right hd
    simp [hd, hu, ParentCall.isPrimitive]

theorem removeLoop_get (sym : Symbol) :
    ∀ (keys : List Symbol) (av : AvailableMap) (k : Symbol),
      (keys.foldl (fun (av : AvailableMap) key =>
          if av.get key = some sym then av.put key none else av) av).get k =
        if k ∈ keys ∧ av.get k = some sym then none else av.get k
  | [], av, k => by simp
  | key :: keys, av, k => by
      rw [List.foldl_cons, removeLoop_get sym keys]
      by_cases hkey : av.get key = some sym
      · simp only [hkey, if_true, Map.get_put]
        by_cases hk : k = key
        · subst hk; simp [hkey]
        · simp [hk]
      · simp only [hkey, if_false]
        by_cases hk : k = key
        · subst hk; simp [hkey]
        · simp [hk]

theorem removeAvailable_get (c : Copies) (sym k : Symbol) :
    (removeAvailable c sym).available.get k =
      if k = sym then none
      else if (∃ ks, c.reverseAvailable.get sym = some ks ∧ k ∈ ks) ∧
          c.available.get k = some sym then none
      else c.available.get k := by
  unfold removeAvailable
  simp only [Map.get_put]
  by_cases hk : k = sym
  · simp [hk]
  · simp only [hk, if_false]
    cases hr : c.reverseAvailable.get sym with
    | none => simp
    | some keys => simp [removeLoop_get]

theorem removeAvailable_reverse (c : Copies) (sym : Symbol) :
    (removeAvailable c sym).reverseAvailable = c.reverseAvailable := rfl

theorem makeAvailable_get (c : Copies) (key value k : Symbol) :
    (makeAvailable c key value).available.get k =
      if k = key then some value else c.available.get k := rfl

theorem indexed_empty : Indexed Copies.empty := by
  intro k v h
  simp [Copies.empty, Map.empty] at h

theorem indexed_make (c : Copies) (key value : Symbol) (h : Indexed c) :
    Indexed (makeAvailable c key value) := by
  intro k v hkv
  rw [makeAvailable_get] at hkv
  simp only [makeAvailable, Map.get_put]
  by_cases hv : v = value
  · subst hv
    simp only [if_true]
    by_cases hk : k = key
    · subst hk; exact ⟨_, rfl, by simp⟩
    · simp only [hk, if_false] at hkv
      rcases h k v hkv with ⟨ks, hks, hmem⟩
      exact ⟨_, rfl, by simp [hks, hmem]⟩
  · simp only [hv, if_false]
    by_cases hk : k = key
    · subst hk
      simp only [if_true, Option.some.injEq] at hkv
      exact absurd hkv.symm hv
    · simp only [hk, if_false] at hkv
      exact h k v hkv

theorem indexed_remove (c : Copies) (sym : Symbol) (h : Indexed c) :
    Indexed (removeAvailable c sym) := by
  intro k v hkv
  rw [removeAvailable_get] at hkv
  rw [removeAvailable_reverse]
  by_cases hk : k = sym
  · simp [hk] at hkv
  · simp only [hk, if_false] at hkv
    split at hkv
    · simp at hkv
    · exact h k v hkv

theorem reachable_indexed (c : Copies) (h : Reachable c) : Indexed c := by
  induction h with
  | empty => exact indexed_empty
  | make c key value _ ih => exact indexed_make c key value ih
  | remove c sym _ ih => exact indexed_remove c sym ih

/-- Under the index invariant `removeAvailable` drops exactly the entries whose
key or value is `sym`. -/
theorem removeAvailable_get_of_indexed (c : Copies) (h : Indexed c) (sym k : Symbol) :
    (removeAvailable c sym).available.get k =
      if k = sym ∨ c.available.get k = some sym then none else c.available.get k := by
  rw [removeAvailable_get]
  by_cases hk : k = sym
  · simp [hk]
  · by_cases hv : c.available.get k = some sym
    · have := h k sym hv
      simp [hk, hv, this]
    · simp [hk, hv]

/-- C2: for maps reachable from the empty maps by `makeAvailable` and
`removeAvailable`, after `removeAvailable(s)` no key maps to `s`, `s` maps to
nothing, and the entries whose key and value both differ from `s` are exactly
those there were before. -/
theorem removeAvailable_drops_symbol (c : Copies) (h : Reachable c) (s : Symbol) :
    (∀ key, (removeAvailable c s).available.get key ≠ some s) ∧
    (removeAvailable c s).available.get s = none ∧
    (∀ key value, key ≠ s → value ≠ s →
      ((removeAvailable c s).available.get key = some value ↔
        c.available.get key = some value)) := by
  have hi := reachable_indexed c h
  refine ⟨?_, ?_, ?_⟩
  · intro key
    rw [removeAvailable_get_of_indexed c hi]
    by_cases hk : key = s ∨ c.available.get key = some s
    · simp [hk]
    · rw [if_neg hk]
      exact fun h' => hk (Or.inr h')
  · rw [removeAvailable_get_of_indexed c hi]; simp
  · intro key value hk hv
    rw [removeAvailable_get_of_indexed c hi]
    by_cases hks : c.available.get key = some s
    · simp only [hks, or_true, if_true]
      constructor
      · intro h'; simp at h'
      · intro h'
        simp only [Option.some.injEq] at h'
        exact absurd h'.symm hv
    · simp [hk, hks]



theorem reachable_invalidate (useSet defSet : List Nat) :
    ∀ (asts : List SymExprNode) (c : Copies), Reachable c →
      Reachable (invalidateAvailable useSet defSet c asts)
  | [], c, h => by simpa [invalidateAvailable] using h
  | se :: asts, c, h => by
      have ih := reachable_invalidate useSet defSet asts
      simp only [invalidateAvailable, List.foldl_cons] at ih ⊢
      by_cases hi : invalidateCopies se defSet useSet = true
      · simp only [hi, if_true]
        exact ih _ (Reachable.remove c se.var h)
      · simp only [hi]
        exact ih _ h

theorem reachable_insert (useSet defSet : List Nat) (c : Copies) (expr : Expr)
    (h : Reachable c) : Reachable (insertCopy useSet defSet c expr) := by
  unfold insertCopy
  split
  · exact Reachable.make _ _ _ h
  · exact h

theorem reachable_localStep (useSet defSet : List Nat) (c : Copies) (expr : Expr)
    (h : Reachable c) : Reachable (localStep useSet defSet c expr).2 := by
  unfold localStep
  exact reachable_insert _ _ _ _ (reachable_invalidate _ _ _ _ h)

theorem reachable_core (useSet defSet : List Nat) :
    ∀ (exprs : List Expr) (c : Copies), Reachable c →
      Reachable (localCopyPropagationCore useSet defSet exprs c).2
  | [], c, h => by simpa [localCopyPropagationCore] using h
  | e :: es, c, h => by
      simp only [localCopyPropagationCore]
      exact reachable_core useSet defSet es _ (reachable_localStep _ _ _ _ h)

/-- C1: in `localCopyPropagationCore`, statement `k` of the block comes out with
the same `SymExpr`s in the same places, and a `SymExpr` is rebound exactly when
it is in the use-set, its symbol has an entry in the forward map as left by the
statements before `k`, and `invalidateCopies` is false for it; it is rebound to
the mapped symbol itself, and every other `SymExpr` keeps its symbol. -/
theorem localCopyPropagationCore_rebinds (useSet defSet : List Nat) (exprs : List Expr) (c : Copies) (k : Nat)
    (expr : Expr) (h : exprs.get? k = some expr) :
    ∃ expr', (localCopyPropagationCore useSet defSet exprs c).1.get? k = some expr' ∧
      collectSymExprs none expr' =
        (collectSymExprs none expr).map (fun se =>
          match (localCopyPropagationCore useSet defSet (exprs.take k) c).2.available.get
              se.var with
          | some sym =>
              if se.id ∈ useSet ∧ invalidateCopies se defSet useSet = false then
                ⟨se.id, sym, se.parentExpr⟩
              else se
          | none => se) := by
  refine ⟨_, core_get useSet defSet exprs c k expr h, ?_⟩
  unfold propagateStatement
  rw [collect_rebind]
  apply List.map_congr_left
  intro se _
  unfold propagateUse
  cases hg : (localCopyPropagationCore useSet defSet (exprs.take k) c).2.available.get se.var with
  | none => simp
  | some sym =>
    by_cases hu : se.id ∈ useSet
    · by_cases hi : invalidateCopies se defSet useSet = true
      · simp [hu, hi]
      · simp [hu, hi]
    · simp [hu]

theorem copyStatement_of_shape (useSet defSet : List Nat) (lid rid : Nat) (dst src : Symbol)
    (base : Option Expr) (rest : List Expr) (hl : lid ∈ defSet)
    (hr : rid ∈ useSet ∨ src.isConstant = true ∨ src.isImmediate = true) (hne : dst ≠ src) :
    copyStatement useSet defSet
        (.CallExpr (some PRIMITIVE_MOVE) base (.SymExpr lid dst :: .SymExpr rid src :: rest)) =
      some ((lid, dst), (rid, src)) := by
  have hr' : (useSet.contains rid || src.isConstant || src.isImmediate) = true := by
    rcases hr with hr | hr | hr <;> simp [hr]
  have hl' : defSet.contains lid = true := by simpa using hl
  show (if dst ≠ src then
      if defSet.contains lid = true then
        if (useSet.contains rid || src.isConstant || src.isImmediate) = true then
          some ((lid, dst), (rid, src))
        else none
      else none
    else none) = _
  rw [if_pos hne, if_pos hl', if_pos hr']

theorem copyStatement_eq_some (useSet defSet : List Nat) (e : Expr)
    (pr : (Nat × Symbol) × (Nat × Symbol)) (h : copyStatement useSet defSet e = some pr) :
    ∃ base rest,
      e = .CallExpr (some PRIMITIVE_MOVE) base
        (.SymExpr pr.1.1 pr.1.2 :: .SymExpr pr.2.1 pr.2.2 :: rest) ∧
      pr.1.1 ∈ defSet ∧
      (pr.2.1 ∈ useSet ∨ pr.2.2.isConstant = true ∨ pr.2.2.isImmediate = true) ∧
      pr.1.2 ≠ pr.2.2 := by
  unfold copyStatement at h
  split at h
  · rename_i base lid lvar rid rvar rest
    split at h
    · rename_i hne
      split at h
      · rename_i hl
        split at h
        · rename_i hr
          simp only [Option.some.injEq] at h
          subst h
          refine ⟨base, rest, rfl, by simpa using hl, ?_, hne⟩
          simp only [Bool.or_eq_true] at hr
          rcases hr with (hr | hr) | hr
          · exact Or.inl (by simpa using hr)
          · exact Or.inr (Or.inl hr)
          · exact Or.inr (Or.inr hr)
        · simp at h
      · simp at h
    · simp at h
  · simp at h

/-- C3: one statement of `localCopyPropagationCore` inserts `dst -> src` exactly
when, after the rebinding of the first loop, it is a `PRIMITIVE_MOVE` whose
first two actuals are `SymExpr`s `lhs`, `rhs` with `lhs` in the def-set, `rhs`
in the use-set or its symbol constant or immediate, and the two symbols
different; the forward map then maps `dst` to `src` and is unchanged at every
other key, and otherwise the maps are those left by the second loop. -/
theorem localStep_inserts_copy (useSet defSet : List Nat) (c : Copies) (expr : Expr) :
    (∀ lid dst rid src base rest,
        (localStep useSet defSet c expr).1 =
            .CallExpr (some PRIMITIVE_MOVE) base (.SymExpr lid dst :: .SymExpr rid src :: rest) →
        lid ∈ defSet → (rid ∈ useSet ∨ src.isConstant = true ∨ src.isImmediate = true) →
        dst ≠ src →
          (localStep useSet defSet c expr).2 =
              makeAvailable
                (invalidateAvailable useSet defSet c
                  (collectSymExprs none (localStep useSet defSet c expr).1)) dst src ∧
          (localStep useSet defSet c expr).2.available.get dst = some src ∧
          ∀ key, key ≠ dst →
            (localStep useSet defSet c expr).2.available.get key =
              (invalidateAvailable useSet defSet c
                (collectSymExprs none (localStep useSet defSet c expr).1)).available.get key) ∧
    ((¬ ∃ lid dst rid src base rest,
        (localStep useSet defSet c expr).1 =
            .CallExpr (some PRIMITIVE_MOVE) base (.SymExpr lid dst :: .SymExpr rid src :: rest) ∧
        lid ∈ defSet ∧ (rid ∈ useSet ∨ src.isConstant = true ∨ src.isImmediate = true) ∧
        dst ≠ src) →
      (localStep useSet defSet c expr).2 =
        invalidateAvailable useSet defSet c
          (collectSymExprs none (localStep useSet defSet c expr).1)) := by
  constructor
  · intro lid dst rid src base rest hshape hl hr hne
    have hstep : (localStep useSet defSet c expr).2 =
        makeAvailable
          (invalidateAvailable useSet defSet c
            (collectSymExprs none (localStep useSet defSet c expr).1)) dst src := by
      have hcs : copyStatement useSet defSet (localStep useSet defSet c expr).1 =
          some ((lid, dst), (rid, src)) := by
        rw [hshape]
        exact copyStatement_of_shape useSet defSet lid rid dst src base rest hl hr hne
      show insertCopy useSet defSet _ (localStep useSet defSet c expr).1 = _
      unfold insertCopy
      rw [hcs]
      rfl
    refine ⟨hstep, ?_, ?_⟩
    · rw [hstep, makeAvailable_get]; simp
    · intro key hkey
      rw [hstep, makeAvailable_get]; simp [hkey]
  · intro hnot
    show insertCopy useSet defSet _ (localStep useSet defSet c expr).1 = _
    unfold insertCopy
    cases hcs : copyStatement useSet defSet (localStep useSet defSet c expr).1 with
    | none => rfl
    | some pr =>
      exfalso
      apply hnot
      rcases copyStatement_eq_some useSet defSet _ pr hcs with ⟨base, rest, he, hl, hr, hne⟩
      exact ⟨_, _, _, _, base, rest, he, hl, hr, hne⟩

theorem propagateUse_of_def (available : AvailableMap) (useSet defSet : List Nat)
    (se : SymExprNode) (h : se.id ∈ defSet) :
    propagateUse available useSet defSet se = se.var := by
  unfold propagateUse
  rw [invalidateCopies_of_def se defSet useSet h]
  split
  · split <;> simp
  · rfl

theorem propagateUse_of_none (available : AvailableMap) (useSet defSet : List Nat)
    (se : SymExprNode) (h : available.get se.var = none) :
    propagateUse available useSet defSet se = se.var := by
  unfold propagateUse
  rw [h]; simp

theorem propagateUse_of_some (available : AvailableMap) (useSet defSet : List Nat)
    (se : SymExprNode) (sym : Symbol) (h : available.get se.var = some sym)
    (hu : se.id ∈ useSet) (hi : invalidateCopies se defSet useSet = false) :
    propagateUse available useSet defSet se = sym := by
  unfold propagateUse
  rw [h]; simp [hu, hi]

theorem removeAvailable_get_none (c : Copies) (sym k : Symbol)
    (h : c.available.get k = none) : (removeAvailable c sym).available.get k = none := by
  rw [removeAvailable_get]
  split
  · rfl
  · split
    · rfl
    · exact h

theorem removeAvailable_get_self (c : Copies) (sym : Symbol) :
    (removeAvailable c sym).available.get sym = none := by
  rw [removeAvailable_get]; simp

theorem invalidate_get_none (useSet defSet : List Nat) (k : Symbol) :
    ∀ (asts : List SymExprNode) (c : Copies), c.available.get k = none →
      (invalidateAvailable useSet defSet c asts).available.get k = none
  | [], c, h => by simpa [invalidateAvailable] using h
  | se :: asts, c, h => by
      have ih := invalidate_get_none useSet defSet k asts
      simp only [invalidateAvailable, List.foldl_cons] at ih ⊢
      by_cases hi : invalidateCopies se defSet useSet = true
      · simp only [hi, if_true]
        exact ih _ (removeAvailable_get_none c se.var k h)
      · simp only [hi]
        exact ih _ h

theorem invalidate_removes_key (useSet defSet : List Nat) (se : SymExprNode)
    (hi : invalidateCopies se defSet useSet = true) :
    ∀ (asts : List SymExprNode) (c : Copies), se ∈ asts →
      (invalidateAvailable useSet defSet c asts).available.get se.var = none
  | [], c, h => by simp at h
  | s :: asts, c, h => by
      rcases List.mem_cons.1 h with h | h
      · subst h
        have := invalidate_get_none useSet defSet se.var asts (removeAvailable c se.var)
          (removeAvailable_get_self c se.var)
        simpa [invalidateAvailable, hi] using this
      · have ih := invalidate_removes_key useSet defSet se hi asts
        simp only [invalidateAvailable, List.foldl_cons] at ih ⊢
        exact ih _ h

theorem collect_move (l r : Nat) (x a : Symbol) :
    collectSymExprs none (.CallExpr (some PRIMITIVE_MOVE) none [.SymExpr l x, .SymExpr r a]) =
      [⟨l, x, some ⟨some PRIMITIVE_MOVE, 1⟩⟩, ⟨r, a, some ⟨some PRIMITIVE_MOVE, 2⟩⟩] := rfl

theorem propagate_move (useSet defSet : List Nat) (available : AvailableMap) (l r : Nat)
    (x a : Symbol) :
    propagateStatement useSet defSet available
        (.CallExpr (some PRIMITIVE_MOVE) none [.SymExpr l x, .SymExpr r a]) =
      .CallExpr (some PRIMITIVE_MOVE) none
        [.SymExpr l (propagateUse available useSet defSet ⟨l, x, some ⟨some PRIMITIVE_MOVE, 1⟩⟩),
         .SymExpr r (propagateUse available useSet defSet ⟨r, a, some ⟨some PRIMITIVE_MOVE, 2⟩⟩)] :=
  rfl

/-- The block `x:=a; y:=x; use(y)` under `localCopyPropagationCore` from empty maps. -/
theorem core_chain (useSet defSet : List Nat) (x y a : Symbol) (l1 r1 l2 r2 : Nat)
    (useStmt : Expr)
    (hl1 : l1 ∈ defSet) (hr1 : r1 ∈ useSet) (hl2 : l2 ∈ defSet) (hr2 : r2 ∈ useSet)
    (hr2d : r2 ∉ defSet) :
    ∃ s3,
      (localCopyPropagationCore useSet defSet
        [.CallExpr (some PRIMITIVE_MOVE) none [.SymExpr l1 x, .SymExpr r1 a],
         .CallExpr (some PRIMITIVE_MOVE) none [.SymExpr l2 y, .SymExpr r2 x],
         useStmt] Copies.empty).1 =
        [.CallExpr (some PRIMITIVE_MOVE) none [.SymExpr l1 x, .SymExpr r1 a],
         .CallExpr (some PRIMITIVE_MOVE) none [.SymExpr l2 y, .SymExpr r2 a], s3] ∧
      ∀ p se, (collectSymExprs none useStmt).get? p = some se → se.var = y →
        se.id ∈ useSet → invalidateCopies se defSet useSet = false →
        (collectSymExprs none s3).get? p = some ⟨se.id, a, se.parentExpr⟩ := by
  -- statement 1
  have hs1 : propagateStatement useSet defSet Copies.empty.available
      (.CallExpr (some PRIMITIVE_MOVE) none [.SymExpr l1 x, .SymExpr r1 a]) =
      .CallExpr (some PRIMITIVE_MOVE) none [.SymExpr l1 x, .SymExpr r1 a] := by
    rw [propagate_move, propagateUse_of_none _ _ _ _ rfl, propagateUse_of_none _ _ _ _ rfl]
  -- maps after statement 1
  obtain ⟨c1, hc1, hreach1, hget1⟩ : ∃ c1,
      (localStep useSet defSet Copies.empty
        (.CallExpr (some PRIMITIVE_MOVE) none [.SymExpr l1 x, .SymExpr r1 a])).2 = c1 ∧
      Reachable c1 ∧
      ∀ k, c1.available.get k = if k = x ∧ x ≠ a then some a else none := by
    refine ⟨_, rfl, reachable_localStep _ _ _ _ Reachable.empty, ?_⟩
    intro k
    simp only [localStep, hs1]
    have hinv : ∀ k, (invalidateAvailable useSet defSet Copies.empty
        (collectSymExprs none
          (.CallExpr (some PRIMITIVE_MOVE) none [.SymExpr l1 x, .SymExpr r1 a]))).available.get k
          = none := fun k => invalidate_get_none useSet defSet k _ _ rfl
    unfold insertCopy
    by_cases hxa : x = a
    · subst hxa
      have : copyStatement useSet defSet
          (.CallExpr (some PRIMITIVE_MOVE) none [.SymExpr l1 x, .SymExpr r1 x]) = none := by
        simp [copyStatement]
      rw [this]
      simp [hinv]
    · rw [copyStatement_of_shape useSet defSet l1 r1 x a none [] hl1 (Or.inl hr1) hxa]
      simp only [makeAvailable_get, hinv]
      by_cases hk : k = x <;> simp [hk, hxa]
  -- statement 2
  have hi2 : invalidateCopies ⟨r2, x, some ⟨some PRIMITIVE_MOVE, 2⟩⟩ defSet useSet = false :=
    invalidateCopies_move_use r2 x 2 defSet useSet hr2d
  have hs2 : propagateStatement useSet defSet c1.available
      (.CallExpr (some PRIMITIVE_MOVE) none [.SymExpr l2 y, .SymExpr r2 x]) =
      .CallExpr (some PRIMITIVE_MOVE) none [.SymExpr l2 y, .SymExpr r2 a] := by
    have h1 : propagateUse c1.available useSet defSet ⟨l2, y, some ⟨some PRIMITIVE_MOVE, 1⟩⟩ = y :=
      propagateUse_of_def _ _ _ _ hl2
    have h2 : propagateUse c1.available useSet defSet ⟨r2, x, some ⟨some PRIMITIVE_MOVE, 2⟩⟩ = a := by
      by_cases hxa : x = a
      · rw [propagateUse_of_none]
        · exact hxa
        · rw [hget1]; simp [hxa]
      · exact propagateUse_of_some _ _ _ _ a (by rw [hget1]; simp [hxa]) hr2 hi2
    rw [propagate_move, h1, h2]
  obtain ⟨c2, hc2, hget2⟩ : ∃ c2,
      (localStep useSet defSet c1
        (.CallExpr (some PRIMITIVE_MOVE) none [.SymExpr l2 y, .SymExpr r2 x])).2 = c2 ∧
      c2.available.get y = if y = a then none else some a := by
    refine ⟨_, rfl, ?_⟩
    simp only [localStep, hs2]
    have hinv : (invalidateAvailable useSet defSet c1
        (collectSymExprs none
          (.CallExpr (some PRIMITIVE_MOVE) none [.SymExpr l2 y, .SymExpr r2 a]))).available.get y
          = none :=
      invalidate_removes_key useSet defSet ⟨l2, y, some ⟨some PRIMITIVE_MOVE, 1⟩⟩
        (invalidateCopies_of_def _ _ _ hl2) _ c1 (by rw [collect_move]; simp)
    unfold insertCopy
    by_cases hya : y = a
    · subst hya
      have : copyStatement useSet defSet
          (.CallExpr (some PRIMITIVE_MOVE) none [.SymExpr l2 y, .SymExpr r2 y]) = none := by
        simp [copyStatement]
      rw [this]
      simp only [if_true]
      exact hinv
    · rw [copyStatement_of_shape useSet defSet l2 r2 y a none [] hl2 (Or.inl hr2) hya]
      simp [makeAvailable_get, hya]
  refine ⟨propagateStatement useSet defSet c2.available useStmt, ?_, ?_⟩
  · simp only [localCopyPropagationCore]
    rw [show (localStep useSet defSet Copies.empty
        (.CallExpr (some PRIMITIVE_MOVE) none [.SymExpr l1 x, .SymExpr r1 a])).1 = _ from hs1]
    rw [hc1]
    rw [show (localStep useSet defSet c1
        (.CallExpr (some PRIMITIVE_MOVE) none [.SymExpr l2 y, .SymExpr r2 x])).1 = _ from hs2]
    rw [hc2]
    rfl
  · intro p se hp hvar hu hi
    unfold propagateStatement
    rw [collect_rebind, List.get?_eq_getElem?, List.getElem?_map, ← List.get?_eq_getElem?, hp]
    simp only [Option.map_some']
    congr 1
    by_cases hya : y = a
    · rw [propagateUse_of_none]
      · simp [hvar, hya]
      · rw [hvar, hget2]; simp [hya]
    · rw [propagateUse_of_some _ _ _ _ a _ hu hi]
      rw [hvar, hget2]; simp [hya]

theorem mem_buildUseSet (su : SymUses) (locals : List Symbol) (sym : Symbol) (id : Nat)
    (hs : sym ∈ locals) (h : id ∈ su.uses sym) : id ∈ buildUseSet su locals :=
  List.mem_flatMap.2 ⟨sym, hs, h⟩

theorem mem_buildDefSet (su : SymUses) (locals : List Symbol) (sym : Symbol) (id : Nat)
    (hs : sym ∈ locals) (h : id ∈ su.defs sym) : id ∈ buildDefSet su locals :=
  List.mem_flatMap.2 ⟨sym, hs, h⟩

theorem local_get (csu : FnSymbol → SymUses) (fn : FnSymbol) (i : Nat) (bb : BasicBlock)
    (h : fn.basicBlocks.get? i = some bb) :
    (localCopyPropagation csu fn).basicBlocks.get? i =
      some ⟨(localCopyPropagationCore (buildUseSet (csu fn) (candidateLocals fn))
          (buildDefSet (csu fn) (candidateLocals fn)) bb.exprs Copies.empty).1, bb.ins, bb.outs⟩ := by
  simp only [localCopyPropagation, List.get?_eq_getElem?, List.getElem?_map]
  rw [List.get?_eq_getElem?] at h
  rw [h]; rfl

/-- C5: in a block `x:=a; y:=x; use(y)` with `x`, `y`, `a` candidate locals,
the `x` of the second statement not a def, and the occurrence of `y` in the third
statement a plain use, `localCopyPropagation` leaves `y:=a` as second statement
and makes the occurrence in the third statement reference `a`. -/
theorem localCopyPropagation_chain (csu : FnSymbol → SymUses) (fn : FnSymbol) (i : Nat) (bb : BasicBlock)
    (x y a : Symbol) (l1 r1 l2 r2 : Nat) (useStmt : Expr) (p : Nat) (se : SymExprNode)
    (hbb : fn.basicBlocks.get? i = some bb)
    (hexprs : bb.exprs =
      [.CallExpr (some PRIMITIVE_MOVE) none [.SymExpr l1 x, .SymExpr r1 a],
       .CallExpr (some PRIMITIVE_MOVE) none [.SymExpr l2 y, .SymExpr r2 x],
       useStmt])
    (hx : x ∈ candidateLocals fn) (hy : y ∈ candidateLocals fn) (ha : a ∈ candidateLocals fn)
    (hl1 : l1 ∈ (csu fn).defs x) (hr1 : r1 ∈ (csu fn).uses a)
    (hl2 : l2 ∈ (csu fn).defs y) (hr2 : r2 ∈ (csu fn).uses x)
    (hr2d : r2 ∉ buildDefSet (csu fn) (candidateLocals fn))
    (hse : (collectSymExprs none useStmt).get? p = some se) (hvar : se.var = y)
    (huse : se.id ∈ (csu fn).uses y)
    (hplain : invalidateCopies se (buildDefSet (csu fn) (candidateLocals fn))
      (buildUseSet (csu fn) (candidateLocals fn)) = false) :
    ∃ bb' s3, (localCopyPropagation csu fn).basicBlocks.get? i = some bb' ∧
      bb'.exprs =
        [.CallExpr (some PRIMITIVE_MOVE) none [.SymExpr l1 x, .SymExpr r1 a],
         .CallExpr (some PRIMITIVE_MOVE) none [.SymExpr l2 y, .SymExpr r2 a], s3] ∧
      (collectSymExprs none s3).get? p = some ⟨se.id, a, se.parentExpr⟩ := by
  obtain ⟨s3, h1, h2⟩ := core_chain (buildUseSet (csu fn) (candidateLocals fn))
    (buildDefSet (csu fn) (candidateLocals fn)) x y a l1 r1 l2 r2 useStmt
    (mem_buildDefSet _ _ x _ hx hl1) (mem_buildUseSet _ _ a _ ha hr1)
    (mem_buildDefSet _ _ y _ hy hl2) (mem_buildUseSet _ _ x _ hx hr2) hr2d
  refine ⟨_, s3, local_get csu fn i bb hbb, ?_, ?_⟩
  · rw [hexprs]; exact h1
  · exact h2 p se hse hvar (mem_buildUseSet _ _ y _ hy huse) hplain

theorem localCopyPropagation_chain_witness :
    ∃ bb' s3, (localCopyPropagation compute_sym_uses chainFn).basicBlocks.get? 1 = some bb' ∧
      bb'.exprs =
        [.CallExpr (some PRIMITIVE_MOVE) none [.SymExpr 10 (sampleVar 1), .SymExpr 11 (sampleVar 2)],
         .CallExpr (some PRIMITIVE_MOVE) none [.SymExpr 20 (sampleVar 3), .SymExpr 21 (sampleVar 2)],
         s3] ∧
      (collectSymExprs none s3).get? 0 =
        some ⟨30, sampleVar 2, some ⟨some (PRIMITIVE_OTHER 0), 1⟩⟩ :=
  localCopyPropagation_chain compute_sym_uses chainFn 1
    ⟨[sampleMove 10 1 2, sampleMove 20 3 1, sampleUse 30 3], [0], []⟩
    (sampleVar 1) (sampleVar 3) (sampleVar 2) 10 11 20 21 (sampleUse 30 3) 0
    ⟨30, sampleVar 3, some ⟨some (PRIMITIVE_OTHER 0), 1⟩⟩
    rfl rfl (by decide) (by decide) (by decide) (by decide) (by decide) (by decide) (by decide)
    (by decide) rfl rfl (by decide) (by decide)

/-- The block `x:=a; addr := &x; use(x)` under `localCopyPropagationCore` from empty maps. -/
theorem core_setRef (useSet defSet : List Nat) (x a addr : Symbol) (l1 r1 la rx : Nat)
    (useStmt : Expr) (hrx : rx ∈ useSet ∨ rx ∈ defSet) :
    ∃ addr' s3,
      (localCopyPropagationCore useSet defSet
        [.CallExpr (some PRIMITIVE_MOVE) none [.SymExpr l1 x, .SymExpr r1 a],
         .CallExpr (some PRIMITIVE_MOVE) none
           [.SymExpr la addr, .CallExpr (some PRIMITIVE_SET_REF) none [.SymExpr rx x]],
         useStmt] Copies.empty).1 =
        [.CallExpr (some PRIMITIVE_MOVE) none [.SymExpr l1 x, .SymExpr r1 a],
         .CallExpr (some PRIMITIVE_MOVE) none
           [.SymExpr la addr', .CallExpr (some PRIMITIVE_SET_REF) none [.SymExpr rx x]], s3] ∧
      ∀ p se, (collectSymExprs none useStmt).get? p = some se → se.var = x →
        (collectSymExprs none s3).get? p = some se := by
  have hs1 : propagateStatement useSet defSet Copies.empty.available
      (.CallExpr (some PRIMITIVE_MOVE) none [.SymExpr l1 x, .SymExpr r1 a]) =
      .CallExpr (some PRIMITIVE_MOVE) none [.SymExpr l1 x, .SymExpr r1 a] := by
    rw [propagate_move, propagateUse_of_none _ _ _ _ rfl, propagateUse_of_none _ _ _ _ rfl]
  have hinvx : ∀ var, invalidateCopies ⟨rx, var, some ⟨some PRIMITIVE_SET_REF, 1⟩⟩ defSet useSet
      = true := fun var => invalidateCopies_setRef rx var 1 defSet useSet hrx
  generalize hc1 : (localStep useSet defSet Copies.empty
        (.CallExpr (some PRIMITIVE_MOVE) none [.SymExpr l1 x, .SymExpr r1 a])).2 = c1
  have hpx : propagateUse c1.available useSet defSet
      ⟨rx, x, some ⟨some PRIMITIVE_SET_REF, 1⟩⟩ = x := by
    unfold propagateUse
    rw [hinvx]
    split
    · split <;> simp
    · rfl
  have hs2 : propagateStatement useSet defSet c1.available
      (.CallExpr (some PRIMITIVE_MOVE) none
           [.SymExpr la addr, .CallExpr (some PRIMITIVE_SET_REF) none [.SymExpr rx x]]) =
      .CallExpr (some PRIMITIVE_MOVE) none
        [.SymExpr la (propagateUse c1.available useSet defSet
            ⟨la, addr, some ⟨some PRIMITIVE_MOVE, 1⟩⟩),
         .CallExpr (some PRIMITIVE_SET_REF) none [.SymExpr rx x]] := by
    show Expr.CallExpr (some PRIMITIVE_MOVE) none
        [.SymExpr la (propagateUse c1.available useSet defSet
            ⟨la, addr, some ⟨some PRIMITIVE_MOVE, 1⟩⟩),
         .CallExpr (some PRIMITIVE_SET_REF) none [.SymExpr rx (propagateUse c1.available useSet
            defSet ⟨rx, x, some ⟨some PRIMITIVE_SET_REF, 1⟩⟩)]] = _
    rw [hpx]
  generalize hc2 : (localStep useSet defSet c1
        (.CallExpr (some PRIMITIVE_MOVE) none
           [.SymExpr la addr, .CallExpr (some PRIMITIVE_SET_REF) none [.SymExpr rx x]])).2 = c2
  have hget2 : c2.available.get x = none := by
    rw [← hc2]
    simp only [localStep, hs2]
    have hcs : ∀ v, copyStatement useSet defSet
        (.CallExpr (some PRIMITIVE_MOVE) none
          [.SymExpr la v, .CallExpr (some PRIMITIVE_SET_REF) none [.SymExpr rx x]]) = none :=
      fun _ => rfl
    unfold insertCopy
    rw [hcs]
    exact invalidate_removes_key useSet defSet ⟨rx, x, some ⟨some PRIMITIVE_SET_REF, 1⟩⟩
      (hinvx x) _ c1 (by simp [collectSymExprs, collectBase, collectActuals])
  refine ⟨propagateUse c1.available useSet defSet ⟨la, addr, some ⟨some PRIMITIVE_MOVE, 1⟩⟩,
    propagateStatement useSet defSet c2.available useStmt, ?_, ?_⟩
  · simp only [localCopyPropagationCore]
    rw [show (localStep useSet defSet Copies.empty
        (.CallExpr (some PRIMITIVE_MOVE) none [.SymExpr l1 x, .SymExpr r1 a])).1 = _ from hs1]
    rw [hc1]
    rw [show (localStep useSet defSet c1
        (.CallExpr (some PRIMITIVE_MOVE) none
           [.SymExpr la addr, .CallExpr (some PRIMITIVE_SET_REF) none [.SymExpr rx x]])).1 = _
        from hs2]
    rw [hc2]
    rfl
  · intro p se hp hvar
    unfold propagateStatement
    rw [collect_rebind, List.get?_eq_getElem?, List.getElem?_map, ← List.get?_eq_getElem?, hp]
    simp only [Option.map_some']
    rw [propagateUse_of_none _ _ _ _ (by rw [hvar]; exact hget2)]

/-- C6: in a block `x:=a; addr := &x; use(x)` (the reference taken with
`PRIMITIVE_SET_REF`, `x` a candidate local), `localCopyPropagation` rebinds
neither the occurrence of `x` under `PRIMITIVE_SET_REF` nor an occurrence of `x`
in the third statement. -/
theorem localCopyPropagation_setRef (csu : FnSymbol → SymUses) (fn : FnSymbol) (i : Nat) (bb : BasicBlock)
    (x a addr : Symbol) (l1 r1 la rx : Nat) (useStmt : Expr) (p : Nat) (se : SymExprNode)
    (hbb : fn.basicBlocks.get? i = some bb)
    (hexprs : bb.exprs =
      [.CallExpr (some PRIMITIVE_MOVE) none [.SymExpr l1 x, .SymExpr r1 a],
       .CallExpr (some PRIMITIVE_MOVE) none
         [.SymExpr la addr, .CallExpr (some PRIMITIVE_SET_REF) none [.SymExpr rx x]],
       useStmt])
    (hx : x ∈ candidateLocals fn)
    (hrx : rx ∈ (csu fn).uses x ∨ rx ∈ (csu fn).defs x)
    (hse : (collectSymExprs none useStmt).get? p = some se) (hvar : se.var = x) :
    ∃ bb' addr' s3, (localCopyPropagation csu fn).basicBlocks.get? i = some bb' ∧
      bb'.exprs =
        [.CallExpr (some PRIMITIVE_MOVE) none [.SymExpr l1 x, .SymExpr r1 a],
         .CallExpr (some PRIMITIVE_MOVE) none
           [.SymExpr la addr', .CallExpr (some PRIMITIVE_SET_REF) none [.SymExpr rx x]], s3] ∧
      (collectSymExprs none s3).get? p = some se := by
  obtain ⟨addr', s3, h1, h2⟩ := core_setRef (buildUseSet (csu fn) (candidateLocals fn))
    (buildDefSet (csu fn) (candidateLocals fn)) x a addr l1 r1 la rx useStmt
    (hrx.imp (mem_buildUseSet _ _ x _ hx) (mem_buildDefSet _ _ x _ hx))
  refine ⟨_, addr', s3, local_get csu fn i bb hbb, ?_, h2 p se hse hvar⟩
  rw [hexprs]; exact h1

theorem localCopyPropagation_setRef_witness :
    ∃ bb' addr' s3,
      (localCopyPropagation compute_sym_uses setRefFn).basicBlocks.get? 1 = some bb' ∧
      bb'.exprs =
        [.CallExpr (some PRIMITIVE_MOVE) none [.SymExpr 10 (sampleVar 1), .SymExpr 11 (sampleVar 2)],
         .CallExpr (some PRIMITIVE_MOVE) none
           [.SymExpr 20 addr',
            .CallExpr (some PRIMITIVE_SET_REF) none [.SymExpr 21 (sampleVar 1)]], s3] ∧
      (collectSymExprs none s3).get? 0 =
        some ⟨30, sampleVar 1, some ⟨some (PRIMITIVE_OTHER 0), 1⟩⟩ :=
  localCopyPropagation_setRef compute_sym_uses setRefFn 1
    ⟨[sampleMove 10 1 2,
      .CallExpr (some PRIMITIVE_MOVE) none
        [.SymExpr 20 (sampleVar 3),
         .CallExpr (some PRIMITIVE_SET_REF) none [.SymExpr 21 (sampleVar 1)]],
      sampleUse 30 1], [0], []⟩
    (sampleVar 1) (sampleVar 2) (sampleVar 3) 10 11 20 21 (sampleUse 30 1) 0
    ⟨30, sampleVar 1, some ⟨some (PRIMITIVE_OTHER 0), 1⟩⟩
    rfl rfl (by decide) (by decide) rfl rfl

/-- C4: `invalidateCopies` is true exactly for a `SymExpr` of the def-set, and
for one of the use-set whose parent is a call that is `PRIMITIVE_SET_REF`, or
`PRIMITIVE_GET_MEMBER` on a record, or `PRIMITIVE_SET_MEMBER` on a record with
the `SymExpr` as first actual, or `PRIMITIVE_GET_REAL` / `PRIMITIVE_GET_IMAG`
on a complex. -/
theorem invalidateCopies_characterised (se : SymExprNode) (defSet useSet : List Nat) :
    invalidateCopies se defSet useSet = true ↔
      (se.id ∈ defSet ∨
        (se.id ∈ useSet ∧ ∃ parent, se.parentExpr = some parent ∧
          (parent.primitive = some PRIMITIVE_SET_REF ∨
           (parent.primitive = some PRIMITIVE_GET_MEMBER ∧ se.var.type.isRecordType = true) ∨
           (parent.primitive = some PRIMITIVE_SET_MEMBER ∧ parent.index = 1 ∧
              se.var.type.isRecordType = true) ∨
           ((parent.primitive = some PRIMITIVE_GET_REAL ∨
              parent.primitive = some PRIMITIVE_GET_IMAG) ∧
              se.var.type.is_complex_type = true)))) := by
  unfold invalidateCopies
  by_cases hd : se.id ∈ defSet
  · simp [hd]
  · by_cases hu : se.id ∈ useSet
    · cases hp : se.parentExpr with
      | none => simp [hd, hu]
      | some parent =>
        by_cases h1 : parent.primitive = some PRIMITIVE_SET_REF
        · simp [hd, hu, h1, ParentCall.isPrimitive]
        · by_cases hr : se.var.type.isRecordType = true <;>
          by_cases hc : se.var.type.is_complex_type = true <;>
          by_cases h2 : parent.primitive = some PRIMITIVE_GET_MEMBER <;>
          by_cases h3 : parent.primitive = some PRIMITIVE_SET_MEMBER <;>
          by_cases h4 : parent.index = 1 <;>
          by_cases h5 : parent.primitive = some PRIMITIVE_GET_REAL <;>
          by_cases h6 : parent.primitive = some PRIMITIVE_GET_IMAG <;>
          simp_all [ParentCall.isPrimitive]
    · simp [hd, hu]

theorem localCopyPropagationCore_rebinds_witness :
    ∃ expr', (localCopyPropagationCore [11, 21, 30] [10, 20]
        [sampleMove 10 1 2, sampleMove 20 3 1, sampleUse 30 3] Copies.empty).1.get? 2 =
          some expr' ∧
      collectSymExprs none expr' =
        (collectSymExprs none (sampleUse 30 3)).map (fun se =>
          match (localCopyPropagationCore [11, 21, 30] [10, 20]
              ([sampleMove 10 1 2, sampleMove 20 3 1, sampleUse 30 3].take 2)
              Copies.empty).2.available.get se.var with
          | some sym =>
              if se.id ∈ [11, 21, 30] ∧ invalidateCopies se [10, 20] [11, 21, 30] = false then
                ⟨se.id, sym, se.parentExpr⟩
              else se
          | none => se) :=
  localCopyPropagationCore_rebinds [11, 21, 30] [10, 20]
    [sampleMove 10 1 2, sampleMove 20 3 1, sampleUse 30 3] Copies.empty 2 (sampleUse 30 3) rfl

theorem removeAvailable_drops_symbol_witness :
    (∀ key, (removeAvailable (makeAvailable Copies.empty (sampleVar 1) (sampleVar 2))
        (sampleVar 2)).available.get key ≠ some (sampleVar 2)) ∧
    (removeAvailable (makeAvailable Copies.empty (sampleVar 1) (sampleVar 2))
        (sampleVar 2)).available.get (sampleVar 2) = none ∧
    (∀ key value, key ≠ sampleVar 2 → value ≠ sampleVar 2 →
      ((removeAvailable (makeAvailable Copies.empty (sampleVar 1) (sampleVar 2))
          (sampleVar 2)).available.get key = some value ↔
        (makeAvailable Copies.empty (sampleVar 1) (sampleVar 2)).available.get key =
          some value)) :=
  removeAvailable_drops_symbol (makeAvailable Copies.empty (sampleVar 1) (sampleVar 2))
    (Reachable.make _ _ _ Reachable.empty) (sampleVar 2)

theorem sparseInvalidate_frame (blocks : List BasicBlock) (sym : Symbol)
    (ps0 q : List (Option CopyPair)) :
    sparseInvalidate blocks ps0.length sym (ps0 ++ q) =
      ps0 ++ sparseInvalidate blocks 0 sym q := by
  simp [sparseInvalidate]

theorem sparseFold_frame (useSet defSet : List Nat) (blocks : List BasicBlock)
    (ps0 : List (Option CopyPair)) :
    ∀ (asts : List SymExprNode) (q : List (Option CopyPair)),
      asts.foldl (fun ps se =>
          if invalidateCopies se defSet useSet then
            sparseInvalidate blocks ps0.length se.var ps
          else ps) (ps0 ++ q) =
        ps0 ++ asts.foldl (fun ps se =>
          if invalidateCopies se defSet useSet then sparseInvalidate blocks 0 se.var ps
          else ps) q
  | [], q => rfl
  | se :: asts, q => by
      simp only [List.foldl_cons]
      by_cases h : invalidateCopies se defSet useSet = true
      · simp only [h, if_true, sparseInvalidate_frame]
        exact sparseFold_frame useSet defSet blocks ps0 asts _
      · simp only [h]
        exact sparseFold_frame useSet defSet blocks ps0 asts _

theorem sparseStatement_frame (useSet defSet : List Nat) (blocks : List BasicBlock)
    (bi si : Nat) (ps0 q : List (Option CopyPair)) (expr : Expr) :
    sparseStatement useSet defSet blocks ps0.length bi si (ps0 ++ q) expr =
      ps0 ++ sparseStatement useSet defSet blocks 0 bi si q expr := by
  unfold sparseStatement
  simp only [sparseFold_frame]
  split <;> simp

theorem sparseBlock_frame (useSet defSet : List Nat) (blocks : List BasicBlock)
    (bi : Nat) (ps0 : List (Option CopyPair)) :
    ∀ (exprs : List Expr) (si : Nat) (q : List (Option CopyPair)),
      sparseBlock useSet defSet blocks ps0.length bi si exprs (ps0 ++ q) =
        ps0 ++ sparseBlock useSet defSet blocks 0 bi si exprs q
  | [], _, _ => rfl
  | e :: es, si, q => by
      simp only [sparseBlock, sparseStatement_frame]
      exact sparseBlock_frame useSet defSet blocks bi ps0 es (si + 1) _

/-- The sparse lists of the blocks from block `bi` on. -/
theorem sparseBlocks_eq (useSet defSet : List Nat) (blocks : List BasicBlock) :
    ∀ (rest : List BasicBlock) (bi : Nat) (ps : List (Option CopyPair)) (Ns : List Nat),
      ∃ segs : List (List (Option CopyPair)),
        segs.length = rest.length ∧
        (∀ t bb, rest.get? t = some bb →
          segs.get? t = some (sparseBlock useSet defSet blocks 0 (bi + t) 0 bb.exprs [])) ∧
        sparseBlocks useSet defSet blocks bi rest (ps, Ns) =
          (ps ++ segs.flatten, Ns ++ runningSums ps.length (segs.map List.length))
  | [], bi, ps, Ns => ⟨[], rfl, by simp, by simp [sparseBlocks, runningSums]⟩
  | bb :: rest, bi, ps, Ns => by
      obtain ⟨segs, hlen, hget, heq⟩ := sparseBlocks_eq useSet defSet blocks rest (bi + 1)
        (ps ++ sparseBlock useSet defSet blocks 0 bi 0 bb.exprs [])
        (Ns ++ [(ps ++ sparseBlock useSet defSet blocks 0 bi 0 bb.exprs []).length])
      refine ⟨sparseBlock useSet defSet blocks 0 bi 0 bb.exprs [] :: segs, by simp [hlen], ?_, ?_⟩
      · intro t b ht
        cases t with
        | zero => simp at ht; subst ht; simp
        | succ t =>
          simp only [List.get?_cons_succ] at ht ⊢
          rw [hget t b ht]
          congr 2; omega
      · simp only [sparseBlocks]
        have := sparseBlock_frame useSet defSet blocks bi ps bb.exprs 0 []
        simp only [List.append_nil] at this
        rw [this, heq]
        simp [runningSums, List.append_assoc]

theorem denseLoop_eq :
    ∀ (s pre post : List (Option CopyPair)) (dense : List CopyPair),
      denseLoop (pre ++ s ++ post) s.length pre.length dense =
        (pre.length + s.length, dense ++ s.filterMap id)
  | [], pre, post, dense => by simp [denseLoop]
  | e :: s, pre, post, dense => by
      have ih := denseLoop_eq s (pre ++ [e]) post
      simp only [List.length_cons, denseLoop]
      have hget : (pre ++ e :: s ++ post).getD pre.length none = e := by
        rw [List.getD_eq_getElem?_getD, List.append_assoc,
          List.getElem?_append_right (Nat.le_refl _)]
        simp
      rw [hget]
      have hre : pre ++ e :: s ++ post = pre ++ [e] ++ s ++ post := by simp
      rw [hre]
      have hl : pre.length + 1 = (pre ++ [e]).length := by simp
      rw [hl, ih]
      cases e with
      | none => simp; omega
      | some p => simp; omega

theorem densify_eq :
    ∀ (segs : List (List (Option CopyPair))) (pre post : List (Option CopyPair))
      (dense : List CopyPair) (N : List Nat),
      densify (pre ++ segs.flatten ++ post) (runningSums pre.length (segs.map List.length))
          (pre.length, dense, N) =
        (pre.length + segs.flatten.length, dense ++ (segs.map (List.filterMap id)).flatten,
          N ++ runningSums dense.length
            ((segs.map (List.filterMap id)).map List.length))
  | [], pre, post, dense, N => by simp [densify, runningSums]
  | s :: segs, pre, post, dense, N => by
      have ih := densify_eq segs (pre ++ s) post (dense ++ s.filterMap id)
        (N ++ [(dense ++ s.filterMap id).length])
      simp only [List.map_cons, runningSums, densify, List.flatten_cons]
      have h1 : pre.length + s.length - pre.length = s.length := by omega
      have hre : pre ++ (s ++ segs.flatten) ++ post = pre ++ s ++ (segs.flatten ++ post) := by simp
      rw [h1, hre, denseLoop_eq]
      have hre2 : pre ++ s ++ (segs.flatten ++ post) = pre ++ s ++ segs.flatten ++ post := by simp
      have hl : pre.length + s.length = (pre ++ s).length := by simp
      rw [hre2, hl, ih]
      simp [List.append_assoc, Nat.add_assoc]
theorem pairsFrom_get (useSet defSet : List Nat) (blocks : List BasicBlock) :
    ∀ (rest : List BasicBlock) (bi t : Nat) (bb : BasicBlock), rest.get? t = some bb →
      (pairsFrom useSet defSet blocks bi rest).get? t =
        some (blockPairs useSet defSet blocks (bi + t) bb)
  | [], _, _, _, h => by simp at h
  | b :: rest, bi, 0, bb, h => by
      simp at h; subst h; simp [pairsFrom]
  | b :: rest, bi, t + 1, bb, h => by
      simp only [List.get?_cons_succ] at h
      simp only [pairsFrom, List.get?_cons_succ]
      rw [pairsFrom_get useSet defSet blocks rest (bi + 1) t bb h]
      congr 2; omega

theorem pairsFrom_length (useSet defSet : List Nat) (blocks : List BasicBlock) :
    ∀ (rest : List BasicBlock) (bi : Nat),
      (pairsFrom useSet defSet blocks bi rest).length = rest.length
  | [], _ => rfl
  | b :: rest, bi => by simp [pairsFrom, pairsFrom_length useSet defSet blocks rest]

theorem sparse_segs_eq (useSet defSet : List Nat) (blocks : List BasicBlock) :
    ∀ (rest : List BasicBlock) (bi : Nat) (segs : List (List (Option CopyPair))),
      segs.length = rest.length →
      (∀ t bb, rest.get? t = some bb →
          segs.get? t = some (sparseBlock useSet defSet blocks 0 (bi + t) 0 bb.exprs [])) →
      segs.map (List.filterMap id) = pairsFrom useSet defSet blocks bi rest
  | [], bi, segs, hlen, _ => by
      cases segs with
      | nil => rfl
      | cons _ _ => simp at hlen
  | b :: rest, bi, segs, hlen, hget => by
      cases segs with
      | nil => simp at hlen
      | cons s segs =>
        have h0 := hget 0 b rfl
        simp at h0
        simp only [List.map_cons, pairsFrom, blockPairs, h0]
        congr 1
        apply sparse_segs_eq useSet defSet blocks rest (bi + 1) segs (by simpa using hlen)
        intro t bb ht
        have := hget (t + 1) bb (by simpa using ht)
        simp only [List.get?_cons_succ] at this
        rw [this]
        congr 2; omega

/-- The vectors `LHS`/`RHS` and `N` are the pairs of the blocks, block after
block, and the running count of them. -/
theorem analysis_pairs (csu : FnSymbol → SymUses) (flow : FlowAnalysis) (fn : FnSymbol) :
    (globalAnalysis csu flow fn).dense =
        (pairsFrom (globalAnalysis csu flow fn).useSet (globalAnalysis csu flow fn).defSet
          fn.basicBlocks 0 fn.basicBlocks).flatten ∧
    (globalAnalysis csu flow fn).N =
        runningSums 0
          ((pairsFrom (globalAnalysis csu flow fn).useSet (globalAnalysis csu flow fn).defSet
            fn.basicBlocks 0 fn.basicBlocks).map List.length) := by
  obtain ⟨segs, hlen, hget, heq⟩ := sparseBlocks_eq
    (buildUseSet (csu fn) (candidateLocals fn)) (buildDefSet (csu fn) (candidateLocals fn))
    fn.basicBlocks fn.basicBlocks 0 [] []
  have hd := densify_eq segs [] [] [] []
  have hsegs := sparse_segs_eq (buildUseSet (csu fn) (candidateLocals fn))
    (buildDefSet (csu fn) (candidateLocals fn)) fn.basicBlocks fn.basicBlocks 0 segs hlen hget
  simp only [List.nil_append, List.append_nil, List.length_nil] at heq hd
  simp only [globalAnalysis, heq, hd, hsegs]
  exact ⟨trivial, trivial⟩

theorem runningSums_length : ∀ (ls : List Nat) (b : Nat), (runningSums b ls).length = ls.length
  | [], _ => rfl
  | l :: ls, b => by simp [runningSums, runningSums_length ls]

theorem runningSums_get : ∀ (ls : List Nat) (b i : Nat), i < ls.length →
    (runningSums b ls).getD i 0 = b + (ls.take (i + 1)).sum
  | [], _, _, h => by simp at h
  | l :: ls, b, 0, _ => by simp [runningSums]
  | l :: ls, b, i + 1, h => by
      simp only [runningSums, List.getD_cons_succ]
      rw [runningSums_get ls (b + l) i (by simpa using h)]
      simp [List.take_succ_cons, Nat.add_assoc]

theorem pairOffset_succ (ds : List (List CopyPair)) (i : Nat) (d : List CopyPair)
    (h : ds.get? i = some d) : pairOffset ds (i + 1) = pairOffset ds i + d.length := by
  unfold pairOffset
  rw [List.get?_eq_getElem?] at h
  rw [List.take_succ, h]
  simp

theorem pairOffset_mono (ds : List (List CopyPair)) (i k : Nat) (h : i ≤ k) :
    pairOffset ds i ≤ pairOffset ds k := by
  induction k with
  | zero => simp at h; subst h; exact Nat.le_refl _
  | succ k ih =>
    rcases Nat.lt_or_ge i (k + 1) with hlt | hge
    · have hle := ih (by omega)
      cases hk : ds.get? k with
      | none =>
        have : pairOffset ds (k + 1) = pairOffset ds k := by
          unfold pairOffset
          rw [List.get?_eq_getElem?] at hk
          rw [List.take_succ, hk]; simp
        omega
      | some d => rw [pairOffset_succ ds k d hk]; omega
    · have : i = k + 1 := by omega
      subst this; exact Nat.le_refl _

theorem pairOffset_length (ds : List (List CopyPair)) :
    pairOffset ds ds.length = ds.flatten.length := by
  unfold pairOffset
  simp [List.length_flatten]

theorem flatten_get_offset : ∀ (ds : List (List CopyPair)) (i t : Nat) (d : List CopyPair)
    (p : CopyPair), ds.get? i = some d → d.get? t = some p →
      ds.flatten.get? (pairOffset ds i + t) = some p
  | [], _, _, _, _, h, _ => by simp at h
  | d0 :: ds, 0, t, d, p, h, ht => by
      simp at h; subst h
      have hlt : t < d0.length := (List.get?_eq_some.1 ht).1
      simp only [pairOffset, List.take_zero, List.map_nil, List.sum_nil, Nat.zero_add,
        List.flatten_cons]
      rw [List.get?_eq_getElem?, List.getElem?_append_left hlt, ← List.get?_eq_getElem?]
      exact ht
  | d0 :: ds, i + 1, t, d, p, h, ht => by
      simp only [List.get?_cons_succ] at h
      have ih := flatten_get_offset ds i t d p h ht
      have : pairOffset (d0 :: ds) (i + 1) + t = d0.length + (pairOffset ds i + t) := by
        simp [pairOffset, Nat.add_assoc]
      rw [this, List.flatten_cons, List.get?_eq_getElem?,
        List.getElem?_append_right (Nat.le_add_right _ _)]
      rw [List.get?_eq_getElem?] at ih
      simpa using ih

theorem flatten_get_block : ∀ (ds : List (List CopyPair)) (k : Nat) (p : CopyPair),
    ds.flatten.get? k = some p →
      ∃ i t d, ds.get? i = some d ∧ d.get? t = some p ∧ k = pairOffset ds i + t
  | [], k, p, h => by simp at h
  | d0 :: ds, k, p, h => by
      rw [List.flatten_cons, List.get?_eq_getElem?] at h
      rcases Nat.lt_or_ge k d0.length with hlt | hge
      · rw [List.getElem?_append_left hlt] at h
        exact ⟨0, k, d0, rfl, by rw [List.get?_eq_getElem?]; exact h, by simp [pairOffset]⟩
      · rw [List.getElem?_append_right hge] at h
        obtain ⟨i, t, d, hi, ht, hk⟩ := flatten_get_block ds (k - d0.length) p
          (by rw [List.get?_eq_getElem?]; exact h)
        refine ⟨i + 1, t, d, by simpa using hi, ht, ?_⟩
        have : pairOffset (d0 :: ds) (i + 1) = d0.length + pairOffset ds i := by
          simp [pairOffset]
        omega
theorem getD_set_bool (v : List Bool) (j k : Nat) (b : Bool) :
    (v.set j b).getD k false = if j = k ∧ j < v.length then b else v.getD k false := by
  by_cases hjk : j = k
  · subst hjk
    by_cases hl : j < v.length
    · simp [List.getD_eq_getElem?_getD, List.getElem?_set, hl]
    · have hle : v.length ≤ j := by omega
      simp [List.getD_eq_getElem?_getD, List.getElem?_set, hl, List.getElem?_eq_none hle]
  · simp [List.getD_eq_getElem?_getD, List.getElem?_set, hjk]

theorem copyLoop_spec : ∀ (fuel j : Nat) (v : List Bool),
    (copyLoop fuel j v).1 = j + fuel ∧ (copyLoop fuel j v).2.length = v.length ∧
    ∀ k, (copyLoop fuel j v).2.getD k false =
      (v.getD k false || decide (j ≤ k ∧ k < j + fuel ∧ k < v.length))
  | 0, j, v => by
      refine ⟨rfl, rfl, fun k => ?_⟩
      have h : ¬ (j ≤ k ∧ k < j + 0 ∧ k < v.length) := by omega
      simp only [copyLoop, h, decide_False, Bool.or_false]
  | fuel + 1, j, v => by
      obtain ⟨h1, h2, h3⟩ := copyLoop_spec fuel (j + 1) (v.set j true)
      simp only [copyLoop]
      refine ⟨by rw [h1]; omega, by rw [h2]; simp, ?_⟩
      intro k
      rw [h3, getD_set_bool]
      simp only [List.length_set]
      by_cases hjk : j = k
      · subst hjk
        by_cases hl : j < v.length
        · simp [hl]
        · simp [hl]
      · by_cases hv : v.getD k false = true
        · simp only [hjk, false_and, if_false, hv, Bool.true_or]
        · simp only [hjk, false_and, if_false, hv, Bool.false_or, decide_eq_decide]
          constructor
          · rintro ⟨a, b, c⟩; exact ⟨by omega, by omega, c⟩
          · rintro ⟨a, b, c⟩; exact ⟨by omega, by omega, c⟩

theorem buildCOPY_eq (size : Nat) :
    ∀ (ls : List Nat) (j : Nat) (C : List (List Bool)),
      ∃ vs : List (List Bool), vs.length = ls.length ∧
        (∀ t l, ls.get? t = some l →
          vs.get? t =
            some (copyLoop l (j + (ls.take t).sum) (List.replicate size false)).2) ∧
        (buildCOPY size (runningSums j ls) (j, C)).2 = C ++ vs
  | [], j, C => ⟨[], rfl, by simp, by simp [buildCOPY, runningSums]⟩
  | l :: ls, j, C => by
      obtain ⟨vs, hlen, hget, heq⟩ := buildCOPY_eq size ls (j + l)
        (C ++ [(copyLoop l j (List.replicate size false)).2])
      refine ⟨(copyLoop l j (List.replicate size false)).2 :: vs, by simp [hlen], ?_, ?_⟩
      · intro t l' ht
        cases t with
        | zero => simp at ht; subst ht; simp
        | succ t =>
          simp only [List.get?_cons_succ] at ht ⊢
          rw [hget t l' ht]
          simp [List.take_succ_cons, Nat.add_assoc]
      · simp only [runningSums, buildCOPY]
        have h1 : j + l - j = l := by omega
        rw [h1, (copyLoop_spec l j (List.replicate size false)).1, heq]
        simp

theorem buildKILL_get (useSet defSet : List Nat) (blocks : List BasicBlock)
    (dense : List CopyPair) (N : List Nat) (size : Nat) :
    ∀ (bbs : List BasicBlock) (i start t : Nat) (bb : BasicBlock), bbs.get? t = some bb →
      (buildKILL useSet defSet blocks dense N size i start bbs).get? t =
        some (killBlock useSet defSet blocks dense
          (if t = 0 then start else N.getD (i + t - 1) 0) (N.getD (i + t) 0) bb.exprs
          (List.replicate size false))
  | [], _, _, _, _, h => by simp at h
  | b :: bbs, i, start, 0, bb, h => by
      simp at h; subst h; simp [buildKILL]
  | b :: bbs, i, start, t + 1, bb, h => by
      simp only [List.get?_cons_succ] at h
      simp only [buildKILL, List.get?_cons_succ]
      rw [buildKILL_get useSet defSet blocks dense N size bbs (i + 1) _ t bb h]
      have h1 : i + 1 + t = i + (t + 1) := by omega
      have h2 : i + 1 + t - 1 = i + (t + 1) - 1 := by omega
      simp only [h1, h2]
      cases t with
      | zero => simp
      | succ t => simp

theorem killLoop_spec (blocks : List BasicBlock) (dense : List CopyPair) (sym : Symbol) :
    ∀ (js : List Nat) (kill : List Bool),
      (killLoop blocks dense sym js kill).length = kill.length ∧
      (∀ k, kill.getD k false = true → (killLoop blocks dense sym js kill).getD k false = true) ∧
      (∀ k p, k ∈ js → k < kill.length → dense.get? k = some p → p.mentions blocks sym = true →
        (killLoop blocks dense sym js kill).getD k false = true)
  | [], kill => by simp [killLoop]
  | j :: js, kill => by
      have hstep : killLoop blocks dense sym (j :: js) kill =
          killLoop blocks dense sym js
            (match dense.get? j with
              | some p => if p.mentions blocks sym then kill.set j true else kill
              | none => kill) := rfl
      rw [hstep]
      have hk1 : (match dense.get? j with
              | some p => if p.mentions blocks sym then kill.set j true else kill
              | none => kill).length = kill.length := by
        split
        · split <;> simp
        · rfl
      have hk2 : ∀ k, kill.getD k false = true →
          (match dense.get? j with
              | some p => if p.mentions blocks sym then kill.set j true else kill
              | none => kill).getD k false = true := by
        intro k hk
        split
        · split
          · rw [getD_set_bool]
            split
            · rfl
            · exact hk
          · exact hk
        · exact hk
      obtain ⟨ih1, ih2, ih3⟩ := killLoop_spec blocks dense sym js
        (match dense.get? j with
              | some p => if p.mentions blocks sym then kill.set j true else kill
              | none => kill)
      refine ⟨by rw [ih1, hk1], fun k hk => ih2 k (hk2 k hk), ?_⟩
      intro k p hmem hlt hd hm
      rcases List.mem_cons.1 hmem with h | h
      · subst h
        apply ih2
        rw [hd]
        simp only [hm, if_true]
        rw [getD_set_bool]; simp [hlt]
      · exact ih3 k p h (by rw [hk1]; exact hlt) hd hm

theorem killSymbol_spec (blocks : List BasicBlock) (dense : List CopyPair) (start stop : Nat)
    (sym : Symbol) (kill : List Bool) :
    (killSymbol blocks dense start stop sym kill).length = kill.length ∧
    (∀ k, kill.getD k false = true →
      (killSymbol blocks dense start stop sym kill).getD k false = true) ∧
    (∀ k p, (k < start ∨ stop ≤ k) → k < kill.length → dense.get? k = some p →
      p.mentions blocks sym = true →
      (killSymbol blocks dense start stop sym kill).getD k false = true) := by
  unfold killSymbol
  obtain ⟨a1, a2, a3⟩ := killLoop_spec blocks dense sym (List.range start) kill
  obtain ⟨b1, b2, b3⟩ := killLoop_spec blocks dense sym
    (List.range' stop (dense.length - stop)) (killLoop blocks dense sym (List.range start) kill)
  refine ⟨by rw [b1, a1], fun k hk => b2 k (a2 k hk), ?_⟩
  intro k p hk hlt hd hm
  rcases hk with hk | hk
  · exact b2 k (a3 k p (List.mem_range.2 hk) hlt hd hm)
  · have hkd : k < dense.length := (List.get?_eq_some.1 hd).1
    exact b3 k p (by rw [List.mem_range']; exact ⟨k - stop, by omega, by omega⟩)
      (by rw [a1]; exact hlt) hd hm

theorem killFold_spec (useSet defSet : List Nat) (blocks : List BasicBlock)
    (dense : List CopyPair) (start stop : Nat) :
    ∀ (asts : List SymExprNode) (kill : List Bool),
      (asts.foldl (fun k se =>
          if invalidateCopies se defSet useSet then killSymbol blocks dense start stop se.var k
          else k) kill).length = kill.length ∧
      (∀ k, kill.getD k false = true →
        (asts.foldl (fun k se =>
          if invalidateCopies se defSet useSet then killSymbol blocks dense start stop se.var k
          else k) kill).getD k false = true) ∧
      (∀ se k p, se ∈ asts → invalidateCopies se defSet useSet = true →
        (k < start ∨ stop ≤ k) → k < kill.length → dense.get? k = some p →
        p.mentions blocks se.var = true →
        (asts.foldl (fun k se =>
          if invalidateCopies se defSet useSet then killSymbol blocks dense start stop se.var k
          else k) kill).getD k false = true)
  | [], kill => by simp
  | s :: asts, kill => by
      simp only [List.foldl_cons]
      by_cases hs : invalidateCopies s defSet useSet = true
      · simp only [hs, if_true]
        obtain ⟨a1, a2, a3⟩ := killSymbol_spec blocks dense start stop s.var kill
        obtain ⟨b1, b2, b3⟩ := killFold_spec useSet defSet blocks dense start stop asts
          (killSymbol blocks dense start stop s.var kill)
        refine ⟨by rw [b1, a1], fun k hk => b2 k (a2 k hk), ?_⟩
        intro se k p hmem hi hk hlt hd hm
        rcases List.mem_cons.1 hmem with h | h
        · subst h
          exact b2 k (a3 k p hk hlt hd hm)
        · exact b3 se k p h hi hk (by rw [a1]; exact hlt) hd hm
      · simp only [hs]
        obtain ⟨b1, b2, b3⟩ := killFold_spec useSet defSet blocks dense start stop asts kill
        refine ⟨b1, b2, ?_⟩
        intro se k p hmem hi hk hlt hd hm
        rcases List.mem_cons.1 hmem with h | h
        · subst h; exact absurd hi hs
        · exact b3 se k p h hi hk hlt hd hm

theorem killBlock_spec (useSet defSet : List Nat) (blocks : List BasicBlock)
    (dense : List CopyPair) (start stop : Nat) :
    ∀ (exprs : List Expr) (kill : List Bool),
      (killBlock useSet defSet blocks dense start stop exprs kill).length = kill.length ∧
      (∀ k, kill.getD k false = true →
        (killBlock useSet defSet blocks dense start stop exprs kill).getD k false = true) ∧
      (∀ e se k p, e ∈ exprs → se ∈ collectSymExprs none e →
        invalidateCopies se defSet useSet = true →
        (k < start ∨ stop ≤ k) → k < kill.length → dense.get? k = some p →
        p.mentions blocks se.var = true →
        (killBlock useSet defSet blocks dense start stop exprs kill).getD k false = true)
  | [], kill => by simp [killBlock]
  | x :: exprs, kill => by
      have hstep : killBlock useSet defSet blocks dense start stop (x :: exprs) kill =
          killBlock useSet defSet blocks dense start stop exprs
            ((collectSymExprs none x).foldl (fun k se =>
              if invalidateCopies se defSet useSet then
                killSymbol blocks dense start stop se.var k
              else k) kill) := rfl
      rw [hstep]
      obtain ⟨a1, a2, a3⟩ := killFold_spec useSet defSet blocks dense start stop
        (collectSymExprs none x) kill
      obtain ⟨b1, b2, b3⟩ := killBlock_spec useSet defSet blocks dense start stop exprs
        ((collectSymExprs none x).foldl (fun k se =>
              if invalidateCopies se defSet useSet then
                killSymbol blocks dense start stop se.var k
              else k) kill)
      refine ⟨by rw [b1, a1], fun k hk => b2 k (a2 k hk), ?_⟩
      intro e se k p hmem hse hi hk hlt hd hm
      rcases List.mem_cons.1 hmem with h | h
      · subst h
        exact b2 k (a3 se k p hse hi hk hlt hd hm)
      · exact b3 e se k p h hse hi hk (by rw [a1]; exact hlt) hd hm
theorem take_map_length_sum (ds : List (List CopyPair)) (i : Nat) :
    ((ds.map List.length).take i).sum = pairOffset ds i := by
  simp [pairOffset, List.map_take]

theorem N_getD (ds : List (List CopyPair)) (i : Nat) (h : i < ds.length) :
    (runningSums 0 (ds.map List.length)).getD i 0 = pairOffset ds (i + 1) := by
  rw [runningSums_get _ _ _ (by simpa using h), take_map_length_sum]
  simp

theorem N_size (ds : List (List CopyPair)) (h : 1 ≤ ds.length) :
    (runningSums 0 (ds.map List.length)).getD (ds.length - 1) 0 = ds.flatten.length := by
  rw [N_getD ds (ds.length - 1) (by omega)]
  have : ds.length - 1 + 1 = ds.length := by omega
  rw [this, pairOffset_length]

theorem COPY_bit (ds : List (List CopyPair)) (size i : Nat) (hi : i < ds.length)
    (hsize : size = ds.flatten.length) (k : Nat) :
    bit (buildCOPY size (runningSums 0 (ds.map List.length)) (0, [])).2 i k =
      decide (pairOffset ds i ≤ k ∧ k < pairOffset ds (i + 1)) := by
  obtain ⟨vs, hlen, hget, heq⟩ := buildCOPY_eq size (ds.map List.length) 0 []
  obtain ⟨d, hd⟩ : ∃ d, ds.get? i = some d := by
    rw [List.get?_eq_getElem?]
    exact ⟨ds[i], List.getElem?_eq_getElem hi⟩
  have hl : (ds.map List.length).get? i = some d.length := by
    rw [List.get?_eq_getElem?] at hd ⊢
    simp [hd]
  have hv := hget i d.length hl
  rw [heq, List.nil_append]
  unfold bit
  rw [List.get?_eq_getElem?] at hv
  have hvs : vs.getD i [] =
      (copyLoop d.length (0 + (List.take i (List.map List.length ds)).sum)
        (List.replicate size false)).2 := by
    rw [List.getD_eq_getElem?_getD, hv]; rfl
  rw [hvs, (copyLoop_spec _ _ _).2.2, take_map_length_sum, pairOffset_succ ds i d hd]
  have hle : pairOffset ds i + d.length ≤ size := by
    rw [hsize, ← pairOffset_length, ← pairOffset_succ ds i d hd]
    exact pairOffset_mono ds _ _ (by omega)
  have hrep : (List.replicate size false).getD k false = false := by
    rw [List.getD_eq_getElem?_getD]
    by_cases hk : k < size
    · simp [List.getElem?_replicate, hk]
    · simp [List.getElem?_replicate, hk]
  rw [hrep]
  simp only [Bool.false_or, Nat.zero_add, List.length_replicate, decide_eq_decide]
  constructor
  · rintro ⟨a, b, _⟩; exact ⟨a, b⟩
  · rintro ⟨a, b⟩; exact ⟨a, b, by omega⟩

theorem KILL_get (useSet defSet : List Nat) (blocks : List BasicBlock)
    (ds : List (List CopyPair)) (dense : List CopyPair) (size i : Nat) (bb : BasicBlock)
    (hlen : ds.length = blocks.length) (hbb : blocks.get? i = some bb) :
    (buildKILL useSet defSet blocks dense (runningSums 0 (ds.map List.length)) size 0 0
        blocks).get? i =
      some (killBlock useSet defSet blocks dense (pairOffset ds i) (pairOffset ds (i + 1))
        bb.exprs (List.replicate size false)) := by
  have hi : i < blocks.length := (List.get?_eq_some.1 hbb).1
  rw [buildKILL_get useSet defSet blocks dense _ size blocks 0 0 i bb hbb]
  simp only [Nat.zero_add]
  rw [N_getD ds i (by omega)]
  cases i with
  | zero => simp [pairOffset]
  | succ i =>
    simp only [Nat.succ_ne_zero, if_false, Nat.add_sub_cancel]
    rw [N_getD ds i (by omega)]
theorem sparseBlock_append (useSet defSet : List Nat) (blocks : List BasicBlock)
    (start bi : Nat) :
    ∀ (l1 l2 : List Expr) (si : Nat) (ps : List (Option CopyPair)),
      sparseBlock useSet defSet blocks start bi si (l1 ++ l2) ps =
        sparseBlock useSet defSet blocks start bi (si + l1.length) l2
          (sparseBlock useSet defSet blocks start bi si l1 ps)
  | [], l2, si, ps => by simp [sparseBlock]
  | e :: l1, l2, si, ps => by
      show sparseBlock useSet defSet blocks start bi (si + 1) (l1 ++ l2) _ =
        sparseBlock useSet defSet blocks start bi (si + (l1.length + 1)) l2
          (sparseBlock useSet defSet blocks start bi (si + 1) l1 _)
      rw [sparseBlock_append useSet defSet blocks start bi l1 l2 (si + 1)]
      congr 1; omega

theorem sparseInvalidate_mem (blocks : List BasicBlock) (sym : Symbol)
    (ps : List (Option CopyPair)) (p : CopyPair)
    (h : some p ∈ sparseInvalidate blocks 0 sym ps) :
    some p ∈ ps ∧ p.mentions blocks sym = false := by
  simp only [sparseInvalidate, List.take_zero, List.nil_append, List.drop_zero,
    List.mem_map] at h
  obtain ⟨e, he, heq⟩ := h
  cases e with
  | none => simp at heq
  | some q =>
    by_cases hm : q.mentions blocks sym = true
    · simp [hm] at heq
    · simp only [hm] at heq
      simp only [Bool.false_eq_true, if_false, Option.some.injEq] at heq
      subst heq
      exact ⟨he, by simpa using hm⟩

theorem sparseFold_mem (useSet defSet : List Nat) (blocks : List BasicBlock) (p : CopyPair) :
    ∀ (asts : List SymExprNode) (ps : List (Option CopyPair)),
      some p ∈ asts.foldl (fun ps se =>
          if invalidateCopies se defSet useSet then sparseInvalidate blocks 0 se.var ps
          else ps) ps →
      some p ∈ ps ∧ ∀ se, se ∈ asts → invalidateCopies se defSet useSet = true →
        p.mentions blocks se.var = false
  | [], ps, h => ⟨h, by simp⟩
  | s :: asts, ps, h => by
      simp only [List.foldl_cons] at h
      obtain ⟨h1, h2⟩ := sparseFold_mem useSet defSet blocks p asts _ h
      by_cases hs : invalidateCopies s defSet useSet = true
      · simp only [hs, if_true] at h1
        obtain ⟨h3, h4⟩ := sparseInvalidate_mem blocks s.var ps p h1
        refine ⟨h3, ?_⟩
        intro se hmem hi
        rcases List.mem_cons.1 hmem with h' | h'
        · subst h'; exact h4
        · exact h2 se h' hi
      · simp only [hs] at h1
        refine ⟨h1, ?_⟩
        intro se hmem hi
        rcases List.mem_cons.1 hmem with h' | h'
        · subst h'; exact absurd hi hs
        · exact h2 se h' hi

/-- What is known of an entry of the sparse list after a statement. -/
theorem sparseStatement_mem (useSet defSet : List Nat) (blocks : List BasicBlock)
    (bi si : Nat) (ps : List (Option CopyPair)) (expr : Expr) (p : CopyPair)
    (h : some p ∈ sparseStatement useSet defSet blocks 0 bi si ps expr) :
    (some p ∈ ps ∧ ∀ se, se ∈ collectSymExprs none expr →
        invalidateCopies se defSet useSet = true → p.mentions blocks se.var = false) ∨
    (p = ⟨⟨bi, si, 1⟩, ⟨bi, si, 2⟩⟩ ∧ ∃ pr, copyStatement useSet defSet expr = some pr) := by
  unfold sparseStatement at h
  cases hcs : copyStatement useSet defSet expr with
  | none =>
    rw [hcs] at h
    exact Or.inl (sparseFold_mem useSet defSet blocks p _ _ h)
  | some pr =>
    rw [hcs] at h
    simp only [List.mem_append, List.mem_singleton, Option.some.injEq] at h
    rcases h with h | h
    · exact Or.inl (sparseFold_mem useSet defSet blocks p _ _ h)
    · exact Or.inr ⟨h, pr, rfl⟩

/-- Every entry of the sparse list of a block is the pair of a statement of the
block that passes the test of the third part of the loop body. -/
theorem sparseBlock_mem (useSet defSet : List Nat) (blocks : List BasicBlock) (bi : Nat)
    (p : CopyPair) :
    ∀ (exprs : List Expr) (si : Nat) (ps : List (Option CopyPair)),
      some p ∈ sparseBlock useSet defSet blocks 0 bi si exprs ps →
      some p ∈ ps ∨ ∃ t e pr, exprs.get? t = some e ∧
        copyStatement useSet defSet e = some pr ∧ p = ⟨⟨bi, si + t, 1⟩, ⟨bi, si + t, 2⟩⟩
  | [], si, ps, h => Or.inl h
  | x :: exprs, si, ps, h => by
      simp only [sparseBlock] at h
      rcases sparseBlock_mem useSet defSet blocks bi p exprs (si + 1) _ h with h1 | h1
      · rcases sparseStatement_mem useSet defSet blocks bi si ps x p h1 with h2 | h2
        · exact Or.inl h2.1
        · obtain ⟨hp, pr, hpr⟩ := h2
          exact Or.inr ⟨0, x, pr, rfl, hpr, by simpa using hp⟩
      · obtain ⟨t, e, pr, ht, hpr, hp⟩ := h1
        refine Or.inr ⟨t + 1, e, pr, by simpa using ht, hpr, ?_⟩
        rw [hp]; congr 2 <;> omega

theorem blockPairs_mem (useSet defSet : List Nat) (blocks : List BasicBlock) (bi : Nat)
    (bb : BasicBlock) (p : CopyPair) (h : p ∈ blockPairs useSet defSet blocks bi bb) :
    ∃ t e pr, bb.exprs.get? t = some e ∧ copyStatement useSet defSet e = some pr ∧
      p = ⟨⟨bi, t, 1⟩, ⟨bi, t, 2⟩⟩ := by
  unfold blockPairs at h
  simp only [List.mem_filterMap, id_eq, exists_eq_right] at h
  rcases sparseBlock_mem useSet defSet blocks bi p bb.exprs 0 [] h with h1 | h1
  · simp at h1
  · simpa using h1

/-- The sparse list of a block whose last statement has an invalidating
`SymExpr` of symbol `x`: no entry before the last statement's own mentions `x`. -/
theorem blockPairs_last (useSet defSet : List Nat) (blocks : List BasicBlock) (bi : Nat)
    (bb : BasicBlock) (init : List Expr) (last : Expr) (se : SymExprNode)
    (hexprs : bb.exprs = init ++ [last]) (hse : se ∈ collectSymExprs none last)
    (hinv : invalidateCopies se defSet useSet = true) :
    ∃ d : List CopyPair,
      (∀ p, p ∈ d → p.mentions blocks se.var = false) ∧
      blockPairs useSet defSet blocks bi bb =
        d ++ (match copyStatement useSet defSet last with
              | some _ => [⟨⟨bi, init.length, 1⟩, ⟨bi, init.length, 2⟩⟩]
              | none => []) := by
  unfold blockPairs
  rw [hexprs, sparseBlock_append]
  simp only [sparseBlock, Nat.zero_add]
  refine ⟨((collectSymExprs none last).foldl (fun ps s =>
      if invalidateCopies s defSet useSet then sparseInvalidate blocks 0 s.var ps else ps)
      (sparseBlock useSet defSet blocks 0 bi 0 init [])).filterMap id, ?_, ?_⟩
  · intro p hp
    simp only [List.mem_filterMap, id_eq, exists_eq_right] at hp
    exact (sparseFold_mem useSet defSet blocks p _ _ hp).2 se hse hinv
  · unfold sparseStatement
    cases copyStatement useSet defSet last with
    | none => simp
    | some pr => simp [List.filterMap_append]

theorem derefVar_copy (useSet defSet : List Nat) (blocks : List BasicBlock) (bi si : Nat)
    (bb : BasicBlock) (e : Expr) (pr : (Nat × Symbol) × (Nat × Symbol))
    (hbb : blocks.get? bi = some bb) (he : bb.exprs.get? si = some e)
    (hpr : copyStatement useSet defSet e = some pr) :
    derefVar blocks ⟨bi, si, 1⟩ = some pr.1.2 ∧ derefVar blocks ⟨bi, si, 2⟩ = some pr.2.2 := by
  obtain ⟨base, rest, heq, _, _, _⟩ := copyStatement_eq_some useSet defSet e pr hpr
  unfold derefVar
  simp only [hbb, he, heq]
  exact ⟨rfl, rfl⟩
theorem makeAvailable_get_ne (c : Copies) (key value k : Symbol) (h : k ≠ key) :
    (makeAvailable c key value).available.get k = c.available.get k := by
  rw [makeAvailable_get]; simp [h]

/-- Seeding adds no entry for `x` when no pair of `IN` has `x` on its left. -/
theorem seedCopies_none (blocks : List BasicBlock) (inBits : List Bool) (x : Symbol) :
    ∀ (pairs : List CopyPair) (j : Nat) (s : Copies × Bool),
      s.1.available.get x = none →
      (∀ t p, pairs.get? t = some p → inBits.getD (j + t) false = true →
        derefVar blocks p.lhs ≠ some x) →
      (seedCopies blocks inBits j pairs s).1.available.get x = none
  | [], _, s, hs, _ => hs
  | p :: pairs, j, s, hs, hp => by
      simp only [seedCopies]
      apply seedCopies_none blocks inBits x pairs (j + 1)
      · by_cases hb : inBits.getD j false = true
        · simp only [hb, if_true]
          have hne := hp 0 p rfl (by simpa using hb)
          cases hl : derefVar blocks p.lhs with
          | none => exact hs
          | some l =>
            cases hr : derefVar blocks p.rhs with
            | none => exact hs
            | some r =>
              simp only
              rw [makeAvailable_get_ne _ _ _ _ (fun h => hne (by rw [hl, h])), hs]
        · simp only [hb]
          exact hs
      · intro t q hq hb
        exact hp (t + 1) q (by simpa using hq) (by rw [← Nat.add_assoc, Nat.add_right_comm]; exact hb)

/-- Seeding leaves `x -> a` when a pair of `IN` reads `x`, `a` and no later pair
of `IN` has `x` on its left. -/
theorem seedCopies_some (blocks : List BasicBlock) (inBits : List Bool) (x a : Symbol) :
    ∀ (pairs : List CopyPair) (j t0 : Nat) (p0 : CopyPair) (s : Copies × Bool),
      pairs.get? t0 = some p0 → inBits.getD (j + t0) false = true →
      derefVar blocks p0.lhs = some x → derefVar blocks p0.rhs = some a →
      (∀ t p, t0 < t → pairs.get? t = some p → inBits.getD (j + t) false = true →
        derefVar blocks p.lhs ≠ some x) →
      (seedCopies blocks inBits j pairs s).1.available.get x = some a ∧
      (seedCopies blocks inBits j pairs s).2 = true
  | [], _, _, _, _, h, _, _, _, _ => by simp at h
  | p :: pairs, j, 0, p0, s, h, hb, hl, hr, hlater => by
      simp only [List.get?_cons_zero, Option.some.injEq] at h
      subst h
      simp only [seedCopies]
      simp only [Nat.add_zero] at hb
      simp only [hb, if_true, hl, hr]
      have hproceed : ∀ (pairs : List CopyPair) (j : Nat) (s : Copies × Bool), s.2 = true →
          (seedCopies blocks inBits j pairs s).2 = true := by
        intro pairs
        induction pairs with
        | nil => intro j s hs; exact hs
        | cons q qs ih =>
          intro j s hs
          simp only [seedCopies]
          apply ih
          split
          · rfl
          · exact hs
      have hkeep : ∀ (pairs : List CopyPair) (j : Nat) (s : Copies × Bool),
          s.1.available.get x = some a →
          (∀ t q, pairs.get? t = some q → inBits.getD (j + t) false = true →
            derefVar blocks q.lhs ≠ some x) →
          (seedCopies blocks inBits j pairs s).1.available.get x = some a := by
        intro pairs
        induction pairs with
        | nil => intro j s hs _; exact hs
        | cons q qs ih =>
          intro j s hs hq
          simp only [seedCopies]
          apply ih
          · by_cases hb' : inBits.getD j false = true
            · simp only [hb', if_true]
              have hne := hq 0 q rfl (by simpa using hb')
              cases hl' : derefVar blocks q.lhs with
              | none => exact hs
              | some l =>
                cases hr' : derefVar blocks q.rhs with
                | none => exact hs
                | some r =>
                  simp only
                  rw [makeAvailable_get_ne _ _ _ _ (fun h => hne (by rw [hl', h])), hs]
            · simp only [hb']
              exact hs
          · intro t q' hq' hb'
            exact hq (t + 1) q' (by simpa using hq')
              (by rw [← Nat.add_assoc, Nat.add_right_comm]; exact hb')
      refine ⟨hkeep pairs (j + 1) _ (by rw [makeAvailable_get]; simp) ?_, hproceed _ _ _ rfl⟩
      intro t q hq hb'
      exact hlater (t + 1) q (by omega) (by simpa using hq)
        (by rw [← Nat.add_assoc, Nat.add_right_comm]; exact hb')
  | p :: pairs, j, t0 + 1, p0, s, h, hb, hl, hr, hlater => by
      simp only [List.get?_cons_succ] at h
      simp only [seedCopies]
      apply seedCopies_some blocks inBits x a pairs (j + 1) t0 p0 _ h
        (by rw [Nat.add_assoc, Nat.add_comm 1]; exact hb) hl hr
      intro t q ht hq hb'
      exact hlater (t + 1) q (by omega) (by simpa using hq)
        (by rw [← Nat.add_assoc, Nat.add_right_comm]; exact hb')

theorem globalStep_length (useSet defSet : List Nat) (dense : List CopyPair)
    (IN : List (List Bool)) (blocks : List BasicBlock) (i : Nat) :
    (globalStep useSet defSet dense IN blocks i).length = blocks.length := by
  unfold globalStep
  split
  · rfl
  · dsimp only
    split <;> simp

theorem globalStep_get_ne (useSet defSet : List Nat) (dense : List CopyPair)
    (IN : List (List Bool)) (blocks : List BasicBlock) (i k : Nat) (h : k ≠ i) :
    (globalStep useSet defSet dense IN blocks i).get? k = blocks.get? k := by
  unfold globalStep
  split
  · rfl
  · dsimp only
    split
    · rw [List.get?_eq_getElem?, List.get?_eq_getElem?, List.getElem?_set_ne (Ne.symm h)]
    · rfl

theorem globalStep_get_self (useSet defSet : List Nat) (dense : List CopyPair)
    (IN : List (List Bool)) (blocks : List BasicBlock) (i : Nat) (bb : BasicBlock)
    (h : blocks.get? i = some bb) :
    (globalStep useSet defSet dense IN blocks i).get? i =
      some (if (seedCopies blocks (IN.getD i []) 0 dense (Copies.empty, false)).2 then
        ⟨(localCopyPropagationCore useSet defSet bb.exprs
          (seedCopies blocks (IN.getD i []) 0 dense (Copies.empty, false)).1).1, bb.ins, bb.outs⟩
        else bb) := by
  unfold globalStep
  rw [h]
  simp only
  have hi : i < blocks.length := (List.get?_eq_some.1 h).1
  split
  · rw [List.get?_eq_getElem?, List.getElem?_set_self hi]
  · exact h

theorem globalFold_get_of_not_mem (useSet defSet : List Nat) (dense : List CopyPair)
    (IN : List (List Bool)) (k : Nat) :
    ∀ (js : List Nat) (blocks : List BasicBlock), k ∉ js →
      (js.foldl (globalStep useSet defSet dense IN) blocks).get? k = blocks.get? k
  | [], _, _ => rfl
  | j :: js, blocks, h => by
      simp only [List.foldl_cons]
      rw [globalFold_get_of_not_mem useSet defSet dense IN k js _
        (fun h' => h (List.mem_cons_of_mem _ h'))]
      exact globalStep_get_ne useSet defSet dense IN blocks j k
        (fun h' => h (by rw [h']; exact List.mem_cons_self _ _))

/-- Block `i` after the last loop of `globalCopyPropagation` is block `i` after
its own iteration. -/
theorem globalFold_get (useSet defSet : List Nat) (dense : List CopyPair)
    (IN : List (List Bool)) (blocks : List BasicBlock) (n i : Nat) (h : i < n) :
    ((List.range n).foldl (globalStep useSet defSet dense IN) blocks).get? i =
      (globalStep useSet defSet dense IN
        ((List.range i).foldl (globalStep useSet defSet dense IN) blocks) i).get? i := by
  have hsplit : List.range n = List.range i ++ i :: List.range' (i + 1) (n - i - 1) := by
    have h1 : List.range n = List.range' 0 n := List.range_eq_range' n
    have h2 : List.range i = List.range' 0 i := List.range_eq_range' i
    have e1 : List.range' 0 n = List.range' 0 i ++ List.range' (0 + i) (n - i) := by
      rw [List.range'_append_1]; congr 1; omega
    have e2 : List.range' (0 + i) (n - i) = i :: List.range' (i + 1) (n - i - 1) := by
      have h3 : n - i = (n - i - 1) + 1 := by omega
      rw [h3, List.range'_succ]; simp
    rw [h1, h2, e1, e2]
  rw [hsplit, List.foldl_append, List.foldl_cons]
  apply globalFold_get_of_not_mem
  intro hmem
  rw [List.mem_range'] at hmem
  obtain ⟨t, _, ht⟩ := hmem
  omega

theorem globalFold_prefix_get (useSet defSet : List Nat) (dense : List CopyPair)
    (IN : List (List Bool)) (blocks : List BasicBlock) (i : Nat) :
    ((List.range i).foldl (globalStep useSet defSet dense IN) blocks).get? i = blocks.get? i :=
  globalFold_get_of_not_mem useSet defSet dense IN i _ blocks (by simp)
theorem core_keeps_lhs (useSet defSet : List Nat) (exprs : List Expr) (c : Copies)
    (si lid : Nat) (lvar : Symbol) (prim : Option PrimitiveTag) (base : Option Expr)
    (rest : List Expr) (hl : lid ∈ defSet)
    (h : exprs.get? si = some (.CallExpr prim base (.SymExpr lid lvar :: rest))) :
    ∃ base' rest', (localCopyPropagationCore useSet defSet exprs c).1.get? si =
      some (.CallExpr prim base' (.SymExpr lid lvar :: rest')) := by
  rw [core_get useSet defSet exprs c si _ h]
  have hp : ∀ av : AvailableMap, propagateStatement useSet defSet av
      (.CallExpr prim base (.SymExpr lid lvar :: rest)) =
      .CallExpr prim (rebindBase (propagateUse av useSet defSet) prim base)
        (.SymExpr lid lvar :: rebindActuals (propagateUse av useSet defSet) prim 2 rest) := by
    intro av
    show Expr.CallExpr prim _ (Expr.SymExpr lid (propagateUse av useSet defSet
      ⟨lid, lvar, some ⟨prim, 1⟩⟩) :: _) = _
    rw [propagateUse_of_def _ _ _ _ hl]
  rw [hp]
  exact ⟨_, _, rfl⟩

theorem globalStep_keeps_lhs (useSet defSet : List Nat) (dense : List CopyPair)
    (IN : List (List Bool)) (S : List BasicBlock) (i bi si lid : Nat) (lvar : Symbol)
    (prim : Option PrimitiveTag) (hl : lid ∈ defSet)
    (h : ∃ bb base rest, S.get? bi = some bb ∧
      bb.exprs.get? si = some (.CallExpr prim base (.SymExpr lid lvar :: rest))) :
    ∃ bb base rest, (globalStep useSet defSet dense IN S i).get? bi = some bb ∧
      bb.exprs.get? si = some (.CallExpr prim base (.SymExpr lid lvar :: rest)) := by
  obtain ⟨bb, base, rest, hbb, he⟩ := h
  by_cases hi : bi = i
  · subst hi
    rw [globalStep_get_self useSet defSet dense IN S bi bb hbb]
    split
    · obtain ⟨base', rest', h'⟩ := core_keeps_lhs useSet defSet bb.exprs
        (seedCopies S (IN.getD bi []) 0 dense (Copies.empty, false)).1 si lid lvar prim base
        rest hl he
      exact ⟨_, base', rest', rfl, h'⟩
    · exact ⟨bb, base, rest, rfl, he⟩
  · rw [globalStep_get_ne useSet defSet dense IN S i bi hi]
    exact ⟨bb, base, rest, hbb, he⟩

theorem globalFold_keeps_lhs (useSet defSet : List Nat) (dense : List CopyPair)
    (IN : List (List Bool)) (bi si lid : Nat) (lvar : Symbol)
    (prim : Option PrimitiveTag) (hl : lid ∈ defSet) :
    ∀ (js : List Nat) (S : List BasicBlock),
      (∃ bb base rest, S.get? bi = some bb ∧
        bb.exprs.get? si = some (.CallExpr prim base (.SymExpr lid lvar :: rest))) →
      ∃ bb base rest, (js.foldl (globalStep useSet defSet dense IN) S).get? bi = some bb ∧
        bb.exprs.get? si = some (.CallExpr prim base (.SymExpr lid lvar :: rest))
  | [], _, h => h
  | j :: js, S, h => by
      simp only [List.foldl_cons]
      exact globalFold_keeps_lhs useSet defSet dense IN bi si lid lvar prim hl js _
        (globalStep_keeps_lhs useSet defSet dense IN S j bi si lid lvar prim hl h)

theorem derefVar_lhs_of_shape (S : List BasicBlock) (bi si lid : Nat) (lvar : Symbol)
    (prim : Option PrimitiveTag)
    (h : ∃ bb base rest, S.get? bi = some bb ∧
      bb.exprs.get? si = some (.CallExpr prim base (.SymExpr lid lvar :: rest))) :
    derefVar S ⟨bi, si, 1⟩ = some lvar := by
  obtain ⟨bb, base, rest, hbb, he⟩ := h
  unfold derefVar
  simp only [hbb, he]
  rfl

theorem pairsFrom_mem (useSet defSet : List Nat) (blocks : List BasicBlock) (p : CopyPair) :
    ∀ (rest : List BasicBlock) (bi0 : Nat),
      p ∈ (pairsFrom useSet defSet blocks bi0 rest).flatten →
      ∃ t bb si e pr, rest.get? t = some bb ∧ bb.exprs.get? si = some e ∧
        copyStatement useSet defSet e = some pr ∧
        p = ⟨⟨bi0 + t, si, 1⟩, ⟨bi0 + t, si, 2⟩⟩
  | [], _, h => by simp [pairsFrom] at h
  | b :: rest, bi0, h => by
      simp only [pairsFrom, List.flatten_cons, List.mem_append] at h
      rcases h with h | h
      · obtain ⟨si, e, pr, he, hpr, hp⟩ := blockPairs_mem useSet defSet blocks bi0 b p h
        exact ⟨0, b, si, e, pr, rfl, he, hpr, by simpa using hp⟩
      · obtain ⟨t, bb, si, e, pr, hbb, he, hpr, hp⟩ :=
          pairsFrom_mem useSet defSet blocks p rest (bi0 + 1) h
        refine ⟨t + 1, bb, si, e, pr, by simpa using hbb, he, hpr, ?_⟩
        rw [hp]; congr 2 <;> omega

/-- The left-hand symbol of a pair of `LHS` is read the same in the function as
it was at the start and as it is after any number of blocks were rewritten. -/
theorem dense_lhs_stable (useSet defSet : List Nat) (blocks : List BasicBlock)
    (dense : List CopyPair) (IN : List (List Bool)) (p : CopyPair)
    (hp : p ∈ (pairsFrom useSet defSet blocks 0 blocks).flatten) (js : List Nat) :
    derefVar (js.foldl (globalStep useSet defSet dense IN) blocks) p.lhs =
      derefVar blocks p.lhs := by
  obtain ⟨t, bb, si, e, pr, hbb, he, hpr, hpe⟩ := pairsFrom_mem useSet defSet blocks p blocks 0 hp
  obtain ⟨base, rest, heq, hl, _, _⟩ := copyStatement_eq_some useSet defSet e pr hpr
  have hshape : ∃ bb base rest, blocks.get? (0 + t) = some bb ∧
      bb.exprs.get? si = some (.CallExpr (some PRIMITIVE_MOVE) base
        (.SymExpr pr.1.1 pr.1.2 :: rest)) :=
    ⟨bb, base, _, by simpa using hbb, by rw [he, heq]⟩
  rw [hpe]
  rw [derefVar_lhs_of_shape _ _ _ _ _ _
    (globalFold_keeps_lhs useSet defSet dense IN (0 + t) si pr.1.1 pr.1.2 _ hl js blocks hshape)]
  rw [derefVar_lhs_of_shape _ _ _ _ _ _ hshape]
theorem mentions_of_lhs (blocks : List BasicBlock) (p : CopyPair) (x : Symbol)
    (h : derefVar blocks p.lhs = some x) : p.mentions blocks x = true := by
  simp [CopyPair.mentions, h]

/-- The pairs of the function whose left-hand symbol is `x`, when block `b1`
ends with a move whose left-hand `SymExpr` is a def of `x`: the pair of that
move, if it is one, is in `COPY(b1)`; every other one is in `KILL(b1)` and not
in `COPY(b1)`. -/
theorem last_move_pairs (us df : List Nat) (blocks : List BasicBlock) (size : Nat)
    (hsize : size = (pairsFrom us df blocks 0 blocks).flatten.length)
    (b1 : Nat) (bb1 : BasicBlock) (pre : List Expr) (l r : Nat) (x a : Symbol)
    (hbb1 : blocks.get? b1 = some bb1)
    (hex : bb1.exprs = pre ++ [.CallExpr (some PRIMITIVE_MOVE) none [.SymExpr l x, .SymExpr r a]])
    (hl : l ∈ df) :
    ∃ j,
      ((∃ pr, copyStatement us df
            (.CallExpr (some PRIMITIVE_MOVE) none [.SymExpr l x, .SymExpr r a]) = some pr) →
        (pairsFrom us df blocks 0 blocks).flatten.get? j =
            some ⟨⟨b1, pre.length, 1⟩, ⟨b1, pre.length, 2⟩⟩ ∧
        bit (buildCOPY size
          (runningSums 0 ((pairsFrom us df blocks 0 blocks).map List.length)) (0, [])).2 b1 j
            = true) ∧
      ∀ k p, (pairsFrom us df blocks 0 blocks).flatten.get? k = some p →
        derefVar blocks p.lhs = some x →
        (k = j ∧ p = ⟨⟨b1, pre.length, 1⟩, ⟨b1, pre.length, 2⟩⟩) ∨
        (bit (buildCOPY size
            (runningSums 0 ((pairsFrom us df blocks 0 blocks).map List.length)) (0, [])).2 b1 k
              = false ∧
          bit (buildKILL us df blocks (pairsFrom us df blocks 0 blocks).flatten
            (runningSums 0 ((pairsFrom us df blocks 0 blocks).map List.length)) size 0 0
            blocks) b1 k = true) := by
  generalize hds : pairsFrom us df blocks 0 blocks = ds at *
  have hlen : ds.length = blocks.length := by rw [← hds, pairsFrom_length]
  have hb1 : b1 < blocks.length := (List.get?_eq_some.1 hbb1).1
  have hds1 : ds.get? b1 = some (blockPairs us df blocks b1 bb1) := by
    rw [← hds]
    have := pairsFrom_get us df blocks blocks 0 b1 bb1 hbb1
    simpa using this
  have hse : (⟨l, x, some ⟨some PRIMITIVE_MOVE, 1⟩⟩ : SymExprNode) ∈
      collectSymExprs none (.CallExpr (some PRIMITIVE_MOVE) none [.SymExpr l x, .SymExpr r a]) := by
    rw [collect_move]; simp
  have hinv : invalidateCopies ⟨l, x, some ⟨some PRIMITIVE_MOVE, 1⟩⟩ df us = true :=
    invalidateCopies_of_def _ _ _ hl
  obtain ⟨d, hd, hbp⟩ := blockPairs_last us df blocks b1 bb1 pre _ _ hex hse hinv
  rw [hbp] at hds1
  have hoff := pairOffset_succ ds b1 _ hds1
  have hcopy : ∀ k, bit (buildCOPY size (runningSums 0 (ds.map List.length)) (0, [])).2 b1 k =
      decide (pairOffset ds b1 ≤ k ∧ k < pairOffset ds (b1 + 1)) :=
    fun k => COPY_bit ds size b1 (by omega) hsize k
  refine ⟨pairOffset ds b1 + d.length, ?_, ?_⟩
  · rintro ⟨pr, hpr⟩
    rw [hpr] at hds1 hoff
    refine ⟨flatten_get_offset ds b1 d.length _ _ hds1 (by simp), ?_⟩
    rw [hcopy]
    simp only [List.length_append, List.length_singleton] at hoff
    simp only [decide_eq_true_eq]
    omega
  · intro k p hk hx
    obtain ⟨i, t, di, hdi, hdt, hkeq⟩ := flatten_get_block ds k p hk
    by_cases hi : i = b1
    · subst hi
      rw [hds1] at hdi
      simp only [Option.some.injEq] at hdi
      subst hdi
      left
      rcases Nat.lt_or_ge t d.length with hlt | hge
      · exfalso
        rw [List.get?_eq_getElem?, List.getElem?_append_left hlt] at hdt
        have hmem : p ∈ d := List.getElem?_mem hdt
        have := hd p hmem
        rw [mentions_of_lhs blocks p x hx] at this
        exact Bool.noConfusion this
      · rw [List.get?_eq_getElem?, List.getElem?_append_right hge] at hdt
        cases hcs : copyStatement us df
            (.CallExpr (some PRIMITIVE_MOVE) none [.SymExpr l x, .SymExpr r a]) with
        | none => rw [hcs] at hdt; simp at hdt
        | some pr =>
          rw [hcs] at hdt
          have ht : t - d.length = 0 := by
            by_contra hne
            have : 1 ≤ t - d.length := by omega
            rw [List.getElem?_eq_none (by simpa using this)] at hdt
            exact Option.noConfusion hdt
          rw [ht] at hdt
          simp only [List.getElem?_cons_zero, Option.some.injEq] at hdt
          exact ⟨by omega, hdt.symm⟩
    · right
      have hit : t < di.length := (List.get?_eq_some.1 hdt).1
      have hoffi := pairOffset_succ ds i di hdi
      have hout : k < pairOffset ds b1 ∨ pairOffset ds (b1 + 1) ≤ k := by
        rcases Nat.lt_or_ge i b1 with h | h
        · left
          have := pairOffset_mono ds (i + 1) b1 (by omega)
          omega
        · right
          have := pairOffset_mono ds (b1 + 1) i (by omega)
          omega
      refine ⟨?_, ?_⟩
      · rw [hcopy]
        simp only [decide_eq_false_iff_not]
        omega
      · have hkill := KILL_get us df blocks ds ds.flatten size b1 bb1 hlen hbb1
        unfold bit
        rw [List.get?_eq_getElem?] at hkill
        have hK : (buildKILL us df blocks ds.flatten (runningSums 0 (ds.map List.length)) size
            0 0 blocks).getD b1 [] =
            killBlock us df blocks ds.flatten (pairOffset ds b1) (pairOffset ds (b1 + 1))
              bb1.exprs (List.replicate size false) := by
          rw [List.getD_eq_getElem?_getD, hkill]; rfl
        rw [hK]
        have hklt : k < ds.flatten.length := (List.get?_eq_some.1 hk).1
        exact (killBlock_spec us df blocks ds.flatten (pairOffset ds b1)
          (pairOffset ds (b1 + 1)) bb1.exprs (List.replicate size false)).2.2
          _ ⟨l, x, some ⟨some PRIMITIVE_MOVE, 1⟩⟩ k p (by rw [hex]; simp) hse hinv hout
          (by simp; omega) hk (mentions_of_lhs blocks p x hx)
theorem analysis_COPY (csu : FnSymbol → SymUses) (flow : FlowAnalysis) (fn : FnSymbol) :
    (globalAnalysis csu flow fn).COPY =
      (buildCOPY ((globalAnalysis csu flow fn).N.getD (fn.basicBlocks.length - 1) 0)
        (globalAnalysis csu flow fn).N (0, [])).2 := rfl

theorem analysis_KILL (csu : FnSymbol → SymUses) (flow : FlowAnalysis) (fn : FnSymbol) :
    (globalAnalysis csu flow fn).KILL =
      buildKILL (globalAnalysis csu flow fn).useSet (globalAnalysis csu flow fn).defSet
        fn.basicBlocks (globalAnalysis csu flow fn).dense (globalAnalysis csu flow fn).N
        ((globalAnalysis csu flow fn).N.getD (fn.basicBlocks.length - 1) 0) 0 0
        fn.basicBlocks := rfl

theorem analysis_last_move (csu : FnSymbol → SymUses) (flow : FlowAnalysis) (fn : FnSymbol)
    (hn : 1 ≤ fn.basicBlocks.length)
    (b1 : Nat) (bb1 : BasicBlock) (pre : List Expr) (l r : Nat) (x a : Symbol)
    (hbb1 : fn.basicBlocks.get? b1 = some bb1)
    (hex : bb1.exprs = pre ++ [.CallExpr (some PRIMITIVE_MOVE) none [.SymExpr l x, .SymExpr r a]])
    (hl : l ∈ (globalAnalysis csu flow fn).defSet) :
    ∃ j,
      ((∃ pr, copyStatement (globalAnalysis csu flow fn).useSet
            (globalAnalysis csu flow fn).defSet
            (.CallExpr (some PRIMITIVE_MOVE) none [.SymExpr l x, .SymExpr r a]) = some pr) →
        (globalAnalysis csu flow fn).dense.get? j =
            some ⟨⟨b1, pre.length, 1⟩, ⟨b1, pre.length, 2⟩⟩ ∧
        bit (globalAnalysis csu flow fn).COPY b1 j = true) ∧
      ∀ k p, (globalAnalysis csu flow fn).dense.get? k = some p →
        derefVar fn.basicBlocks p.lhs = some x →
        (k = j ∧ p = ⟨⟨b1, pre.length, 1⟩, ⟨b1, pre.length, 2⟩⟩) ∨
        (bit (globalAnalysis csu flow fn).COPY b1 k = false ∧
          bit (globalAnalysis csu flow fn).KILL b1 k = true) := by
  obtain ⟨hd, hN⟩ := analysis_pairs csu flow fn
  have hlen : (pairsFrom (globalAnalysis csu flow fn).useSet (globalAnalysis csu flow fn).defSet
      fn.basicBlocks 0 fn.basicBlocks).length = fn.basicBlocks.length := pairsFrom_length _ _ _ _ _
  have hsize : (globalAnalysis csu flow fn).N.getD (fn.basicBlocks.length - 1) 0 =
      (pairsFrom (globalAnalysis csu flow fn).useSet (globalAnalysis csu flow fn).defSet
        fn.basicBlocks 0 fn.basicBlocks).flatten.length := by
    rw [hN, ← hlen]
    exact N_size _ (by omega)
  have := last_move_pairs (globalAnalysis csu flow fn).useSet (globalAnalysis csu flow fn).defSet
    fn.basicBlocks _ hsize b1 bb1 pre l r x a hbb1 hex hl
  rw [analysis_COPY, analysis_KILL, hd, hN]
  rw [← hd, ← hN] at this ⊢
  rw [hd] at this ⊢
  exact this

theorem flow_out_false (blocks : List BasicBlock) (GEN KILL IN OUT : List (List Bool))
    (hfix : IsFlowFixpoint blocks GEN KILL IN OUT) (i : Nat) (bb : BasicBlock)
    (hbb : blocks.get? i = some bb) (k : Nat) (hg : bit GEN i k = false)
    (hk : bit KILL i k = true) : bit OUT i k = false := by
  rw [(hfix i bb hbb k).1, hg, hk]; simp

theorem flow_out_true (blocks : List BasicBlock) (GEN KILL IN OUT : List (List Bool))
    (hfix : IsFlowFixpoint blocks GEN KILL IN OUT) (i : Nat) (bb : BasicBlock)
    (hbb : blocks.get? i = some bb) (k : Nat) (hg : bit GEN i k = true) :
    bit OUT i k = true := by
  rw [(hfix i bb hbb k).1, hg]; simp

theorem flow_in_false (blocks : List BasicBlock) (GEN KILL IN OUT : List (List Bool))
    (hfix : IsFlowFixpoint blocks GEN KILL IN OUT) (i : Nat) (bb : BasicBlock)
    (hbb : blocks.get? i = some bb) (k p : Nat) (hp : p ∈ bb.ins)
    (ho : bit OUT p k = false) : bit IN i k = false := by
  have hne : bb.ins ≠ [] := by
    intro h; rw [h] at hp; simp at hp
  rw [(hfix i bb hbb k).2 hne]
  rw [← Bool.not_eq_true, List.all_eq_true]
  intro h
  have := h p hp
  rw [ho] at this
  exact Bool.noConfusion this

theorem flow_in_single (blocks : List BasicBlock) (GEN KILL IN OUT : List (List Bool))
    (hfix : IsFlowFixpoint blocks GEN KILL IN OUT) (i : Nat) (bb : BasicBlock)
    (hbb : blocks.get? i = some bb) (k p : Nat) (hp : bb.ins = [p]) :
    bit IN i k = bit OUT p k := by
  rw [(hfix i bb hbb k).2 (by rw [hp]; simp), hp]
  simp

/-- Block `b2` after `globalCopyPropagation`. -/
theorem global_block (csu : FnSymbol → SymUses) (flow : FlowAnalysis) (fn : FnSymbol)
    (hn : 2 ≤ fn.basicBlocks.length) (b2 : Nat) (bb2 : BasicBlock)
    (hbb2 : fn.basicBlocks.get? b2 = some bb2) :
    (globalCopyPropagation csu flow fn).basicBlocks.get? b2 =
      some (if (seedCopies
          ((List.range b2).foldl (globalStep (globalAnalysis csu flow fn).useSet
            (globalAnalysis csu flow fn).defSet (globalAnalysis csu flow fn).dense
            (globalAnalysis csu flow fn).IN) fn.basicBlocks)
          ((globalAnalysis csu flow fn).IN.getD b2 []) 0 (globalAnalysis csu flow fn).dense
          (Copies.empty, false)).2 then
        ⟨(localCopyPropagationCore (globalAnalysis csu flow fn).useSet
          (globalAnalysis csu flow fn).defSet bb2.exprs
          (seedCopies
            ((List.range b2).foldl (globalStep (globalAnalysis csu flow fn).useSet
              (globalAnalysis csu flow fn).defSet (globalAnalysis csu flow fn).dense
              (globalAnalysis csu flow fn).IN) fn.basicBlocks)
            ((globalAnalysis csu flow fn).IN.getD b2 []) 0 (globalAnalysis csu flow fn).dense
            (Copies.empty, false)).1).1, bb2.ins, bb2.outs⟩
        else bb2) := by
  have hb2 : b2 < fn.basicBlocks.length := (List.get?_eq_some.1 hbb2).1
  unfold globalCopyPropagation
  rw [if_neg (by omega)]
  simp only
  rw [globalFold_get _ _ _ _ _ _ _ hb2]
  exact globalStep_get_self _ _ _ _ _ _ bb2
    (by rw [globalFold_prefix_get]; exact hbb2)

/-- The first statement of a block after `localCopyPropagationCore`. -/
theorem core_head (useSet defSet : List Nat) (c : Copies) (s : Expr) (tail : List Expr) :
    ∃ tail', (localCopyPropagationCore useSet defSet (s :: tail) c).1 =
      propagateStatement useSet defSet c.available s :: tail' :=
  ⟨_, rfl⟩

theorem propagate_get (useSet defSet : List Nat) (available : AvailableMap) (s : Expr)
    (p : Nat) (se : SymExprNode) (h : (collectSymExprs none s).get? p = some se) :
    (collectSymExprs none (propagateStatement useSet defSet available s)).get? p =
      some ⟨se.id, propagateUse available useSet defSet se, se.parentExpr⟩ := by
  unfold propagateStatement
  rw [collect_rebind, List.get?_eq_getElem?, List.getElem?_map, ← List.get?_eq_getElem?, h]
  rfl
theorem dense_mem_flatten (csu : FnSymbol → SymUses) (flow : FlowAnalysis) (fn : FnSymbol)
    (k : Nat) (p : CopyPair) (h : (globalAnalysis csu flow fn).dense.get? k = some p) :
    p ∈ (pairsFrom (globalAnalysis csu flow fn).useSet (globalAnalysis csu flow fn).defSet
      fn.basicBlocks 0 fn.basicBlocks).flatten := by
  rw [← (analysis_pairs csu flow fn).1]
  exact List.get?_mem h

/-- In a successor of a block that ends with a move defining `x`, the maps are
seeded with no entry for `x` when the pair of that move is not in `IN`. -/
theorem seed_without_pair (csu : FnSymbol → SymUses) (flow : FlowAnalysis) (fn : FnSymbol)
    (hn : 1 ≤ fn.basicBlocks.length)
    (b1 b2 : Nat) (bb1 bb2 : BasicBlock) (pre : List Expr) (l r : Nat) (x a : Symbol)
    (hbb1 : fn.basicBlocks.get? b1 = some bb1) (hbb2 : fn.basicBlocks.get? b2 = some bb2)
    (hex : bb1.exprs = pre ++ [.CallExpr (some PRIMITIVE_MOVE) none [.SymExpr l x, .SymExpr r a]])
    (hl : l ∈ (globalAnalysis csu flow fn).defSet)
    (hin : b1 ∈ bb2.ins)
    (hfix : IsFlowFixpoint fn.basicBlocks (globalAnalysis csu flow fn).COPY
      (globalAnalysis csu flow fn).KILL (globalAnalysis csu flow fn).IN
      (globalAnalysis csu flow fn).OUT)
    (hout : ∀ j, (globalAnalysis csu flow fn).dense.get? j =
        some ⟨⟨b1, pre.length, 1⟩, ⟨b1, pre.length, 2⟩⟩ →
      bit (globalAnalysis csu flow fn).IN b2 j = false)
    (js : List Nat) :
    (seedCopies
      (js.foldl (globalStep (globalAnalysis csu flow fn).useSet
        (globalAnalysis csu flow fn).defSet (globalAnalysis csu flow fn).dense
        (globalAnalysis csu flow fn).IN) fn.basicBlocks)
      ((globalAnalysis csu flow fn).IN.getD b2 []) 0 (globalAnalysis csu flow fn).dense
      (Copies.empty, false)).1.available.get x = none := by
  obtain ⟨j, _, hall⟩ := analysis_last_move csu flow fn hn b1 bb1 pre l r x a hbb1 hex hl
  apply seedCopies_none _ _ x _ 0 _ rfl
  intro t p hp hb hx
  rw [dense_lhs_stable _ _ _ _ _ p (dense_mem_flatten csu flow fn t p hp) js] at hx
  have hbit : bit (globalAnalysis csu flow fn).IN b2 t = true := by
    simpa [bit] using hb
  rcases hall t p hp hx with ⟨_, hpj⟩ | ⟨hc, hk⟩
  · rw [hout t (by rw [hp, hpj])] at hbit
    exact Bool.noConfusion hbit
  · rw [flow_in_false _ _ _ _ _ hfix b2 bb2 hbb2 t b1 hin
      (flow_out_false _ _ _ _ _ hfix b1 bb1 hbb1 t hc hk)] at hbit
    exact Bool.noConfusion hbit

/-- In the only successor of a block that ends with the copy `x:=a`, the maps
are seeded with `x ->` the symbol the right-hand side of the copy has by then. -/
theorem seed_with_pair (csu : FnSymbol → SymUses) (flow : FlowAnalysis) (fn : FnSymbol)
    (hn : 1 ≤ fn.basicBlocks.length)
    (b1 b2 : Nat) (bb1 bb2 : BasicBlock) (pre : List Expr) (l r : Nat) (x a a' : Symbol)
    (hbb1 : fn.basicBlocks.get? b1 = some bb1) (hbb2 : fn.basicBlocks.get? b2 = some bb2)
    (hex : bb1.exprs = pre ++ [.CallExpr (some PRIMITIVE_MOVE) none [.SymExpr l x, .SymExpr r a]])
    (hl : l ∈ (globalAnalysis csu flow fn).defSet)
    (hcs : ∃ pr, copyStatement (globalAnalysis csu flow fn).useSet
      (globalAnalysis csu flow fn).defSet
      (.CallExpr (some PRIMITIVE_MOVE) none [.SymExpr l x, .SymExpr r a]) = some pr)
    (hin : bb2.ins = [b1])
    (hfix : IsFlowFixpoint fn.basicBlocks (globalAnalysis csu flow fn).COPY
      (globalAnalysis csu flow fn).KILL (globalAnalysis csu flow fn).IN
      (globalAnalysis csu flow fn).OUT)
    (js : List Nat)
    (hrhs : derefVar (js.foldl (globalStep (globalAnalysis csu flow fn).useSet
        (globalAnalysis csu flow fn).defSet (globalAnalysis csu flow fn).dense
        (globalAnalysis csu flow fn).IN) fn.basicBlocks) ⟨b1, pre.length, 2⟩ = some a') :
    (seedCopies
      (js.foldl (globalStep (globalAnalysis csu flow fn).useSet
        (globalAnalysis csu flow fn).defSet (globalAnalysis csu flow fn).dense
        (globalAnalysis csu flow fn).IN) fn.basicBlocks)
      ((globalAnalysis csu flow fn).IN.getD b2 []) 0 (globalAnalysis csu flow fn).dense
      (Copies.empty, false)).1.available.get x = some a' ∧
    (seedCopies
      (js.foldl (globalStep (globalAnalysis csu flow fn).useSet
        (globalAnalysis csu flow fn).defSet (globalAnalysis csu flow fn).dense
        (globalAnalysis csu flow fn).IN) fn.basicBlocks)
      ((globalAnalysis csu flow fn).IN.getD b2 []) 0 (globalAnalysis csu flow fn).dense
      (Copies.empty, false)).2 = true := by
  obtain ⟨j, hj, hall⟩ := analysis_last_move csu flow fn hn b1 bb1 pre l r x a hbb1 hex hl
  obtain ⟨hdj, hcj⟩ := hj hcs
  obtain ⟨pr, hpr⟩ := hcs
  have hlhs0 : derefVar fn.basicBlocks ⟨b1, pre.length, 1⟩ = some x := by
    have he : bb1.exprs.get? pre.length =
        some (.CallExpr (some PRIMITIVE_MOVE) none [.SymExpr l x, .SymExpr r a]) := by
      rw [hex, List.get?_eq_getElem?]; simp
    unfold derefVar
    simp only [hbb1, he]
    rfl
  apply seedCopies_some _ _ x a' _ 0 j ⟨⟨b1, pre.length, 1⟩, ⟨b1, pre.length, 2⟩⟩ _ hdj
  · show bit (globalAnalysis csu flow fn).IN b2 (0 + j) = true
    rw [Nat.zero_add, flow_in_single _ _ _ _ _ hfix b2 bb2 hbb2 j b1 hin]
    exact flow_out_true _ _ _ _ _ hfix b1 bb1 hbb1 j hcj
  · rw [dense_lhs_stable _ _ _ _ _ _ (dense_mem_flatten csu flow fn j _ hdj) js]
    exact hlhs0
  · exact hrhs
  · intro t p ht hp hb hx
    rw [dense_lhs_stable _ _ _ _ _ p (dense_mem_flatten csu flow fn t p hp) js] at hx
    have hbit : bit (globalAnalysis csu flow fn).IN b2 t = true := by
      simpa [bit] using hb
    rcases hall t p hp hx with ⟨htj, _⟩ | ⟨hc, hk⟩
    · omega
    · rw [flow_in_single _ _ _ _ _ hfix b2 bb2 hbb2 t b1 hin,
        flow_out_false _ _ _ _ _ hfix b1 bb1 hbb1 t hc hk] at hbit
      exact Bool.noConfusion hbit
theorem bit_eq_false_of_length (V : List (List Bool)) (size i j : Nat)
    (h : V.all (fun v => decide (v.length ≤ size)) = true) (hj : size ≤ j) :
    bit V i j = false := by
  unfold bit
  rw [List.all_eq_true] at h
  rw [List.getD_eq_getElem?_getD V]
  cases hv : V[i]? with
  | none => simp
  | some v =>
    have hmem : v ∈ V := List.getElem?_mem hv
    have hlen := h v hmem
    simp only [decide_eq_true_eq] at hlen
    simp only [Option.getD_some]
    rw [List.getD_eq_getElem?_getD, List.getElem?_eq_none (by omega)]
    rfl

theorem flowFixpointCheck_sound (blocks : List BasicBlock) (GEN KILL IN OUT : List (List Bool))
    (size : Nat) (h : flowFixpointCheck blocks GEN KILL IN OUT size = true) :
    IsFlowFixpoint blocks GEN KILL IN OUT := by
  unfold flowFixpointCheck at h
  simp only [Bool.and_eq_true] at h
  obtain ⟨⟨⟨⟨hG, hK⟩, hI⟩, hO⟩, hall⟩ := h
  intro i bb hbb j
  have hi : i < blocks.length := (List.get?_eq_some.1 hbb).1
  have hgetD : blocks.getD i ⟨[], [], []⟩ = bb := by
    rw [List.getD_eq_getElem?_getD, ← List.get?_eq_getElem?, hbb]; rfl
  rcases Nat.lt_or_ge j size with hj | hj
  · rw [List.all_eq_true] at hall
    have h1 := hall i (List.mem_range.2 hi)
    rw [List.all_eq_true] at h1
    have h2 := h1 j (List.mem_range.2 hj)
    rw [hgetD] at h2
    simp only [Bool.and_eq_true, Bool.or_eq_true, beq_iff_eq, List.isEmpty_iff] at h2
    refine ⟨h2.1, fun hne => ?_⟩
    rcases h2.2 with h3 | h3
    · exact absurd h3 hne
    · exact h3
  · rw [bit_eq_false_of_length OUT size i j hO hj, bit_eq_false_of_length GEN size i j hG hj,
      bit_eq_false_of_length IN size i j hI hj]
    refine ⟨by simp, fun hne => ?_⟩
    symm
    rw [← Bool.not_eq_true, List.all_eq_true]
    intro hall'
    cases hins : bb.ins with
    | nil => exact hne hins
    | cons p ps =>
      have := hall' p (by rw [hins]; exact List.mem_cons_self _ _)
      rw [bit_eq_false_of_length OUT size p j hO hj] at this
      exact Bool.noConfusion this

theorem pair_is_candidate (csu : FnSymbol → SymUses) (flow : FlowAnalysis) (fn : FnSymbol)
    (j b1 si : Nat) (bb1 : BasicBlock) (e : Expr)
    (h : (globalAnalysis csu flow fn).dense.get? j = some ⟨⟨b1, si, 1⟩, ⟨b1, si, 2⟩⟩)
    (hbb1 : fn.basicBlocks.get? b1 = some bb1) (he : bb1.exprs.get? si = some e) :
    ∃ pr, copyStatement (globalAnalysis csu flow fn).useSet
      (globalAnalysis csu flow fn).defSet e = some pr := by
  obtain ⟨t, bb, si', e', pr, hbb, he', hpr, hp⟩ :=
    pairsFrom_mem _ _ _ _ _ 0 (dense_mem_flatten csu flow fn j _ h)
  simp only [CopyPair.mk.injEq, SymExprPtr.mk.injEq, Nat.zero_add, and_true] at hp
  obtain ⟨⟨h1, h2⟩, _⟩ := hp
  subst h1 h2
  rw [hbb1] at hbb
  simp only [Option.some.injEq] at hbb
  subst hbb
  rw [he] at he'
  simp only [Option.some.injEq] at he'
  subst he'
  exact ⟨pr, hpr⟩

/-- C7 (amended): `B1` ends with `x:=a` (`x`, `a` candidate locals), `B1` is the
only predecessor of `B2`, `B2` starts with a plain use of `x`, the flow analysis
returns a fixpoint, and the right-hand side of `x:=a` still references `a` when
`B2` is reached by the last loop; then after `globalCopyPropagation` that use
references `a`. -/
theorem globalCopyPropagation_crossBlock (csu : FnSymbol → SymUses) (flow : FlowAnalysis)
    (fn : FnSymbol) (A : GlobalAnalysis) (b1 b2 : Nat) (bb1 bb2 : BasicBlock)
    (pre tail : List Expr) (l r : Nat) (x a : Symbol) (useStmt : Expr) (p : Nat)
    (se : SymExprNode)
    (hA : A = globalAnalysis csu flow fn)
    (hn : 2 ≤ fn.basicBlocks.length)
    (hbb1 : fn.basicBlocks.get? b1 = some bb1) (hbb2 : fn.basicBlocks.get? b2 = some bb2)
    (hex1 : bb1.exprs =
      pre ++ [.CallExpr (some PRIMITIVE_MOVE) none [.SymExpr l x, .SymExpr r a]])
    (hins : bb2.ins = [b1])
    (hex2 : bb2.exprs = useStmt :: tail)
    (hx : x ∈ candidateLocals fn) (ha : a ∈ candidateLocals fn)
    (hl : l ∈ (csu fn).defs x) (hr : r ∈ (csu fn).uses a)
    (hse : (collectSymExprs none useStmt).get? p = some se) (hvar : se.var = x)
    (huse : se.id ∈ (csu fn).uses x)
    (hplain : invalidateCopies se A.defSet A.useSet = false)
    (hfix : IsFlowFixpoint fn.basicBlocks A.COPY A.KILL A.IN A.OUT)
    (hrhs : derefVar
      ((List.range b2).foldl (globalStep A.useSet A.defSet A.dense A.IN) fn.basicBlocks)
      ⟨b1, pre.length, 2⟩ = some a) :
    ∃ bb' s' tail', (globalCopyPropagation csu flow fn).basicBlocks.get? b2 = some bb' ∧
      bb'.exprs = s' :: tail' ∧
      (collectSymExprs none s').get? p = some ⟨se.id, a, se.parentExpr⟩ := by
  subst hA
  have hl' : l ∈ (globalAnalysis csu flow fn).defSet := mem_buildDefSet _ _ x _ hx hl
  have hr' : r ∈ (globalAnalysis csu flow fn).useSet := mem_buildUseSet _ _ a _ ha hr
  have hu' : se.id ∈ (globalAnalysis csu flow fn).useSet := mem_buildUseSet _ _ x _ hx huse
  have hblock := global_block csu flow fn hn b2 bb2 hbb2
  have he1 : bb1.exprs.get? pre.length =
      some (.CallExpr (some PRIMITIVE_MOVE) none [.SymExpr l x, .SymExpr r a]) := by
    rw [hex1, List.get?_eq_getElem?]; simp
  by_cases hxa : x = a
  · subst hxa
    have hnone := seed_without_pair csu flow fn (by omega) b1 b2 bb1 bb2 pre l r x x hbb1 hbb2
      hex1 hl' (by rw [hins]; simp) hfix
      (by
        intro j hj
        obtain ⟨pr, hpr⟩ := pair_is_candidate csu flow fn j b1 pre.length bb1 _ hj hbb1 he1
        simp [copyStatement] at hpr)
      (List.range b2)
    rw [hblock]
    split
    · rw [hex2]
      obtain ⟨tail', ht⟩ := core_head (globalAnalysis csu flow fn).useSet
        (globalAnalysis csu flow fn).defSet (seedCopies
          ((List.range b2).foldl (globalStep (globalAnalysis csu flow fn).useSet
            (globalAnalysis csu flow fn).defSet (globalAnalysis csu flow fn).dense
            (globalAnalysis csu flow fn).IN) fn.basicBlocks)
          ((globalAnalysis csu flow fn).IN.getD b2 []) 0 (globalAnalysis csu flow fn).dense
          (Copies.empty, false)).1 useStmt tail
      refine ⟨_, _, tail', rfl, ht, ?_⟩
      rw [propagate_get _ _ _ _ _ _ hse, propagateUse_of_none _ _ _ _ (by rw [hvar]; exact hnone),
        hvar]
    · refine ⟨bb2, useStmt, tail, rfl, hex2, ?_⟩
      rw [hse, ← hvar]
  · have hcs := copyStatement_of_shape (globalAnalysis csu flow fn).useSet
      (globalAnalysis csu flow fn).defSet l r x a none [] hl' (Or.inl hr') hxa
    obtain ⟨hsome, hproceed⟩ := seed_with_pair csu flow fn (by omega) b1 b2 bb1 bb2 pre l r x a
      a hbb1 hbb2 hex1 hl' ⟨_, hcs⟩ hins hfix (List.range b2) hrhs
    rw [hblock, if_pos hproceed, hex2]
    obtain ⟨tail', ht⟩ := core_head (globalAnalysis csu flow fn).useSet
      (globalAnalysis csu flow fn).defSet (seedCopies
        ((List.range b2).foldl (globalStep (globalAnalysis csu flow fn).useSet
          (globalAnalysis csu flow fn).defSet (globalAnalysis csu flow fn).dense
          (globalAnalysis csu flow fn).IN) fn.basicBlocks)
        ((globalAnalysis csu flow fn).IN.getD b2 []) 0 (globalAnalysis csu flow fn).dense
        (Copies.empty, false)).1 useStmt tail
    refine ⟨_, _, tail', rfl, ht, ?_⟩
    rw [propagate_get _ _ _ _ _ _ hse,
      propagateUse_of_some _ _ _ _ a (by rw [hvar]; exact hsome) hu' hplain]

theorem globalCopyPropagation_crossBlock_witness :
    ∃ bb' s' tail',
      (globalCopyPropagation compute_sym_uses forwardFlowAnalysis crossFn).basicBlocks.get? 2 =
        some bb' ∧
      bb'.exprs = s' :: tail' ∧
      (collectSymExprs none s').get? 0 =
        some ⟨30, sampleVar 2, some ⟨some (PRIMITIVE_OTHER 0), 1⟩⟩ :=
  globalCopyPropagation_crossBlock compute_sym_uses forwardFlowAnalysis crossFn
    (globalAnalysis compute_sym_uses forwardFlowAnalysis crossFn) 1 2
    ⟨[sampleMove 10 1 2], [0], [2]⟩ ⟨[sampleUse 30 1], [1], []⟩ [] [] 10 11
    (sampleVar 1) (sampleVar 2) (sampleUse 30 1) 0
    ⟨30, sampleVar 1, some ⟨some (PRIMITIVE_OTHER 0), 1⟩⟩
    rfl (by decide) rfl rfl rfl rfl rfl (by decide) (by decide) (by decide) (by decide)
    rfl rfl (by decide) (by decide)
    (flowFixpointCheck_sound _ _ _ _ _ 1 (by decide)) (by decide)
/-- C8: `B1` ends with `x:=a` (`x` a candidate local), `B1` and `P2` are both
predecessors of `B2`, the pair of `x:=a` is not in `OUT(P2)`, and the flow
analysis returns a fixpoint; then `globalCopyPropagation` leaves an occurrence
of `x` in the first statement of `B2` as it is: it is not rewritten to `a`. -/
theorem globalCopyPropagation_join (csu : FnSymbol → SymUses) (flow : FlowAnalysis)
    (fn : FnSymbol) (A : GlobalAnalysis) (b1 p2 b2 : Nat) (bb1 bb2 : BasicBlock)
    (pre tail : List Expr) (l r : Nat) (x a : Symbol) (useStmt : Expr) (p : Nat)
    (se : SymExprNode)
    (hA : A = globalAnalysis csu flow fn)
    (hbb1 : fn.basicBlocks.get? b1 = some bb1) (hbb2 : fn.basicBlocks.get? b2 = some bb2)
    (hex1 : bb1.exprs =
      pre ++ [.CallExpr (some PRIMITIVE_MOVE) none [.SymExpr l x, .SymExpr r a]])
    (hin1 : b1 ∈ bb2.ins) (hin2 : p2 ∈ bb2.ins)
    (hex2 : bb2.exprs = useStmt :: tail)
    (hx : x ∈ candidateLocals fn) (hl : l ∈ (csu fn).defs x)
    (hse : (collectSymExprs none useStmt).get? p = some se) (hvar : se.var = x)
    (hfix : IsFlowFixpoint fn.basicBlocks A.COPY A.KILL A.IN A.OUT)
    (hout : ∀ j, A.dense.get? j = some ⟨⟨b1, pre.length, 1⟩, ⟨b1, pre.length, 2⟩⟩ →
      bit A.OUT p2 j = false) :
    ∃ bb' s' tail', (globalCopyPropagation csu flow fn).basicBlocks.get? b2 = some bb' ∧
      bb'.exprs = s' :: tail' ∧ (collectSymExprs none s').get? p = some se := by
  subst hA
  rcases Nat.lt_or_ge fn.basicBlocks.length 2 with hn | hn
  · refine ⟨bb2, useStmt, tail, ?_, hex2, hse⟩
    unfold globalCopyPropagation
    rw [if_pos (by omega)]
    exact hbb2
  · have hl' : l ∈ (globalAnalysis csu flow fn).defSet := mem_buildDefSet _ _ x _ hx hl
    have hnone := seed_without_pair csu flow fn (by omega) b1 b2 bb1 bb2 pre l r x a hbb1 hbb2
      hex1 hl' hin1 hfix
      (fun j hj => flow_in_false _ _ _ _ _ hfix b2 bb2 hbb2 j p2 hin2 (hout j hj))
      (List.range b2)
    rw [global_block csu flow fn hn b2 bb2 hbb2]
    split
    · rw [hex2]
      obtain ⟨tail', ht⟩ := core_head (globalAnalysis csu flow fn).useSet
        (globalAnalysis csu flow fn).defSet (seedCopies
          ((List.range b2).foldl (globalStep (globalAnalysis csu flow fn).useSet
            (globalAnalysis csu flow fn).defSet (globalAnalysis csu flow fn).dense
            (globalAnalysis csu flow fn).IN) fn.basicBlocks)
          ((globalAnalysis csu flow fn).IN.getD b2 []) 0 (globalAnalysis csu flow fn).dense
          (Copies.empty, false)).1 useStmt tail
      refine ⟨_, _, tail', rfl, ht, ?_⟩
      rw [propagate_get _ _ _ _ _ _ hse, propagateUse_of_none _ _ _ _ (by rw [hvar]; exact hnone)]
    · exact ⟨bb2, useStmt, tail, rfl, hex2, hse⟩

theorem globalCopyPropagation_join_witness :
    ∃ bb' s' tail',
      (globalCopyPropagation compute_sym_uses forwardFlowAnalysis joinFn).basicBlocks.get? 3 =
        some bb' ∧
      bb'.exprs = s' :: tail' ∧
      (collectSymExprs none s').get? 0 =
        some ⟨30, sampleVar 1, some ⟨some (PRIMITIVE_OTHER 0), 1⟩⟩ :=
  globalCopyPropagation_join compute_sym_uses forwardFlowAnalysis joinFn
    (globalAnalysis compute_sym_uses forwardFlowAnalysis joinFn) 1 2 3
    ⟨[sampleMove 10 1 2], [0], [3]⟩ ⟨[sampleUse 30 1], [1, 2], []⟩ [] [] 10 11
    (sampleVar 1) (sampleVar 2) (sampleUse 30 1) 0
    ⟨30, sampleVar 1, some ⟨some (PRIMITIVE_OTHER 0), 1⟩⟩
    rfl rfl rfl rfl (by decide) (by decide) rfl (by decide) (by decide) rfl rfl
    (flowFixpointCheck_sound _ _ _ _ _ 1 (by decide))
    (by
      intro j hj
      have hj0 : j = 0 := by
        have := (List.get?_eq_some.1 hj).1
        have hlen : (globalAnalysis compute_sym_uses forwardFlowAnalysis joinFn).dense.length = 1 := by
          decide
        omega
      subst hj0
      decide)

/-- C7 as stated fails: in `chainCrossFn` block 1 ends with `v1 := v2`, is the
only predecessor of block 2, block 2 starts with a plain use of `v1`, the flow
analysis returns a fixpoint, and after `globalCopyPropagation` the use
references `v4`, not `v2` (block 0 ends with `v2 := v4`). -/
theorem globalCopyPropagation_crossBlock_counterexample :
    ¬ ∀ (csu : FnSymbol → SymUses) (flow : FlowAnalysis)
      (fn : FnSymbol) (A : GlobalAnalysis) (b1 b2 : Nat) (bb1 bb2 : BasicBlock)
      (pre tail : List Expr) (l r : Nat) (x a : Symbol) (useStmt : Expr) (p : Nat)
      (se : SymExprNode),
      A = globalAnalysis csu flow fn →
      2 ≤ fn.basicBlocks.length →
      fn.basicBlocks.get? b1 = some bb1 → fn.basicBlocks.get? b2 = some bb2 →
      bb1.exprs = pre ++ [.CallExpr (some PRIMITIVE_MOVE) none [.SymExpr l x, .SymExpr r a]] →
      bb2.ins = [b1] →
      bb2.exprs = useStmt :: tail →
      x ∈ candidateLocals fn → a ∈ candidateLocals fn →
      l ∈ (csu fn).defs x → r ∈ (csu fn).uses a →
      (collectSymExprs none useStmt).get? p = some se → se.var = x →
      se.id ∈ (csu fn).uses x →
      invalidateCopies se A.defSet A.useSet = false →
      IsFlowFixpoint fn.basicBlocks A.COPY A.KILL A.IN A.OUT →
      ∃ bb' s' tail', (globalCopyPropagation csu flow fn).basicBlocks.get? b2 = some bb' ∧
        bb'.exprs = s' :: tail' ∧
        (collectSymExprs none s').get? p = some ⟨se.id, a, se.parentExpr⟩ := by
  intro h
  obtain ⟨bb', s', tail', h1, h2, h3⟩ := h compute_sym_uses forwardFlowAnalysis chainCrossFn
    (globalAnalysis compute_sym_uses forwardFlowAnalysis chainCrossFn) 1 2
    ⟨[sampleMove 20 1 2], [0], [2, 4]⟩ ⟨[sampleUse 30 1], [1], []⟩ [] [] 20 21
    (sampleVar 1) (sampleVar 2) (sampleUse 30 1) 0
    ⟨30, sampleVar 1, some ⟨some (PRIMITIVE_OTHER 0), 1⟩⟩
    rfl (by decide) rfl rfl rfl rfl rfl (by decide) (by decide) (by decide) (by decide)
    rfl rfl (by decide) (by decide)
    (flowFixpointCheck_sound _ _ _ _ _ 2 (by decide))
  have hres : (globalCopyPropagation compute_sym_uses forwardFlowAnalysis
      chainCrossFn).basicBlocks.get? 2 = some ⟨[sampleUse 30 4], [1], []⟩ := by rfl
  rw [hres] at h1
  simp only [Option.some.injEq] at h1
  subst h1
  simp only [List.cons.injEq] at h2
  obtain ⟨h2, _⟩ := h2
  subst h2
  revert h3
  decide
mutual
theorem rebind_id (f : SymExprNode → Symbol) :
    ∀ (parent : Option ParentCall) (e : Expr),
      (∀ se, se ∈ collectSymExprs parent e → f se = se.var) → rebindSymExprs f parent e = e
  | parent, .SymExpr id var, h => by
      have := h ⟨id, var, parent⟩ (by simp [collectSymExprs])
      simp only [rebindSymExprs, this]
  | _, .CallExpr primitive baseExpr argList, h => by
      simp only [collectSymExprs, List.mem_append] at h
      simp only [rebindSymExprs]
      rw [rebindBase_id f primitive baseExpr (fun se hse => h se (Or.inl hse)),
        rebindActuals_id f primitive 1 argList (fun se hse => h se (Or.inr hse))]
  | _, .DefExpr sym children, h => by
      simp only [collectSymExprs] at h
      simp only [rebindSymExprs]
      rw [rebindChildren_id f children h]
  | _, .Other children, h => by
      simp only [collectSymExprs] at h
      simp only [rebindSymExprs]
      rw [rebindChildren_id f children h]
theorem rebindBase_id (f : SymExprNode → Symbol) (primitive : Option PrimitiveTag) :
    ∀ (b : Option Expr), (∀ se, se ∈ collectBase primitive b → f se = se.var) →
      rebindBase f primitive b = b
  | none, _ => rfl
  | some e, h => by
      simp only [collectBase] at h
      simp only [rebindBase]
      rw [rebind_id f _ e h]
theorem rebindActuals_id (f : SymExprNode → Symbol) (primitive : Option PrimitiveTag) :
    ∀ (i : Nat) (l : List Expr), (∀ se, se ∈ collectActuals primitive i l → f se = se.var) →
      rebindActuals f primitive i l = l
  | _, [], _ => rfl
  | i, e :: es, h => by
      simp only [collectActuals, List.mem_append] at h
      simp only [rebindActuals]
      rw [rebind_id f _ e (fun se hse => h se (Or.inl hse)),
        rebindActuals_id f primitive (i + 1) es (fun se hse => h se (Or.inr hse))]
theorem rebindChildren_id (f : SymExprNode → Symbol) :
    ∀ (l : List Expr), (∀ se, se ∈ collectChildren l → f se = se.var) →
      rebindChildren f l = l
  | [], _ => rfl
  | e :: es, h => by
      simp only [collectChildren, List.mem_append] at h
      simp only [rebindChildren]
      rw [rebind_id f _ e (fun se hse => h se (Or.inl hse)),
        rebindChildren_id f es (fun se hse => h se (Or.inr hse))]
end

theorem propagateUse_not_use (available : AvailableMap) (useSet defSet : List Nat)
    (se : SymExprNode) (h : se.id ∉ useSet) :
    propagateUse available useSet defSet se = se.var := by
  unfold propagateUse
  simp [h]

theorem isCopyDestination_of_mem (useSet defSet : List Nat) (blocks : List BasicBlock)
    (bb : BasicBlock) (e : Expr) (pr : (Nat × Symbol) × (Nat × Symbol))
    (hbb : bb ∈ blocks) (he : e ∈ bb.exprs) (hpr : copyStatement useSet defSet e = some pr) :
    isCopyDestination useSet defSet blocks pr.1.2 = true := by
  unfold isCopyDestination
  rw [List.any_eq_true]
  refine ⟨bb, hbb, ?_⟩
  rw [List.any_eq_true]
  exact ⟨e, he, by rw [hpr]; simp⟩

theorem insertCopy_keeps_none (useSet defSet : List Nat) (blocks : List BasicBlock)
    (bb : BasicBlock) (e : Expr) (c : Copies) (hbb : bb ∈ blocks) (he : e ∈ bb.exprs)
    (hc : ∀ k, isCopyDestination useSet defSet blocks k = false → c.available.get k = none) :
    ∀ k, isCopyDestination useSet defSet blocks k = false →
      (insertCopy useSet defSet c e).available.get k = none := by
  intro k hk
  unfold insertCopy
  cases hpr : copyStatement useSet defSet e with
  | none => exact hc k hk
  | some pr =>
    simp only
    have hd := isCopyDestination_of_mem useSet defSet blocks bb e pr hbb he hpr
    rw [makeAvailable_get_ne _ _ _ _ (fun h => by rw [h, hd] at hk; exact Bool.noConfusion hk)]
    exact hc k hk

/-- When no `SymExpr` of the use-set references a key the maps can hold,
`localCopyPropagationCore` rebinds nothing. -/
theorem core_id (useSet defSet : List Nat) (blocks : List BasicBlock) (bb : BasicBlock)
    (hbb : bb ∈ blocks)
    (hH : ∀ e, e ∈ bb.exprs → ∀ se, se ∈ collectSymExprs none e → se.id ∈ useSet →
      isCopyDestination useSet defSet blocks se.var = false) :
    ∀ (exprs : List Expr) (c : Copies), (∀ e, e ∈ exprs → e ∈ bb.exprs) →
      (∀ k, isCopyDestination useSet defSet blocks k = false → c.available.get k = none) →
      (localCopyPropagationCore useSet defSet exprs c).1 = exprs
  | [], _, _, _ => rfl
  | e :: exprs, c, hsub, hc => by
      have he : e ∈ bb.exprs := hsub e (List.mem_cons_self _ _)
      have hprop : propagateStatement useSet defSet c.available e = e := by
        unfold propagateStatement
        apply rebind_id
        intro se hse
        by_cases hu : se.id ∈ useSet
        · exact propagateUse_of_none _ _ _ _ (hc _ (hH e he se hse hu))
        · exact propagateUse_not_use _ _ _ _ hu
      simp only [localCopyPropagationCore, localStep, hprop]
      rw [core_id useSet defSet blocks bb hbb hH exprs _
        (fun e' he' => hsub e' (List.mem_cons_of_mem _ he'))]
      apply insertCopy_keeps_none useSet defSet blocks bb e _ hbb he
      intro k hk
      exact invalidate_get_none useSet defSet k _ c (hc k hk)

theorem seedCopies_keeps_none (useSet defSet : List Nat) (blocks S : List BasicBlock)
    (inBits : List Bool) :
    ∀ (pairs : List CopyPair) (j : Nat) (s : Copies × Bool),
      (∀ p, p ∈ pairs → ∀ l, derefVar S p.lhs = some l →
        isCopyDestination useSet defSet blocks l = true) →
      (∀ k, isCopyDestination useSet defSet blocks k = false → s.1.available.get k = none) →
      ∀ k, isCopyDestination useSet defSet blocks k = false →
        (seedCopies S inBits j pairs s).1.available.get k = none
  | [], _, _, _, hs => hs
  | p :: pairs, j, s, hp, hs => by
      simp only [seedCopies]
      apply seedCopies_keeps_none useSet defSet blocks S inBits pairs (j + 1) _
        (fun q hq => hp q (List.mem_cons_of_mem _ hq))
      intro k hk
      by_cases hb : inBits.getD j false = true
      · simp only [hb, if_true]
        cases hl : derefVar S p.lhs with
        | none => exact hs k hk
        | some l =>
          cases hr : derefVar S p.rhs with
          | none => exact hs k hk
          | some r =>
            simp only
            have hd := hp p (List.mem_cons_self _ _) l hl
            rw [makeAvailable_get_ne _ _ _ _
              (fun h => by rw [h, hd] at hk; exact Bool.noConfusion hk)]
            exact hs k hk
      · simp only [hb]
        exact hs k hk

theorem set_get_self (blocks : List BasicBlock) :
    ∀ (i : Nat) (bb : BasicBlock), blocks.get? i = some bb → blocks.set i bb = blocks := by
  induction blocks with
  | nil => intro i bb h; simp at h
  | cons b bs ih =>
    intro i bb h
    cases i with
    | zero => simp at h; subst h; rfl
    | succ i =>
      simp only [List.get?_cons_succ] at h
      simp only [List.set_cons_succ, ih i bb h]

theorem dense_lhs_destination (useSet defSet : List Nat) (blocks : List BasicBlock)
    (p : CopyPair) (hp : p ∈ (pairsFrom useSet defSet blocks 0 blocks).flatten) (l : Symbol)
    (hl : derefVar blocks p.lhs = some l) :
    isCopyDestination useSet defSet blocks l = true := by
  obtain ⟨t, bb, si, e, pr, hbb, he, hpr, hpe⟩ := pairsFrom_mem useSet defSet blocks p blocks 0 hp
  have hbb' : blocks.get? (0 + t) = some bb := by simpa using hbb
  have hd := (derefVar_copy useSet defSet blocks (0 + t) si bb e pr hbb' he hpr).1
  rw [hpe] at hl
  rw [hd] at hl
  simp only [Option.some.injEq] at hl
  subst hl
  exact isCopyDestination_of_mem useSet defSet blocks bb e pr (List.get?_mem hbb)
    (List.get?_mem he) hpr

/-- When no `SymExpr` of the use-set references the left-hand symbol of a
candidate move, an iteration of the last loop changes nothing. -/
theorem globalStep_id (useSet defSet : List Nat) (blocks : List BasicBlock)
    (IN : List (List Bool))
    (hH : usesNoCopyDestination useSet defSet blocks = true) (i : Nat) :
    globalStep useSet defSet (pairsFrom useSet defSet blocks 0 blocks).flatten IN blocks i =
      blocks := by
  unfold globalStep
  cases hbb : blocks.get? i with
  | none => rfl
  | some bb =>
    dsimp only
    split
    · have hmem : bb ∈ blocks := List.get?_mem hbb
      have hH' : ∀ e, e ∈ bb.exprs → ∀ se, se ∈ collectSymExprs none e → se.id ∈ useSet →
          isCopyDestination useSet defSet blocks se.var = false := by
        intro e he se hse hu
        unfold usesNoCopyDestination at hH
        rw [List.all_eq_true] at hH
        have h1 := hH bb hmem
        rw [List.all_eq_true] at h1
        have h2 := h1 e he
        rw [List.all_eq_true] at h2
        have h3 := h2 se hse
        have hu' : useSet.contains se.id = true := by simpa using hu
        rw [hu'] at h3
        simpa using h3
      rw [core_id useSet defSet blocks bb hmem hH' bb.exprs _ (fun e he => he)
        (seedCopies_keeps_none useSet defSet blocks blocks _ _ 0 _
          (fun p hp l hl => dense_lhs_destination useSet defSet blocks p hp l hl)
          (fun k _ => rfl))]
      exact set_get_self blocks i bb hbb
    · rfl

theorem globalFold_id (useSet defSet : List Nat) (blocks : List BasicBlock)
    (IN : List (List Bool))
    (hH : usesNoCopyDestination useSet defSet blocks = true) :
    ∀ (js : List Nat),
      js.foldl (globalStep useSet defSet (pairsFrom useSet defSet blocks 0 blocks).flatten IN)
        blocks = blocks
  | [] => rfl
  | j :: js => by
      rw [List.foldl_cons, globalStep_id useSet defSet blocks IN hH j]
      exact globalFold_id useSet defSet blocks IN hH js

theorem globalCopyPropagation_id (csu : FnSymbol → SymUses) (flow : FlowAnalysis)
    (fn : FnSymbol)
    (hH : usesNoCopyDestination (globalAnalysis csu flow fn).useSet
      (globalAnalysis csu flow fn).defSet fn.basicBlocks = true) :
    globalCopyPropagation csu flow fn = fn := by
  unfold globalCopyPropagation
  split
  · rfl
  · simp only
    rw [(analysis_pairs csu flow fn).1, globalFold_id _ _ _ _ hH]
theorem rebind_move_shape (f : SymExprNode → Symbol) (e : Expr) (base' : Option Expr)
    (lid rid : Nat) (lvar rvar : Symbol) (rest' : List Expr)
    (h : rebindSymExprs f none e =
      .CallExpr (some PRIMITIVE_MOVE) base' (.SymExpr lid lvar :: .SymExpr rid rvar :: rest')) :
    ∃ base l0 r0 rest,
      e = .CallExpr (some PRIMITIVE_MOVE) base (.SymExpr lid l0 :: .SymExpr rid r0 :: rest) ∧
      lvar = f ⟨lid, l0, some ⟨some PRIMITIVE_MOVE, 1⟩⟩ ∧
      rvar = f ⟨rid, r0, some ⟨some PRIMITIVE_MOVE, 2⟩⟩ := by
  cases e with
  | SymExpr id var => simp [rebindSymExprs] at h
  | DefExpr sym children => simp [rebindSymExprs] at h
  | Other children => simp [rebindSymExprs] at h
  | CallExpr prim base args =>
    simp only [rebindSymExprs, Expr.CallExpr.injEq] at h
    obtain ⟨hprim, _, hargs⟩ := h
    subst hprim
    cases args with
    | nil => simp [rebindActuals] at hargs
    | cons a1 as =>
      simp only [rebindActuals, List.cons.injEq] at hargs
      obtain ⟨h1, h2⟩ := hargs
      cases as with
      | nil => simp [rebindActuals] at h2
      | cons a2 as' =>
        simp only [rebindActuals, List.cons.injEq] at h2
        obtain ⟨h2, _⟩ := h2
        cases a1 with
        | CallExpr _ _ _ => simp [rebindSymExprs] at h1
        | DefExpr _ _ => simp [rebindSymExprs] at h1
        | Other _ => simp [rebindSymExprs] at h1
        | SymExpr id1 v1 =>
          cases a2 with
          | CallExpr _ _ _ => simp [rebindSymExprs] at h2
          | DefExpr _ _ => simp [rebindSymExprs] at h2
          | Other _ => simp [rebindSymExprs] at h2
          | SymExpr id2 v2 =>
            simp only [rebindSymExprs, Expr.SymExpr.injEq] at h1 h2
            obtain ⟨hid1, hv1⟩ := h1
            obtain ⟨hid2, hv2⟩ := h2
            subst hid1 hid2
            exact ⟨base, v1, v2, as', rfl, hv1.symm, hv2.symm⟩

/-- A statement of the function keeps the keys of the forward map among the
left-hand symbols of the candidate moves of the function. -/
theorem localStep_keeps_none (useSet defSet : List Nat) (blocks : List BasicBlock)
    (bb : BasicBlock) (e : Expr) (c : Copies) (hbb : bb ∈ blocks) (he : e ∈ bb.exprs)
    (hc : ∀ k, isCopyDestination useSet defSet blocks k = false → c.available.get k = none) :
    ∀ k, isCopyDestination useSet defSet blocks k = false →
      (localStep useSet defSet c e).2.available.get k = none := by
  intro k hk
  show (insertCopy useSet defSet _ (propagateStatement useSet defSet c.available e)).available.get
    k = none
  have hinv : ∀ k, isCopyDestination useSet defSet blocks k = false →
      (invalidateAvailable useSet defSet c
        (collectSymExprs none (propagateStatement useSet defSet c.available e))).available.get k
        = none :=
    fun k hk => invalidate_get_none useSet defSet k _ c (hc k hk)
  unfold insertCopy
  cases hpr : copyStatement useSet defSet (propagateStatement useSet defSet c.available e) with
  | none => exact hinv k hk
  | some pr =>
    simp only
    obtain ⟨base', rest', hshape, hl, hr, hne⟩ := copyStatement_eq_some useSet defSet _ pr hpr
    obtain ⟨base, l0, r0, rest, heq, hl0, hr0⟩ :=
      rebind_move_shape _ e base' pr.1.1 pr.2.1 pr.1.2 pr.2.2 rest' hshape
    rw [propagateUse_of_def _ _ _ _ hl] at hl0
    simp only at hl0
    have hdest : isCopyDestination useSet defSet blocks pr.1.2 = true := by
      by_cases hlr : l0 = r0
      · -- the right-hand side was rebound, so its old symbol was a key
        have hne' : pr.2.2 ≠ r0 := by
          intro h
          apply hne
          rw [hl0, hlr, h]
        cases hd : isCopyDestination useSet defSet blocks r0 with
        | true => rw [hl0, hlr]; exact hd
        | false =>
          exfalso
          apply hne'
          rw [hr0]
          exact propagateUse_of_none _ _ _ _ (hc r0 hd)
      · have hr' : pr.2.1 ∈ useSet ∨ r0.isConstant = true ∨ r0.isImmediate = true := by
          by_cases hu : pr.2.1 ∈ useSet
          · exact Or.inl hu
          · rw [propagateUse_not_use _ _ _ _ hu] at hr0
            simp only at hr0
            rw [hr0] at hr
            exact hr
        have hcs := copyStatement_of_shape useSet defSet pr.1.1 pr.2.1 l0 r0 base rest hl hr' hlr
        rw [← heq] at hcs
        have := isCopyDestination_of_mem useSet defSet blocks bb e _ hbb he hcs
        rw [hl0]
        exact this
    rw [makeAvailable_get_ne _ _ _ _ (fun h => by rw [h, hdest] at hk; exact Bool.noConfusion hk)]
    exact hinv k hk

theorem core_keeps_none (useSet defSet : List Nat) (blocks : List BasicBlock)
    (bb : BasicBlock) (hbb : bb ∈ blocks) :
    ∀ (exprs : List Expr) (c : Copies), (∀ e, e ∈ exprs → e ∈ bb.exprs) →
      (∀ k, isCopyDestination useSet defSet blocks k = false → c.available.get k = none) →
      ∀ k, isCopyDestination useSet defSet blocks k = false →
        (localCopyPropagationCore useSet defSet exprs c).2.available.get k = none
  | [], _, _, hc => hc
  | e :: exprs, c, hsub, hc => by
      simp only [localCopyPropagationCore]
      exact core_keeps_none useSet defSet blocks bb hbb exprs _
        (fun e' he' => hsub e' (List.mem_cons_of_mem _ he'))
        (localStep_keeps_none useSet defSet blocks bb e c hbb
          (hsub e (List.mem_cons_self _ _)) hc)

/-- One run of `globalCopyPropagation` leaves a `SymExpr` as it is unless it is
in the use-set and references the left-hand symbol of a candidate move. -/
theorem globalCopyPropagation_keeps (csu : FnSymbol → SymUses) (flow : FlowAnalysis)
    (fn : FnSymbol) (b k p : Nat) (bb : BasicBlock) (e : Expr) (se : SymExprNode)
    (hbb : fn.basicBlocks.get? b = some bb) (he : bb.exprs.get? k = some e)
    (hse : (collectSymExprs none e).get? p = some se)
    (hcond : se.id ∉ (globalAnalysis csu flow fn).useSet ∨
      isCopyDestination (globalAnalysis csu flow fn).useSet (globalAnalysis csu flow fn).defSet
        fn.basicBlocks se.var = false) :
    ∃ bb' e', (globalCopyPropagation csu flow fn).basicBlocks.get? b = some bb' ∧
      bb'.exprs.get? k = some e' ∧ (collectSymExprs none e').get? p = some se := by
  rcases Nat.lt_or_ge fn.basicBlocks.length 2 with hn | hn
  · refine ⟨bb, e, ?_, he, hse⟩
    unfold globalCopyPropagation
    rw [if_pos (by omega)]
    exact hbb
  · rw [global_block csu flow fn hn b bb hbb]
    split
    · refine ⟨_, _, rfl, core_get _ _ _ _ k e he, ?_⟩
      rw [propagate_get _ _ _ _ _ _ hse]
      have hmem : bb ∈ fn.basicBlocks := List.get?_mem hbb
      have hkeys := core_keeps_none (globalAnalysis csu flow fn).useSet
        (globalAnalysis csu flow fn).defSet fn.basicBlocks bb hmem (bb.exprs.take k)
        (seedCopies
          ((List.range b).foldl (globalStep (globalAnalysis csu flow fn).useSet
            (globalAnalysis csu flow fn).defSet (globalAnalysis csu flow fn).dense
            (globalAnalysis csu flow fn).IN) fn.basicBlocks)
          ((globalAnalysis csu flow fn).IN.getD b []) 0 (globalAnalysis csu flow fn).dense
          (Copies.empty, false)).1
        (fun e' he' => List.mem_of_mem_take he')
        (seedCopies_keeps_none _ _ fn.basicBlocks _ _ _ 0 _
          (fun q hq l hl => by
            rw [(analysis_pairs csu flow fn).1] at hq
            rw [dense_lhs_stable _ _ _ _ _ q hq (List.range b)] at hl
            exact dense_lhs_destination _ _ _ q hq l hl)
          (fun _ _ => rfl))
      rcases hcond with hu | hd
      · rw [propagateUse_not_use _ _ _ _ hu]
      · rw [propagateUse_of_none _ _ _ _ (hkeys se.var hd)]
    · exact ⟨bb, e, rfl, he, hse⟩

/-- C10 (amended): a second run of `globalCopyPropagation` rebinds only
`SymExpr`s that, after the first run, are in the use-set and reference the
left-hand symbol of a candidate move; every other `SymExpr` is left as the first
run left it. -/
theorem globalCopyPropagation_second_run (csu : FnSymbol → SymUses) (flow : FlowAnalysis)
    (fn : FnSymbol) (A : GlobalAnalysis) (b k p : Nat) (bb : BasicBlock) (e : Expr)
    (se : SymExprNode)
    (hA : A = globalAnalysis csu flow (globalCopyPropagation csu flow fn))
    (hbb : (globalCopyPropagation csu flow fn).basicBlocks.get? b = some bb)
    (he : bb.exprs.get? k = some e)
    (hse : (collectSymExprs none e).get? p = some se)
    (hcond : se.id ∉ A.useSet ∨
      isCopyDestination A.useSet A.defSet (globalCopyPropagation csu flow fn).basicBlocks
        se.var = false) :
    ∃ bb' e',
      (globalCopyPropagation csu flow (globalCopyPropagation csu flow fn)).basicBlocks.get? b =
        some bb' ∧
      bb'.exprs.get? k = some e' ∧ (collectSymExprs none e').get? p = some se := by
  subst hA
  exact globalCopyPropagation_keeps csu flow _ b k p bb e se hbb he hse hcond

theorem globalCopyPropagation_second_run_witness :
    ∃ bb' e',
      (globalCopyPropagation compute_sym_uses forwardFlowAnalysis
        (globalCopyPropagation compute_sym_uses forwardFlowAnalysis crossFn)).basicBlocks.get? 2 =
        some bb' ∧
      bb'.exprs.get? 0 = some e' ∧
      (collectSymExprs none e').get? 0 =
        some ⟨30, sampleVar 2, some ⟨some (PRIMITIVE_OTHER 0), 1⟩⟩ :=
  globalCopyPropagation_second_run compute_sym_uses forwardFlowAnalysis crossFn
    (globalAnalysis compute_sym_uses forwardFlowAnalysis
      (globalCopyPropagation compute_sym_uses forwardFlowAnalysis crossFn)) 2 0 0
    ⟨[sampleUse 30 2], [1], []⟩ (sampleUse 30 2)
    ⟨30, sampleVar 2, some ⟨some (PRIMITIVE_OTHER 0), 1⟩⟩
    rfl rfl rfl rfl (Or.inr (by decide))

/-- C10 as stated fails: on `backEdgeFn`, with the flow analysis returning a
fixpoint in both runs, the first run rebinds the use of `v1` in block 1 to `v2`
(block 2, which holds `v1 := v2`, is rewritten after it) and the second run
rebinds it again, to `v4`. -/
theorem globalCopyPropagation_second_run_counterexample :
    ¬ ∀ (csu : FnSymbol → SymUses) (flow : FlowAnalysis) (fn : FnSymbol),
      IsFlowFixpoint fn.basicBlocks (globalAnalysis csu flow fn).COPY
        (globalAnalysis csu flow fn).KILL (globalAnalysis csu flow fn).IN
        (globalAnalysis csu flow fn).OUT →
      IsFlowFixpoint (globalCopyPropagation csu flow fn).basicBlocks
        (globalAnalysis csu flow (globalCopyPropagation csu flow fn)).COPY
        (globalAnalysis csu flow (globalCopyPropagation csu flow fn)).KILL
        (globalAnalysis csu flow (globalCopyPropagation csu flow fn)).IN
        (globalAnalysis csu flow (globalCopyPropagation csu flow fn)).OUT →
      globalCopyPropagation csu flow (globalCopyPropagation csu flow fn) =
        globalCopyPropagation csu flow fn := by
  intro h
  have h1 := h compute_sym_uses forwardFlowAnalysis backEdgeFn
    (flowFixpointCheck_sound _ _ _ _ _ 2 (by decide))
    (flowFixpointCheck_sound _ _ _ _ _ 2 (by decide))
  have h2 := congrArg allSymExprs h1
  revert h2
  decide

/-- C9, the code on `killedSourceFn` (blocks `{v2 := v4}`, `{v1 := v2; v4 := v5}`,
`{use(v1)}` on one path): pair 1 is `v1 := v2` as enumerated and is in `IN` of block 2, and
the maps of block 2 are seeded with `v1 -> v4`, the symbol the right-hand side
has after block 1 was rewritten; the use of `v1` ends up referencing `v4`,
which `v4 := v5` has overwritten. -/
theorem globalCopyPropagation_seeds_rebound_symbol :
    IsFlowFixpoint killedSourceFn.basicBlocks
      (globalAnalysis compute_sym_uses forwardFlowAnalysis killedSourceFn).COPY
      (globalAnalysis compute_sym_uses forwardFlowAnalysis killedSourceFn).KILL
      (globalAnalysis compute_sym_uses forwardFlowAnalysis killedSourceFn).IN
      (globalAnalysis compute_sym_uses forwardFlowAnalysis killedSourceFn).OUT ∧
    (globalAnalysis compute_sym_uses forwardFlowAnalysis killedSourceFn).dense.get? 1 =
      some ⟨⟨1, 0, 1⟩, ⟨1, 0, 2⟩⟩ ∧
    derefVar killedSourceFn.basicBlocks ⟨1, 0, 1⟩ = some (sampleVar 1) ∧
    derefVar killedSourceFn.basicBlocks ⟨1, 0, 2⟩ = some (sampleVar 2) ∧
    bit (globalAnalysis compute_sym_uses forwardFlowAnalysis killedSourceFn).IN 2 1 = true ∧
    (seedCopies
      ((List.range 2).foldl
        (globalStep (globalAnalysis compute_sym_uses forwardFlowAnalysis killedSourceFn).useSet
          (globalAnalysis compute_sym_uses forwardFlowAnalysis killedSourceFn).defSet
          (globalAnalysis compute_sym_uses forwardFlowAnalysis killedSourceFn).dense
          (globalAnalysis compute_sym_uses forwardFlowAnalysis killedSourceFn).IN)
        killedSourceFn.basicBlocks)
      ((globalAnalysis compute_sym_uses forwardFlowAnalysis killedSourceFn).IN.getD 2 []) 0
      (globalAnalysis compute_sym_uses forwardFlowAnalysis killedSourceFn).dense
      (Copies.empty, false)).1.available.get (sampleVar 1) = some (sampleVar 4) ∧
    (allSymExprs (globalCopyPropagation compute_sym_uses forwardFlowAnalysis
        killedSourceFn)).map (fun se => (se.id, se.var.addr)) =
      [(10, 2), (11, 4), (20, 1), (21, 4), (40, 4), (41, 5), (30, 4)] :=
  ⟨flowFixpointCheck_sound _ _ _ _ _ 3 (by decide), by decide, by decide, by decide, by decide,
    by decide, by decide⟩

theorem candidateLocals_nil (fn : FnSymbol)
    (h : ∀ bb, bb ∈ fn.basicBlocks → ∀ e, e ∈ bb.exprs → ∀ sym children,
      e = .DefExpr sym children → sym.isVarSymbol = true →
        isCandidateForCopyPropagation fn sym = false) :
    candidateLocals fn = [] := by
  unfold candidateLocals
  rw [List.flatMap_eq_nil_iff]
  intro bb hbb
  rw [List.filterMap_eq_nil_iff]
  intro e he
  cases e with
  | DefExpr sym children =>
    simp only [candidateLocal]
    by_cases hv : sym.isVarSymbol = true
    · simp [h bb hbb _ he sym children rfl hv]
    · simp [hv]
  | SymExpr _ _ => rfl
  | CallExpr _ _ _ => rfl
  | Other _ => rfl

theorem core_no_uses (defSet : List Nat) :
    ∀ (exprs : List Expr) (c : Copies), (localCopyPropagationCore [] defSet exprs c).1 = exprs
  | [], _ => rfl
  | e :: exprs, c => by
      simp only [localCopyPropagationCore, localStep, propagateStatement]
      rw [core_no_uses defSet exprs]
      rw [rebind_id _ none e (fun se _ => propagateUse_not_use _ _ _ se (by simp))]

theorem usesNoCopyDestination_nil (defSet : List Nat) (blocks : List BasicBlock) :
    usesNoCopyDestination [] defSet blocks = true := by
  simp [usesNoCopyDestination]

/-- C12: in a function none of whose declared variables passes
`isCandidateForCopyPropagation`, `localCopyPropagation` and
`globalCopyPropagation` return the function unchanged: no `SymExpr` is rebound
and no statement added or removed. -/
theorem propagation_without_candidates (csu : FnSymbol → SymUses) (flow : FlowAnalysis)
    (fn : FnSymbol)
    (h : ∀ bb, bb ∈ fn.basicBlocks → ∀ e, e ∈ bb.exprs → ∀ sym children,
      e = .DefExpr sym children → sym.isVarSymbol = true →
        isCandidateForCopyPropagation fn sym = false) :
    localCopyPropagation csu fn = fn ∧ globalCopyPropagation csu flow fn = fn := by
  have hl := candidateLocals_nil fn h
  constructor
  · unfold localCopyPropagation
    simp only [hl, buildUseSet, buildDefSet, List.flatMap_nil, core_no_uses]
    cases fn with
    | mk blocks ret =>
      simp only [FnSymbol.mk.injEq, and_true]
      exact List.map_id'' (fun bb => rfl) blocks
  · apply globalCopyPropagation_id
    have : (globalAnalysis csu flow fn).useSet = [] := by
      show buildUseSet (csu fn) (candidateLocals fn) = []
      rw [hl]; rfl
    rw [this]
    exact usesNoCopyDestination_nil _ _

theorem propagation_without_candidates_witness :
    localCopyPropagation compute_sym_uses noCandidateFn = noCandidateFn ∧
      globalCopyPropagation compute_sym_uses forwardFlowAnalysis noCandidateFn = noCandidateFn :=
  propagation_without_candidates compute_sym_uses forwardFlowAnalysis noCandidateFn (by
    intro bb hbb e he sym children hsym _
    simp only [noCandidateFn, List.mem_cons, List.mem_singleton, List.not_mem_nil, or_false] at hbb
    rcases hbb with rfl | rfl
    · simp only [List.mem_cons, List.mem_singleton, List.not_mem_nil, or_false] at he
      rcases he with rfl | rfl | rfl | rfl | rfl | rfl <;> first
        | (cases hsym; decide)
        | (exact Expr.noConfusion hsym)
    · simp only [List.mem_cons, List.mem_singleton, List.not_mem_nil, or_false] at he
      subst he
      exact Expr.noConfusion hsym)

/-- C17: `isCandidateForCopyPropagation(fn, var)` is true exactly when `var` is
not the return symbol of `fn`, the type of `var` has a reference type, and `var`
is not marked concurrent. -/
theorem isCandidateForCopyPropagation_iff (fn : FnSymbol) (var : Symbol) :
    isCandidateForCopyPropagation fn var = true ↔
      var ≠ fn.getReturnSymbol ∧ var.type.refType = true ∧ var.isConcurrent = false := by
  simp [isCandidateForCopyPropagation, and_assoc]

/-- C18: on a function with at most one basic block `globalCopyPropagation`
returns the function unchanged. -/
theorem globalCopyPropagation_single_block (csu : FnSymbol → SymUses) (flow : FlowAnalysis)
    (fn : FnSymbol) (h : fn.basicBlocks.length ≤ 1) :
    globalCopyPropagation csu flow fn = fn := by
  unfold globalCopyPropagation
  rw [if_pos h]

theorem globalCopyPropagation_single_block_witness :
    globalCopyPropagation compute_sym_uses forwardFlowAnalysis singleBlockFn = singleBlockFn :=
  globalCopyPropagation_single_block compute_sym_uses forwardFlowAnalysis singleBlockFn
    (by decide)

theorem killLoop_length (blocks : List BasicBlock) (dense : List CopyPair) (sym : Symbol)
    (js : List Nat) (kill : List Bool) :
    (killLoop blocks dense sym js kill).length = kill.length :=
  (killLoop_spec blocks dense sym js kill).1

theorem killLoop_iff (blocks : List BasicBlock) (dense : List CopyPair) (sym : Symbol) (k : Nat) :
    ∀ (js : List Nat) (kill : List Bool),
      (killLoop blocks dense sym js kill).getD k false = true ↔
        kill.getD k false = true ∨
          (k ∈ js ∧ k < kill.length ∧ ∃ p, dense.get? k = some p ∧ p.mentions blocks sym = true)
  | [], kill => by simp [killLoop]
  | j :: js, kill => by
      have hstep : killLoop blocks dense sym (j :: js) kill =
          killLoop blocks dense sym js
            (match dense.get? j with
              | some p => if p.mentions blocks sym then kill.set j true else kill
              | none => kill) := rfl
      rw [hstep, killLoop_iff blocks dense sym k js]
      cases hd : dense.get? j with
      | none =>
        simp only [List.mem_cons]
        constructor
        · rintro (h | ⟨h1, h2, h3⟩)
          · exact Or.inl h
          · exact Or.inr ⟨Or.inr h1, h2, h3⟩
        · rintro (h | ⟨h1 | h1, h2, p, hp, hm⟩)
          · exact Or.inl h
          · subst h1; rw [hd] at hp; exact Option.noConfusion hp
          · exact Or.inr ⟨h1, h2, p, hp, hm⟩
      | some q =>
        by_cases hm : q.mentions blocks sym = true
        · simp only [hm, if_true, List.mem_cons, List.length_set, getD_set_bool]
          constructor
          · rintro (h | ⟨h1, h2, h3⟩)
            · by_cases hjk : j = k ∧ j < kill.length
              · obtain ⟨rfl, hlt⟩ := hjk
                exact Or.inr ⟨Or.inl rfl, hlt, q, hd, hm⟩
              · rw [if_neg hjk] at h; exact Or.inl h
            · exact Or.inr ⟨Or.inr h1, h2, h3⟩
          · rintro (h | ⟨h1 | h1, h2, p, hp, hm'⟩)
            · left
              by_cases hjk : j = k ∧ j < kill.length
              · rw [if_pos hjk]
              · rw [if_neg hjk]; exact h
            · subst h1
              left
              rw [if_pos ⟨rfl, h2⟩]
            · exact Or.inr ⟨h1, h2, p, hp, hm'⟩
        · simp only [hm, List.mem_cons]
          constructor
          · rintro (h | ⟨h1, h2, h3⟩)
            · exact Or.inl h
            · exact Or.inr ⟨Or.inr h1, h2, h3⟩
          · rintro (h | ⟨h1 | h1, h2, p, hp, hm'⟩)
            · exact Or.inl h
            · subst h1; rw [hd] at hp; cases hp; exact absurd hm' hm
            · exact Or.inr ⟨h1, h2, p, hp, hm'⟩

theorem killSymbol_iff (blocks : List BasicBlock) (dense : List CopyPair) (start stop : Nat)
    (sym : Symbol) (kill : List Bool) (k : Nat) :
    (killSymbol blocks dense start stop sym kill).getD k false = true ↔
      kill.getD k false = true ∨
        ((k < start ∨ stop ≤ k) ∧ k < kill.length ∧
          ∃ p, dense.get? k = some p ∧ p.mentions blocks sym = true) := by
  unfold killSymbol
  rw [killLoop_iff, killLoop_iff, killLoop_length]
  simp only [List.mem_range, List.mem_range']
  constructor
  · rintro ((h | ⟨h1, h2, h3⟩) | ⟨⟨i, hi, rfl⟩, h2, h3⟩)
    · exact Or.inl h
    · exact Or.inr ⟨Or.inl h1, h2, h3⟩
    · exact Or.inr ⟨Or.inr (by omega), h2, h3⟩
  · rintro (h | ⟨h1 | h1, h2, p, hp, hm⟩)
    · exact Or.inl (Or.inl h)
    · exact Or.inl (Or.inr ⟨h1, h2, p, hp, hm⟩)
    · have hlt : k < dense.length := (List.get?_eq_some.1 hp).1
      exact Or.inr ⟨⟨k - stop, by omega, by omega⟩, h2, p, hp, hm⟩

theorem killFold_iff (useSet defSet : List Nat) (blocks : List BasicBlock)
    (dense : List CopyPair) (start stop k : Nat) :
    ∀ (asts : List SymExprNode) (kill : List Bool),
      (asts.foldl (fun k se =>
          if invalidateCopies se defSet useSet then killSymbol blocks dense start stop se.var k
          else k) kill).getD k false = true ↔
        kill.getD k false = true ∨
          ∃ se, se ∈ asts ∧ invalidateCopies se defSet useSet = true ∧
            (k < start ∨ stop ≤ k) ∧ k < kill.length ∧
            ∃ p, dense.get? k = some p ∧ p.mentions blocks se.var = true
  | [], kill => by simp
  | s :: asts, kill => by
      simp only [List.foldl_cons]
      rw [killFold_iff useSet defSet blocks dense start stop k asts]
      by_cases hs : invalidateCopies s defSet useSet = true
      · simp only [hs, if_true, killSymbol_iff, (killSymbol_spec blocks dense start stop s.var kill).1]
        constructor
        · rintro ((h | h) | ⟨se, hse, h⟩)
          · exact Or.inl h
          · exact Or.inr ⟨s, List.mem_cons_self _ _, hs, h⟩
          · exact Or.inr ⟨se, List.mem_cons_of_mem _ hse, h⟩
        · rintro (h | ⟨se, hse, hi, h⟩)
          · exact Or.inl (Or.inl h)
          · rcases List.mem_cons.1 hse with rfl | hse
            · exact Or.inl (Or.inr h)
            · exact Or.inr ⟨se, hse, hi, h⟩
      · simp only [hs]
        constructor
        · rintro (h | ⟨se, hse, h⟩)
          · exact Or.inl h
          · exact Or.inr ⟨se, List.mem_cons_of_mem _ hse, h⟩
        · rintro (h | ⟨se, hse, hi, h⟩)
          · exact Or.inl h
          · rcases List.mem_cons.1 hse with rfl | hse
            · exact absurd hi hs
            · exact Or.inr ⟨se, hse, hi, h⟩

theorem killBlock_iff (useSet defSet : List Nat) (blocks : List BasicBlock)
    (dense : List CopyPair) (start stop k : Nat) :
    ∀ (exprs : List Expr) (kill : List Bool),
      (killBlock useSet defSet blocks dense start stop exprs kill).getD k false = true ↔
        kill.getD k false = true ∨
          ∃ e se, e ∈ exprs ∧ se ∈ collectSymExprs none e ∧
            invalidateCopies se defSet useSet = true ∧
            (k < start ∨ stop ≤ k) ∧ k < kill.length ∧
            ∃ p, dense.get? k = some p ∧ p.mentions blocks se.var = true
  | [], kill => by simp [killBlock]
  | x :: exprs, kill => by
      have hstep : killBlock useSet defSet blocks dense start stop (x :: exprs) kill =
          killBlock useSet defSet blocks dense start stop exprs
            ((collectSymExprs none x).foldl (fun k se =>
              if invalidateCopies se defSet useSet then
                killSymbol blocks dense start stop se.var k
              else k) kill) := rfl
      rw [hstep, killBlock_iff useSet defSet blocks dense start stop k exprs, killFold_iff,
        (killFold_spec useSet defSet blocks dense start stop (collectSymExprs none x) kill).1]
      constructor
      · rintro ((h | ⟨se, hse, h⟩) | ⟨e, se, he, h⟩)
        · exact Or.inl h
        · exact Or.inr ⟨x, se, List.mem_cons_self _ _, hse, h⟩
        · exact Or.inr ⟨e, se, List.mem_cons_of_mem _ he, h⟩
      · rintro (h | ⟨e, se, he, hse, h⟩)
        · exact Or.inl (Or.inl h)
        · rcases List.mem_cons.1 he with rfl | he
          · exact Or.inl (Or.inr ⟨se, hse, h⟩)
          · exact Or.inr ⟨e, se, he, hse, h⟩

/-- Pair `j` of the dense vectors belongs to the block its pointers name, and
the pairs of block `i` are those numbered from `pairOffset i` up to
`pairOffset (i + 1)`. -/
theorem dense_block_range (useSet defSet : List Nat) (blocks : List BasicBlock) (j : Nat)
    (p : CopyPair)
    (h : (pairsFrom useSet defSet blocks 0 blocks).flatten.get? j = some p) :
    p.lhs.bb < blocks.length ∧
      pairOffset (pairsFrom useSet defSet blocks 0 blocks) p.lhs.bb ≤ j ∧
      j < pairOffset (pairsFrom useSet defSet blocks 0 blocks) (p.lhs.bb + 1) := by
  obtain ⟨i, t, d, hi, ht, hj⟩ := flatten_get_block _ j p h
  have hilt : i < blocks.length := by
    have := (List.get?_eq_some.1 hi).1
    rwa [pairsFrom_length] at this
  obtain ⟨bb, hbb⟩ : ∃ bb, blocks.get? i = some bb :=
    ⟨blocks.get ⟨i, hilt⟩, List.get?_eq_get hilt⟩
  have hd := pairsFrom_get useSet defSet blocks blocks 0 i bb hbb
  rw [hi] at hd
  simp only [Option.some.injEq, Nat.zero_add] at hd
  have hmem : p ∈ blockPairs useSet defSet blocks i bb := by
    rw [← hd]; exact List.get?_mem ht
  obtain ⟨t', e, pr, _, _, hp⟩ := blockPairs_mem useSet defSet blocks i bb p hmem
  have hpi : p.lhs.bb = i := by rw [hp]
  have htlt : t < d.length := (List.get?_eq_some.1 ht).1
  rw [hpi, pairOffset_succ _ i d hi]
  exact ⟨hilt, by omega, by omega⟩

/-- C11: for a block `b` and a pair `j` of the vectors `LHS`/`RHS`, bit `j` of
`KILL(b)` as handed to the flow analysis is set exactly when the statement of
pair `j` is not in `b` and some `SymExpr` of `b` for which `invalidateCopies`
is true has the symbol of the left-hand or of the right-hand side of pair `j`;
bit `j` of `COPY(b)`, the GEN set, is set exactly when the statement of pair `j`
is in `b`. -/
theorem globalAnalysis_KILL_GEN (csu : FnSymbol → SymUses) (flow : FlowAnalysis)
    (fn : FnSymbol) (b j : Nat) (bb : BasicBlock) (p : CopyPair)
    (hbb : fn.basicBlocks.get? b = some bb)
    (hp : (globalAnalysis csu flow fn).dense.get? j = some p) :
    (bit (globalAnalysis csu flow fn).KILL b j = true ↔
      p.lhs.bb ≠ b ∧
        ∃ e se, e ∈ bb.exprs ∧ se ∈ collectSymExprs none e ∧
          invalidateCopies se (globalAnalysis csu flow fn).defSet
            (globalAnalysis csu flow fn).useSet = true ∧
          (derefVar fn.basicBlocks p.lhs = some se.var ∨
            derefVar fn.basicBlocks p.rhs = some se.var)) ∧
    (bit (globalAnalysis csu flow fn).COPY b j = true ↔ p.lhs.bb = b) := by
  obtain ⟨hd, hN⟩ := analysis_pairs csu flow fn
  have hb : b < fn.basicBlocks.length := (List.get?_eq_some.1 hbb).1
  have hlen : (pairsFrom (globalAnalysis csu flow fn).useSet (globalAnalysis csu flow fn).defSet
      fn.basicBlocks 0 fn.basicBlocks).length = fn.basicBlocks.length := pairsFrom_length _ _ _ _ _
  have hsize : (globalAnalysis csu flow fn).N.getD (fn.basicBlocks.length - 1) 0 =
      (pairsFrom (globalAnalysis csu flow fn).useSet (globalAnalysis csu flow fn).defSet
        fn.basicBlocks 0 fn.basicBlocks).flatten.length := by
    rw [hN, ← hlen]
    exact N_size _ (by omega)
  have hjlt : j < (globalAnalysis csu flow fn).dense.length := (List.get?_eq_some.1 hp).1
  have hp' := hp
  rw [hd] at hp'
  obtain ⟨hi, hlo, hhi⟩ := dense_block_range _ _ _ j p hp'
  -- the block of the pair against block `b`
  have hrange : (j < pairOffset (pairsFrom (globalAnalysis csu flow fn).useSet
        (globalAnalysis csu flow fn).defSet fn.basicBlocks 0 fn.basicBlocks) b ∨
      pairOffset (pairsFrom (globalAnalysis csu flow fn).useSet
        (globalAnalysis csu flow fn).defSet fn.basicBlocks 0 fn.basicBlocks) (b + 1) ≤ j) ↔
      p.lhs.bb ≠ b := by
    constructor
    · intro h heq
      rw [heq] at hlo hhi
      omega
    · intro hne
      rcases Nat.lt_or_gt_of_ne hne with hlt | hgt
      · left
        exact Nat.lt_of_lt_of_le hhi (pairOffset_mono _ _ _ hlt)
      · right
        exact Nat.le_trans (pairOffset_mono _ _ _ hgt) hlo
  constructor
  · -- KILL
    have hK := KILL_get (globalAnalysis csu flow fn).useSet (globalAnalysis csu flow fn).defSet
      fn.basicBlocks _ (globalAnalysis csu flow fn).dense
      ((globalAnalysis csu flow fn).N.getD (fn.basicBlocks.length - 1) 0) b bb hlen hbb
    have hbit : bit (globalAnalysis csu flow fn).KILL b j =
        (killBlock (globalAnalysis csu flow fn).useSet (globalAnalysis csu flow fn).defSet
          fn.basicBlocks (globalAnalysis csu flow fn).dense
          (pairOffset (pairsFrom (globalAnalysis csu flow fn).useSet
            (globalAnalysis csu flow fn).defSet fn.basicBlocks 0 fn.basicBlocks) b)
          (pairOffset (pairsFrom (globalAnalysis csu flow fn).useSet
            (globalAnalysis csu flow fn).defSet fn.basicBlocks 0 fn.basicBlocks) (b + 1))
          bb.exprs (List.replicate ((globalAnalysis csu flow fn).N.getD
            (fn.basicBlocks.length - 1) 0) false)).getD j false := by
      have hvs : ∀ (V : List (List Bool)) (v : List Bool), V.get? b = some v →
          bit V b j = v.getD j false := by
        intro V v hv
        rw [List.get?_eq_getElem?] at hv
        simp only [bit, List.getD_eq_getElem?_getD, hv, Option.getD_some]
      apply hvs
      rw [analysis_KILL, hN]
      rw [hN] at hK
      exact hK
    rw [hbit, killBlock_iff]
    have hrep : (List.replicate ((globalAnalysis csu flow fn).N.getD
        (fn.basicBlocks.length - 1) 0) false).getD j false = false := by
      rw [List.getD_eq_getElem?_getD]
      cases h : (List.replicate ((globalAnalysis csu flow fn).N.getD
        (fn.basicBlocks.length - 1) 0) false)[j]? with
      | none => rfl
      | some v =>
        have := List.getElem?_mem h
        rw [List.mem_replicate] at this
        simp [this.2]
    rw [hrep]
    simp only [Bool.false_eq_true, false_or, List.length_replicate]
    constructor
    · rintro ⟨e, se, he, hse, hinv, hr, _, q, hq, hm⟩
      rw [hp] at hq
      cases hq
      refine ⟨hrange.1 hr, e, se, he, hse, hinv, ?_⟩
      simpa [CopyPair.mentions] using hm
    · rintro ⟨hne, e, se, he, hse, hinv, hm⟩
      refine ⟨e, se, he, hse, hinv, hrange.2 hne, ?_, p, hp, ?_⟩
      · rw [hsize, ← hd]; exact hjlt
      · simpa [CopyPair.mentions] using hm
  · -- GEN
    rw [analysis_COPY, hN, COPY_bit _ _ b (by rw [hlen]; exact hb) (by rw [← hN]; exact hsize) j]
    rw [decide_eq_true_iff]
    constructor
    · intro h
      by_contra hne
      have := hrange.2 hne
      omega
    · intro heq
      rw [heq] at hlo hhi
      exact ⟨hlo, hhi⟩

theorem globalAnalysis_KILL_GEN_witness :
    (bit (globalAnalysis compute_sym_uses forwardFlowAnalysis killedSourceFn).KILL 1 0 = true ↔
      (0 : Nat) ≠ 1 ∧
        ∃ e se, e ∈ [sampleMove 20 1 2, sampleMove 40 4 5] ∧ se ∈ collectSymExprs none e ∧
          invalidateCopies se
            (globalAnalysis compute_sym_uses forwardFlowAnalysis killedSourceFn).defSet
            (globalAnalysis compute_sym_uses forwardFlowAnalysis killedSourceFn).useSet = true ∧
          (derefVar killedSourceFn.basicBlocks ⟨0, 4, 1⟩ = some se.var ∨
            derefVar killedSourceFn.basicBlocks ⟨0, 4, 2⟩ = some se.var)) ∧
    (bit (globalAnalysis compute_sym_uses forwardFlowAnalysis killedSourceFn).COPY 1 0 = true ↔
      (0 : Nat) = 1) :=
  globalAnalysis_KILL_GEN compute_sym_uses forwardFlowAnalysis killedSourceFn 1 0
    ⟨[sampleMove 20 1 2, sampleMove 40 4 5], [0], [2, 4]⟩ ⟨⟨0, 4, 1⟩, ⟨0, 4, 2⟩⟩ rfl (by decide)

theorem copyPropagationBody_calls (fNoCopyPropagation fNoFlowAnalysis : Bool)
    (csu : FnSymbol → SymUses) (flow : FlowAnalysis) (dve dee : FnSymbol → FnSymbol)
    (i : Nat) (fn : FnSymbol) :
    copyPropagationBody fNoCopyPropagation fNoFlowAnalysis csu flow dve dee i fn =
      (driverResult fNoCopyPropagation fNoFlowAnalysis csu flow dve dee fn,
        driverCalls fNoCopyPropagation fNoFlowAnalysis i) := by
  cases fNoCopyPropagation <;> cases fNoFlowAnalysis <;> rfl

theorem copyPropagationLoop_calls (fNoCopyPropagation fNoFlowAnalysis : Bool)
    (csu : FnSymbol → SymUses) (flow : FlowAnalysis) (dve dee : FnSymbol → FnSymbol) :
    ∀ (gFns : List FnSymbol) (i : Nat),
      copyPropagationLoop fNoCopyPropagation fNoFlowAnalysis csu flow dve dee i gFns =
        (gFns.map (driverResult fNoCopyPropagation fNoFlowAnalysis csu flow dve dee),
          (List.range' i gFns.length).flatMap (driverCalls fNoCopyPropagation fNoFlowAnalysis))
  | [], _ => rfl
  | fn :: rest, i => by
      simp only [copyPropagationLoop, List.length_cons, List.range'_succ, List.flatMap_cons,
        copyPropagationBody_calls, List.map_cons,
        copyPropagationLoop_calls fNoCopyPropagation fNoFlowAnalysis csu flow dve dee rest (i + 1)]

/-- C19: in baseline mode `copyPropagation` makes no call and leaves the
functions as they are; otherwise the calls it makes are, function after
function in the order of `gFns`: `localCopyPropagation` unless copy
propagation is disabled, then `deadVariableElimination`,
`deadExpressionElimination`, and then, unless copy propagation or flow
analysis is disabled, `globalCopyPropagation`, `deadVariableElimination`,
`deadExpressionElimination`; and each function is left as these passes,
applied in that order, leave it (`deadVariableElimination` and
`deadExpressionElimination` being any two routines).  With copy propagation
disabled the calls on each function are the one pair `deadVariableElimination`,
`deadExpressionElimination`, and the function is left as that pair leaves
it. -/
theorem copyPropagation_calls (fBaseline fNoCopyPropagation fNoFlowAnalysis : Bool)
    (csu : FnSymbol → SymUses) (flow : FlowAnalysis) (dve dee : FnSymbol → FnSymbol)
    (gFns : List FnSymbol) :
    copyPropagation fBaseline fNoCopyPropagation fNoFlowAnalysis csu flow dve dee gFns =
      (if fBaseline then (gFns, [])
       else
        (gFns.map (fun fn =>
          if fNoCopyPropagation then dee (dve fn)
          else if fNoFlowAnalysis then dee (dve (localCopyPropagation csu fn))
          else dee (dve (globalCopyPropagation csu flow
            (dee (dve (localCopyPropagation csu fn)))))),
        (List.range gFns.length).flatMap (fun i =>
          (if fNoCopyPropagation then [] else [PassCall.localCopyPropagation i]) ++
          [PassCall.deadVariableElimination i, PassCall.deadExpressionElimination i] ++
          (if fNoCopyPropagation || fNoFlowAnalysis then []
           else [PassCall.globalCopyPropagation i, PassCall.deadVariableElimination i,
             PassCall.deadExpressionElimination i])))) ∧
    copyPropagation false true fNoFlowAnalysis csu flow dve dee gFns =
      (gFns.map (fun fn => dee (dve fn)),
        (List.range gFns.length).flatMap (fun i =>
          [PassCall.deadVariableElimination i, PassCall.deadExpressionElimination i])) := by
  have h : ∀ (b c : Bool), copyPropagation b c fNoFlowAnalysis csu flow dve dee gFns =
      (if b then (gFns, [])
       else (gFns.map (driverResult c fNoFlowAnalysis csu flow dve dee),
        (List.range gFns.length).flatMap (driverCalls c fNoFlowAnalysis))) := by
    intro b c
    unfold copyPropagation
    cases b
    · simp only [Bool.false_eq_true, if_false, copyPropagationLoop_calls, List.range_eq_range']
    · rfl
  refine ⟨?_, ?_⟩
  · rw [h fBaseline fNoCopyPropagation]
    rfl
  · rw [h false true]
    rfl

theorem foldl_fixed {σ α : Type} (f : σ → α → σ) (s : σ) :
    ∀ (l : List α), (∀ x, x ∈ l → f s x = s) → l.foldl f s = s
  | [], _ => rfl
  | x :: l, h => by
      rw [List.foldl_cons, h x (List.mem_cons_self _ _)]
      exact foldl_fixed f s l (fun y hy => h y (List.mem_cons_of_mem _ hy))

theorem eliminateVar_of_none (ti : Expr → ChplType) (su : SymUses) (s : List BasicBlock × Nat)
    (var : Symbol)
    (h : var.type.isReference = true → findRefDef ti s.1 (su.defs var) = none) :
    eliminateVar ti su s var = s := by
  unfold eliminateVar
  by_cases hr : var.type.isReference = true
  · rw [if_pos hr, h hr]
  · rw [if_neg hr]

theorem aliasVar_of_none (ti : Expr → ChplType) (fuel : Nat) (s : RefState) (var : Symbol)
    (h : var.type.isReference = true → findRefDef ti s.blocks (s.su.defs var) = none) :
    aliasVar ti fuel s var = some s := by
  unfold aliasVar
  by_cases hr : var.type.isReference = true
  · rw [if_pos hr, h hr]
  · rw [if_neg hr]

theorem aliasLoop_fixed (ti : Expr → ChplType) (fuel : Nat) (s : RefState) :
    ∀ (l : List Symbol), (∀ x, x ∈ l → aliasVar ti fuel s x = some s) →
      aliasLoop ti fuel l s = some s
  | [], _ => rfl
  | x :: l, h => by
      unfold aliasLoop
      rw [h x (List.mem_cons_self _ _)]
      exact aliasLoop_fixed ti fuel s l (fun y hy => h y (List.mem_cons_of_mem _ hy))

/-- C13 (amended): when `findRefDef` finds no defining move for any declared
reference variable of the function, `singleAssignmentRefPropagation` returns
the function unchanged (whatever the bound on the turns of its loops, none of
which is entered).  Whether the function has candidate locals plays no part:
the pass never calls `isCandidateForCopyPropagation`. -/
theorem singleAssignmentRefPropagation_noop (fuel : Nat) (csu : FnSymbol → SymUses)
    (ti : Expr → ChplType) (fn : FnSymbol)
    (h : ∀ var, var ∈ declaredVars fn.basicBlocks → var.type.isReference = true →
      findRefDef ti fn.basicBlocks ((csu fn).defs var) = none) :
    singleAssignmentRefPropagation fuel csu ti fn = some fn := by
  have h1 : aliasLoop ti fuel (declaredVars fn.basicBlocks)
      ⟨fn.basicBlocks, csu fn, freshId fn⟩ = some ⟨fn.basicBlocks, csu fn, freshId fn⟩ :=
    aliasLoop_fixed _ _ _ _ (fun var hvar => aliasVar_of_none ti fuel _ var (h var hvar))
  unfold singleAssignmentRefPropagation
  simp only [h1]
  have h2 : (declaredVars fn.basicBlocks).foldl
      (eliminateVar ti (csu ⟨fn.basicBlocks, fn.getReturnSymbol⟩))
      (fn.basicBlocks, freshId fn) = (fn.basicBlocks, freshId fn) :=
    foldl_fixed _ _ _ (fun var hvar => eliminateVar_of_none ti _ _ var (h var hvar))
  rw [h2]

theorem singleAssignmentRefPropagation_noop_witness :
    singleAssignmentRefPropagation 0 compute_sym_uses typeInfo refCallFn = some refCallFn :=
  singleAssignmentRefPropagation_noop 0 compute_sym_uses typeInfo refCallFn (by
    intro var hvar _
    simp only [refCallFn, declaredVars, List.flatMap_cons, List.flatMap_nil,
      List.filterMap_cons, List.filterMap_nil, sampleRef] at hvar
    simp at hvar
    subst hvar
    decide)

/-- C13 as stated fails: `aliasFn` has no candidate local (its variables are
references, whose type has no reference type), and
`singleAssignmentRefPropagation` replaces the use of `r1` by a use of `r2`:
with no bound on the turns of its loops does it return the function
unchanged. -/
theorem singleAssignmentRefPropagation_noop_counterexample :
    ¬ ∀ (csu : FnSymbol → SymUses) (ti : Expr → ChplType) (fn : FnSymbol),
      (∀ bb, bb ∈ fn.basicBlocks → ∀ e, e ∈ bb.exprs → ∀ sym children,
        e = .DefExpr sym children → sym.isVarSymbol = true →
          isCandidateForCopyPropagation fn sym = false) →
      ∃ fuel, singleAssignmentRefPropagation fuel csu ti fn = some fn := by
  intro h
  obtain ⟨fuel, h1⟩ := h compute_sym_uses typeInfo aliasFn (by
    intro bb hbb e he sym children hsym _
    simp only [aliasFn, List.mem_singleton] at hbb
    subst hbb
    simp only [List.mem_cons, List.mem_singleton, List.not_mem_nil, or_false] at he
    rcases he with rfl | rfl | rfl | rfl | rfl <;> first
      | (cases hsym; decide)
      | (exact Expr.noConfusion hsym))
  have h2 := congrArg (Option.map (fun f => (allSymExprs f).map (fun se => (se.id, se.var.addr)))) h1
  match fuel, h2 with
  | 0, h2 => revert h2; decide
  | 1, h2 => revert h2; decide
  | n + 2, h2 =>
    have h3 : singleAssignmentRefPropagation (n + 2) compute_sym_uses typeInfo aliasFn =
        singleAssignmentRefPropagation 2 compute_sym_uses typeInfo aliasFn := rfl
    rw [h3] at h2
    revert h2
    decide

theorem mapStatements_get (G : Expr → Expr) (blocks : List BasicBlock) (b : Nat)
    (bb : BasicBlock) (h : blocks.get? b = some bb) :
    (mapStatements G blocks).get? b = some ⟨bb.exprs.map G, bb.ins, bb.outs⟩ := by
  unfold mapStatements
  rw [List.get?_eq_getElem?, List.getElem?_map, ← List.get?_eq_getElem?, h]
  rfl

theorem mapStatements_comp (G1 G2 : Expr → Expr) (blocks : List BasicBlock) :
    mapStatements G2 (mapStatements G1 blocks) = mapStatements (fun e => G2 (G1 e)) blocks := by
  unfold mapStatements
  simp [List.map_map, Function.comp_def]

theorem mapStatements_id (blocks : List BasicBlock) :
    mapStatements (fun e => e) blocks = blocks := by
  unfold mapStatements
  simp

/-- The rewriting function of `replaceSymExpr`. -/
theorem symRewrite_some (id : Nat) (new e r : Expr)
    (h : (if isSymExprWithId id e then some new else none) = some r) :
    (∃ i v, e = .SymExpr i v) ∧ r = new := by
  cases e with
  | SymExpr i v =>
    by_cases hi : isSymExprWithId id (.SymExpr i v) = true
    · rw [if_pos hi] at h
      exact ⟨⟨i, v, rfl⟩, (Option.some.inj h).symm⟩
    · rw [if_neg hi] at h; exact Option.noConfusion h
  | CallExpr _ _ _ => simp [isSymExprWithId] at h
  | DefExpr _ _ => simp [isSymExprWithId] at h
  | Other _ => simp [isSymExprWithId] at h

theorem rewriteSym_isPrimitive (f : Expr → Option Expr)
    (hf : ∀ e r, f e = some r → (∃ i v, e = .SymExpr i v) ∧ ∃ j w, r = .SymExpr j w)
    (e : Expr) (tag : PrimitiveTag) :
    (rewriteExpr f e).isPrimitive tag = e.isPrimitive tag := by
  cases e with
  | SymExpr i v =>
    simp only [rewriteExpr]
    cases h : f (.SymExpr i v) with
    | none => rfl
    | some r =>
      obtain ⟨_, j, w, hr⟩ := hf _ _ h
      subst hr
      rfl
  | CallExpr p b args =>
    simp only [rewriteExpr]
    cases h : f (.CallExpr p b args) with
    | none => cases p <;> rfl
    | some r =>
      obtain ⟨⟨i, v, he⟩, _⟩ := hf _ _ h
      exact Expr.noConfusion he
  | DefExpr sym ch =>
    simp only [rewriteExpr]
    cases h : f (.DefExpr sym ch) with
    | none => rfl
    | some r =>
      obtain ⟨⟨i, v, he⟩, _⟩ := hf _ _ h
      exact Expr.noConfusion he
  | Other ch =>
    simp only [rewriteExpr]
    cases h : f (.Other ch) with
    | none => rfl
    | some r =>
      obtain ⟨⟨i, v, he⟩, _⟩ := hf _ _ h
      exact Expr.noConfusion he

theorem rewriteList_all (f : Expr → Option Expr) (P : Expr → Bool)
    (hP : ∀ e, P (rewriteExpr f e) = P e) :
    ∀ (es : List Expr), (rewriteList f es).all P = es.all P
  | [] => rfl
  | e :: es => by
      simp only [rewriteList, List.all_cons, hP, rewriteList_all f P hP es]

mutual
theorem rewriteSym_noRefSource (f : Expr → Option Expr)
    (hf : ∀ e r, f e = some r → (∃ i v, e = .SymExpr i v) ∧ ∃ j w, r = .SymExpr j w) :
    ∀ (e : Expr), (∀ n, n ∈ collectAsts e → noRefSource n = true) →
      ∀ n, n ∈ collectAsts (rewriteExpr f e) → noRefSource n = true
  | .SymExpr i v, _, n, hn => by
      simp only [rewriteExpr] at hn
      cases h : f (.SymExpr i v) with
      | none =>
        rw [h] at hn
        simp only [collectAsts, List.mem_singleton] at hn
        subst hn; rfl
      | some r =>
        rw [h] at hn
        obtain ⟨_, j, w, hr⟩ := hf _ _ h
        subst hr
        simp only [collectAsts, List.mem_singleton] at hn
        subst hn; rfl
  | .CallExpr p b args, h, n, hn => by
      have hnone : f (.CallExpr p b args) = none := by
        cases hfe : f (.CallExpr p b args) with
        | none => rfl
        | some r =>
          obtain ⟨⟨i, v, he⟩, _⟩ := hf _ _ hfe
          exact Expr.noConfusion he
      simp only [rewriteExpr, hnone, collectAsts, List.mem_cons, List.mem_append] at hn
      simp only [collectAsts, List.mem_cons, List.mem_append] at h
      rcases hn with rfl | hn | hn
      · have h0 := h _ (Or.inl rfl)
        simp only [noRefSource] at h0 ⊢
        rw [rewriteList_all f _ (fun e => by
          rw [rewriteSym_isPrimitive f hf, rewriteSym_isPrimitive f hf])]
        exact h0
      · exact rewriteSymBase_noRefSource f hf b (fun m hm => h m (Or.inr (Or.inl hm))) n hn
      · exact rewriteSymList_noRefSource f hf args (fun m hm => h m (Or.inr (Or.inr hm))) n hn
  | .DefExpr sym ch, h, n, hn => by
      have hnone : f (.DefExpr sym ch) = none := by
        cases hfe : f (.DefExpr sym ch) with
        | none => rfl
        | some r =>
          obtain ⟨⟨i, v, he⟩, _⟩ := hf _ _ hfe
          exact Expr.noConfusion he
      simp only [rewriteExpr, hnone, collectAsts, List.mem_cons] at hn
      simp only [collectAsts, List.mem_cons] at h
      rcases hn with rfl | hn
      · rfl
      · exact rewriteSymList_noRefSource f hf ch (fun m hm => h m (Or.inr hm)) n hn
  | .Other ch, h, n, hn => by
      have hnone : f (.Other ch) = none := by
        cases hfe : f (.Other ch) with
        | none => rfl
        | some r =>
          obtain ⟨⟨i, v, he⟩, _⟩ := hf _ _ hfe
          exact Expr.noConfusion he
      simp only [rewriteExpr, hnone, collectAsts, List.mem_cons] at hn
      simp only [collectAsts, List.mem_cons] at h
      rcases hn with rfl | hn
      · rfl
      · exact rewriteSymList_noRefSource f hf ch (fun m hm => h m (Or.inr hm)) n hn
theorem rewriteSymBase_noRefSource (f : Expr → Option Expr)
    (hf : ∀ e r, f e = some r → (∃ i v, e = .SymExpr i v) ∧ ∃ j w, r = .SymExpr j w) :
    ∀ (b : Option Expr), (∀ n, n ∈ collectAstsBase b → noRefSource n = true) →
      ∀ n, n ∈ collectAstsBase (rewriteBase f b) → noRefSource n = true
  | none, _, n, hn => by simp [rewriteBase, collectAstsBase] at hn
  | some e, h, n, hn => by
      simp only [rewriteBase, collectAstsBase] at hn h
      exact rewriteSym_noRefSource f hf e h n hn
theorem rewriteSymList_noRefSource (f : Expr → Option Expr)
    (hf : ∀ e r, f e = some r → (∃ i v, e = .SymExpr i v) ∧ ∃ j w, r = .SymExpr j w) :
    ∀ (es : List Expr), (∀ n, n ∈ collectAstsList es → noRefSource n = true) →
      ∀ n, n ∈ collectAstsList (rewriteList f es) → noRefSource n = true
  | [], _, n, hn => by simp [rewriteList, collectAstsList] at hn
  | e :: es, h, n, hn => by
      simp only [rewriteList, collectAstsList, List.mem_append] at hn h
      rcases hn with hn | hn
      · exact rewriteSym_noRefSource f hf e (fun m hm => h m (Or.inl hm)) n hn
      · exact rewriteSymList_noRefSource f hf es (fun m hm => h m (Or.inr hm)) n hn
end

theorem mem_functionAsts (blocks : List BasicBlock) (n : Expr) :
    n ∈ functionAsts blocks ↔ ∃ bb, bb ∈ blocks ∧ ∃ e, e ∈ bb.exprs ∧ n ∈ collectAsts e := by
  simp [functionAsts, List.mem_flatMap]

theorem mem_functionAsts_map (F : Expr → Expr) (blocks : List BasicBlock) (n : Expr) :
    n ∈ functionAsts (mapStatements F blocks) ↔
      ∃ bb, bb ∈ blocks ∧ ∃ e, e ∈ bb.exprs ∧ n ∈ collectAsts (F e) := by
  simp [functionAsts, mapStatements, List.mem_flatMap]

theorem replaceSymExpr_noRefSource (id j : Nat) (w : Symbol) (blocks : List BasicBlock)
    (h : ∀ n, n ∈ functionAsts blocks → noRefSource n = true) :
    ∀ n, n ∈ functionAsts (replaceSymExpr id (.SymExpr j w) blocks) → noRefSource n = true := by
  intro n hn
  unfold replaceSymExpr at hn
  rw [mem_functionAsts_map] at hn
  obtain ⟨bb, hbb, e, he, hn⟩ := hn
  refine rewriteSym_noRefSource _ ?_ e ?_ n hn
  · intro e' r hr
    obtain ⟨h1, h2⟩ := symRewrite_some id _ e' r hr
    exact ⟨h1, j, w, h2⟩
  · intro m hm
    exact h m ((mem_functionAsts blocks m).2 ⟨bb, hbb, e, he, hm⟩)

theorem aliasUse_su (var rvar : Symbol) (hne : rvar ≠ var) (s : RefState) (se : Nat) :
    (aliasUse rvar s se).su.uses var = s.su.uses var ∧
    (aliasUse rvar s se).su.defs = s.su.defs := by
  unfold aliasUse
  split
  · refine ⟨?_, rfl⟩
    show (if var = rvar then s.su.uses var ++ [s.next] else s.su.uses var) = s.su.uses var
    rw [if_neg (fun h => hne h.symm)]
  · exact ⟨rfl, rfl⟩

/-- When `rhs->var` is another symbol than `var`, the loop over `var->uses`
adds nothing to the vector it runs over: with fuel for one turn more than the
vector has entries it ends, having visited the entries the vector had. -/
theorem aliasUsesLoop_fold (var rvar : Symbol) (hne : rvar ≠ var) :
    ∀ (fuel i : Nat) (s : RefState), (s.su.uses var).length ≤ fuel + i →
      aliasUsesLoop var rvar (fuel + 1) i s =
        some (((s.su.uses var).drop i).foldl (aliasUse rvar) s) := by
  intro fuel
  induction fuel with
  | zero =>
    intro i s h
    unfold aliasUsesLoop
    have hlen : (s.su.uses var).length ≤ i := by omega
    have hg : (s.su.uses var).get? i = none := by
      rw [List.get?_eq_getElem?, List.getElem?_eq_none_iff]
      exact hlen
    rw [hg, List.drop_eq_nil_of_le hlen]
    rfl
  | succ fuel ih =>
    intro i s h
    unfold aliasUsesLoop
    cases hg : (s.su.uses var).get? i with
    | none =>
      have hlen : (s.su.uses var).length ≤ i := by
        rw [List.get?_eq_getElem?, List.getElem?_eq_none_iff] at hg
        exact hg
      rw [List.drop_eq_nil_of_le hlen]
      rfl
    | some se =>
      simp only
      have hlt : i < (s.su.uses var).length := by
        rw [List.get?_eq_getElem?] at hg
        exact (List.getElem?_eq_some_iff.1 hg).1
      have hse : (s.su.uses var)[i] = se := by
        rw [List.get?_eq_getElem?] at hg
        exact (List.getElem?_eq_some_iff.1 hg).2
      obtain ⟨hu, _⟩ := aliasUse_su var rvar hne s se
      rw [ih (i + 1) (aliasUse rvar s se) (by rw [hu]; omega), hu]
      rw [List.drop_eq_getElem_cons hlt, List.foldl_cons, hse]

theorem aliasDef_self (d0 : Nat) (rvar : Symbol) (s : RefState) :
    aliasDef d0 rvar s d0 = s := by
  unfold aliasDef
  cases h : parentCall s.blocks d0 with
  | none => rfl
  | some parent =>
    have hp : hasDirectChild d0 parent = true := List.find?_some h
    simp only [hp, if_true]

/-- The loop over `var->defs` when the vector holds the one def `d0`, whose
parent is the move: nothing is replaced. -/
theorem aliasDefsLoop_single (var : Symbol) (d0 : Nat) (rvar : Symbol) (fuel : Nat)
    (s : RefState) (h : s.su.defs var = [d0]) :
    aliasDefsLoop var d0 rvar (fuel + 2) 0 s = some s := by
  unfold aliasDefsLoop
  rw [h]
  simp only [List.get?_cons_zero, aliasDef_self]
  unfold aliasDefsLoop
  rw [h]
  rfl

theorem keepsMove_refl (d0 : Nat) (var rvar : Symbol) (e : Expr) : KeepsMove d0 var rvar e e :=
  ⟨fun _ children h => ⟨children, h⟩, fun base r h => ⟨base, r, h⟩⟩

theorem keepsMove_trans (d0 : Nat) (var rvar : Symbol) (e1 e2 e3 : Expr)
    (h12 : KeepsMove d0 var rvar e1 e2) (h23 : KeepsMove d0 var rvar e2 e3) :
    KeepsMove d0 var rvar e1 e3 := by
  constructor
  · intro sym children h
    obtain ⟨c2, h2⟩ := h12.1 sym children h
    exact h23.1 sym c2 h2
  · intro base r h
    obtain ⟨b2, r2, h2⟩ := h12.2 base r h
    exact h23.2 b2 r2 h2

/-- The replacement of a `SymExpr` other than `d0` by a `SymExpr` of `rvar`
keeps the declarations and the move that sets `d0`. -/
theorem replace_keepsMove (d0 : Nat) (var rvar : Symbol) (se j : Nat) (hse : se ≠ d0)
    (e : Expr) :
    KeepsMove d0 var rvar e
      (rewriteExpr (fun e => if isSymExprWithId se e then some (.SymExpr j rvar) else none) e) := by
  constructor
  · intro sym children h
    subst h
    exact ⟨_, by simp only [rewriteExpr, isSymExprWithId, Bool.false_eq_true, if_false]; rfl⟩
  · intro base r h
    subst h
    have hd : (d0 == se) = false := by
      simpa using fun h => hse h.symm
    by_cases hr : (r == se) = true
    · refine ⟨rewriteBase
        (fun e => if isSymExprWithId se e then some (.SymExpr j rvar) else none) base, j, ?_⟩
      simp only [rewriteExpr, rewriteList, isSymExprWithId, Bool.false_eq_true, if_false, hd,
        hr, if_true]
    · refine ⟨rewriteBase
        (fun e => if isSymExprWithId se e then some (.SymExpr j rvar) else none) base, r, ?_⟩
      simp only [rewriteExpr, rewriteList, isSymExprWithId, Bool.false_eq_true, if_false, hd,
        hr]

/-- What the loop over `var->uses` keeps true of the function, against the
blocks `blocks0` it started from, at an entry other than `d0`. -/
theorem aliasUse_keepsMove (blocks0 : List BasicBlock) (d0 : Nat) (var rvar : Symbol)
    (s : RefState) (se : Nat) (hse : se ≠ d0)
    (h : (∀ n, n ∈ functionAsts s.blocks → noRefSource n = true) ∧
      ∃ G : Expr → Expr, (∀ e, KeepsMove d0 var rvar e (G e)) ∧
        s.blocks = mapStatements G blocks0) :
    (∀ n, n ∈ functionAsts (aliasUse rvar s se).blocks → noRefSource n = true) ∧
      ∃ G : Expr → Expr, (∀ e, KeepsMove d0 var rvar e (G e)) ∧
        (aliasUse rvar s se).blocks = mapStatements G blocks0 := by
  unfold aliasUse
  split
  · refine ⟨replaceSymExpr_noRefSource _ _ _ _ h.1, ?_⟩
    obtain ⟨G1, hk1, h1⟩ := h.2
    refine ⟨fun e => rewriteExpr
      (fun e => if isSymExprWithId se e then some (.SymExpr s.next rvar) else none) (G1 e),
      fun e => keepsMove_trans _ _ _ _ _ _ (hk1 e) (replace_keepsMove d0 var rvar se s.next hse _),
      ?_⟩
    show replaceSymExpr se (.SymExpr s.next rvar) s.blocks = _
    unfold replaceSymExpr
    rw [h1, mapStatements_comp]
  · exact h

theorem aliasUse_fold_keepsMove (blocks0 : List BasicBlock) (d0 : Nat) (var rvar : Symbol) :
    ∀ (l : List Nat) (s : RefState), (∀ se ∈ l, se ≠ d0) →
      ((∀ n, n ∈ functionAsts s.blocks → noRefSource n = true) ∧
        ∃ G : Expr → Expr, (∀ e, KeepsMove d0 var rvar e (G e)) ∧
          s.blocks = mapStatements G blocks0) →
      ((∀ n, n ∈ functionAsts (l.foldl (aliasUse rvar) s).blocks → noRefSource n = true) ∧
        ∃ G : Expr → Expr, (∀ e, KeepsMove d0 var rvar e (G e)) ∧
          (l.foldl (aliasUse rvar) s).blocks = mapStatements G blocks0)
  | [], _, _, h => h
  | se :: l, s, hl, h => by
      rw [List.foldl_cons]
      exact aliasUse_fold_keepsMove blocks0 d0 var rvar l _
        (fun x hx => hl x (List.mem_cons_of_mem _ hx))
        (aliasUse_keepsMove blocks0 d0 var rvar s se (hl se (List.mem_cons_self _ _)) h)

theorem aliasUse_fold_su (var rvar : Symbol) (hne : rvar ≠ var) :
    ∀ (l : List Nat) (s : RefState),
      (l.foldl (aliasUse rvar) s).su.uses var = s.su.uses var ∧
      (l.foldl (aliasUse rvar) s).su.defs = s.su.defs
  | [], _ => ⟨rfl, rfl⟩
  | se :: l, s => by
      rw [List.foldl_cons]
      obtain ⟨h1, h2⟩ := aliasUse_fold_su var rvar hne l (aliasUse rvar s se)
      obtain ⟨h3, h4⟩ := aliasUse_su var rvar hne s se
      exact ⟨h1.trans h3, h2.trans h4⟩

/-- The def that `findRefDef` returns is one of the defs it is given. -/
theorem findRefDefLoop_mem (ti : Expr → ChplType) (blocks : List BasicBlock) :
    ∀ (l : List Nat) (ret : Option Nat) (d : Nat),
      findRefDefLoop ti blocks l ret = some d → d ∈ l ∨ ret = some d
  | [], ret, d, h => Or.inr h
  | x :: l, ret, d, h => by
      unfold findRefDefLoop at h
      split at h
      · split at h
        · split at h
          · exact Option.noConfusion h
          · rcases findRefDefLoop_mem ti blocks l (some x) d h with h1 | h1
            · exact Or.inl (List.mem_cons_of_mem _ h1)
            · cases h1
              exact Or.inl (List.mem_cons_self _ _)
        · rcases findRefDefLoop_mem ti blocks l ret d h with h1 | h1
          · exact Or.inl (List.mem_cons_of_mem _ h1)
          · exact Or.inr h1
      · rcases findRefDefLoop_mem ti blocks l ret d h with h1 | h1
        · exact Or.inl (List.mem_cons_of_mem _ h1)
        · exact Or.inr h1

/-- The first loop on a variable whose only def is the left-hand side of the
move `var := rvar`, `rvar` being another symbol: with fuel for two turns more
than `var->uses` has entries it returns, and the declarations and the move
are kept. -/
theorem aliasVar_keepsMove (ti : Expr → ChplType) (fuel : Nat) (s : RefState) (var rvar : Symbol)
    (d0 r : Nat) (base : Option Expr) (hne : rvar ≠ var)
    (hparent : parentCall s.blocks d0 =
      some (.CallExpr (some PRIMITIVE_MOVE) base [.SymExpr d0 var, .SymExpr r rvar]))
    (hdefs : s.su.defs var = [d0]) (hd0 : d0 ∉ s.su.uses var)
    (hno : ∀ n, n ∈ functionAsts s.blocks → noRefSource n = true)
    (hfuel : (s.su.uses var).length + 2 ≤ fuel) :
    ∃ s1, aliasVar ti fuel s var = some s1 ∧
      (∀ n, n ∈ functionAsts s1.blocks → noRefSource n = true) ∧
      ∃ G : Expr → Expr, (∀ e, KeepsMove d0 var rvar e (G e)) ∧
        s1.blocks = mapStatements G s.blocks := by
  have hself : (∀ n, n ∈ functionAsts s.blocks → noRefSource n = true) ∧
      ∃ G : Expr → Expr, (∀ e, KeepsMove d0 var rvar e (G e)) ∧
        s.blocks = mapStatements G s.blocks :=
    ⟨hno, fun e => e, keepsMove_refl d0 var rvar, (mapStatements_id _).symm⟩
  unfold aliasVar
  split
  · cases hf : findRefDef ti s.blocks (s.su.defs var) with
    | none => exact ⟨s, rfl, hself⟩
    | some d =>
      have hd : d = d0 := by
        unfold findRefDef at hf
        rw [hdefs] at hf
        rcases findRefDefLoop_mem ti s.blocks [d0] none d hf with h | h
        · simpa using h
        · cases h
      subst hd
      simp only [hparent, Option.bind, Expr.get]
      have hget : ([Expr.SymExpr d (var), Expr.SymExpr r rvar] : List Expr).get? (2 - 1) =
          some (.SymExpr r rvar) := rfl
      rw [hget]
      simp only
      split
      · obtain ⟨n, hn⟩ : ∃ n, fuel = n + 2 := ⟨fuel - 2, by omega⟩
        subst hn
        rw [aliasUsesLoop_fold var rvar hne (n + 1) 0 s (by omega)]
        simp only [List.drop_zero]
        obtain ⟨hu, hdf⟩ := aliasUse_fold_su var rvar hne (s.su.uses var) s
        rw [aliasDefsLoop_single var d rvar n _ (by rw [hdf]; exact hdefs)]
        exact ⟨_, rfl, aliasUse_fold_keepsMove s.blocks d var rvar (s.su.uses var) s
          (fun se hse heq => hd0 (heq ▸ hse)) hself⟩
      · exact ⟨s, rfl, hself⟩
  · exact ⟨s, rfl, hself⟩

/-- The first loop on a variable that is not of reference type. -/
theorem aliasVar_not_reference (ti : Expr → ChplType) (fuel : Nat) (s : RefState) (var : Symbol)
    (h : var.type.isReference ≠ true) : aliasVar ti fuel s var = some s := by
  unfold aliasVar
  rw [if_neg h]

theorem aliasLoop_not_reference (ti : Expr → ChplType) (fuel : Nat) :
    ∀ (vars : List Symbol) (s : RefState), (∀ v ∈ vars, v.type.isReference ≠ true) →
      aliasLoop ti fuel vars s = some s
  | [], _, _ => rfl
  | v :: vars, s, h => by
      unfold aliasLoop
      rw [aliasVar_not_reference ti fuel s v (h v (List.mem_cons_self _ _))]
      exact aliasLoop_not_reference ti fuel vars s (fun x hx => h x (List.mem_cons_of_mem _ hx))

theorem aliasLoop_append (ti : Expr → ChplType) (fuel : Nat) (l1 l2 : List Symbol) :
    ∀ s : RefState, aliasLoop ti fuel (l1 ++ l2) s =
      (aliasLoop ti fuel l1 s).bind (aliasLoop ti fuel l2) := by
  induction l1 with
  | nil => intro s; rfl
  | cons v l1 ih =>
      intro s
      show aliasLoop ti fuel (v :: (l1 ++ l2)) s = (aliasLoop ti fuel (v :: l1) s).bind _
      rw [aliasLoop, aliasLoop]
      cases aliasVar ti fuel s v with
      | none => rfl
      | some s1 => exact ih s1

/-- The first loop over the variables `pre ++ var :: post`, when `findRefDef`
finds no defining move for the reference variables of `pre` and `post` has no
reference variable: only `var` is treated. -/
theorem aliasLoop_last (ti : Expr → ChplType) (fuel : Nat) (s : RefState) (var rvar : Symbol)
    (d0 r : Nat) (base : Option Expr) (pre post : List Symbol) (hne : rvar ≠ var)
    (hparent : parentCall s.blocks d0 =
      some (.CallExpr (some PRIMITIVE_MOVE) base [.SymExpr d0 var, .SymExpr r rvar]))
    (hdefs : s.su.defs var = [d0]) (hd0 : d0 ∉ s.su.uses var)
    (hno : ∀ n, n ∈ functionAsts s.blocks → noRefSource n = true)
    (hfuel : (s.su.uses var).length + 2 ≤ fuel)
    (hpre : ∀ v ∈ pre, v.type.isReference = true →
      findRefDef ti s.blocks (s.su.defs v) = none)
    (hpost : ∀ v ∈ post, v.type.isReference ≠ true) :
    ∃ s1, aliasLoop ti fuel (pre ++ var :: post) s = some s1 ∧
      (∀ n, n ∈ functionAsts s1.blocks → noRefSource n = true) ∧
      ∃ G : Expr → Expr, (∀ e, KeepsMove d0 var rvar e (G e)) ∧
        s1.blocks = mapStatements G s.blocks := by
  obtain ⟨s1, h1, h2, h3⟩ := aliasVar_keepsMove ti fuel s var rvar d0 r base hne hparent hdefs
    hd0 hno hfuel
  refine ⟨s1, ?_, h2, h3⟩
  rw [aliasLoop_append, aliasLoop_fixed ti fuel s pre
    (fun v hv => aliasVar_of_none ti fuel s v (hpre v hv))]
  show aliasLoop ti fuel (var :: post) s = some s1
  rw [aliasLoop, h1]
  exact aliasLoop_not_reference ti fuel post s1 hpost

theorem eliminateVar_noRefSource (ti : Expr → ChplType) (su : SymUses)
    (s : List BasicBlock × Nat) (var : Symbol)
    (h : ∀ n, n ∈ functionAsts s.1 → noRefSource n = true) :
    eliminateVar ti su s var = s := by
  unfold eliminateVar
  split
  · split
    · rename_i d0 _
      cases hb : (parentCall s.1 d0).bind (fun move => move.get 2) with
      | none => rfl
      | some rhs =>
        simp only
        obtain ⟨move, hpc, hget⟩ := Option.bind_eq_some.1 hb
        have hmem : move ∈ functionAsts s.1 := List.mem_of_find?_eq_some hpc
        have hq := h move hmem
        cases move with
        | CallExpr p b args =>
          simp only [Expr.get] at hget
          have hrm : rhs ∈ args := List.get?_mem hget
          simp only [noRefSource, List.all_eq_true] at hq
          have := hq rhs hrm
          rw [if_neg]
          simpa using this
        | SymExpr _ _ => simp [Expr.get] at hget
        | DefExpr _ _ => simp [Expr.get] at hget
        | Other _ => simp [Expr.get] at hget
    · rfl
  · rfl

/-- C16 (amended): the first loop of `singleAssignmentRefPropagation` removes
nothing.  Let `var` be a variable whose only def is the left-hand side `d0`
of the statement `var := rvar` (a `PRIMITIVE_MOVE` whose source is a `SymExpr`
of another symbol `rvar`, the parent call of `d0`) and that is not listed
among its own uses; let it be the last reference variable the function
declares, `findRefDef` finding no defining move for the reference variables
declared before it (`pre`); and let no call of the function have a
`PRIMITIVE_SET_REF` or `PRIMITIVE_GET_MEMBER` call among its actuals.  Then,
with a bound on the turns of the loops of two more than `var->uses` has
entries, the pass returns; every block has the statements it had, in number;
the declaration of `var` is where it was; and the defining statement is where
it was, still the move of a `SymExpr` of `rvar` to the same `SymExpr` `d0` of
`var`.  The loop only replaces the listed uses of `var` by copies of the
source; removing the variable is left to the dead-code elimination that runs
after the pass. -/
theorem singleAssignmentRefPropagation_keeps_alias (csu : FnSymbol → SymUses)
    (ti : Expr → ChplType) (fn : FnSymbol) (var rvar : Symbol) (d0 r : Nat)
    (base : Option Expr) (children : List Expr) (bd kd bm km : Nat) (bbd bbm : BasicBlock)
    (pre post : List Symbol)
    (hbd : fn.basicBlocks.get? bd = some bbd)
    (hdecl : bbd.exprs.get? kd = some (.DefExpr var children))
    (hbm : fn.basicBlocks.get? bm = some bbm)
    (hmove : bbm.exprs.get? km =
      some (.CallExpr (some PRIMITIVE_MOVE) base [.SymExpr d0 var, .SymExpr r rvar]))
    (hparent : parentCall fn.basicBlocks d0 =
      some (.CallExpr (some PRIMITIVE_MOVE) base [.SymExpr d0 var, .SymExpr r rvar]))
    (hne : rvar ≠ var)
    (hvars : declaredVars fn.basicBlocks = pre ++ var :: post)
    (hpre : ∀ v ∈ pre, v.type.isReference = true →
      findRefDef ti fn.basicBlocks ((csu fn).defs v) = none)
    (hpost : ∀ v ∈ post, v.type.isReference ≠ true)
    (hdefs : (csu fn).defs var = [d0]) (hd0 : d0 ∉ (csu fn).uses var)
    (hno : (functionAsts fn.basicBlocks).all noRefSource = true)
    (fuel : Nat) (hfuel : ((csu fn).uses var).length + 2 ≤ fuel) :
    ∃ fn', singleAssignmentRefPropagation fuel csu ti fn = some fn' ∧
      (∀ b bb, fn.basicBlocks.get? b = some bb →
        ∃ bb', fn'.basicBlocks.get? b = some bb' ∧ bb'.exprs.length = bb.exprs.length) ∧
      (∃ bbd' children', fn'.basicBlocks.get? bd = some bbd' ∧
        bbd'.exprs.get? kd = some (.DefExpr var children')) ∧
      (∃ bbm' base' r', fn'.basicBlocks.get? bm = some bbm' ∧
        bbm'.exprs.get? km =
          some (.CallExpr (some PRIMITIVE_MOVE) base' [.SymExpr d0 var, .SymExpr r' rvar])) := by
  obtain ⟨s1, h1, hq, G, hk, hG⟩ := aliasLoop_last ti fuel
    ⟨fn.basicBlocks, csu fn, freshId fn⟩ var rvar d0 r base pre post hne hparent hdefs hd0
    (fun n hn => (List.all_eq_true.1 hno) n hn) hfuel hpre hpost
  have h2 : ∀ (l : List Symbol) (su : SymUses) (s : List BasicBlock × Nat),
      (∀ n, n ∈ functionAsts s.1 → noRefSource n = true) →
      l.foldl (eliminateVar ti su) s = s := by
    intro l su s hs
    exact foldl_fixed _ _ _ (fun v _ => eliminateVar_noRefSource ti su s v hs)
  have hG' : s1.blocks = mapStatements G fn.basicBlocks := hG
  refine ⟨⟨mapStatements G fn.basicBlocks, fn.getReturnSymbol⟩, ?_, ?_, ?_, ?_⟩
  · unfold singleAssignmentRefPropagation
    rw [hvars, h1]
    simp only
    rw [h2 _ _ _ hq, hG']
  · intro b bb hbb
    exact ⟨_, mapStatements_get G _ b bb hbb, by simp⟩
  · obtain ⟨c', hc'⟩ := (hk _).1 var children rfl
    refine ⟨_, c', mapStatements_get G _ bd bbd hbd, ?_⟩
    show (bbd.exprs.map G).get? kd = _
    rw [List.get?_eq_getElem?, List.getElem?_map, ← List.get?_eq_getElem?, hdecl]
    simp [hc']
  · obtain ⟨b', r', hc'⟩ := (hk _).2 base r rfl
    refine ⟨_, b', r', mapStatements_get G _ bm bbm hbm, ?_⟩
    show (bbm.exprs.map G).get? km = _
    rw [List.get?_eq_getElem?, List.getElem?_map, ← List.get?_eq_getElem?, hmove]
    simp [hc']

theorem singleAssignmentRefPropagation_keeps_alias_witness :
    ∃ fn', singleAssignmentRefPropagation 4 compute_sym_uses typeInfo aliasLocalFn = some fn' ∧
      (∀ b bb, aliasLocalFn.basicBlocks.get? b = some bb →
        ∃ bb', fn'.basicBlocks.get? b = some bb' ∧ bb'.exprs.length = bb.exprs.length) ∧
      (∃ bbd' children', fn'.basicBlocks.get? 0 = some bbd' ∧
        bbd'.exprs.get? 1 = some (.DefExpr (sampleRef 1) children')) ∧
      (∃ bbm' base' r', fn'.basicBlocks.get? 0 = some bbm' ∧
        bbm'.exprs.get? 3 =
          some (.CallExpr (some PRIMITIVE_MOVE) base'
            [.SymExpr 10 (sampleRef 1), .SymExpr r' (sampleRef 2)])) :=
  singleAssignmentRefPropagation_keeps_alias compute_sym_uses typeInfo aliasLocalFn
    (sampleRef 1) (sampleRef 2) 10 11 none [] 0 1 0 3 _ _ [sampleRef 2] [] rfl rfl rfl rfl rfl
    (by decide) (by decide)
    (by
      intro v hv _
      have hv' : v = sampleRef 2 := by simpa using hv
      subst hv'
      decide)
    (fun _ hv => nomatch hv) (by decide) (by decide) (by decide) 4 (by decide)

/-- C16 as stated fails: in `aliasFn` the reference variable `r1` has the one
def `10`, in the move `r1 := r2` whose source is the reference variable `r2`,
and the one use `30`, which is replaced by a use of `r2`; after
`singleAssignmentRefPropagation` (with a bound of two turns or more on its
loops) the declaration of `r1` and the statement `r1 := r2` are still in the
function.  The same holds in `aliasFormalFn`, where `r2` is not declared in
the function and `r1` has two uses, and in `aliasLocalFn`, where `r2` is
declared before `r1`. -/
theorem singleAssignmentRefPropagation_alias_counterexample :
    (compute_sym_uses aliasFn).defs (sampleRef 1) = [10] ∧
    (compute_sym_uses aliasFn).uses (sampleRef 1) = [30] ∧
    findRefDef typeInfo aliasFn.basicBlocks [10] = some 10 ∧
    ((parentCall aliasFn.basicBlocks 10).bind (fun move => move.get 2)) =
      some (.SymExpr 11 (sampleRef 2)) ∧
    (∀ n, (singleAssignmentRefPropagation (n + 2) compute_sym_uses typeInfo aliasFn).map
        (fun fn => fn.basicBlocks.map (fun bb => bb.exprs)) =
      some [[.DefExpr (sampleRef 1) [], .DefExpr (sampleRef 2) [],
        .CallExpr (some PRIMITIVE_MOVE) none
          [.SymExpr 5 (sampleRef 2), .CallExpr (some (PRIMITIVE_OTHER 1)) none []],
        .CallExpr (some PRIMITIVE_MOVE) none
          [.SymExpr 10 (sampleRef 1), .SymExpr 11 (sampleRef 2)],
        .CallExpr (some (PRIMITIVE_OTHER 0)) none [.SymExpr 31 (sampleRef 2)]]]) ∧
    (∀ n, (singleAssignmentRefPropagation (n + 3) compute_sym_uses typeInfo aliasFormalFn).map
        (fun fn => fn.basicBlocks.map (fun bb => bb.exprs)) =
      some [[.DefExpr (sampleRef 1) [],
        .CallExpr (some PRIMITIVE_MOVE) none
          [.SymExpr 10 (sampleRef 1), .SymExpr 11 (sampleRef 2)],
        .CallExpr (some (PRIMITIVE_OTHER 0)) none [.SymExpr 32 (sampleRef 2)],
        .CallExpr (some (PRIMITIVE_OTHER 0)) none [.SymExpr 33 (sampleRef 2)]]]) ∧
    (∀ n, (singleAssignmentRefPropagation (n + 3) compute_sym_uses typeInfo aliasLocalFn).map
        (fun fn => fn.basicBlocks.map (fun bb => bb.exprs)) =
      some [[.DefExpr (sampleRef 2) [], .DefExpr (sampleRef 1) [],
        .CallExpr (some PRIMITIVE_MOVE) none
          [.SymExpr 5 (sampleRef 2), .CallExpr (some (PRIMITIVE_OTHER 1)) none []],
        .CallExpr (some PRIMITIVE_MOVE) none
          [.SymExpr 10 (sampleRef 1), .SymExpr 11 (sampleRef 2)],
        .CallExpr (some (PRIMITIVE_OTHER 0)) none [.SymExpr 32 (sampleRef 2)],
        .CallExpr (some (PRIMITIVE_OTHER 0)) none [.SymExpr 33 (sampleRef 2)]]]) :=
  ⟨by decide, by decide, by decide, rfl, fun _ => rfl, fun _ => rfl, fun _ => rfl⟩

/-- C15, the code on `storeFirstFn`: `r1` has the defs `10` (the store `r1 := v3`,
first in the text) and `20` (the defining move `r1 := &v2`, which `findRefDef`
finds) and no use; the store is rewritten to `v2 := v3`, `stillAlive` stays
false, and the declaration of `r1` is removed; the statement removed with it is
looked up through the first def, the replaced `SymExpr` `10`, and the defining
move `r1 := &v2` stays in the function (the loops of the first loop are not
entered, whatever the bound on their turns). -/
theorem singleAssignmentRefPropagation_first_def_statement :
    (compute_sym_uses storeFirstFn).defs (sampleRef 1) = [10, 20] ∧
    (compute_sym_uses storeFirstFn).uses (sampleRef 1) = [] ∧
    findRefDef typeInfo storeFirstFn.basicBlocks [10, 20] = some 20 ∧
    ((parentCall storeFirstFn.basicBlocks 20).bind (fun move => move.get 2)) =
      some (.CallExpr (some PRIMITIVE_SET_REF) none [.SymExpr 21 (sampleVar 2)]) ∧
    (eliminateLoops [] [10, 20] 20
      (.CallExpr (some PRIMITIVE_SET_REF) none [.SymExpr 21 (sampleVar 2)])
      storeFirstFn.basicBlocks (freshId storeFirstFn)).stillAlive = false ∧
    ∀ fuel, (singleAssignmentRefPropagation fuel compute_sym_uses typeInfo storeFirstFn).map
        (fun fn => fn.basicBlocks.map (fun bb => bb.exprs)) =
      some [[sampleDef 2, sampleDef 3],
       [.CallExpr (some PRIMITIVE_MOVE) none
          [.SymExpr 22 (sampleVar 2), .SymExpr 11 (sampleVar 3)]],
       [.CallExpr (some PRIMITIVE_MOVE) none
          [.SymExpr 20 (sampleRef 1),
           .CallExpr (some PRIMITIVE_SET_REF) none [.SymExpr 21 (sampleVar 2)]]]] :=
  ⟨by decide, by decide, by decide, rfl, by decide, fun _ => rfl⟩

theorem selfAlias_inTree (k : Nat) : inTree (selfAliasBlocks k) k = true := by
  simp [inTree, selfAliasBlocks, functionAsts, collectAsts, collectAstsBase, collectAstsList,
    isSymExprWithId]

theorem selfAlias_replace (k j : Nat) (hk : 10 ≠ k) :
    replaceSymExpr k (.SymExpr j (sampleRef 1)) (selfAliasBlocks k) = selfAliasBlocks j := by
  have h10 : (10 == k) = false := by simpa using hk
  simp [replaceSymExpr, mapStatements, selfAliasBlocks, rewriteExpr, rewriteBase, rewriteList,
    isSymExprWithId, h10]

/-- The loop over `var->uses` when the source of the move is the variable
itself: every turn replaces the last use by a new one, which it adds to the
vector, and the loop has not ended, whatever the bound on its turns. -/
theorem selfAlias_uses_loop : ∀ (fuel i : Nat) (s : RefState),
    s.blocks = selfAliasBlocks (11 + i) → s.next = 12 + i →
    (s.su.uses (sampleRef 1)).get? i = some (11 + i) →
    (s.su.uses (sampleRef 1)).length = i + 1 →
    aliasUsesLoop (sampleRef 1) (sampleRef 1) fuel i s = none
  | 0, _, _, _, _, _, _ => rfl
  | fuel + 1, i, s, hb, hn, hg, hl => by
      unfold aliasUsesLoop
      rw [hg]
      simp only
      apply selfAlias_uses_loop fuel (i + 1)
      · unfold aliasUse
        rw [hb, selfAlias_inTree, if_pos rfl, hn]
        show replaceSymExpr (11 + i) (.SymExpr (12 + i) (sampleRef 1))
          (selfAliasBlocks (11 + i)) = _
        rw [selfAlias_replace _ _ (by omega)]
        congr 1
        omega
      · unfold aliasUse
        rw [hb, selfAlias_inTree, if_pos rfl, hn]
        show 12 + i + 1 = 12 + (i + 1)
        omega
      · unfold aliasUse
        rw [hb, selfAlias_inTree, if_pos rfl, hn]
        show ((if sampleRef 1 = sampleRef 1 then s.su.uses (sampleRef 1) ++ [12 + i]
          else s.su.uses (sampleRef 1))).get? (i + 1) = some (11 + (i + 1))
        rw [if_pos rfl, List.get?_eq_getElem?, List.getElem?_append_right (by omega), hl]
        simp
        omega
      · unfold aliasUse
        rw [hb, selfAlias_inTree, if_pos rfl, hn]
        show ((if sampleRef 1 = sampleRef 1 then s.su.uses (sampleRef 1) ++ [12 + i]
          else s.su.uses (sampleRef 1))).length = i + 1 + 1
        rw [if_pos rfl, List.length_append, hl]
        rfl

/-- On `selfAliasFn`, where the source of the defining move of `r1` is `r1`
itself, the loop over `var->uses` adds to the vector it runs over and
`singleAssignmentRefPropagation` does not return, whatever the bound on the
turns of its loops. -/
theorem singleAssignmentRefPropagation_self_alias (fuel : Nat) :
    singleAssignmentRefPropagation fuel compute_sym_uses typeInfo selfAliasFn = none := by
  have h := selfAlias_uses_loop fuel 0
    ⟨selfAliasFn.basicBlocks, compute_sym_uses selfAliasFn, freshId selfAliasFn⟩ rfl
    (by decide) (by decide) (by decide)
  have hv : aliasVar typeInfo fuel
      ⟨selfAliasFn.basicBlocks, compute_sym_uses selfAliasFn, freshId selfAliasFn⟩
      (sampleRef 1) = none := by
    unfold aliasVar
    have hf : findRefDef typeInfo selfAliasFn.basicBlocks
        ((compute_sym_uses selfAliasFn).defs (sampleRef 1)) = some 10 := by decide
    have hp : (parentCall selfAliasFn.basicBlocks 10).bind (fun move => move.get 2) =
        some (.SymExpr 11 (sampleRef 1)) := rfl
    simp only [hf, hp, h]
    rfl
  have hd : declaredVars selfAliasFn.basicBlocks = [sampleRef 1] := by decide
  unfold singleAssignmentRefPropagation
  rw [hd]
  unfold aliasLoop
  rw [hv]

/-- C38 (amended): in every state reachable from the empty maps through
`makeAvailable` and `removeAvailable`, the reverse map lists every entry of
the forward map: if `available[k] = v` then `k` is in `reverseAvailable[v]`.
The converse is not kept: `removeAvailable` leaves the reverse map as it is,
and `makeAvailable` only adds the key to the list of the new value. -/
theorem reverseAvailable_lists_available (c : Copies) (h : Reachable c) :
    (∀ k v, c.available.get k = some v →
      ∃ ks, c.reverseAvailable.get v = some ks ∧ k ∈ ks) ∧
    (∀ sym, (removeAvailable c sym).reverseAvailable = c.reverseAvailable) ∧
    (∀ key value v, v ≠ value →
      (makeAvailable c key value).reverseAvailable.get v = c.reverseAvailable.get v) ∧
    (∀ key value, ∃ ks, (makeAvailable c key value).reverseAvailable.get value = some ks ∧
      key ∈ ks ∧ ∀ k ks', c.reverseAvailable.get value = some ks' → k ∈ ks' → k ∈ ks) := by
  refine ⟨reachable_indexed c h, fun _ => rfl, ?_, ?_⟩
  · intro key value v hv
    simp only [makeAvailable, Map.get_put, hv, if_false]
  · intro key value
    refine ⟨(match c.reverseAvailable.get value with
        | some ks => ks
        | none => []) ++ [key],
      (by simp only [makeAvailable, Map.get_put, if_true]), (by simp), ?_⟩
    intro k ks' hks' hk
    simp [hks', hk]

theorem reverseAvailable_lists_available_witness :
    Reachable (makeAvailable Copies.empty (sampleVar 1) (sampleVar 2)) ∧
    ∃ ks, (makeAvailable Copies.empty (sampleVar 1) (sampleVar 2)).reverseAvailable.get
        (sampleVar 2) = some ks ∧ sampleVar 1 ∈ ks :=
  ⟨Reachable.make _ _ _ Reachable.empty,
    (reverseAvailable_lists_available _ (Reachable.make _ (sampleVar 1) (sampleVar 2)
      Reachable.empty)).1 (sampleVar 1) (sampleVar 2) rfl⟩

/-- C38 as stated fails: after `makeAvailable(v1, v2)` and `removeAvailable(v1)`
from the empty maps, `v1` is still in `reverseAvailable[v2]` and
`available[v1]` is null. -/
theorem reverseAvailable_lists_available_counterexample :
    Reachable (removeAvailable (makeAvailable Copies.empty (sampleVar 1) (sampleVar 2))
      (sampleVar 1)) ∧
    (removeAvailable (makeAvailable Copies.empty (sampleVar 1) (sampleVar 2))
      (sampleVar 1)).reverseAvailable.get (sampleVar 2) = some [sampleVar 1] ∧
    (removeAvailable (makeAvailable Copies.empty (sampleVar 1) (sampleVar 2))
      (sampleVar 1)).available.get (sampleVar 1) = none :=
  ⟨Reachable.remove _ _ (Reachable.make _ _ _ Reachable.empty), by decide, by decide⟩

/-- Under the index invariant, an entry that the second loop of the body
leaves was there before, and no occurrence of the statement for which
`invalidateCopies` is true has its key or its value as symbol. -/
theorem invalidate_get_some (useSet defSet : List Nat) (k v : Symbol) :
    ∀ (asts : List SymExprNode) (c : Copies), Indexed c →
      (invalidateAvailable useSet defSet c asts).available.get k = some v →
      c.available.get k = some v ∧
        ∀ se ∈ asts, invalidateCopies se defSet useSet = true → se.var ≠ k ∧ se.var ≠ v
  | [], c, _, h => ⟨by simpa [invalidateAvailable] using h, fun se hse => by cases hse⟩
  | s :: asts, c, hi, h => by
      have ih := invalidate_get_some useSet defSet k v asts
      simp only [invalidateAvailable, List.foldl_cons] at ih h
      by_cases hinv : invalidateCopies s defSet useSet = true
      · simp only [hinv, if_true] at h
        obtain ⟨h1, h2⟩ := ih _ (indexed_remove c s.var hi) h
        rw [removeAvailable_get_of_indexed c hi] at h1
        by_cases hk : k = s.var ∨ c.available.get k = some s.var
        · rw [if_pos hk] at h1
          cases h1
        · rw [if_neg hk] at h1
          refine ⟨h1, ?_⟩
          intro se hse hse'
          rcases List.mem_cons.1 hse with hse | hse
          · subst hse
            refine ⟨fun heq => hk (Or.inl heq.symm), fun heq => hk (Or.inr ?_)⟩
            rw [h1, heq]
          · exact h2 se hse hse'
      · simp only [hinv] at h
        obtain ⟨h1, h2⟩ := ih _ hi h
        refine ⟨h1, ?_⟩
        intro se hse hse'
        rcases List.mem_cons.1 hse with hse | hse
        · subst hse
          exact absurd hse' hinv
        · exact h2 se hse hse'

theorem insertCopy_get (useSet defSet : List Nat) (c : Copies) (expr : Expr) (k : Symbol) :
    (insertCopy useSet defSet c expr).available.get k =
      match copyStatement useSet defSet expr with
      | some (lhs, rhs) => if k = lhs.2 then some rhs.2 else c.available.get k
      | none => c.available.get k := by
  unfold insertCopy
  cases copyStatement useSet defSet expr with
  | none => rfl
  | some pr => rfl

/-- One statement keeps the soundness invariant. -/
theorem localStep_sound (useSet defSet : List Nat) (done : List Expr) (c : Copies)
    (expr : Expr) (hr : Reachable c) (h : SoundCopies useSet defSet done c) :
    SoundCopies useSet defSet (done ++ [(localStep useSet defSet c expr).1])
      (localStep useSet defSet c expr).2 := by
  intro dst src hget
  have hold : (invalidateAvailable useSet defSet c
        (collectSymExprs none (propagateStatement useSet defSet c.available expr))).available.get
        dst = some src →
      ∃ before e after lid rid,
        done ++ [propagateStatement useSet defSet c.available expr] = before ++ e :: after ∧
        copyStatement useSet defSet e = some ((lid, dst), (rid, src)) ∧
        ∀ e' ∈ after, ∀ se ∈ collectSymExprs none e',
          invalidateCopies se defSet useSet = true → se.var ≠ dst ∧ se.var ≠ src := by
    intro h1
    obtain ⟨g1, g2⟩ := invalidate_get_some useSet defSet dst src _ c (reachable_indexed c hr) h1
    obtain ⟨before, e, after, lid, rid, k1, k2, k3⟩ := h dst src g1
    refine ⟨before, e, after ++ [propagateStatement useSet defSet c.available expr], lid, rid,
      by rw [k1]; simp, k2, ?_⟩
    intro e' he' se hse hinv
    rcases List.mem_append.1 he' with he' | he'
    · exact k3 e' he' se hse hinv
    · rw [List.mem_singleton.1 he'] at hse
      exact g2 se hse hinv
  have hget' : (insertCopy useSet defSet
      (invalidateAvailable useSet defSet c
        (collectSymExprs none (propagateStatement useSet defSet c.available expr)))
      (propagateStatement useSet defSet c.available expr)).available.get dst = some src := hget
  rw [insertCopy_get] at hget'
  show ∃ before e after lid rid,
    done ++ [propagateStatement useSet defSet c.available expr] = before ++ e :: after ∧ _
  cases hcs : copyStatement useSet defSet (propagateStatement useSet defSet c.available expr) with
  | none =>
    rw [hcs] at hget'
    exact hold hget'
  | some pr =>
    obtain ⟨⟨lid, l⟩, ⟨rid, r⟩⟩ := pr
    rw [hcs] at hget'
    dsimp only at hget'
    by_cases hd : dst = l
    · rw [if_pos hd] at hget'
      cases hget'
      subst hd
      exact ⟨done, _, [], lid, rid, rfl, hcs, fun e' he' => by cases he'⟩
    · rw [if_neg hd] at hget'
      exact hold hget'

/-- The statements of a block keep the soundness invariant. -/
theorem core_sound (useSet defSet : List Nat) :
    ∀ (exprs done : List Expr) (c : Copies), Reachable c → SoundCopies useSet defSet done c →
      SoundCopies useSet defSet (done ++ (localCopyPropagationCore useSet defSet exprs c).1)
        (localCopyPropagationCore useSet defSet exprs c).2
  | [], done, c, _, h => by simpa [localCopyPropagationCore] using h
  | e :: es, done, c, hr, h => by
      have h1 := localStep_sound useSet defSet done c e hr h
      have h2 := core_sound useSet defSet es _ _ (reachable_localStep useSet defSet c e hr) h1
      simp only [localCopyPropagationCore]
      rw [List.append_assoc] at h2
      exact h2

theorem collect_move_lhs (base : Option Expr) (lid rid : Nat) (l r : Symbol) (rest : List Expr) :
    (⟨lid, l, some ⟨some PRIMITIVE_MOVE, 1⟩⟩ : SymExprNode) ∈
      collectSymExprs none
        (.CallExpr (some PRIMITIVE_MOVE) base (.SymExpr lid l :: .SymExpr rid r :: rest)) := by
  simp [collectSymExprs, collectActuals]

/-- One statement keeps that no source of an entry is a key, and that the keys
have a def in the block, when the right-hand sides of the moves are uses. -/
theorem localStep_noChain (useSet defSet : List Nat) (all : List Expr) (c : Copies)
    (expr : Expr) (hmem : expr ∈ all) (hrhs : RhsAreUses useSet defSet all)
    (hr : Reachable c) (hn : NoChain c)
    (hk : ∀ dst src, c.available.get dst = some src → DefinedIn defSet all dst) :
    NoChain (localStep useSet defSet c expr).2 ∧
    ∀ dst src, (localStep useSet defSet c expr).2.available.get dst = some src →
      DefinedIn defSet all dst := by
  have hi := reachable_indexed c hr
  have hsub : ∀ k v, (invalidateAvailable useSet defSet c
        (collectSymExprs none (propagateStatement useSet defSet c.available expr))).available.get
        k = some v →
      c.available.get k = some v ∧
        ∀ se ∈ collectSymExprs none (propagateStatement useSet defSet c.available expr),
          invalidateCopies se defSet useSet = true → se.var ≠ k ∧ se.var ≠ v :=
    fun k v h => invalidate_get_some useSet defSet k v _ c hi h
  have hnone : ∀ k, c.available.get k = none →
      (invalidateAvailable useSet defSet c
        (collectSymExprs none (propagateStatement useSet defSet c.available expr))).available.get
        k = none :=
    fun k h => invalidate_get_none useSet defSet k _ c h
  have hget : ∀ k, (localStep useSet defSet c expr).2.available.get k =
      match copyStatement useSet defSet (propagateStatement useSet defSet c.available expr) with
      | some (lhs, rhs) =>
          if k = lhs.2 then some rhs.2
          else (invalidateAvailable useSet defSet c (collectSymExprs none
            (propagateStatement useSet defSet c.available expr))).available.get k
      | none => (invalidateAvailable useSet defSet c (collectSymExprs none
            (propagateStatement useSet defSet c.available expr))).available.get k :=
    fun k => insertCopy_get useSet defSet _ _ k
  cases hcs : copyStatement useSet defSet (propagateStatement useSet defSet c.available expr) with
  | none =>
    simp only [hcs] at hget
    constructor
    · intro dst src h
      rw [hget] at h ⊢
      exact hnone src (hn dst src (hsub dst src h).1)
    · intro dst src h
      rw [hget] at h
      exact hk dst src (hsub dst src h).1
  | some pr =>
    obtain ⟨⟨lid, l⟩, ⟨rid, r⟩⟩ := pr
    simp only [hcs] at hget
    obtain ⟨base', rest', hshape, hlid, hrid, hne⟩ := copyStatement_eq_some useSet defSet _ _ hcs
    dsimp only at hshape hlid hrid hne
    obtain ⟨base, l0, r0, rest, horig, hl, hrr⟩ := rebind_move_shape
      (propagateUse c.available useSet defSet) expr base' lid rid l r rest' hshape
    have hl0 : l = l0 := by
      rw [hl]
      exact propagateUse_of_def c.available useSet defSet _ hlid
    obtain ⟨hrdef, hruse⟩ := hrhs expr hmem base lid l0 rid r0 rest horig
    -- the left-hand occurrence invalidates `l`
    have hlhs : ∀ k v, (invalidateAvailable useSet defSet c
        (collectSymExprs none (propagateStatement useSet defSet c.available expr))).available.get
        k = some v → l ≠ k ∧ l ≠ v := by
      intro k v h
      have hm : (⟨lid, l, some ⟨some PRIMITIVE_MOVE, 1⟩⟩ : SymExprNode) ∈
          collectSymExprs none (propagateStatement useSet defSet c.available expr) := by
        rw [show propagateStatement useSet defSet c.available expr = _ from hshape]
        exact collect_move_lhs base' lid rid l r rest'
      exact (hsub k v h).2 _ hm (invalidateCopies_of_def _ defSet useSet hlid)
    -- the right-hand symbol is not a key
    have hrkey : c.available.get r = none := by
      by_cases hu : rid ∈ useSet
      · cases hr0 : c.available.get r0 with
        | none =>
          rw [hrr, propagateUse_of_none c.available useSet defSet _ hr0]
          exact hr0
        | some s =>
          rw [hrr, propagateUse_of_some c.available useSet defSet _ s hr0 hu
            (invalidateCopies_move_use rid r0 2 defSet useSet hrdef)]
          exact hn r0 s hr0
      · have hr0 : r = r0 := by
          rw [hrr]
          unfold propagateUse
          rw [if_neg (by rw [contains_iff_mem]; exact hu)]
        rw [hr0]
        cases hk0 : c.available.get r0 with
        | none => rfl
        | some s => exact absurd (hruse (hk r0 s hk0)) hu
    constructor
    · intro dst src h
      rw [hget] at h ⊢
      by_cases hd : dst = l
      · rw [if_pos hd] at h
        have hsr : r = src := Option.some.inj h
        rw [← hsr, if_neg (fun heq => hne heq.symm)]
        exact hnone r hrkey
      · rw [if_neg hd] at h
        have hsl := (hlhs dst src h).2
        rw [if_neg (fun heq => hsl heq.symm)]
        exact hnone src (hn dst src (hsub dst src h).1)
    · intro dst src h
      rw [hget] at h
      by_cases hd : dst = l
      · rw [hd, hl0]
        refine ⟨expr, hmem, ⟨lid, l0, some ⟨some PRIMITIVE_MOVE, 1⟩⟩, ?_, hlid, rfl⟩
        rw [horig]
        exact collect_move_lhs base lid rid l0 r0 rest
      · rw [if_neg hd] at h
        exact hk dst src (hsub dst src h).1

theorem core_noChain (useSet defSet : List Nat) (all : List Expr)
    (hrhs : RhsAreUses useSet defSet all) :
    ∀ (exprs : List Expr) (c : Copies), (∀ e ∈ exprs, e ∈ all) → Reachable c → NoChain c →
      (∀ dst src, c.available.get dst = some src → DefinedIn defSet all dst) →
      NoChain (localCopyPropagationCore useSet defSet exprs c).2
  | [], c, _, _, hn, _ => by simpa [localCopyPropagationCore] using hn
  | e :: es, c, hsub, hr, hn, hk => by
      obtain ⟨h1, h2⟩ := localStep_noChain useSet defSet all c e
        (hsub e (List.mem_cons_self _ _)) hrhs hr hn hk
      simp only [localCopyPropagationCore]
      exact core_noChain useSet defSet all hrhs es _
        (fun e' he' => hsub e' (List.mem_cons_of_mem _ he'))
        (reachable_localStep useSet defSet c e hr) h1 h2

/-- C39: the soundness invariant of the local pass.  In a block `pre ++ post`
treated from the empty maps, at the boundary after `pre`: the statements
before the boundary are left as at the end of the block; every entry
`dst -> src` of the forward map was inserted by one of them, a move whose
left-hand symbol is `dst` and right-hand symbol is `src`, and no occurrence
for which `invalidateCopies` is true and whose symbol is `dst` or `src` is in
a statement after that move and before the boundary; no entry maps a symbol to
itself; and, the right-hand sides of the moves being uses as
`compute_sym_uses` lists them, no source symbol of an entry is a key. -/
theorem localCopyPropagationCore_sound (useSet defSet : List Nat) (pre post : List Expr) :
    (localCopyPropagationCore useSet defSet (pre ++ post) Copies.empty).1.take pre.length =
      (localCopyPropagationCore useSet defSet pre Copies.empty).1 ∧
    SoundCopies useSet defSet (localCopyPropagationCore useSet defSet pre Copies.empty).1
      (localCopyPropagationCore useSet defSet pre Copies.empty).2 ∧
    (∀ dst src,
      (localCopyPropagationCore useSet defSet pre Copies.empty).2.available.get dst = some src →
      dst ≠ src) ∧
    (RhsAreUses useSet defSet pre →
      NoChain (localCopyPropagationCore useSet defSet pre Copies.empty).2) := by
  have hs : SoundCopies useSet defSet
      ([] ++ (localCopyPropagationCore useSet defSet pre Copies.empty).1)
      (localCopyPropagationCore useSet defSet pre Copies.empty).2 :=
    core_sound useSet defSet pre [] Copies.empty Reachable.empty
      (fun dst src h => by simp [Copies.empty, Map.empty] at h)
  rw [List.nil_append] at hs
  refine ⟨?_, hs, ?_, ?_⟩
  · rw [core_append]
    have hlen := core_length useSet defSet pre Copies.empty
    rw [← hlen]
    simp
  · intro dst src h
    obtain ⟨_, e, _, lid, rid, _, hcs, _⟩ := hs dst src h
    obtain ⟨_, _, _, _, _, hne⟩ := copyStatement_eq_some useSet defSet e _ hcs
    exact hne
  · intro hrhs
    exact core_noChain useSet defSet pre hrhs pre Copies.empty (fun e he => he)
      Reachable.empty (fun dst src h => by simp [Copies.empty, Map.empty] at h)
      (fun dst src h => by simp [Copies.empty, Map.empty] at h)

theorem chain_rhsAreUses :
    RhsAreUses [11, 21, 30] [10, 20] [sampleMove 10 1 2, sampleMove 20 3 1] := by
  intro e he base lid lvar rid rvar rest heq
  simp only [List.mem_cons, List.mem_singleton, List.not_mem_nil, or_false] at he
  rcases he with he | he
  · rw [he] at heq
    unfold sampleMove at heq
    injection heq with _ _ h3
    injection h3 with _ h4
    injection h4 with h5 _
    injection h5 with h6 _
    rw [← h6]
    exact ⟨by decide, fun _ => by decide⟩
  · rw [he] at heq
    unfold sampleMove at heq
    injection heq with _ _ h3
    injection h3 with _ h4
    injection h4 with h5 _
    injection h5 with h6 _
    rw [← h6]
    exact ⟨by decide, fun _ => by decide⟩

theorem localCopyPropagationCore_sound_witness :
    RhsAreUses [11, 21, 30] [10, 20] [sampleMove 10 1 2, sampleMove 20 3 1] ∧
    (localCopyPropagationCore [11, 21, 30] [10, 20] [sampleMove 10 1 2, sampleMove 20 3 1]
      Copies.empty).2.available.get (sampleVar 3) = some (sampleVar 2) ∧
    NoChain (localCopyPropagationCore [11, 21, 30] [10, 20]
      [sampleMove 10 1 2, sampleMove 20 3 1] Copies.empty).2 :=
  ⟨chain_rhsAreUses, by decide,
    (localCopyPropagationCore_sound [11, 21, 30] [10, 20]
      [sampleMove 10 1 2, sampleMove 20 3 1] [sampleUse 30 3]).2.2.2 chain_rhsAreUses⟩

end CopyPropagation

namespace ChplThreads

theorem executingCount_le (workers : List Worker) : executingCount workers ≤ workers.length :=
  List.length_filter_le _ _

theorem executingCount_append (l1 l2 : List Worker) :
    executingCount (l1 ++ l2) = executingCount l1 + executingCount l2 := by
  simp [executingCount]

theorem executingCount_set_waiting : ∀ (workers : List Worker) (i : Nat) (task : task_pool_t),
    workers.get? i = some (Worker.executing task) →
      executingCount (workers.set i Worker.waiting) + 1 = executingCount workers
  | [], _, _, h => by simp at h
  | w :: ws, 0, task, h => by
      simp at h; subst h
      simp [executingCount]
  | w :: ws, i + 1, task, h => by
      simp only [List.get?_cons_succ] at h
      have ih := executingCount_set_waiting ws i task h
      simp only [executingCount, List.set_cons_succ, List.filter_cons] at ih ⊢
      split <;> (try simp only [List.length_cons]) <;> omega

theorem executingCount_set_executing : ∀ (workers : List Worker) (i : Nat) (task : task_pool_t),
    workers.get? i = some Worker.waiting →
      executingCount (workers.set i (Worker.executing task)) = executingCount workers + 1
  | [], _, _, h => by simp at h
  | w :: ws, 0, task, h => by
      simp at h; subst h
      simp [executingCount]
  | w :: ws, i + 1, task, h => by
      simp only [List.get?_cons_succ] at h
      have ih := executingCount_set_executing ws i task h
      simp only [executingCount, List.set_cons_succ, List.filter_cons] at ih ⊢
      split <;> (try simp only [List.length_cons]) <;> omega

theorem executingCount_lt_of_waiting : ∀ (workers : List Worker) (i : Nat),
    workers.get? i = some Worker.waiting → executingCount workers < workers.length
  | [], _, h => by simp at h
  | w :: ws, 0, h => by
      simp at h; subst h
      have := executingCount_le ws
      simp only [executingCount, List.filter_cons, List.length_cons] at this ⊢
      simp only [Bool.false_eq_true, if_false]
      omega
  | w :: ws, i + 1, h => by
      simp only [List.get?_cons_succ] at h
      have ih := executingCount_lt_of_waiting ws i h
      simp only [executingCount, List.filter_cons, List.length_cons] at ih ⊢
      split <;> (try simp only [List.length_cons]) <;> omega

theorem executingCount_map (f : task_pool_t → task_pool_t) (p : task_pool_t → Prop)
    [DecidablePred p] : ∀ (workers : List Worker),
    executingCount (workers.map (fun w =>
      match w with
      | Worker.executing t => if p t then Worker.executing (f t) else Worker.executing t
      | Worker.waiting => Worker.waiting)) = executingCount workers
  | [] => rfl
  | w :: ws => by
      have ih := executingCount_map f p ws
      simp only [executingCount, List.map_cons, List.filter_cons] at ih ⊢
      cases w with
      | waiting => simpa using ih
      | executing t =>
        by_cases hp : p t <;> simp [hp] <;> exact ih

theorem skip_inv (s : Scheduler) (h : CountersInv s) : CountersInv (skip_over_begun_tasks s) := h

theorem add_inv (s : Scheduler) (id fp a : Nat) (serial : Bool) (task_list : Option Nat)
    (h : CountersInv s) : CountersInv (add_to_task_pool s id fp a serial task_list) := h

theorem launch_inv (created : Bool) (s : Scheduler) (h : CountersInv s) :
    CountersInv (launch_next_task created s) := by
  unfold launch_next_task
  split
  · exact h
  · dsimp only
    split
    · exact h
    · split
      · obtain ⟨h1, h2, h3, h4⟩ := h
        refine ⟨?_, ?_, h3, ?_⟩
        · show s.running_cnt + 1 = _
          rw [executingCount_append]
          simp only [executingCount, List.filter_cons, List.filter_nil, if_true,
            List.length_singleton, Nat.cast_add, Nat.cast_one]
          rw [h1]; rfl
        · show s.threads_cnt + 1 = _
          simp only [List.length_append, List.length_singleton, Nat.cast_add, Nat.cast_one]
          rw [h2]; rfl
        · show s.running_cnt + 1 + s.waking_cnt ≤ s.threads_cnt + 1
          omega
      · exact h

theorem launchLoop_inv (maxThreads : Int) :
    ∀ (howMany : Nat) (outcomes : List Bool) (s : Scheduler), CountersInv s →
      CountersInv (launchLoop maxThreads howMany outcomes s)
  | 0, _, _, h => h
  | howMany + 1, outcomes, s, h => by
      unfold launchLoop
      split
      · exact launchLoop_inv maxThreads howMany _ _ (launch_inv _ s h)
      · exact h

theorem schedule_inv (maxThreads : Int) (outcomes : List Bool) (howMany : Nat) (s : Scheduler)
    (h : CountersInv s) : CountersInv (schedule_next_task maxThreads outcomes howMany s) := by
  unfold schedule_next_task
  obtain ⟨h1, h2, h3, h4⟩ := h
  split
  · dsimp only
    split
    · apply launchLoop_inv
      refine ⟨h1, h2, ?_, ?_⟩
      · show 0 ≤ s.waking_cnt + (howMany : Int)
        omega
      · show s.running_cnt + (s.waking_cnt + (howMany : Int)) ≤ s.threads_cnt
        omega
    · apply launchLoop_inv
      refine ⟨h1, h2, ?_, ?_⟩
      · show 0 ≤ s.waking_cnt + (s.threads_cnt - s.running_cnt - s.waking_cnt)
        omega
      · show s.running_cnt + (s.waking_cnt + (s.threads_cnt - s.running_cnt - s.waking_cnt)) ≤
          s.threads_cnt
        omega
  · exact launchLoop_inv _ _ _ _ ⟨h1, h2, h3, h4⟩

theorem addTaskList_inv : ∀ (tasks : List (Nat × Nat × Nat × Nat)) (s : Scheduler),
    CountersInv s → CountersInv (addTaskList s tasks)
  | [], _, h => h
  | (_, _, _, _) :: rest, s, h => by
      unfold addTaskList
      exact addTaskList_inv rest _ (add_inv s _ _ _ _ _ h)

theorem worker_finish_inv (i : Nat) (s s' : Scheduler) (hs : worker_finish i s = some s')
    (h : CountersInv s) : CountersInv s' := by
  unfold worker_finish at hs
  split at hs
  · rename_i task hw
    simp only [Option.some.injEq] at hs
    subst hs
    obtain ⟨h1, h2, h3, h4⟩ := h
    have hc := executingCount_set_waiting s.workers i task hw
    refine ⟨?_, ?_, h3, ?_⟩
    · show s.running_cnt - 1 = ((executingCount (s.workers.set i Worker.waiting) : Nat) : Int)
      rw [h1]; omega
    · show s.threads_cnt = (((s.workers.set i Worker.waiting).length : Nat) : Int)
      rw [h2]; simp
    · show s.running_cnt - 1 + s.waking_cnt ≤ s.threads_cnt
      omega
  · exact Option.noConfusion hs

theorem worker_take_inv (i : Nat) (s s' : Scheduler) (hs : worker_take i s = some s')
    (h : CountersInv s) : CountersInv s' := by
  unfold worker_take at hs
  split at hs
  · rename_i hw
    dsimp only at hs
    split at hs
    · simp only [Option.some.injEq] at hs
      subst hs
      exact h
    · rename_i task rest _
      simp only [Option.some.injEq] at hs
      subst hs
      obtain ⟨h1, h2, h3, h4⟩ := h
      have hc := executingCount_set_executing s.workers i { task with begun := true } hw
      have hlt := executingCount_lt_of_waiting s.workers i hw
      have hw0 : (skip_over_begun_tasks s).waking_cnt = s.waking_cnt := rfl
      refine ⟨?_, ?_, ?_, ?_⟩
      · show s.running_cnt + 1 = _
        show s.running_cnt + 1 =
          ((executingCount (s.workers.set i (Worker.executing { task with begun := true })) : Nat) :
            Int)
        rw [hc, h1]; push_cast; rfl
      · show s.threads_cnt = _
        show s.threads_cnt =
          (((s.workers.set i (Worker.executing { task with begun := true })).length : Nat) : Int)
        rw [h2]; simp
      · show 0 ≤ (if (skip_over_begun_tasks s).waking_cnt > 0 then
          (skip_over_begun_tasks s).waking_cnt - 1 else (skip_over_begun_tasks s).waking_cnt)
        rw [hw0]
        split <;> omega
      · show s.running_cnt + 1 + (if (skip_over_begun_tasks s).waking_cnt > 0 then
          (skip_over_begun_tasks s).waking_cnt - 1 else (skip_over_begun_tasks s).waking_cnt) ≤
            s.threads_cnt
        rw [hw0]
        split <;> omega
  · exact Option.noConfusion hs

theorem updateEntry_inv (id : Nat) (f : task_pool_t → task_pool_t) (s : Scheduler)
    (h : CountersInv s) : CountersInv (updateEntry id f s) := by
  obtain ⟨h1, h2, h3, h4⟩ := h
  refine ⟨?_, ?_, h3, h4⟩
  · show s.running_cnt = _
    rw [h1]
    show _ = ((executingCount (s.workers.map _) : Nat) : Int)
    rw [executingCount_map f (fun t => t.id = id)]
  · show s.threads_cnt = _
    rw [h2]
    show _ = (((s.workers.map _).length : Nat) : Int)
    rw [List.length_map]

theorem joiner_claim_inv (entry id : Nat) (s : Scheduler) (h : CountersInv s) :
    CountersInv (joiner_claim entry id s) := by
  unfold joiner_claim
  split
  · exact h
  · split
    · split
      · exact updateEntry_inv _ _ s h
      · obtain ⟨h1, h2, h3, h4⟩ := updateEntry_inv id (fun t => { t with begun := true }) s h
        obtain ⟨_, _, g3, g4⟩ := h
        refine ⟨h1, h2, ?_, ?_⟩
        · show 0 ≤ (if s.waking_cnt > 0 then s.waking_cnt - 1 else s.waking_cnt)
          split <;> omega
        · show s.running_cnt + (if s.waking_cnt > 0 then s.waking_cnt - 1 else s.waking_cnt) ≤
            s.threads_cnt
          split <;> omega
    · exact h

theorem step_inv (maxThreads : Int) (s s' : Scheduler) (hstep : Step maxThreads s s')
    (h : CountersInv s) : CountersInv s' := by
  cases hstep with
  | chpl_begin outcomes id fp a serial_state =>
    exact schedule_inv _ _ _ _ (add_inv s _ _ _ _ _ h)
  | process_task_list_add outcomes tasks =>
    exact schedule_inv _ _ _ _ (addTaskList_inv tasks s h)
  | schedule_next_task outcomes howMany => exact schedule_inv _ _ _ _ h
  | launch_next_task created => exact launch_inv _ _ h
  | worker_finish _ i hs => exact worker_finish_inv i s s' hs h
  | worker_take _ i hs => exact worker_take_inv i s s' hs h
  | joiner_claim entry id => exact joiner_claim_inv _ _ _ h

theorem reachable_inv (maxThreads : Int) (s : Scheduler) (h : Reachable maxThreads s) :
    CountersInv s := by
  induction h with
  | init => exact ⟨rfl, rfl, le_refl _, le_refl _⟩
  | step s s' _ hstep ih => exact step_inv maxThreads s s' hstep ih

/-- C20: in every state reachable from the state set by `initChplThreads`
through the critical sections of `chpl_begin`, `chpl_process_task_list`, the
worker loop (a worker finishing a task, a worker taking one) and the joiner,
and through `schedule_next_task` and `launch_next_task` taken alone,
`threads_cnt >= running_cnt + waking_cnt` holds when the lock is released. -/
theorem admission_counter_invariant (maxThreads : Int) (s : Scheduler)
    (h : Reachable maxThreads s) : s.threads_cnt ≥ s.running_cnt + s.waking_cnt :=
  (reachable_inv maxThreads s h).2.2.2

theorem admission_counter_invariant_witness :
    (chpl_begin 0 [] 2 7 9 false
        { (chpl_begin 0 [] 1 7 8 false initChplThreads) with
          running_cnt := 0, workers := [Worker.waiting], freed := [1] }).threads_cnt ≥
      (chpl_begin 0 [] 2 7 9 false
        { (chpl_begin 0 [] 1 7 8 false initChplThreads) with
          running_cnt := 0, workers := [Worker.waiting], freed := [1] }).running_cnt +
      (chpl_begin 0 [] 2 7 9 false
        { (chpl_begin 0 [] 1 7 8 false initChplThreads) with
          running_cnt := 0, workers := [Worker.waiting], freed := [1] }).waking_cnt :=
  admission_counter_invariant 0 _
    (Reachable.step _ _
      (Reachable.step _ _
        (Reachable.step _ _ Reachable.init (Step.chpl_begin _ [] 1 7 8 false))
        (Step.worker_finish _ _ 0 rfl))
      (Step.chpl_begin _ [] 2 7 9 false))
theorem launch_waking (created : Bool) (s : Scheduler) :
    (launch_next_task created s).waking_cnt = s.waking_cnt ∧
      (launch_next_task created s).signals = s.signals := by
  unfold launch_next_task
  split
  · exact ⟨rfl, rfl⟩
  · dsimp only
    split
    · exact ⟨rfl, rfl⟩
    · split <;> exact ⟨rfl, rfl⟩

theorem launch_creations (created : Bool) (s : Scheduler) :
    s.creations ≤ (launch_next_task created s).creations ∧
      (launch_next_task created s).creations ≤ s.creations + 1 := by
  unfold launch_next_task
  split
  · exact ⟨le_refl _, Nat.le_succ _⟩
  · dsimp only
    split
    · exact ⟨le_refl _, Nat.le_succ _⟩
    · split
      · exact ⟨Nat.le_succ _, le_refl _⟩
      · exact ⟨Nat.le_succ _, le_refl _⟩

theorem launchLoop_waking (maxThreads : Int) :
    ∀ (howMany : Nat) (outcomes : List Bool) (s : Scheduler),
      (launchLoop maxThreads howMany outcomes s).waking_cnt = s.waking_cnt ∧
      (launchLoop maxThreads howMany outcomes s).signals = s.signals ∧
      s.creations ≤ (launchLoop maxThreads howMany outcomes s).creations ∧
      (launchLoop maxThreads howMany outcomes s).creations ≤ s.creations + howMany
  | 0, _, s => ⟨rfl, rfl, le_refl _, le_refl _⟩
  | howMany + 1, outcomes, s => by
      unfold launchLoop
      split
      · obtain ⟨h1, h2, h3, h4⟩ := launchLoop_waking maxThreads howMany outcomes.tail
          (launch_next_task (outcomes.headD true) s)
        obtain ⟨g1, g2⟩ := launch_waking (outcomes.headD true) s
        obtain ⟨g3, g4⟩ := launch_creations (outcomes.headD true) s
        exact ⟨by rw [h1, g1], by rw [h2, g2], by omega, by omega⟩
      · exact ⟨rfl, rfl, le_refl _, by omega⟩

/-- C21: `schedule_next_task N` with `N ≥ 1` and
`idle = threads_cnt - running_cnt - waking_cnt`: with `idle ≥ N` it adds `N`
to `waking_cnt`, signals once and makes no thread-creation attempt; with
`0 < idle < N` it adds `idle` to `waking_cnt`, signals once and makes at most
`N - idle` attempts; with `idle ≤ 0` it leaves `waking_cnt`, does not signal
and makes at most `N` attempts. -/
theorem schedule_next_task_cases (maxThreads : Int) (outcomes : List Bool) (N : Nat)
    (s : Scheduler) (idle : Int) (hN : 1 ≤ N)
    (hidle : idle = s.threads_cnt - s.running_cnt - s.waking_cnt) :
    (idle ≥ N →
      (schedule_next_task maxThreads outcomes N s).waking_cnt = s.waking_cnt + N ∧
      (schedule_next_task maxThreads outcomes N s).signals = s.signals + 1 ∧
      (schedule_next_task maxThreads outcomes N s).creations = s.creations) ∧
    (0 < idle → idle < N →
      (schedule_next_task maxThreads outcomes N s).waking_cnt = s.waking_cnt + idle ∧
      (schedule_next_task maxThreads outcomes N s).signals = s.signals + 1 ∧
      (schedule_next_task maxThreads outcomes N s).creations ≤ s.creations + (N - idle.toNat)) ∧
    (idle ≤ 0 →
      (schedule_next_task maxThreads outcomes N s).waking_cnt = s.waking_cnt ∧
      (schedule_next_task maxThreads outcomes N s).signals = s.signals ∧
      (schedule_next_task maxThreads outcomes N s).creations ≤ s.creations + N) := by
  subst hidle
  refine ⟨?_, ?_, ?_⟩
  · intro h
    have hpos : s.threads_cnt > s.running_cnt + s.waking_cnt := by omega
    unfold schedule_next_task
    rw [if_pos hpos]
    dsimp only
    rw [if_pos h]
    obtain ⟨h1, h2, h3, h4⟩ := launchLoop_waking maxThreads 0 outcomes
      { s with waking_cnt := s.waking_cnt + N, signals := s.signals + 1 }
    exact ⟨h1, h2, by
      have h3' : s.creations ≤ _ := h3
      have h4' : _ ≤ s.creations + 0 := h4
      omega⟩
  · intro h0 hlt
    have hpos : s.threads_cnt > s.running_cnt + s.waking_cnt := by omega
    unfold schedule_next_task
    rw [if_pos hpos]
    dsimp only
    rw [if_neg (by omega)]
    obtain ⟨h1, h2, _, h4⟩ := launchLoop_waking maxThreads
      (N - (s.threads_cnt - s.running_cnt - s.waking_cnt).toNat) outcomes
      { s with waking_cnt := s.waking_cnt + (s.threads_cnt - s.running_cnt - s.waking_cnt),
               signals := s.signals + 1 }
    exact ⟨h1, h2, h4⟩
  · intro h
    have hneg : ¬ s.threads_cnt > s.running_cnt + s.waking_cnt := by omega
    unfold schedule_next_task
    rw [if_neg hneg]
    obtain ⟨h1, h2, _, h4⟩ := launchLoop_waking maxThreads N outcomes s
    exact ⟨h1, h2, h4⟩

theorem schedule_next_task_cases_witness :
    (schedule_next_task 0 [true] 2 oneIdleWorker).waking_cnt = oneIdleWorker.waking_cnt + 1 ∧
    (schedule_next_task 0 [true] 2 oneIdleWorker).signals = oneIdleWorker.signals + 1 ∧
    (schedule_next_task 0 [true] 2 oneIdleWorker).creations ≤
      oneIdleWorker.creations + (2 - (1 : Int).toNat) :=
  (schedule_next_task_cases 0 [true] 2 oneIdleWorker 1 (by decide) (by decide)).2.1
    (by decide) (by decide)

theorem launch_threads (created : Bool) (s : Scheduler) :
    (launch_next_task created s).threads_cnt = s.threads_cnt ∨
      (launch_next_task created s).threads_cnt = s.threads_cnt + 1 := by
  unfold launch_next_task
  split
  · exact Or.inl rfl
  · dsimp only
    split
    · exact Or.inl rfl
    · split
      · exact Or.inr rfl
      · exact Or.inl rfl

theorem launch_workers_length (created : Bool) (s : Scheduler) :
    s.workers.length ≤ (launch_next_task created s).workers.length := by
  unfold launch_next_task
  split
  · exact le_refl _
  · dsimp only
    split
    · exact le_refl _
    · split
      · show s.workers.length ≤ (s.workers ++ _).length
        simp
      · exact le_refl _

/-- The loop of `schedule_next_task` keeps `threads_cnt` under the cap, and
changes it only when its test holds on entry. -/
theorem launchLoop_cap (maxThreads : Int) (hmax : 1 ≤ maxThreads) :
    ∀ (howMany : Nat) (outcomes : List Bool) (s : Scheduler),
      s.threads_cnt ≤ maxThreads - 1 →
      (launchLoop maxThreads howMany outcomes s).threads_cnt ≤ maxThreads - 1
  | 0, _, _, h => h
  | howMany + 1, outcomes, s, h => by
      unfold launchLoop
      split
      · rename_i hg
        apply launchLoop_cap maxThreads hmax howMany
        rcases launch_threads (outcomes.headD true) s with h1 | h1
        · rw [h1]; exact h
        · rw [h1]
          rcases hg with hg | hg
          · omega
          · omega
      · exact h

theorem launchLoop_guard (maxThreads : Int) :
    ∀ (howMany : Nat) (outcomes : List Bool) (s : Scheduler),
      (launchLoop maxThreads howMany outcomes s).threads_cnt ≠ s.threads_cnt →
      maxThreads = 0 ∨ s.threads_cnt + 1 < maxThreads
  | 0, _, _, h => absurd rfl h
  | howMany + 1, outcomes, s, h => by
      unfold launchLoop at h
      split at h
      · rename_i hg
        exact hg
      · exact absurd rfl h

theorem schedule_cap (maxThreads : Int) (hmax : 1 ≤ maxThreads) (outcomes : List Bool)
    (howMany : Nat) (s : Scheduler) (h : s.threads_cnt ≤ maxThreads - 1) :
    (schedule_next_task maxThreads outcomes howMany s).threads_cnt ≤ maxThreads - 1 := by
  unfold schedule_next_task
  split
  · dsimp only
    split <;> exact launchLoop_cap maxThreads hmax _ _ _ h
  · exact launchLoop_cap maxThreads hmax _ _ _ h

theorem schedule_guard (maxThreads : Int) (outcomes : List Bool) (howMany : Nat)
    (s : Scheduler)
    (h : (schedule_next_task maxThreads outcomes howMany s).threads_cnt ≠ s.threads_cnt) :
    maxThreads = 0 ∨ s.threads_cnt + 1 < maxThreads := by
  unfold schedule_next_task at h
  split at h
  · dsimp only at h
    split at h
    · exact launchLoop_guard maxThreads 0 outcomes
        { s with waking_cnt := s.waking_cnt + howMany, signals := s.signals + 1 } h
    · exact launchLoop_guard maxThreads _ outcomes
        { s with waking_cnt := s.waking_cnt + (s.threads_cnt - s.running_cnt - s.waking_cnt),
                 signals := s.signals + 1 } h
  · exact launchLoop_guard maxThreads _ _ _ h

theorem addTaskList_threads : ∀ (tasks : List (Nat × Nat × Nat × Nat)) (s : Scheduler),
    (addTaskList s tasks).threads_cnt = s.threads_cnt
  | [], _ => rfl
  | (_, _, _, _) :: rest, s => by
      unfold addTaskList
      rw [addTaskList_threads rest]
      rfl

theorem worker_finish_threads (i : Nat) (s s' : Scheduler) (h : worker_finish i s = some s') :
    s'.threads_cnt = s.threads_cnt := by
  unfold worker_finish at h
  split at h
  · simp only [Option.some.injEq] at h
    subst h; rfl
  · exact Option.noConfusion h

theorem worker_take_threads (i : Nat) (s s' : Scheduler) (h : worker_take i s = some s') :
    s'.threads_cnt = s.threads_cnt := by
  unfold worker_take at h
  split at h
  · dsimp only at h
    split at h
    · simp only [Option.some.injEq] at h
      subst h; rfl
    · simp only [Option.some.injEq] at h
      subst h; rfl
  · exact Option.noConfusion h

theorem joiner_claim_threads (entry id : Nat) (s : Scheduler) :
    (joiner_claim entry id s).threads_cnt = s.threads_cnt := by
  unfold joiner_claim
  split
  · rfl
  · split
    · split <;> rfl
    · rfl

theorem criticalSection_threads (maxThreads : Int) (s s' : Scheduler)
    (h : CriticalSection maxThreads s s') :
    (1 ≤ maxThreads → s.threads_cnt ≤ maxThreads - 1 → s'.threads_cnt ≤ maxThreads - 1) ∧
    (s'.threads_cnt ≠ s.threads_cnt → maxThreads = 0 ∨ s.threads_cnt + 1 < maxThreads) := by
  cases h with
  | chpl_begin outcomes id fp a serial_state =>
    exact ⟨fun hmax hs => schedule_cap maxThreads hmax _ _ _ hs,
      fun hne => schedule_guard maxThreads outcomes 1
        (add_to_task_pool s id fp a serial_state none) hne⟩
  | process_task_list_add outcomes tasks =>
    refine ⟨fun hmax hs => schedule_cap maxThreads hmax _ _ _ ?_, fun hne => ?_⟩
    · rw [addTaskList_threads]; exact hs
    · have := schedule_guard maxThreads outcomes tasks.length (addTaskList s tasks)
        (by rw [addTaskList_threads]; exact hne)
      rw [addTaskList_threads] at this
      exact this
  | worker_finish _ i hs =>
    rw [worker_finish_threads i s s' hs]
    exact ⟨fun _ h => h, fun hne => absurd rfl hne⟩
  | worker_take _ i hs =>
    rw [worker_take_threads i s s' hs]
    exact ⟨fun _ h => h, fun hne => absurd rfl hne⟩
  | joiner_claim entry id =>
    rw [joiner_claim_threads]
    exact ⟨fun _ h => h, fun hne => absurd rfl hne⟩

/-- C22: thread cap.  In every state reachable from `initChplThreads` through
the critical sections, `threads_cnt ≤ maxThreads - 1` when `maxThreads ≥ 1`;
and a critical section, or the launching loop of `schedule_next_task`, that
changes `threads_cnt` (creates a worker) starts with `maxThreads = 0` or
`threads_cnt + 1 < maxThreads`. -/
theorem thread_cap (maxThreads : Int) (s : Scheduler)
    (h : ReachableByCalls maxThreads s) :
    (1 ≤ maxThreads → s.threads_cnt ≤ maxThreads - 1) ∧
    (∀ s', CriticalSection maxThreads s s' → s'.threads_cnt ≠ s.threads_cnt →
      maxThreads = 0 ∨ s.threads_cnt + 1 < maxThreads) ∧
    (∀ howMany outcomes,
      (launchLoop maxThreads howMany outcomes s).threads_cnt ≠ s.threads_cnt →
      maxThreads = 0 ∨ s.threads_cnt + 1 < maxThreads) := by
  refine ⟨?_, fun s' hs' => (criticalSection_threads maxThreads s s' hs').2,
    fun howMany outcomes => launchLoop_guard maxThreads howMany outcomes s⟩
  intro hmax
  induction h with
  | init => show (0 : Int) ≤ maxThreads - 1; omega
  | step s s' _ hstep ih => exact (criticalSection_threads maxThreads s s' hstep).1 hmax ih

theorem thread_cap_witness :
    ReachableByCalls 3 (chpl_begin 3 [true] 1 7 8 false initChplThreads) ∧
    (chpl_begin 3 [true] 1 7 8 false initChplThreads).threads_cnt = 1 ∧
    (chpl_begin 3 [true] 1 7 8 false initChplThreads).threads_cnt ≤ 3 - 1 :=
  ⟨ReachableByCalls.step _ _ ReachableByCalls.init
      (CriticalSection.chpl_begin _ [true] 1 7 8 false),
    by decide,
    (thread_cap 3 _ (ReachableByCalls.step _ _ ReachableByCalls.init
      (CriticalSection.chpl_begin _ [true] 1 7 8 false))).1 (by decide)⟩

theorem launch_warning_kept (created : Bool) (s : Scheduler) (h : s.warning_issued = true) :
    launch_next_task created s = s := by
  unfold launch_next_task
  rw [if_pos h]

theorem launchLoop_warning_kept (maxThreads : Int) :
    ∀ (howMany : Nat) (outcomes : List Bool) (s : Scheduler), s.warning_issued = true →
      launchLoop maxThreads howMany outcomes s = s
  | 0, _, _, _ => rfl
  | howMany + 1, outcomes, s, h => by
      unfold launchLoop
      split
      · rw [launch_warning_kept _ s h]
        exact launchLoop_warning_kept maxThreads howMany _ s h
      · rfl

theorem schedule_warning (maxThreads : Int) (outcomes : List Bool) (howMany : Nat)
    (s : Scheduler) (h : s.warning_issued = true) :
    (schedule_next_task maxThreads outcomes howMany s).warning_issued = true := by
  unfold schedule_next_task
  split
  · dsimp only
    split
    · rw [launchLoop_warning_kept maxThreads _ _ _ (show
        ({ s with waking_cnt := s.waking_cnt + howMany, signals := s.signals + 1 } :
          Scheduler).warning_issued = true from h)]
      exact h
    · rw [launchLoop_warning_kept maxThreads _ _ _ (show
        ({ s with waking_cnt := s.waking_cnt + (s.threads_cnt - s.running_cnt - s.waking_cnt),
                  signals := s.signals + 1 } : Scheduler).warning_issued = true from h)]
      exact h
  · rw [launchLoop_warning_kept maxThreads _ _ _ h]; exact h

theorem addTaskList_warning : ∀ (tasks : List (Nat × Nat × Nat × Nat)) (s : Scheduler),
    (addTaskList s tasks).warning_issued = s.warning_issued
  | [], _ => rfl
  | (_, _, _, _) :: rest, s => by
      unfold addTaskList
      rw [addTaskList_warning rest]
      rfl

theorem step_warning (maxThreads : Int) (s s' : Scheduler) (hstep : Step maxThreads s s')
    (h : s.warning_issued = true) : s'.warning_issued = true := by
  cases hstep with
  | chpl_begin outcomes id fp a serial_state =>
    exact schedule_warning maxThreads _ _ _ h
  | process_task_list_add outcomes tasks =>
    exact schedule_warning maxThreads _ _ _ (by rw [addTaskList_warning]; exact h)
  | schedule_next_task outcomes howMany => exact schedule_warning maxThreads _ _ _ h
  | launch_next_task created => rw [launch_warning_kept _ s h]; exact h
  | worker_finish _ i hs =>
    unfold worker_finish at hs
    split at hs
    · simp only [Option.some.injEq] at hs
      subst hs; exact h
    · exact Option.noConfusion hs
  | worker_take _ i hs =>
    unfold worker_take at hs
    split at hs
    · dsimp only at hs
      split at hs
      · simp only [Option.some.injEq] at hs
        subst hs; exact h
      · simp only [Option.some.injEq] at hs
        subst hs; exact h
    · exact Option.noConfusion hs
  | joiner_claim entry id =>
    unfold joiner_claim
    split
    · exact h
    · split
      · split <;> exact h
      · exact h

theorem steps_warning (maxThreads : Int) (s t : Scheduler)
    (hst : Relation.ReflTransGen (Step maxThreads) s t) (h : s.warning_issued = true) :
    t.warning_issued = true := by
  induction hst with
  | refl => exact h
  | tail _ hstep ih => exact step_warning maxThreads _ _ hstep ih

theorem dropWhile_head_not (p : task_pool_t → Bool) :
    ∀ (l : List task_pool_t) (t : task_pool_t) (rest : List task_pool_t),
      l.dropWhile p = t :: rest → p t = false
  | [], _, _, h => by simp at h
  | x :: l, t, rest, h => by
      by_cases hx : p x = true
      · rw [List.dropWhile_cons_of_pos hx] at h
        exact dropWhile_head_not p l t rest h
      · rw [List.dropWhile_cons_of_neg hx] at h
        cases h
        simpa using hx

/-- C23: thread-creation failure.  The `launch_next_task` call in which
creation fails (no warning issued before, `task` at the head of the pool after
the begun entries are skipped) makes one attempt and issues one warning, keeps
`threads_cnt`, `running_cnt` and the workers, and leaves `task` at the head of
the pool with `begun` false; in every state reached later, `launch_next_task`
changes nothing: no attempt, no warning, the same pool and counters. -/
theorem launch_next_task_failure (maxThreads : Int) (s : Scheduler) (task : task_pool_t)
    (rest : List task_pool_t) (hw : s.warning_issued = false)
    (hpool : (skip_over_begun_tasks s).task_pool = task :: rest) :
    (launch_next_task false s).creations = s.creations + 1 ∧
    (launch_next_task false s).warnings = s.warnings + 1 ∧
    (launch_next_task false s).threads_cnt = s.threads_cnt ∧
    (launch_next_task false s).running_cnt = s.running_cnt ∧
    (launch_next_task false s).workers = s.workers ∧
    (launch_next_task false s).task_pool = task :: rest ∧
    task.begun = false ∧
    ∀ t, Relation.ReflTransGen (Step maxThreads) (launch_next_task false s) t →
      ∀ created,
        launch_next_task created t = t := by
  have hres : launch_next_task false s =
      { skip_over_begun_tasks s with
        warning_issued := true
        creations := (skip_over_begun_tasks s).creations + 1
        warnings := (skip_over_begun_tasks s).warnings + 1 } := by
    unfold launch_next_task
    rw [if_neg (by rw [hw]; exact Bool.false_ne_true)]
    simp only [hpool, Bool.false_eq_true, if_false]
  have hb : task.begun = false := dropWhile_head_not (fun t => t.begun) s.task_pool task rest hpool
  refine ⟨by rw [hres]; rfl, by rw [hres]; rfl, by rw [hres]; rfl, by rw [hres]; rfl,
    by rw [hres]; rfl, by rw [hres]; exact hpool, hb, ?_⟩
  intro t ht created
  exact launch_warning_kept created t (steps_warning maxThreads _ t ht (by rw [hres]))

theorem launch_next_task_failure_witness :
    (launch_next_task false (add_to_task_pool initChplThreads 1 7 8 false none)).warnings = 1 ∧
    (launch_next_task false (add_to_task_pool initChplThreads 1 7 8 false none)).threads_cnt = 0 ∧
    launch_next_task true
        (chpl_begin 0 [true] 2 7 9 false
          (launch_next_task false (add_to_task_pool initChplThreads 1 7 8 false none))) =
      chpl_begin 0 [true] 2 7 9 false
        (launch_next_task false (add_to_task_pool initChplThreads 1 7 8 false none)) :=
  ⟨(launch_next_task_failure 0 (add_to_task_pool initChplThreads 1 7 8 false none)
      ⟨1, 7, 8, false, false, none⟩ [] rfl rfl).2.1,
    (launch_next_task_failure 0 (add_to_task_pool initChplThreads 1 7 8 false none)
      ⟨1, 7, 8, false, false, none⟩ [] rfl rfl).2.2.1,
    (launch_next_task_failure 0 (add_to_task_pool initChplThreads 1 7 8 false none)
      ⟨1, 7, 8, false, false, none⟩ [] rfl rfl).2.2.2.2.2.2.2 _
      (Relation.ReflTransGen.single (Step.chpl_begin _ [true] 2 7 9 false)) true⟩

/-- Every entry of the pool is still to begin. -/
theorem dropWhile_fresh (l : List task_pool_t) (h : ∀ x ∈ l, x.begun = false) :
    l.dropWhile (fun t => t.begun) = l := by
  cases l with
  | nil => rfl
  | cons x l =>
    rw [List.dropWhile_cons_of_neg]
    rw [h x (List.mem_cons_self _ _)]
    exact Bool.false_ne_true

theorem skip_fresh (s : Scheduler) (h : ∀ x ∈ s.task_pool, x.begun = false) :
    (skip_over_begun_tasks s).task_pool = s.task_pool :=
  dropWhile_fresh s.task_pool h

theorem startedBy_nil_append : ∀ (a b : List Worker),
    startedBy [] (a ++ b) = startedBy [] a ++ startedBy [] b
  | [], b => by cases b <;> rfl
  | Worker.executing t :: a, b => by
      show t.id :: startedBy [] (a ++ b) = t.id :: startedBy [] a ++ startedBy [] b
      rw [startedBy_nil_append a b]; rfl
  | Worker.waiting :: a, b => by
      show startedBy [] (a ++ b) = startedBy [] a ++ startedBy [] b
      exact startedBy_nil_append a b

theorem startedBy_append : ∀ (old extra : List Worker),
    startedBy old (old ++ extra) = startedBy [] extra
  | [], extra => rfl
  | Worker.executing t :: old, extra => by
      show startedBy old (old ++ extra) = startedBy [] extra
      exact startedBy_append old extra
  | Worker.waiting :: old, extra => by
      show startedBy old (old ++ extra) = startedBy [] extra
      exact startedBy_append old extra

theorem startedBy_set_waiting : ∀ (l : List Worker) (i : Nat),
    startedBy l (l.set i Worker.waiting) = []
  | [], _ => rfl
  | Worker.executing t :: l, 0 => by
      simp only [List.set_cons_zero, startedBy]
      simpa using startedBy_append l []
  | Worker.waiting :: l, 0 => by
      simp only [List.set_cons_zero, startedBy]
      simpa using startedBy_append l []
  | Worker.executing t :: l, i + 1 => by
      simp only [List.set_cons_succ, startedBy, startedBy_set_waiting l i]
  | Worker.waiting :: l, i + 1 => by
      simp only [List.set_cons_succ, startedBy, startedBy_set_waiting l i]

theorem startedBy_set_executing : ∀ (l : List Worker) (i : Nat) (t : task_pool_t),
    l.get? i = some Worker.waiting →
    startedBy l (l.set i (Worker.executing t)) = [t.id]
  | [], _, _, h => by simp at h
  | Worker.executing t0 :: l, 0, t, h => by simp at h
  | Worker.waiting :: l, 0, t, _ => by
      simp only [List.set_cons_zero, startedBy]
      simpa using startedBy_append l []
  | Worker.executing t0 :: l, i + 1, t, h => by
      simp only [List.set_cons_succ, startedBy]
      exact startedBy_set_executing l i t (by simpa using h)
  | Worker.waiting :: l, i + 1, t, h => by
      simp only [List.set_cons_succ, startedBy]
      exact startedBy_set_executing l i t (by simpa using h)

theorem launched_refl (s : Scheduler) (h : ∀ x ∈ s.task_pool, x.begun = false) :
    Launched s s := ⟨h, [], by simp, rfl⟩

theorem launched_trans (s s' s'' : Scheduler) (h1 : Launched s s') (h2 : Launched s' s'') :
    Launched s s'' := by
  obtain ⟨_, e1, hw1, hp1⟩ := h1
  obtain ⟨hf, e2, hw2, hp2⟩ := h2
  refine ⟨hf, e1 ++ e2, by rw [hw2, hw1, List.append_assoc], ?_⟩
  rw [startedBy_nil_append, List.append_assoc, hp2, hp1]

theorem launch_launched (created : Bool) (s : Scheduler)
    (h : ∀ x ∈ s.task_pool, x.begun = false) : Launched s (launch_next_task created s) := by
  unfold launch_next_task
  split
  · exact launched_refl s h
  · have hs := skip_fresh s h
    dsimp only
    split
    · rename_i hnil
      exact ⟨(by rw [hnil]; intro x hx; cases hx), [], (by simp [skip_over_begun_tasks]),
        (by rw [hs]; rfl)⟩
    · rename_i task rest hcons
      rw [hs] at hcons
      split
      · refine ⟨fun x hx => h x (by rw [hcons]; exact List.mem_cons_of_mem _ hx),
          [Worker.executing { task with begun := true }], rfl, ?_⟩
        rw [hcons]
        rfl
      · exact ⟨(by show ∀ x ∈ (skip_over_begun_tasks s).task_pool, _; rw [hs]; exact h),
          [], (by simp [skip_over_begun_tasks]), (by
            show _ ++ (skip_over_begun_tasks s).task_pool.map _ = _
            rw [hs]; rfl)⟩

theorem launchLoop_launched (maxThreads : Int) :
    ∀ (howMany : Nat) (outcomes : List Bool) (s : Scheduler),
      (∀ x ∈ s.task_pool, x.begun = false) →
      Launched s (launchLoop maxThreads howMany outcomes s)
  | 0, _, s, h => launched_refl s h
  | howMany + 1, outcomes, s, h => by
      unfold launchLoop
      split
      · have h1 := launch_launched (outcomes.headD true) s h
        exact launched_trans _ _ _ h1
          (launchLoop_launched maxThreads howMany outcomes.tail _ h1.1)
      · exact launched_refl s h

theorem schedule_launched (maxThreads : Int) (outcomes : List Bool) (howMany : Nat)
    (s : Scheduler) (h : ∀ x ∈ s.task_pool, x.begun = false) :
    Launched s (schedule_next_task maxThreads outcomes howMany s) := by
  unfold schedule_next_task
  split
  · dsimp only
    split
    · exact launchLoop_launched maxThreads 0 outcomes
        { s with waking_cnt := s.waking_cnt + howMany, signals := s.signals + 1 } h
    · exact launchLoop_launched maxThreads _ outcomes
        { s with waking_cnt := s.waking_cnt + (s.threads_cnt - s.running_cnt - s.waking_cnt),
                 signals := s.signals + 1 } h
  · exact launchLoop_launched maxThreads howMany outcomes s h

theorem addTaskList_pool : ∀ (tasks : List (Nat × Nat × Nat × Nat)) (s : Scheduler),
    (addTaskList s tasks).task_pool =
      s.task_pool ++ tasks.map (fun task => ⟨task.1, task.2.1, task.2.2.1, false, false,
        some task.2.2.2⟩) ∧
    (addTaskList s tasks).workers = s.workers
  | [], s => by simp [addTaskList]
  | (id, fp, a, entry) :: rest, s => by
      unfold addTaskList
      obtain ⟨h1, h2⟩ := addTaskList_pool rest (add_to_task_pool s id fp a false (some entry))
      rw [h1, h2]
      simp [add_to_task_pool]

/-- One critical section other than a joiner's keeps the order of the pool:
the entries begun by workers are the first of the pool and of those added. -/
theorem event_fifo (maxThreads : Int) (e : Event) (s s' : Scheduler)
    (h : ∀ x ∈ s.task_pool, x.begun = false) (hj : e.isJoinerClaim = false)
    (he : e.apply maxThreads s = some s') :
    (∀ x ∈ s'.task_pool, x.begun = false) ∧
    startedBy s.workers s'.workers ++ s'.task_pool.map (fun t => t.id) =
      s.task_pool.map (fun t => t.id) ++ e.added := by
  cases e with
  | chpl_begin outcomes id fp a serial_state =>
    simp only [Event.apply, Option.some.injEq] at he
    subst he
    have hadd : ∀ x ∈ (add_to_task_pool s id fp a serial_state none).task_pool,
        x.begun = false := by
      intro x hx
      simp only [add_to_task_pool, List.mem_append, List.mem_singleton] at hx
      rcases hx with hx | hx
      · exact h x hx
      · rw [hx]
    obtain ⟨hf, extra, hw, hp⟩ := schedule_launched maxThreads outcomes 1 _ hadd
    refine ⟨hf, ?_⟩
    unfold ChplThreads.chpl_begin
    rw [hw]
    show startedBy s.workers (s.workers ++ extra) ++ _ = _
    rw [startedBy_append, hp]
    simp [add_to_task_pool, Event.added]
  | process_task_list_add outcomes tasks =>
    simp only [Event.apply, Option.some.injEq] at he
    subst he
    obtain ⟨hpool, hwork⟩ := addTaskList_pool tasks s
    have hadd : ∀ x ∈ (addTaskList s tasks).task_pool, x.begun = false := by
      intro x hx
      rw [hpool, List.mem_append, List.mem_map] at hx
      rcases hx with hx | ⟨task, _, hx⟩
      · exact h x hx
      · rw [← hx]
    obtain ⟨hf, extra, hw, hp⟩ := schedule_launched maxThreads outcomes tasks.length _ hadd
    refine ⟨hf, ?_⟩
    unfold ChplThreads.process_task_list_add
    rw [hw, hwork, startedBy_append, hp, hpool]
    simp [Event.added, Function.comp]
  | worker_finish i =>
    simp only [Event.apply] at he
    unfold ChplThreads.worker_finish at he
    split at he
    · simp only [Option.some.injEq] at he
      subst he
      refine ⟨h, ?_⟩
      show startedBy s.workers (s.workers.set i Worker.waiting) ++ _ = _
      rw [startedBy_set_waiting]
      simp [Event.added]
    · exact Option.noConfusion he
  | worker_take i =>
    simp only [Event.apply] at he
    unfold ChplThreads.worker_take at he
    have hs := skip_fresh s h
    split at he
    · rename_i hw
      dsimp only at he
      split at he
      · rename_i hnil
        simp only [Option.some.injEq] at he
        subst he
        refine ⟨(by rw [hnil]; intro x hx; cases hx), ?_⟩
        rw [hs] at hnil
        show startedBy s.workers s.workers ++ _ = _
        have := startedBy_append s.workers []
        rw [List.append_nil] at this
        rw [this, hs, hnil]
        rfl
      · rename_i task rest hcons
        simp only [Option.some.injEq] at he
        subst he
        rw [hs] at hcons
        refine ⟨fun x hx => h x (by rw [hcons]; exact List.mem_cons_of_mem _ hx), ?_⟩
        show startedBy s.workers (s.workers.set i (Worker.executing { task with begun := true }))
          ++ rest.map _ = _
        rw [startedBy_set_executing _ _ _ hw, hcons]
        simp [Event.added]
    · exact Option.noConfusion he
  | joiner_claim entry id => simp [Event.isJoinerClaim] at hj

theorem runLog_fifo (maxThreads : Int) :
    ∀ (events : List Event) (s t : Scheduler) (log : List Nat),
      (∀ x ∈ s.task_pool, x.begun = false) →
      (∀ e ∈ events, e.isJoinerClaim = false) →
      runLog maxThreads events s = some (t, log) →
      log ++ t.task_pool.map (fun x => x.id) =
        s.task_pool.map (fun x => x.id) ++ addedBy events
  | [], s, t, log, _, _, hrun => by
      simp only [runLog, Option.some.injEq, Prod.mk.injEq] at hrun
      obtain ⟨h1, h2⟩ := hrun
      subst h1; subst h2
      simp [addedBy]
  | e :: events, s, t, log, h, hj, hrun => by
      unfold runLog at hrun
      split at hrun
      · exact Option.noConfusion hrun
      · rename_i s' he
        split at hrun
        · exact Option.noConfusion hrun
        · rename_i t' log' hrest
          simp only [Option.some.injEq, Prod.mk.injEq] at hrun
          obtain ⟨h1, h2⟩ := hrun
          subst h1; subst h2
          obtain ⟨hf, hstep⟩ := event_fifo maxThreads e s s' h
            (hj e (List.mem_cons_self _ _)) he
          have ih := runLog_fifo maxThreads events s' t' log' hf
            (fun e' he' => hj e' (List.mem_cons_of_mem _ he')) hrest
          rw [List.append_assoc, ih, ← List.append_assoc, hstep, List.append_assoc]
          rfl

theorem dropWhile_split (l : List task_pool_t) (task : task_pool_t) (rest : List task_pool_t)
    (h : l.dropWhile (fun t => t.begun) = task :: rest) :
    ∃ pre, l = pre ++ task :: rest ∧ (∀ x ∈ pre, x.begun = true) ∧ task.begun = false := by
  refine ⟨l.takeWhile (fun t => t.begun), ?_, ?_, ?_⟩
  · rw [← h, List.takeWhile_append_dropWhile]
  · intro x hx
    exact List.mem_takeWhile_imp hx
  · exact dropWhile_head_not (fun t => t.begun) l task rest h

/-- C24: FIFO.  `add_to_task_pool` puts the new entry at the tail of the pool;
the task a waiting worker takes (`chpl_begin_helper`) and the task
`launch_next_task` gives to a new thread is the first entry of the pool that
has not begun (every entry before it has begun), so the earliest added of
those; hence, in every sequence of critical sections without a joiner's claim,
from a pool where nothing has begun, the entries begun by workers followed by
the entries left in the pool are the entries of the pool followed by the
entries added, in that order: with one idle worker and three tasks added, the
tasks are begun in the order they were added. -/
theorem task_pool_fifo (maxThreads : Int) :
    (∀ (s : Scheduler) (id fp a : Nat) (serial : Bool) (task_list : Option Nat),
      (add_to_task_pool s id fp a serial task_list).task_pool =
        s.task_pool ++ [⟨id, fp, a, serial, false, task_list⟩]) ∧
    (∀ (i : Nat) (s s' : Scheduler) (t : task_pool_t),
      worker_take i s = some s' → s'.workers.get? i = some (Worker.executing t) →
      ∃ pre task rest, s.task_pool = pre ++ task :: rest ∧ (∀ x ∈ pre, x.begun = true) ∧
        task.begun = false ∧ t = { task with begun := true } ∧ s'.task_pool = rest) ∧
    (∀ (s : Scheduler) (w : Worker),
      (launch_next_task true s).workers = s.workers ++ [w] →
      ∃ pre task rest, s.task_pool = pre ++ task :: rest ∧ (∀ x ∈ pre, x.begun = true) ∧
        task.begun = false ∧ w = Worker.executing { task with begun := true } ∧
        (launch_next_task true s).task_pool = rest) ∧
    (∀ (events : List Event) (s t : Scheduler) (log : List Nat),
      (∀ x ∈ s.task_pool, x.begun = false) →
      (∀ e ∈ events, e.isJoinerClaim = false) →
      runLog maxThreads events s = some (t, log) →
      log ++ t.task_pool.map (fun x => x.id) =
        s.task_pool.map (fun x => x.id) ++ addedBy events) ∧
    (∀ (events : List Event) (t : Scheduler) (log : List Nat) (T1 T2 T3 : Nat),
      addedBy events = [T1, T2, T3] →
      (∀ e ∈ events, e.isJoinerClaim = false) →
      runLog maxThreads events oneIdleWorker = some (t, log) →
      log <+: [T1, T2, T3] ∧ (t.task_pool = [] → log = [T1, T2, T3])) := by
  refine ⟨fun _ _ _ _ _ _ => rfl, ?_, ?_, runLog_fifo maxThreads, ?_⟩
  · intro i s s' t h hw
    unfold worker_take at h
    split at h
    · rename_i hwait
      dsimp only at h
      split at h
      · simp only [Option.some.injEq] at h
        subst h
        rw [show (skip_over_begun_tasks s).workers = s.workers from rfl, hwait] at hw
        cases hw
      · rename_i task rest hcons
        simp only [Option.some.injEq] at h
        subst h
        obtain ⟨pre, h1, h2, h3⟩ := dropWhile_split s.task_pool task rest hcons
        refine ⟨pre, task, rest, h1, h2, h3, ?_, rfl⟩
        have hw' : (s.workers.set i (Worker.executing { task with begun := true })).get? i =
            some (Worker.executing t) := hw
        have hlt : i < s.workers.length := by
          rcases Nat.lt_or_ge i s.workers.length with hlt | hge
          · exact hlt
          · rw [List.get?_eq_getElem?, List.getElem?_eq_none hge] at hwait
            cases hwait
        rw [List.get?_eq_getElem?, List.getElem?_set_self hlt] at hw'
        cases hw'
        rfl
    · exact Option.noConfusion h
  · intro s w h
    unfold launch_next_task at h ⊢
    split at h
    · rename_i hwarn
      have := congrArg List.length h
      simp at this
    · rename_i hwarn
      rw [if_neg hwarn]
      dsimp only at h ⊢
      split at h
      · have := congrArg List.length h
        simp [skip_over_begun_tasks] at this
      · rename_i task rest hcons
        simp only [if_true] at h
        obtain ⟨pre, h1, h2, h3⟩ := dropWhile_split s.task_pool task rest hcons
        refine ⟨pre, task, rest, h1, h2, h3, ?_, ?_⟩
        · have h' : s.workers ++ [Worker.executing { task with begun := true }] =
              s.workers ++ [w] := h
          have := List.append_cancel_left h'
          cases this
          rfl
        · rw [if_pos rfl]
  · intro events t log T1 T2 T3 hadd hj hrun
    have h := runLog_fifo maxThreads events oneIdleWorker t log
      (by intro x hx; cases hx) hj hrun
    rw [hadd] at h
    refine ⟨⟨t.task_pool.map (fun x => x.id), h⟩, ?_⟩
    intro hempty
    rw [hempty] at h
    simpa using h

theorem task_pool_fifo_witness :
    runLog 2 [Event.chpl_begin [] 1 7 8 false, Event.chpl_begin [] 2 7 9 false,
        Event.chpl_begin [] 3 7 10 false, Event.worker_take 0, Event.worker_finish 0,
        Event.worker_take 0, Event.worker_finish 0, Event.worker_take 0] oneIdleWorker =
      some (⟨[], 0, 1, 1, false, [Worker.executing ⟨3, 7, 10, false, true, none⟩], [], [1, 2],
        1, 0, 0⟩, [1, 2, 3]) ∧
    [1, 2, 3] <+: [1, 2, 3] ∧
    ((⟨[], 0, 1, 1, false, [Worker.executing ⟨3, 7, 10, false, true, none⟩], [], [1, 2],
        1, 0, 0⟩ : Scheduler).task_pool = [] → [1, 2, 3] = [1, 2, 3]) :=
  ⟨by decide,
    (task_pool_fifo 2).2.2.2.2
      [Event.chpl_begin [] 1 7 8 false, Event.chpl_begin [] 2 7 9 false,
        Event.chpl_begin [] 3 7 10 false, Event.worker_take 0, Event.worker_finish 0,
        Event.worker_take 0, Event.worker_finish 0, Event.worker_take 0]
      ⟨[], 0, 1, 1, false, [Worker.executing ⟨3, 7, 10, false, true, none⟩], [], [1, 2],
        1, 0, 0⟩ [1, 2, 3] 1 2 3 (by decide) (by decide) (by decide)⟩

theorem launchLoop_one (howMany : Nat) (outcomes : List Bool) (s : Scheduler)
    (h : s.threads_cnt = 0) : launchLoop 1 howMany outcomes s = s := by
  cases howMany with
  | zero => rfl
  | succ n =>
    unfold launchLoop
    rw [if_neg (by rw [h]; decide)]

theorem schedule_one (outcomes : List Bool) (howMany : Nat) (s : Scheduler)
    (h : NoWorker s) : schedule_next_task 1 outcomes howMany s = s := by
  obtain ⟨_, h1, h2, h3⟩ := h
  unfold schedule_next_task
  rw [if_neg (by rw [h1, h2, h3]; decide)]
  exact launchLoop_one howMany outcomes s h1

theorem addTaskList_noWorker : ∀ (tasks : List (Nat × Nat × Nat × Nat)) (s : Scheduler),
    NoWorker s → NoWorker (addTaskList s tasks) ∧
      (addTaskList s tasks).creations = s.creations ∧ (addTaskList s tasks).freed = s.freed
  | [], _, h => ⟨h, rfl, rfl⟩
  | (id, fp, a, entry) :: rest, s, h => by
      unfold addTaskList
      exact addTaskList_noWorker rest (add_to_task_pool s id fp a false (some entry)) h

theorem joiner_claim_pool (entry id : Nat) (s : Scheduler) :
    (joiner_claim entry id s).task_pool.map (fun x => x.id) = s.task_pool.map (fun x => x.id) ∧
    (joiner_claim entry id s).creations = s.creations ∧
    (joiner_claim entry id s).freed = s.freed ∧
    (NoWorker s → NoWorker (joiner_claim entry id s)) := by
  have hmap : ∀ (f : task_pool_t → task_pool_t), (∀ t, (f t).id = t.id) →
      (s.task_pool.map (fun t => if t.id = id then f t else t)).map (fun x => x.id) =
        s.task_pool.map (fun x => x.id) := by
    intro f hf
    rw [List.map_map]
    apply List.map_congr_left
    intro t _
    show (if t.id = id then f t else t).id = t.id
    split
    · exact hf t
    · rfl
  unfold joiner_claim
  split
  · exact ⟨rfl, rfl, rfl, fun h => h⟩
  · split
    · split
      · refine ⟨hmap _ (fun _ => rfl), rfl, rfl, ?_⟩
        rintro ⟨h1, h2, h3, h4⟩
        exact ⟨by simp [updateEntry, h1], h2, h3, h4⟩
      · refine ⟨hmap _ (fun _ => rfl), rfl, rfl, ?_⟩
        rintro ⟨h1, h2, h3, h4⟩
        refine ⟨by simp [updateEntry, h1], h2, h3, ?_⟩
        show (if s.waking_cnt > 0 then s.waking_cnt - 1 else s.waking_cnt) = 0
        rw [h4]
        rfl
    · exact ⟨rfl, rfl, rfl, fun h => h⟩

/-- With `maxThreads = 1` and no worker thread, a critical section creates no
thread, begins and frees no entry, and keeps every entry in the pool. -/
theorem event_one (e : Event) (s s' : Scheduler) (h : NoWorker s)
    (he : e.apply 1 s = some s') :
    NoWorker s' ∧ s'.creations = s.creations ∧ s'.freed = s.freed ∧
    s'.task_pool.map (fun x => x.id) = s.task_pool.map (fun x => x.id) ++ e.added ∧
    (e.isJoinerClaim = false → (∀ x ∈ s.task_pool, x.begun = false) →
      ∀ x ∈ s'.task_pool, x.begun = false) := by
  cases e with
  | chpl_begin outcomes id fp a serial_state =>
    simp only [Event.apply, Option.some.injEq] at he
    subst he
    unfold ChplThreads.chpl_begin
    rw [schedule_one outcomes 1 _ (show NoWorker (add_to_task_pool s id fp a serial_state none)
      from h)]
    refine ⟨h, rfl, rfl, by simp [add_to_task_pool, Event.added], ?_⟩
    intro _ hf x hx
    simp only [add_to_task_pool, List.mem_append, List.mem_singleton] at hx
    rcases hx with hx | hx
    · exact hf x hx
    · rw [hx]
  | process_task_list_add outcomes tasks =>
    simp only [Event.apply, Option.some.injEq] at he
    subst he
    obtain ⟨h1, h2, h3⟩ := addTaskList_noWorker tasks s h
    obtain ⟨hpool, _⟩ := addTaskList_pool tasks s
    unfold ChplThreads.process_task_list_add
    rw [schedule_one outcomes tasks.length _ h1]
    refine ⟨h1, h2, h3, by rw [hpool]; simp [Event.added, Function.comp], ?_⟩
    intro _ hf x hx
    rw [hpool, List.mem_append, List.mem_map] at hx
    rcases hx with hx | ⟨task, _, hx⟩
    · exact hf x hx
    · rw [← hx]
  | worker_finish i =>
    simp only [Event.apply, ChplThreads.worker_finish, h.1] at he
    simp at he
  | worker_take i =>
    simp only [Event.apply, ChplThreads.worker_take, h.1] at he
    simp at he
  | joiner_claim entry id =>
    simp only [Event.apply, Option.some.injEq] at he
    subst he
    obtain ⟨h1, h2, h3, h4⟩ := joiner_claim_pool entry id s
    exact ⟨h4 h, h2, h3, by rw [h1]; simp [Event.added], fun hj => by
      simp [Event.isJoinerClaim] at hj⟩

theorem runLog_one : ∀ (events : List Event) (s t : Scheduler) (log : List Nat),
    NoWorker s → runLog 1 events s = some (t, log) →
    NoWorker t ∧ t.creations = s.creations ∧ t.freed = s.freed ∧ log = [] ∧
    t.task_pool.map (fun x => x.id) = s.task_pool.map (fun x => x.id) ++ addedBy events ∧
    ((∀ e ∈ events, e.isJoinerClaim = false) → (∀ x ∈ s.task_pool, x.begun = false) →
      ∀ x ∈ t.task_pool, x.begun = false)
  | [], s, t, log, h, hrun => by
      simp only [runLog, Option.some.injEq, Prod.mk.injEq] at hrun
      obtain ⟨h1, h2⟩ := hrun
      subst h1; subst h2
      exact ⟨h, rfl, rfl, rfl, by simp [addedBy], fun _ hf => hf⟩
  | e :: events, s, t, log, h, hrun => by
      unfold runLog at hrun
      split at hrun
      · exact Option.noConfusion hrun
      · rename_i s' he
        split at hrun
        · exact Option.noConfusion hrun
        · rename_i t' log' hrest
          simp only [Option.some.injEq, Prod.mk.injEq] at hrun
          obtain ⟨h1, h2⟩ := hrun
          subst h1; subst h2
          obtain ⟨g1, g2, g3, g4, g5⟩ := event_one e s s' h he
          obtain ⟨k1, k2, k3, k4, k5, k6⟩ := runLog_one events s' t' log' g1 hrest
          refine ⟨k1, by rw [k2, g2], by rw [k3, g3], ?_, ?_, ?_⟩
          · rw [k4, h.1, g1.1]
            rfl
          · rw [k5, g4, List.append_assoc]
            rfl
          · intro hj hf
            exact k6 (fun e' he' => hj e' (List.mem_cons_of_mem _ he'))
              (g5 (hj e (List.mem_cons_self _ _)) hf)

/-- C30 (amended): with `maxThreads = 1` no worker thread is ever created.
After every sequence of critical sections from `initChplThreads` there is no
worker, `pthread_create` has not been called, no pool entry has been begun by
a worker or freed, and the pool holds every entry added, in order; when no
joiner has claimed an entry, none of them has begun: the tasks spawned by
`chpl_begin` stay in the pool, however many are spawned. -/
theorem chpl_begin_without_worker (events : List Event) (t : Scheduler) (log : List Nat)
    (hrun : runLog 1 events initChplThreads = some (t, log)) :
    t.workers = [] ∧ t.threads_cnt = 0 ∧ t.creations = 0 ∧ t.freed = [] ∧ log = [] ∧
    t.task_pool.map (fun x => x.id) = addedBy events ∧
    ((∀ e ∈ events, e.isJoinerClaim = false) → ∀ x ∈ t.task_pool, x.begun = false) := by
  obtain ⟨k1, k2, k3, k4, k5, k6⟩ := runLog_one events initChplThreads t log
    ⟨rfl, rfl, rfl, rfl⟩ hrun
  exact ⟨k1.1, k1.2.1, k2, k3, k4, by simpa [initChplThreads] using k5,
    fun hj => k6 hj (by intro x hx; cases hx)⟩

theorem chpl_begin_without_worker_witness :
    (⟨[⟨1, 7, 8, false, false, none⟩, ⟨2, 7, 9, false, false, none⟩], 0, 0, 0, false, [], [],
        [], 0, 0, 0⟩ : Scheduler).workers = [] ∧
    (⟨[⟨1, 7, 8, false, false, none⟩, ⟨2, 7, 9, false, false, none⟩], 0, 0, 0, false, [], [],
        [], 0, 0, 0⟩ : Scheduler).task_pool.map (fun x => x.id) =
      addedBy [Event.chpl_begin [true] 1 7 8 false, Event.chpl_begin [true] 2 7 9 false] :=
  ⟨(chpl_begin_without_worker
      [Event.chpl_begin [true] 1 7 8 false, Event.chpl_begin [true] 2 7 9 false]
      ⟨[⟨1, 7, 8, false, false, none⟩, ⟨2, 7, 9, false, false, none⟩], 0, 0, 0, false, [], [],
        [], 0, 0, 0⟩ [] (by decide)).1,
    (chpl_begin_without_worker
      [Event.chpl_begin [true] 1 7 8 false, Event.chpl_begin [true] 2 7 9 false]
      ⟨[⟨1, 7, 8, false, false, none⟩, ⟨2, 7, 9, false, false, none⟩], 0, 0, 0, false, [], [],
        [], 0, 0, 0⟩ [] (by decide)).2.2.2.2.2.1⟩

/-- C30 as stated fails: with `maxThreads = 1`, after `chpl_begin` from the
state of `initChplThreads` the task is in the pool and has not begun, there is
no worker thread, `pthread_create` has not been called, nothing is signalled,
and no worker can take the task. -/
theorem chpl_begin_without_worker_counterexample :
    (chpl_begin 1 [true] 1 7 8 false initChplThreads).task_pool =
      [⟨1, 7, 8, false, false, none⟩] ∧
    (chpl_begin 1 [true] 1 7 8 false initChplThreads).workers = [] ∧
    (chpl_begin 1 [true] 1 7 8 false initChplThreads).creations = 0 ∧
    (chpl_begin 1 [true] 1 7 8 false initChplThreads).signals = 0 ∧
    worker_take 0 (chpl_begin 1 [true] 1 7 8 false initChplThreads) = none := by
  decide

theorem chain_unique (mem : Nat → Option PoolEntry) :
    ∀ (l l' : List Nat) (p : Option Nat), chain mem l p → chain mem l' p → l = l'
  | [], [], _, _, _ => rfl
  | [], b :: l', p, h, h' => by
      have h1 : p = none := h
      have h2 : p = some b := h'.1
      rw [h1] at h2
      cases h2
  | a :: l, [], p, h, h' => by
      have h1 : p = none := h'
      have h2 : p = some a := h.1
      rw [h1] at h2
      cases h2
  | a :: l, b :: l', p, h, h' => by
      obtain ⟨h1, e, h2, h3⟩ := h
      obtain ⟨g1, e', g2, g3⟩ := h'
      rw [h1] at g1
      cases g1
      rw [h2] at g2
      cases g2
      rw [chain_unique mem l l' e.next h3 g3]

theorem chain_suffix (mem : Nat → Option PoolEntry) :
    ∀ (l1 : List Nat) (a : Nat) (l2 : List Nat) (p : Option Nat),
      chain mem (l1 ++ a :: l2) p → chain mem (a :: l2) (some a)
  | [], a, l2, p, h => by
      obtain ⟨_, e, h2, h3⟩ := h
      exact ⟨rfl, e, h2, h3⟩
  | b :: l1, a, l2, p, h => by
      obtain ⟨_, e, _, h3⟩ := h
      exact chain_suffix mem l1 a l2 e.next h3

theorem chain_not_mem (mem : Nat → Option PoolEntry) (a : Nat) (l : List Nat)
    (h : chain mem (a :: l) (some a)) : a ∉ l := by
  intro hmem
  obtain ⟨l1, l2, hl⟩ := List.append_of_mem hmem
  have h1 : chain mem (a :: l2) (some a) := by
    obtain ⟨_, e, _, h3⟩ := h
    rw [hl] at h3
    exact chain_suffix mem l1 a l2 e.next h3
  have h2 := chain_unique mem _ _ _ h h1
  have h3 := congrArg List.length h2
  rw [hl] at h3
  simp at h3
  omega

theorem chain_allocated (mem : Nat → Option PoolEntry) :
    ∀ (l : List Nat) (p : Option Nat), chain mem l p → ∀ x ∈ l, mem x ≠ none
  | [], _, _, x, hx => by cases hx
  | a :: l, p, h, x, hx => by
      obtain ⟨_, e, h2, h3⟩ := h
      rcases List.mem_cons.1 hx with hx | hx
      · rw [hx, h2]
        exact Option.noConfusion
      · exact chain_allocated mem l e.next h3 x hx

theorem chain_congr (mem mem' : Nat → Option PoolEntry) :
    ∀ (l : List Nat) (p : Option Nat), (∀ x ∈ l, mem' x = mem x) → chain mem l p →
      chain mem' l p
  | [], _, _, h => h
  | a :: l, p, heq, h => by
      obtain ⟨h1, e, h2, h3⟩ := h
      refine ⟨h1, e, ?_, ?_⟩
      · rw [heq a (List.mem_cons_self _ _)]
        exact h2
      · exact chain_congr mem mem' l e.next (fun x hx => heq x (List.mem_cons_of_mem _ hx)) h3

/-- The last entry of a chain has a null `next`, and is not met before. -/
theorem chain_last (mem : Nat → Option PoolEntry) :
    ∀ (l : List Nat) (t : Nat) (p : Option Nat), chain mem (l ++ [t]) p →
      (∃ e, mem t = some e ∧ e.next = none) ∧ t ∉ l
  | [], t, p, h => by
      obtain ⟨_, e, h2, h3⟩ := h
      exact ⟨⟨e, h2, h3⟩, by simp⟩
  | a :: l, t, p, h => by
      obtain ⟨h1, e, h2, h3⟩ := h
      obtain ⟨g1, g2⟩ := chain_last mem l t e.next h3
      refine ⟨g1, ?_⟩
      intro hmem
      rcases List.mem_cons.1 hmem with hmem | hmem
      · subst hmem
        have hc : chain mem (t :: (l ++ [t])) (some t) := ⟨rfl, e, h2, h3⟩
        exact chain_not_mem mem t _ hc (by simp)
      · exact g2 hmem

/-- Appending an entry: the chain in the memory where the last entry points to
the new one. -/
theorem chain_append (mem : Nat → Option PoolEntry) (task t : Nat) (e new : PoolEntry)
    (hnew : new.next = none) (hfresh : mem task = none) (ht : mem t = some e) :
    ∀ (l : List Nat) (p : Option Nat), t ∉ l → chain mem (l ++ [t]) p →
      chain (fun q => if q = t then some { e with next := some task }
        else if q = task then some new else mem q) ((l ++ [t]) ++ [task]) p
  | [], p, _, h => by
      obtain ⟨h1, e', h2, h3⟩ := h
      have hne : task ≠ t := by
        intro heq
        rw [heq, ht] at hfresh
        cases hfresh
      refine ⟨h1, { e with next := some task }, by simp, rfl, new, ?_, hnew⟩
      simp [hne]
  | a :: l, p, hnot, h => by
      obtain ⟨h1, e', h2, h3⟩ := h
      have hat : a ≠ t := fun heq => hnot (by rw [heq]; exact List.mem_cons_self _ _)
      have hatask : a ≠ task := by
        intro heq
        rw [heq, hfresh] at h2
        cases h2
      refine ⟨h1, e', by simp [hat, hatask, h2], ?_⟩
      exact chain_append mem task t e new hnew hfresh ht l e'.next
        (fun hm => hnot (List.mem_cons_of_mem _ hm)) h3

theorem add_consistent (m : PoolMem) (h : m.Consistent) (task fp a : Nat) (serial : Bool)
    (task_list : Option Nat) (hfresh : m.mem task = none) :
    ∃ m', m.add_to_task_pool task fp a serial task_list = some m' ∧ m'.Consistent := by
  obtain ⟨hiff, htail⟩ := h
  unfold PoolMem.add_to_task_pool
  cases ht : m.task_pool_tail with
  | none =>
    have hhead := hiff.2 ht
    refine ⟨_, (by simp only [PoolMem.store, ht]; rfl), ?_⟩
    refine ⟨by simp, ?_⟩
    intro tail htl
    simp only [Option.some.injEq] at htl
    subst htl
    exact ⟨[], rfl, ⟨fp, a, serial, task_list, false, none⟩, by simp, rfl⟩
  | some t =>
    obtain ⟨l, hl⟩ := htail t ht
    obtain ⟨⟨e, he, hnext⟩, hnot⟩ := chain_last m.mem l t _ hl
    have hne : t ≠ task := by
      intro heq
      rw [heq, hfresh] at he
      cases he
    have hhead : m.task_pool_head ≠ none := fun hh => by
      rw [hiff.1 hh] at ht
      cases ht
    refine ⟨_, (by simp only [PoolMem.store, ht, hne, if_false, he]; rfl), ?_⟩
    refine ⟨by simpa using hhead, ?_⟩
    intro tail htl
    simp only [Option.some.injEq] at htl
    subst htl
    refine ⟨l ++ [t], ?_⟩
    have := chain_append m.mem task t e ⟨fp, a, serial, task_list, false, none⟩ rfl hfresh he
      l m.task_pool_head hnot hl
    exact this

theorem resetTail_consistent (m : PoolMem)
    (h : ∀ tail, m.task_pool_tail = some tail → m.task_pool_head ≠ none →
      ∃ l, chain m.mem (l ++ [tail]) m.task_pool_head)
    (ht : m.task_pool_tail ≠ none) : m.resetTail.Consistent := by
  cases hh : m.task_pool_head with
  | none =>
    have hr : m.resetTail = { m with task_pool_tail := none } := by
      unfold PoolMem.resetTail
      rw [hh]
    rw [hr]
    exact ⟨by simp [hh], fun tail htl => by cases htl⟩
  | some a =>
    have hr : m.resetTail = m := by
      unfold PoolMem.resetTail
      rw [hh]
    rw [hr]
    refine ⟨by simp [hh, ht], ?_⟩
    intro tail htl
    exact h tail htl (by rw [hh]; exact Option.noConfusion)

/-- Taking the entry at the head out of the pool, whether it is freed or
written to, keeps the pool consistent. -/
theorem pop_consistent (m : PoolMem) (h : m.Consistent) (task : Nat) (e : PoolEntry)
    (hh : m.task_pool_head = some task) (he : m.mem task = some e) (m' : PoolMem)
    (hmem : ∀ q, q ≠ task → m'.mem q = m.mem q) (hhead : m'.task_pool_head = e.next)
    (htail : m'.task_pool_tail = m.task_pool_tail) : m'.resetTail.Consistent := by
  obtain ⟨hiff, hchain⟩ := h
  have ht : m.task_pool_tail ≠ none := fun hn => by
    rw [hiff.2 hn] at hh
    cases hh
  apply resetTail_consistent
  · intro tail htl hne
    rw [htail] at htl
    obtain ⟨l, hl⟩ := hchain tail htl
    rw [hh] at hl
    cases l with
    | nil =>
      obtain ⟨h1, e', h2, h3⟩ := hl
      cases h1
      rw [he] at h2
      cases h2
      rw [hhead] at hne
      exact absurd h3 hne
    | cons a l =>
      have hl' : chain m.mem (a :: (l ++ [tail])) (some task) := hl
      have hnm := fun hat : a = task => chain_not_mem m.mem a (l ++ [tail]) (by
        rw [hat]; rw [hat] at hl'; exact hl')
      obtain ⟨h1, e', h2, h3⟩ := hl'
      cases h1
      rw [he] at h2
      cases h2
      refine ⟨l, ?_⟩
      rw [hhead]
      exact chain_congr m.mem m'.mem _ _
        (fun x hx => hmem x (fun hxa => hnm rfl (by rw [← hxa]; exact hx))) h3
  · rw [htail]
    exact ht

theorem skip_consistent : ∀ (l : List Nat) (fuel : Nat) (m : PoolMem), m.Consistent →
    chain m.mem l m.task_pool_head → l.length < fuel →
    ∃ m', m.skip_over_begun_tasks fuel = some m' ∧ m'.Consistent ∧
      ∃ l', chain m'.mem l' m'.task_pool_head ∧ m'.warning_issued = m.warning_issued
  | _, 0, _, _, _, hlt => absurd hlt (Nat.not_lt_zero _)
  | [], fuel + 1, m, h, hl, _ => by
      have hh : m.task_pool_head = none := hl
      refine ⟨m, ?_, h, [], hl, rfl⟩
      unfold PoolMem.skip_over_begun_tasks
      rw [hh]
  | a :: l, fuel + 1, m, h, hl, hlt => by
      obtain ⟨hh, e, he, hrest⟩ := hl
      unfold PoolMem.skip_over_begun_tasks
      rw [hh]
      simp only [he]
      by_cases hb : e.begun = true
      · rw [if_pos hb]
        have hc := pop_consistent m h a e hh he
          ({ m with task_pool_head := e.next }.store a none)
          (fun q hq => by simp [PoolMem.store, hq]) rfl rfl
        have hnm : a ∉ l := chain_not_mem m.mem a l ⟨rfl, e, he, hrest⟩
        have hrest' : chain (({ m with task_pool_head := e.next }.store a none).resetTail).mem l
            (({ m with task_pool_head := e.next }.store a none).resetTail).task_pool_head := by
          have hm : (({ m with task_pool_head := e.next }.store a none).resetTail).mem =
              fun q => if q = a then none else m.mem q := by
            unfold PoolMem.resetTail
            split <;> rfl
          have hd : (({ m with task_pool_head := e.next }.store a none).resetTail).task_pool_head =
              e.next := by
            unfold PoolMem.resetTail
            split <;> rfl
          rw [hm, hd]
          exact chain_congr m.mem _ l e.next
            (fun x hx => by
              have : x ≠ a := fun hxa => hnm (by rw [← hxa]; exact hx)
              simp [this]) hrest
        obtain ⟨m', g1, g2, l', g3, g4⟩ := skip_consistent l fuel _ hc hrest'
          (by simp only [List.length_cons] at hlt; omega)
        refine ⟨m', g1, g2, l', g3, ?_⟩
        rw [g4]
        unfold PoolMem.resetTail
        split <;> rfl
      · rw [if_neg hb]
        exact ⟨m, rfl, h, a :: l, ⟨hh, e, he, hrest⟩, rfl⟩

/-- A consistent pool is a chain from `task_pool_head`. -/
theorem consistent_chain (m : PoolMem) (h : m.Consistent) :
    ∃ l, chain m.mem l m.task_pool_head := by
  cases ht : m.task_pool_tail with
  | none => exact ⟨[], h.1.2 ht⟩
  | some t =>
    obtain ⟨l, hl⟩ := h.2 t ht
    exact ⟨l ++ [t], hl⟩

theorem helper_pop_consistent (m : PoolMem) (h : m.Consistent)
    (hh : m.task_pool_head ≠ none) :
    ∃ m', m.chpl_begin_helper_pop = some m' ∧ m'.Consistent := by
  obtain ⟨l, hl⟩ := consistent_chain m h
  cases l with
  | nil => exact absurd hl hh
  | cons a l =>
    obtain ⟨h1, e, h2, h3⟩ := hl
    unfold PoolMem.chpl_begin_helper_pop
    rw [h1]
    simp only [h2]
    exact ⟨_, rfl, pop_consistent m h a e h1 h2 _
      (fun q hq => by simp [PoolMem.store, hq]) rfl rfl⟩

theorem launch_consistent (m : PoolMem) (h : m.Consistent) (l : List Nat)
    (hl : chain m.mem l m.task_pool_head) (fuel : Nat) (hlt : l.length < fuel)
    (created : Bool) :
    ∃ m', m.launch_next_task created fuel = some m' ∧ m'.Consistent := by
  unfold PoolMem.launch_next_task
  split
  · exact ⟨m, rfl, h⟩
  · obtain ⟨m1, g1, g2, l', g3, _⟩ := skip_consistent l fuel m h hl hlt
    rw [g1]
    dsimp only
    cases l' with
    | nil =>
      have hh : m1.task_pool_head = none := g3
      rw [hh]
      exact ⟨m1, rfl, g2⟩
    | cons a l' =>
      obtain ⟨h1, e, h2, h3⟩ := g3
      rw [h1]
      dsimp only
      cases created with
      | true =>
        simp only [if_true, h2]
        exact ⟨_, rfl, pop_consistent m1 g2 a e h1 h2 _
          (fun q hq => by simp [PoolMem.store, hq]) rfl rfl⟩
      | false =>
        simp only [Bool.false_eq_true, if_false]
        refine ⟨_, rfl, (by simpa [h1] using g2.1), ?_⟩
        intro tail htl
        obtain ⟨l0, hl0⟩ := g2.2 tail htl
        rw [h1] at hl0
        exact ⟨l0, hl0⟩

/-- C25: pool consistency.  On a pool where `task_pool_head` and
`task_pool_tail` are both null or both not null, the tail being then the last
entry met from the head, with a null `next`: `add_to_task_pool` (at a newly
allocated address), `skip_over_begun_tasks`, `launch_next_task` and the pop of
the worker in `chpl_begin_helper` (the pool not empty) each return, and leave
a pool that is consistent in the same way. -/
theorem task_pool_consistent (m : PoolMem) (h : m.Consistent) :
    (∀ (task fp a : Nat) (serial : Bool) (task_list : Option Nat), m.mem task = none →
      ∃ m', m.add_to_task_pool task fp a serial task_list = some m' ∧ m'.Consistent) ∧
    (∃ n, ∀ fuel, n ≤ fuel →
      ∃ m', m.skip_over_begun_tasks fuel = some m' ∧ m'.Consistent) ∧
    (∃ n, ∀ fuel created, n ≤ fuel →
      ∃ m', m.launch_next_task created fuel = some m' ∧ m'.Consistent) ∧
    (m.task_pool_head ≠ none → ∃ m', m.chpl_begin_helper_pop = some m' ∧ m'.Consistent) := by
  obtain ⟨l, hl⟩ := consistent_chain m h
  refine ⟨fun task fp a serial task_list hfresh =>
      add_consistent m h task fp a serial task_list hfresh,
    ⟨l.length + 1, fun fuel hfuel => ?_⟩,
    ⟨l.length + 1, fun fuel created hfuel =>
      launch_consistent m h l hl fuel (by omega) created⟩,
    helper_pop_consistent m h⟩
  obtain ⟨m', g1, g2, _⟩ := skip_consistent l fuel m h hl (by omega)
  exact ⟨m', g1, g2⟩

theorem samplePool_consistent : samplePool.Consistent :=
  ⟨by simp [samplePool], fun tail h => by
    simp only [samplePool, Option.some.injEq] at h
    subst h
    exact ⟨[1], rfl, ⟨7, 8, false, none, true, some 2⟩, rfl, rfl,
      ⟨7, 9, false, none, false, none⟩, rfl, rfl⟩⟩

theorem task_pool_consistent_witness :
    samplePool.Consistent ∧
    ∃ m', samplePool.add_to_task_pool 3 7 10 false none = some m' ∧ m'.Consistent :=
  ⟨samplePool_consistent,
    (task_pool_consistent samplePool samplePool_consistent).1 3 7 10 false none rfl⟩

theorem segment_congr (lists lists' : Nat → Option chpl_task_list) :
    ∀ (l : List (Nat × chpl_task_list)) (p : Nat),
      (∀ x ∈ l.map (fun g => g.1), lists' x = lists x) → segment lists l p →
      segment lists' l p
  | [], _, _, _ => trivial
  | (a, entry) :: l, p, heq, h => by
      obtain ⟨h1, h2, h3⟩ := h
      refine ⟨h1, ?_, ?_⟩
      · rw [heq a (by simp)]
        exact h2
      · exact segment_congr lists lists' l entry.next
          (fun x hx => heq x (by simp only [List.map_cons, List.mem_cons]; exact Or.inr hx)) h3

/-- The serial loop on the entries from `next_task` to `task_list`: it runs
and frees each one in turn, and returns. -/
theorem serialLoop_segment (task_list : Nat) :
    ∀ (l : List (Nat × chpl_task_list)) (last : Nat × chpl_task_list) (fuel next_task : Nat)
      (st : ProcessState),
      segment st.lists (l ++ [last]) next_task → last.1 = task_list →
      ((l ++ [last]).map (fun g => g.1)).Nodup → l.length < fuel →
      ∃ st', serialLoop task_list fuel next_task st = Except.ok st' ∧
        st'.sched = st.sched ∧ st'.actions = st.actions ++ serialActions (l ++ [last])
  | _, _, 0, _, _, _, _, _, hlt => absurd hlt (Nat.not_lt_zero _)
  | [], (a, entry), fuel + 1, next_task, st, hseg, hlast, _, _ => by
      obtain ⟨h1, h2, _⟩ := hseg
      subst h1
      have hlast' : next_task = task_list := hlast
      unfold serialLoop
      simp only [h2]
      rw [if_neg (by simp [hlast'])]
      exact ⟨_, rfl, rfl, by simp [ProcessState.chpl_free, ProcessState.run, serialActions]⟩
  | (a, entry) :: l, last, fuel + 1, next_task, st, hseg, hlast, hnd, hlt => by
      obtain ⟨h1, h2, h3⟩ := hseg
      subst h1
      have hnd' : next_task ∉ (l ++ [last]).map (fun g => g.1) ∧
          ((l ++ [last]).map (fun g => g.1)).Nodup := by
        simpa using hnd
      have hne : next_task ≠ task_list := by
        intro heq
        apply hnd'.1
        rw [heq, ← hlast]
        simp
      unfold serialLoop
      simp only [h2]
      rw [if_pos hne]
      have hseg' : segment ((st.run entry.fn entry.arg).chpl_free next_task).lists
          (l ++ [last]) entry.next :=
        segment_congr st.lists _ _ _ (fun x hx => by
          have : x ≠ next_task := fun hxa => hnd'.1 (by rw [← hxa]; exact hx)
          simp [ProcessState.chpl_free, ProcessState.run, this]) h3
      obtain ⟨st', g1, g2, g3⟩ := serialLoop_segment task_list l last fuel entry.next _ hseg'
        hlast hnd'.2 (by simp only [List.length_cons] at hlt; omega)
      refine ⟨st', g1, by rw [g2]; rfl, ?_⟩
      rw [g3]
      simp [ProcessState.chpl_free, ProcessState.run, serialActions]

/-- A list that is not empty ends with its last element. -/
theorem getLast_split {α : Type} (l : List α) (x : α) (h : l.getLast? = some x) :
    ∃ l', l = l' ++ [x] := by
  have hne : l ≠ [] := by
    intro hnil
    rw [hnil] at h
    cases h
  refine ⟨l.dropLast, ?_⟩
  have h1 := List.dropLast_append_getLast hne
  rw [List.getLast?_eq_getLast _ hne] at h
  cases h
  exact h1.symm

/-- C28: `chpl_process_task_list` in serial mode, on a task list of two
entries or more, returns; the calling thread has run every task of the list
once, in the order the tasks were appended (and freed each entry after its
task), and the scheduler (the task pool, `running_cnt`, `waking_cnt`,
`threads_cnt`) is as it was. -/
theorem chpl_process_task_list_serial (maxThreads : Int) (ndebug : Bool)
    (outcomes : List Bool) (alloc : Nat → Nat) (env : List (List Event)) (fuel : Nat)
    (task_list : Nat) (st : ProcessState) (group : List (Nat × chpl_task_list))
    (hc : Circular st.lists task_list group) (hn : 2 ≤ group.length)
    (hfuel : group.length ≤ fuel) :
    ∃ st', chpl_process_task_list maxThreads ndebug true outcomes alloc env fuel
        (some task_list) st = Except.ok st' ∧
      st'.sched = st.sched ∧
      st'.actions = st.actions ++ serialActions group := by
  obtain ⟨hnd, first, last, hfirst, hlast, hnext, hseg⟩ := hc
  obtain ⟨l, hl⟩ := getLast_split group _ hlast
  subst hl
  have hmem : st.lists task_list = some last := by
    have : ∀ (l : List (Nat × chpl_task_list)) (p : Nat), segment st.lists (l ++ [(task_list, last)]) p →
        st.lists task_list = some last := by
      intro l
      induction l with
      | nil => intro p h; exact h.2.1
      | cons x l ih => intro p h; exact ih _ h.2.2
    exact this l _ hseg
  have hne : last.next ≠ task_list := by
    cases l with
    | nil => simp at hn
    | cons x l =>
      simp only [List.cons_append, List.head?_cons, Option.some.injEq] at hfirst
      subst hfirst
      rw [hnext]
      intro heq
      have hnd' : x.1 ∉ (l ++ [(task_list, last)]).map (fun g => g.1) := by
        have : x.1 ∉ (l ++ [(task_list, last)]).map (fun g => g.1) ∧ _ :=
          List.nodup_cons.1 hnd
        exact this.1
      apply hnd'
      rw [heq]
      simp
  unfold chpl_process_task_list
  simp only [if_true, hmem]
  rw [if_neg (fun h => hne h.2)]
  rw [hnext]
  exact serialLoop_segment task_list l (task_list, last) fuel first.1 st hseg rfl hnd
    (by simp only [List.length_append, List.length_singleton] at hfuel; omega)

theorem poolTasks_length (alloc : Nat → Nat) :
    ∀ (l : List (Nat × chpl_task_list)) (k : Nat), (poolTasks alloc k l).length = l.length
  | [], _ => rfl
  | (a, entry) :: l, k => by
      simp only [poolTasks, List.length_cons, poolTasks_length alloc l (k + 1)]

theorem poolTasks_entry (alloc : Nat → Nat) :
    ∀ (l : List (Nat × chpl_task_list)) (k : Nat),
      ∀ task ∈ poolTasks alloc k l, task.2.2.2 ∈ l.map (fun g => g.1)
  | [], _, task, h => by cases h
  | (a, entry) :: l, k, task, h => by
      simp only [poolTasks, List.mem_cons] at h
      rcases h with h | h
      · rw [h]
        simp
      · have := poolTasks_entry alloc l (k + 1) task h
        simp only [List.map_cons, List.mem_cons]
        exact Or.inr this

theorem withPoolEntries_addresses (alloc : Nat → Nat) :
    ∀ (l : List (Nat × chpl_task_list)) (k : Nat),
      (withPoolEntries alloc k l).map (fun g => g.1) = l.map (fun g => g.1)
  | [], _ => rfl
  | (a, entry) :: l, k => by
      simp only [withPoolEntries, List.map_cons, withPoolEntries_addresses alloc l (k + 1)]

theorem addTaskList_other : ∀ (tasks : List (Nat × Nat × Nat × Nat)) (s : Scheduler),
    (addTaskList s tasks).waking_cnt = s.waking_cnt ∧
    (addTaskList s tasks).running_cnt = s.running_cnt ∧
    (addTaskList s tasks).threads_cnt = s.threads_cnt ∧
    (addTaskList s tasks).completed = s.completed ∧
    (addTaskList s tasks).freed = s.freed ∧
    (addTaskList s tasks).warning_issued = s.warning_issued
  | [], _ => ⟨rfl, rfl, rfl, rfl, rfl, rfl⟩
  | (id, fp, a, entry) :: rest, s => by
      unfold addTaskList
      exact addTaskList_other rest (add_to_task_pool s id fp a false (some entry))

/-- The first loop of the branch that is not serial, on the entries from
`next_task` to `task_list`: it adds a pool entry for each one in turn, writes
its address in the entry, and returns the count of them. -/
theorem addLoop_segment (alloc : Nat → Nat) (task_list : Nat) :
    ∀ (l : List (Nat × chpl_task_list)) (last : Nat × chpl_task_list)
      (fuel next_task k : Nat) (st : ProcessState),
      segment st.lists (l ++ [last]) next_task → last.1 = task_list →
      ((l ++ [last]).map (fun g => g.1)).Nodup → l.length < fuel →
      ∃ st', addLoop alloc false task_list fuel next_task k st =
          Except.ok (st', k + (l.length + 1)) ∧
        st'.sched = addTaskList st.sched (poolTasks alloc k (l ++ [last])) ∧
        st'.actions = st.actions ++ addActions (l ++ [last]) ∧
        segment st'.lists (withPoolEntries alloc k (l ++ [last])) next_task ∧
        ∀ q, q ∉ (l ++ [last]).map (fun g => g.1) → st'.lists q = st.lists q
  | _, _, 0, _, _, _, _, _, _, hlt => absurd hlt (Nat.not_lt_zero _)
  | [], (a, entry), fuel + 1, next_task, k, st, hseg, hlast, _, _ => by
      obtain ⟨h1, h2, _⟩ := hseg
      subst h1
      have hlast' : next_task = task_list := hlast
      unfold addLoop
      simp only [h2]
      rw [if_neg (by simp [hlast'])]
      refine ⟨_, rfl, rfl, by simp [addActions], ⟨rfl, by simp, trivial⟩, ?_⟩
      intro q hq
      have : q ≠ next_task := by simpa using hq
      simp [this]
  | (a, entry) :: l, last, fuel + 1, next_task, k, st, hseg, hlast, hnd, hlt => by
      obtain ⟨h1, h2, h3⟩ := hseg
      subst h1
      have hnd' : next_task ∉ (l ++ [last]).map (fun g => g.1) ∧
          ((l ++ [last]).map (fun g => g.1)).Nodup := by
        simpa using hnd
      have hne : next_task ≠ task_list := by
        intro heq
        apply hnd'.1
        rw [heq, ← hlast]
        simp
      unfold addLoop
      simp only [h2]
      rw [if_pos hne]
      have hseg' : segment (fun q =>
            if q = next_task then some { entry with task_pool_entry := some (alloc k) }
            else st.lists q) (l ++ [last]) entry.next :=
        segment_congr st.lists _ _ _ (fun x hx => by
          have : x ≠ next_task := fun hxa => hnd'.1 (by rw [← hxa]; exact hx)
          simp [this]) h3
      obtain ⟨st', g1, g2, g3, g4, g5⟩ := addLoop_segment alloc task_list l last fuel
        entry.next (k + 1)
        { sched := add_to_task_pool st.sched (alloc k) entry.fn entry.arg false (some next_task)
          lists := fun q =>
            if q = next_task then some { entry with task_pool_entry := some (alloc k) }
            else st.lists q
          actions := st.actions ++ [Action.add_to_task_pool entry.fn entry.arg false next_task] }
        hseg' hlast hnd'.2 (by simp only [List.length_cons] at hlt; omega)
      refine ⟨st', ?_, ?_, ?_, ?_, ?_⟩
      · rw [g1]
        simp only [List.length_cons]
        congr 2
        omega
      · rw [g2]
        rfl
      · rw [g3]
        simp [addActions]
      · refine ⟨rfl, ?_, g4⟩
        rw [g5 next_task hnd'.1]
        simp
      · intro q hq
        have hq' : q ≠ next_task ∧ q ∉ (l ++ [last]).map (fun g => g.1) := by
          simpa using hq
        rw [g5 q hq'.2]
        simp [hq'.1]

/-- The start of `chpl_process_task_list`, not in serial mode, on a task list
of two entries or more. -/
theorem process_task_list_first_spec (maxThreads : Int) (ndebug : Bool)
    (outcomes : List Bool) (alloc : Nat → Nat) (fuel task_list : Nat) (st : ProcessState)
    (e1 : Nat) (n1 : chpl_task_list) (rest : List (Nat × chpl_task_list))
    (hc : Circular st.lists task_list ((e1, n1) :: rest)) (hn : rest ≠ [])
    (hfuel : rest.length ≤ fuel) :
    ∃ st', process_task_list_first maxThreads ndebug outcomes alloc fuel (some task_list) st =
        Except.ok (st', n1.next) ∧
      st'.sched = process_task_list_add maxThreads outcomes (poolTasks alloc 0 rest) st.sched ∧
      st'.actions = st.actions ++ addActions rest ++
        [Action.schedule_next_task rest.length, Action.run n1.fn n1.arg, Action.chpl_free e1] ∧
      segment st'.lists (withPoolEntries alloc 0 rest) n1.next ∧
      (rest.map (fun g => g.1)).Nodup ∧
      (∃ last, rest.getLast? = some (task_list, last)) := by
  obtain ⟨hnd, first, last, hfirst, hlast, hnext, hseg⟩ := hc
  simp only [List.head?_cons, Option.some.injEq] at hfirst
  subst hfirst
  obtain ⟨h1, h2, h3⟩ := hseg
  have hlast' : rest.getLast? = some (task_list, last) := by
    cases rest with
    | nil => exact absurd rfl hn
    | cons x rest' =>
      rw [List.getLast?_cons_cons] at hlast
      exact hlast
  obtain ⟨l, hl⟩ := getLast_split rest _ hlast'
  have hnd' : e1 ∉ rest.map (fun g => g.1) ∧ (rest.map (fun g => g.1)).Nodup :=
    List.nodup_cons.1 hnd
  have hmem : st.lists task_list = some last := by
    have : ∀ (l : List (Nat × chpl_task_list)) (p : Nat),
        segment st.lists (l ++ [(task_list, last)]) p → st.lists task_list = some last := by
      intro l
      induction l with
      | nil => intro p h; exact h.2.1
      | cons x l ih => intro p h; exact ih _ h.2.2
    rw [hl] at h3
    exact this l _ h3
  have hne : last.next ≠ task_list := by
    rw [hnext]
    intro heq
    apply hnd'.1
    rw [hl]
    have : e1 = task_list := heq
    rw [this]
    simp
  have hnext' : last.next = e1 := hnext
  rw [hl] at h3 hnd'
  obtain ⟨st1, g1, g2, g3, g4, g5⟩ := addLoop_segment alloc task_list l (task_list, last) fuel
    n1.next 0 st h3 rfl hnd'.2
    (by rw [hl] at hfuel; simp only [List.length_append, List.length_singleton] at hfuel; omega)
  have hfirst : st1.lists e1 = some n1 := by
    rw [g5 e1 hnd'.1]
    exact h2
  unfold process_task_list_first
  simp only [hmem]
  rw [if_neg (fun h => hne h.2)]
  simp only [hnext', h2, g1, hfirst]
  refine ⟨_, rfl, ?_, ?_, ?_, ?_, ?_⟩
  · show schedule_next_task maxThreads outcomes (0 + (l.length + 1)) st1.sched = _
    unfold process_task_list_add
    rw [g2, hl, poolTasks_length]
    simp only [List.length_append, List.length_singleton, Nat.zero_add]
  · show (st1.actions ++ [Action.schedule_next_task (0 + (l.length + 1))] ++
      [Action.run n1.fn n1.arg]) ++ [Action.chpl_free e1] = _
    rw [g3, hl]
    simp
  · rw [hl]
    refine segment_congr st1.lists _ _ _ (fun x hx => ?_) g4
    rw [withPoolEntries_addresses] at hx
    have : x ≠ e1 := fun hxa => hnd'.1 (by rw [← hxa]; exact hx)
    simp [ProcessState.chpl_free, ProcessState.run, this]
  · rw [hl]
    exact hnd'.2
  · exact ⟨last, by rw [hl]; simp⟩

/-- C27: `chpl_process_task_list` not in serial mode, on a task list of
`n ≥ 2` entries: up to `chpl_free(first_task)` it adds the tasks 2 to `n` to
the pool, in the order of the list, each with `serial_state` false, `begun`
false and `task_list` pointing to its list entry (none pointing to the first
entry), calls `schedule_next_task` once, with `n - 1`, and then runs task 1 on
the calling thread. -/
theorem chpl_process_task_list_adds (maxThreads : Int) (ndebug : Bool)
    (outcomes : List Bool) (alloc : Nat → Nat) (fuel task_list : Nat) (st : ProcessState)
    (e1 : Nat) (n1 : chpl_task_list) (rest : List (Nat × chpl_task_list))
    (hc : Circular st.lists task_list ((e1, n1) :: rest))
    (hn : 2 ≤ ((e1, n1) :: rest).length) (hfuel : rest.length ≤ fuel) :
    ∃ st' next_task,
      process_task_list_first maxThreads ndebug outcomes alloc fuel (some task_list) st =
        Except.ok (st', next_task) ∧
      st'.sched = schedule_next_task maxThreads outcomes (((e1, n1) :: rest).length - 1)
        (addTaskList st.sched (poolTasks alloc 0 rest)) ∧
      (addTaskList st.sched (poolTasks alloc 0 rest)).task_pool =
        st.sched.task_pool ++ (poolTasks alloc 0 rest).map
          (fun task => ⟨task.1, task.2.1, task.2.2.1, false, false, some task.2.2.2⟩) ∧
      (poolTasks alloc 0 rest).map (fun task => task.2.2.2) = rest.map (fun g => g.1) ∧
      (∀ task ∈ poolTasks alloc 0 rest, task.2.2.2 ≠ e1) ∧
      st'.actions = st.actions ++ addActions rest ++
        [Action.schedule_next_task (((e1, n1) :: rest).length - 1), Action.run n1.fn n1.arg,
          Action.chpl_free e1] := by
  have hrest : rest ≠ [] := by
    intro h
    rw [h] at hn
    simp at hn
  obtain ⟨st', g1, g2, g3, _⟩ := process_task_list_first_spec maxThreads ndebug outcomes alloc
    fuel task_list st e1 n1 rest hc hrest hfuel
  have hnd : e1 ∉ rest.map (fun g => g.1) := (List.nodup_cons.1 hc.1).1
  refine ⟨st', n1.next, g1, ?_, (addTaskList_pool _ _).1, ?_, ?_, ?_⟩
  · rw [g2]
    unfold process_task_list_add
    rw [poolTasks_length]
    rfl
  · have : ∀ (l : List (Nat × chpl_task_list)) (k : Nat),
        (poolTasks alloc k l).map (fun task => task.2.2.2) = l.map (fun g => g.1) := by
      intro l
      induction l with
      | nil => intro k; rfl
      | cons x l ih =>
        intro k
        obtain ⟨a, entry⟩ := x
        simp only [poolTasks, List.map_cons, ih (k + 1)]
    exact this rest 0
  · intro task htask heq
    exact hnd (by rw [← heq]; exact poolTasks_entry alloc rest 0 task htask)
  · rw [g3]
    rfl

theorem sampleGroup_circular : Circular sampleLists 13 sampleGroup :=
  ⟨by decide, (11, ⟨101, 1, none, 12, false⟩), ⟨103, 3, none, 11, false⟩, rfl, rfl, rfl,
    rfl, rfl, rfl, rfl, rfl, rfl, trivial⟩

theorem chpl_process_task_list_serial_witness :
    ∃ st', chpl_process_task_list 0 false true [] (fun k => 20 + k) [] 3 (some 13)
        ⟨initChplThreads, sampleLists, []⟩ = Except.ok st' ∧
      st'.sched = initChplThreads ∧
      st'.actions = [Action.run 101 1, Action.chpl_free 11, Action.run 102 2,
        Action.chpl_free 12, Action.run 103 3, Action.chpl_free 13] :=
  chpl_process_task_list_serial 0 false [] (fun k => 20 + k) [] 3 13
    ⟨initChplThreads, sampleLists, []⟩ sampleGroup sampleGroup_circular (by decide) (by decide)

theorem chpl_process_task_list_adds_witness :
    ∃ st' next_task,
      process_task_list_first 2 false [] (fun k => 20 + k) 2 (some 13)
        ⟨oneIdleWorker, sampleLists, []⟩ = Except.ok (st', next_task) ∧
      st'.sched = schedule_next_task 2 [] 2
        (addTaskList oneIdleWorker [(20, 102, 2, 12), (21, 103, 3, 13)]) ∧
      (addTaskList oneIdleWorker [(20, 102, 2, 12), (21, 103, 3, 13)]).task_pool =
        [⟨20, 102, 2, false, false, some 12⟩, ⟨21, 103, 3, false, false, some 13⟩] ∧
      [12, 13] = [12, 13] ∧
      (∀ task ∈ [(20, 102, 2, 12), (21, 103, 3, 13)], task.2.2.2 ≠ 11) ∧
      st'.actions = [Action.add_to_task_pool 102 2 false 12,
        Action.add_to_task_pool 103 3 false 13, Action.schedule_next_task 2,
        Action.run 101 1, Action.chpl_free 11] :=
  chpl_process_task_list_adds 2 false [] (fun k => 20 + k) 2 13
    ⟨oneIdleWorker, sampleLists, []⟩ 11 ⟨101, 1, none, 12, false⟩
    [(12, ⟨102, 2, none, 13, false⟩), (13, ⟨103, 3, none, 11, false⟩)]
    sampleGroup_circular (by decide) (by decide)

/-- C29 (amended): on a task list of one entry `chpl_process_task_list` is
not to be called.  Without `NDEBUG` its assertion fails, in serial mode or
not, and no task is run.  With `NDEBUG`, in serial mode it runs the task once
on the calling thread and leaves the scheduler as it was; not in serial mode
it adds a pool entry for the task, calls `schedule_next_task(1)`, runs the
task on the calling thread as well, frees the list entry and then reads it. -/
theorem chpl_process_task_list_single (maxThreads : Int) (outcomes : List Bool)
    (alloc : Nat → Nat) (env : List (List Event)) (fuel : Nat) (task_list : Nat)
    (task : chpl_task_list) (st : ProcessState) (h1 : st.lists task_list = some task)
    (h2 : task.next = task_list) (hfuel : 1 ≤ fuel) :
    (∀ serial, chpl_process_task_list maxThreads false serial outcomes alloc env fuel
      (some task_list) st = Except.error Fault.assertion) ∧
    (∃ st', chpl_process_task_list maxThreads true true outcomes alloc env fuel
        (some task_list) st = Except.ok st' ∧
      st'.sched = st.sched ∧
      st'.actions = st.actions ++ [Action.run task.fn task.arg, Action.chpl_free task_list]) ∧
    (∃ st1, process_task_list_first maxThreads true outcomes alloc fuel (some task_list) st =
        Except.ok (st1, task_list) ∧
      st1.sched = schedule_next_task maxThreads outcomes 1
        (add_to_task_pool st.sched (alloc 0) task.fn task.arg false (some task_list)) ∧
      st1.actions = st.actions ++ [Action.add_to_task_pool task.fn task.arg false task_list,
        Action.schedule_next_task 1, Action.run task.fn task.arg,
        Action.chpl_free task_list]) ∧
    chpl_process_task_list maxThreads true false outcomes alloc env fuel (some task_list) st =
      Except.error Fault.memory := by
  obtain ⟨fuel, rfl⟩ : ∃ k, fuel = k + 1 := ⟨fuel - 1, by omega⟩
  have hfirst : ∃ st1, process_task_list_first maxThreads true outcomes alloc (fuel + 1)
      (some task_list) st = Except.ok (st1, task_list) ∧
      st1.sched = schedule_next_task maxThreads outcomes 1
        (add_to_task_pool st.sched (alloc 0) task.fn task.arg false (some task_list)) ∧
      st1.actions = st.actions ++ [Action.add_to_task_pool task.fn task.arg false task_list,
        Action.schedule_next_task 1, Action.run task.fn task.arg,
        Action.chpl_free task_list] ∧
      st1.lists task_list = none := by
    unfold process_task_list_first
    simp only [h1, h2, Bool.true_eq_false, false_and, if_false]
    unfold addLoop
    simp only [h1, ne_eq, not_true_eq_false, if_false, if_true, h2]
    exact ⟨_, rfl, rfl, by simp [ProcessState.chpl_free, ProcessState.run],
      by simp [ProcessState.chpl_free, ProcessState.run]⟩
  refine ⟨?_, ?_, ?_, ?_⟩
  · intro serial
    unfold chpl_process_task_list process_task_list_first
    cases serial <;> simp [h1, h2]
  · unfold chpl_process_task_list
    simp only [if_true, h1, h2, Bool.true_eq_false, false_and, if_false]
    unfold serialLoop
    simp only [h1, ne_eq, not_true_eq_false, if_false]
    exact ⟨_, rfl, rfl, by simp [ProcessState.chpl_free, ProcessState.run]⟩
  · obtain ⟨st1, g1, g2, g3, _⟩ := hfirst
    exact ⟨st1, g1, g2, g3⟩
  · obtain ⟨st1, g1, _, _, g4⟩ := hfirst
    unfold chpl_process_task_list
    simp only [Bool.false_eq_true, if_false, g1]
    unfold joinLoop
    simp only [g4]

theorem chpl_process_task_list_single_witness :
    (∃ st', chpl_process_task_list 0 true true [] (fun k => 20 + k) [] 1 (some 11)
        ⟨initChplThreads, singleList, []⟩ = Except.ok st' ∧
      st'.sched = initChplThreads ∧
      st'.actions = [Action.run 101 1, Action.chpl_free 11]) ∧
    chpl_process_task_list 0 true false [] (fun k => 20 + k) [] 1 (some 11)
      ⟨initChplThreads, singleList, []⟩ = Except.error Fault.memory :=
  ⟨(chpl_process_task_list_single 0 [] (fun k => 20 + k) [] 1 11 ⟨101, 1, none, 11, false⟩
      ⟨initChplThreads, singleList, []⟩ rfl rfl (by decide)).2.1,
    (chpl_process_task_list_single 0 [] (fun k => 20 + k) [] 1 11 ⟨101, 1, none, 11, false⟩
      ⟨initChplThreads, singleList, []⟩ rfl rfl (by decide)).2.2.2⟩

/-- C29 as stated fails: on the task list of one entry `singleList`, without
`NDEBUG` the assertion of `chpl_process_task_list` fails in both modes; with
`NDEBUG` and not in serial mode, a pool entry is added for the task (a thread
is created, which begins it) before the calling thread runs the task. -/
theorem chpl_process_task_list_single_counterexample :
    chpl_process_task_list 0 false false [] (fun k => 20 + k) [] 5 (some 11)
      ⟨initChplThreads, singleList, []⟩ = Except.error Fault.assertion ∧
    chpl_process_task_list 0 false true [] (fun k => 20 + k) [] 5 (some 11)
      ⟨initChplThreads, singleList, []⟩ = Except.error Fault.assertion ∧
    (process_task_list_first 0 true [] (fun k => 20 + k) 5 (some 11)
      ⟨initChplThreads, singleList, []⟩).toOption.map
        (fun r => (r.1.sched.task_pool, r.1.sched.workers, r.1.actions)) =
      some ([], [Worker.executing ⟨20, 101, 1, false, true, some 11⟩],
        [Action.add_to_task_pool 101 1 false 11, Action.schedule_next_task 1,
          Action.run 101 1, Action.chpl_free 11]) := by
  refine ⟨rfl, rfl, rfl⟩

theorem mem_set_cases {α : Type} : ∀ (l : List α) (i : Nat) (x y : α),
    x ∈ l.set i y → x = y ∨ x ∈ l
  | [], _, _, _, h => by simp at h
  | a :: l, 0, x, y, h => by
      simp only [List.set_cons_zero, List.mem_cons] at h
      rcases h with h | h
      · exact Or.inl h
      · exact Or.inr (List.mem_cons_of_mem _ h)
  | a :: l, i + 1, x, y, h => by
      simp only [List.set_cons_succ, List.mem_cons] at h
      rcases h with h | h
      · exact Or.inr (by rw [h]; exact List.mem_cons_self _ _)
      · rcases mem_set_cases l i x y h with h | h
        · exact Or.inl h
        · exact Or.inr (List.mem_cons_of_mem _ h)

theorem mem_set_of_ne {α : Type} : ∀ (l : List α) (i : Nat) (x y : α),
    x ∈ l → l.get? i ≠ some x → x ∈ l.set i y
  | [], _, _, _, h, _ => by simp at h
  | a :: l, 0, x, y, h, hne => by
      simp only [List.get?_cons_zero, ne_eq, Option.some.injEq] at hne
      simp only [List.set_cons_zero, List.mem_cons]
      rcases List.mem_cons.1 h with h | h
      · exact absurd h.symm hne
      · exact Or.inr h
  | a :: l, i + 1, x, y, h, hne => by
      simp only [List.set_cons_succ, List.mem_cons]
      rcases List.mem_cons.1 h with h | h
      · exact Or.inl h
      · exact Or.inr (mem_set_of_ne l i x y h (by simpa using hne))

theorem mem_set_self {α : Type} : ∀ (l : List α) (i : Nat) (x y : α),
    l.get? i = some x → y ∈ l.set i y
  | [], _, _, _, h => by simp at h
  | a :: l, 0, _, y, _ => by simp
  | a :: l, i + 1, x, y, h => by
      simp only [List.set_cons_succ, List.mem_cons]
      exact Or.inr (mem_set_self l i x y (by simpa using h))

/-- The workers that run a task once the waiting worker `i` has taken `t`. -/
theorem executing_set (workers : List Worker) (i : Nat) (t : task_pool_t)
    (h : workers.get? i = some Worker.waiting) (x : task_pool_t) :
    Worker.executing x ∈ workers.set i (Worker.executing t) ↔
      (Worker.executing x ∈ workers ∨ x = t) := by
  constructor
  · intro hx
    rcases mem_set_cases _ _ _ _ hx with hx | hx
    · cases hx
      exact Or.inr rfl
    · exact Or.inl hx
  · rintro (hx | hx)
    · exact mem_set_of_ne _ _ _ _ hx (by rw [h]; simp)
    · rw [hx]
      exact mem_set_self _ _ _ _ h

theorem filter_head_find (p : task_pool_t → Bool) :
    ∀ (l : List task_pool_t) (x : task_pool_t) (r : List task_pool_t),
      l.filter p = x :: r → l.find? p = some x
  | [], _, _, h => by simp at h
  | a :: l, x, r, h => by
      by_cases ha : p a = true
      · rw [List.filter_cons_of_pos ha] at h
        rw [List.find?_cons_of_pos _ ha]
        cases h
        rfl
      · rw [List.filter_cons_of_neg ha] at h
        rw [List.find?_cons_of_neg _ ha]
        exact filter_head_find p l x r h

/-- Skipping the entries that have begun keeps where a task of a group is. -/
theorem skip_owned (s : Scheduler) (task : Nat × Nat × Nat × Nat) (h : Owned s task) :
    Owned (skip_over_begun_tasks s) task := by
  have hsplit : s.task_pool = s.task_pool.takeWhile (fun t => t.begun) ++
      s.task_pool.dropWhile (fun t => t.begun) := (List.takeWhile_append_dropWhile _ _).symm
  rcases h with ⟨h1, h2, h3⟩ | ⟨h1, h2, h3, h4⟩ | h
  · refine Or.inl ⟨?_, h2, h3⟩
    show (s.task_pool.dropWhile (fun t => t.begun)).filter _ = _
    have hf := h1
    rw [hsplit, List.filter_append] at hf
    have hnil : (s.task_pool.takeWhile (fun t => t.begun)).filter
        (fun t => decide (t.id = task.1)) = [] := by
      rw [List.filter_eq_nil_iff]
      intro x hx hid
      have hb : x.begun = true := List.mem_takeWhile_imp hx
      have hmem : x ∈ s.task_pool.filter (fun t => decide (t.id = task.1)) :=
        List.mem_filter.2 ⟨by
          have := List.mem_append_left (s.task_pool.dropWhile (fun t => t.begun)) hx
          rwa [List.takeWhile_append_dropWhile] at this, hid⟩
      rw [h1] at hmem
      simp only [List.mem_singleton] at hmem
      rw [hmem] at hb
      cases hb
    rw [hnil, List.nil_append] at hf
    exact hf
  · refine Or.inr (Or.inl ⟨?_, h2, h3, h4⟩)
    intro t ht
    have ht' : t ∈ s.task_pool.dropWhile (fun t => t.begun) := ht
    have := List.mem_append_right (s.task_pool.takeWhile (fun t => t.begun)) ht'
    rw [List.takeWhile_append_dropWhile] at this
    exact h1 t this
  · exact Or.inr (Or.inr h)

/-- A thread takes the entry at the head of the pool, which has not begun. -/
theorem take_owned (s s' : Scheduler) (t : task_pool_t) (rest : List task_pool_t)
    (hpool : s.task_pool = t :: rest) (hpool' : s'.task_pool = rest)
    (hW : ∀ x, Worker.executing x ∈ s'.workers ↔
      (Worker.executing x ∈ s.workers ∨ x = { t with begun := true }))
    (hc : s'.completed = s.completed) (task : Nat × Nat × Nat × Nat) (h : Owned s task) :
    Owned s' task := by
  rcases h with ⟨h1, h2, h3⟩ | ⟨h1, h2, h3, h4⟩ | h
  · rw [hpool] at h1
    by_cases hid : t.id = task.1
    · rw [List.filter_cons_of_pos (by simpa using hid)] at h1
      have ht : t = ⟨task.1, task.2.1, task.2.2.1, false, false, some task.2.2.2⟩ :=
        (List.cons.inj h1).1
      have hrest : rest.filter (fun t => decide (t.id = task.1)) = [] := (List.cons.inj h1).2
      refine Or.inr (Or.inl ⟨?_, ?_, ?_, by rw [hc]; exact h3⟩)
      · rw [hpool']
        intro x hx hxid
        have := List.filter_eq_nil_iff.1 hrest x hx
        exact this (by simpa using hxid)
      · rw [hW]
        right
        rw [ht]
      · intro x hx hxid
        rcases (hW x).1 hx with hx | hx
        · exact absurd hxid (h2 x hx)
        · rw [hx, ht]
    · rw [List.filter_cons_of_neg (by simpa using hid)] at h1
      refine Or.inl ⟨by rw [hpool']; exact h1, ?_, by rw [hc]; exact h3⟩
      intro x hx
      rcases (hW x).1 hx with hx | hx
      · exact h2 x hx
      · rw [hx]
        exact hid
  · refine Or.inr (Or.inl ⟨?_, (hW _).2 (Or.inl h2), ?_, by rw [hc]; exact h4⟩)
    · rw [hpool']
      intro x hx
      exact h1 x (by rw [hpool]; exact List.mem_cons_of_mem _ hx)
    · intro x hx hxid
      rcases (hW x).1 hx with hx | hx
      · exact h3 x hx hxid
      · rw [hx] at hxid
        exact absurd hxid (h1 t (by rw [hpool]; exact List.mem_cons_self _ _))
  · exact Or.inr (Or.inr (by rw [hc]; exact h))

theorem worker_take_owned (i : Nat) (s s' : Scheduler) (hs : worker_take i s = some s')
    (task : Nat × Nat × Nat × Nat) (h : Owned s task) : Owned s' task := by
  unfold worker_take at hs
  split at hs
  · rename_i hw
    dsimp only at hs
    split at hs
    · simp only [Option.some.injEq] at hs
      subst hs
      exact skip_owned s task h
    · rename_i t rest hcons
      simp only [Option.some.injEq] at hs
      subst hs
      refine take_owned (skip_over_begun_tasks s) _ t rest hcons ?_ ?_ ?_ task
        (skip_owned s task h)
      · rfl
      · exact fun x => executing_set s.workers i _ hw x
      · rfl
  · exact Option.noConfusion hs

theorem worker_finish_owned (i : Nat) (s s' : Scheduler) (hs : worker_finish i s = some s')
    (task : Nat × Nat × Nat × Nat) (h : Owned s task) : Owned s' task := by
  unfold worker_finish at hs
  split at hs
  · rename_i t0 hw
    simp only [Option.some.injEq] at hs
    subst hs
    by_cases hdone : task.2.2.2 ∈ (match t0.task_list with
        | some entry => s.completed ++ [entry]
        | none => s.completed)
    · exact Or.inr (Or.inr hdone)
    · rcases h with ⟨h1, h2, _⟩ | ⟨h1, h2, h3, h4⟩ | h
      · refine Or.inl ⟨h1, ?_, hdone⟩
        intro x hx
        rcases mem_set_cases _ _ _ _ hx with hx | hx
        · cases hx
        · exact h2 x hx
      · refine Or.inr (Or.inl ⟨h1, ?_, ?_, hdone⟩)
        · apply mem_set_of_ne _ _ _ _ h2
          rw [hw]
          intro heq
          simp only [Option.some.injEq, Worker.executing.injEq] at heq
          apply hdone
          rw [heq]
          simp
        · intro x hx hxid
          rcases mem_set_cases _ _ _ _ hx with hx | hx
          · cases hx
          · exact h3 x hx hxid
      · exfalso
        apply hdone
        cases t0.task_list with
        | none => exact h
        | some entry => exact List.mem_append_left _ h
  · exact Option.noConfusion hs

theorem worker_take_detached (i : Nat) (s s' : Scheduler) (hs : worker_take i s = some s')
    (task : Nat × Nat × Nat × Nat) (h : Detached s task) : Detached s' task := by
  unfold worker_take at hs
  split at hs
  · rename_i hw
    dsimp only at hs
    split at hs
    · simp only [Option.some.injEq] at hs
      subst hs
      rcases h with h | h
      · exact Or.inl h
      · exact Or.inr (List.mem_append_left _ h)
    · rename_i t rest hcons
      simp only [Option.some.injEq] at hs
      subst hs
      rcases h with h | h
      · exact Or.inl ((executing_set s.workers i _ hw _).2 (Or.inl h))
      · exact Or.inr (List.mem_append_left _ h)
  · exact Option.noConfusion hs

theorem worker_finish_detached (i : Nat) (s s' : Scheduler) (hs : worker_finish i s = some s')
    (task : Nat × Nat × Nat × Nat) (h : Detached s task) : Detached s' task := by
  unfold worker_finish at hs
  split at hs
  · rename_i t0 hw
    simp only [Option.some.injEq] at hs
    subst hs
    rcases h with h | h
    · by_cases heq : t0 = ⟨task.1, task.2.1, task.2.2.1, false, true, none⟩
      · right
        show task.1 ∈ s.freed ++ [t0.id]
        rw [heq]
        simp
      · left
        apply mem_set_of_ne _ _ _ _ h
        rw [hw]
        intro h'
        simp only [Option.some.injEq, Worker.executing.injEq] at h'
        exact heq h'
    · exact Or.inr (List.mem_append_left _ h)
  · exact Option.noConfusion hs

theorem worker_completed (e : Event) (maxThreads : Int) (s s' : Scheduler)
    (hw : e.isWorker = true) (hs : e.apply maxThreads s = some s') :
    ∀ x ∈ s.completed, x ∈ s'.completed := by
  cases e with
  | chpl_begin _ _ _ _ _ => simp [Event.isWorker] at hw
  | process_task_list_add _ _ => simp [Event.isWorker] at hw
  | joiner_claim _ _ => simp [Event.isWorker] at hw
  | worker_finish i =>
    simp only [Event.apply] at hs
    unfold ChplThreads.worker_finish at hs
    split at hs
    · rename_i t0 _
      simp only [Option.some.injEq] at hs
      subst hs
      intro x hx
      show x ∈ (match t0.task_list with
        | some entry => s.completed ++ [entry]
        | none => s.completed)
      cases t0.task_list with
      | none => exact hx
      | some entry => exact List.mem_append_left _ hx
    · exact Option.noConfusion hs
  | worker_take i =>
    simp only [Event.apply] at hs
    unfold ChplThreads.worker_take at hs
    split at hs
    · dsimp only at hs
      split at hs
      · simp only [Option.some.injEq] at hs
        subst hs
        exact fun x hx => hx
      · simp only [Option.some.injEq] at hs
        subst hs
        exact fun x hx => hx
    · exact Option.noConfusion hs

/-- The critical sections of worker threads keep where the tasks of a group
are, the tasks let go of, and the entries marked completed. -/
theorem runEvents_worker (maxThreads : Int) :
    ∀ (events : List Event) (s : Scheduler), (∀ e ∈ events, e.isWorker = true) →
      (∀ task, Owned s task → Owned (runEvents maxThreads events s) task) ∧
      (∀ task, Detached s task → Detached (runEvents maxThreads events s) task) ∧
      (∀ x ∈ s.completed, x ∈ (runEvents maxThreads events s).completed)
  | [], _, _ => ⟨fun _ h => h, fun _ h => h, fun _ h => h⟩
  | e :: events, s, hw => by
      have he := hw e (List.mem_cons_self _ _)
      have hrest := runEvents_worker maxThreads events ((e.apply maxThreads s).getD s)
        (fun e' he' => hw e' (List.mem_cons_of_mem _ he'))
      have hstep : (∀ task, Owned s task → Owned ((e.apply maxThreads s).getD s) task) ∧
          (∀ task, Detached s task → Detached ((e.apply maxThreads s).getD s) task) ∧
          (∀ x ∈ s.completed, x ∈ ((e.apply maxThreads s).getD s).completed) := by
        cases hs : e.apply maxThreads s with
        | none => exact ⟨fun _ h => h, fun _ h => h, fun _ h => h⟩
        | some s' =>
          refine ⟨?_, ?_, worker_completed e maxThreads s s' he hs⟩
          · intro task h
            cases e with
            | chpl_begin _ _ _ _ _ => simp [Event.isWorker] at he
            | process_task_list_add _ _ => simp [Event.isWorker] at he
            | joiner_claim _ _ => simp [Event.isWorker] at he
            | worker_finish i => exact worker_finish_owned i s s' hs task h
            | worker_take i => exact worker_take_owned i s s' hs task h
          · intro task h
            cases e with
            | chpl_begin _ _ _ _ _ => simp [Event.isWorker] at he
            | process_task_list_add _ _ => simp [Event.isWorker] at he
            | joiner_claim _ _ => simp [Event.isWorker] at he
            | worker_finish i => exact worker_finish_detached i s s' hs task h
            | worker_take i => exact worker_take_detached i s s' hs task h
      unfold runEvents
      exact ⟨fun task h => hrest.1 task (hstep.1 task h),
        fun task h => hrest.2.1 task (hstep.2.1 task h),
        fun x hx => hrest.2.2 x (hstep.2.2 x hx)⟩

theorem updateEntry_executing (id : Nat) (f : task_pool_t → task_pool_t) (s : Scheduler)
    (x : task_pool_t) :
    Worker.executing x ∈ (updateEntry id f s).workers ↔
      ∃ t, Worker.executing t ∈ s.workers ∧ x = if t.id = id then f t else t := by
  unfold updateEntry
  simp only [List.mem_map]
  constructor
  · rintro ⟨w, hw, heq⟩
    cases w with
    | waiting => cases heq
    | executing t =>
      refine ⟨t, hw, ?_⟩
      dsimp only at heq
      split at heq
      · rename_i hid
        rw [if_pos hid]
        cases heq
        rfl
      · rename_i hid
        rw [if_neg hid]
        cases heq
        rfl
  · rintro ⟨t, ht, heq⟩
    refine ⟨Worker.executing t, ht, ?_⟩
    dsimp only
    rw [heq]
    split <;> rfl

theorem updateEntry_filter (id : Nat) (f : task_pool_t → task_pool_t)
    (hf : ∀ t, (f t).id = t.id) (p : Nat) (hne : p ≠ id) :
    ∀ (l : List task_pool_t),
      (l.map (fun t => if t.id = id then f t else t)).filter (fun t => decide (t.id = p)) =
        l.filter (fun t => decide (t.id = p))
  | [] => rfl
  | a :: l => by
      have ih := updateEntry_filter id f hf p hne l
      by_cases ha : a.id = id
      · have hap : a.id ≠ p := fun h => hne (by rw [← h, ha])
        have hfa : (f a).id ≠ p := by rw [hf a]; exact hap
        simp only [List.map_cons, if_pos ha]
        rw [List.filter_cons_of_neg (by simpa using hfa),
          List.filter_cons_of_neg (by simpa using hap)]
        exact ih
      · simp only [List.map_cons, if_neg ha]
        by_cases hap : a.id = p
        · rw [List.filter_cons_of_pos (by simpa using hap),
            List.filter_cons_of_pos (by simpa using hap), ih]
        · rw [List.filter_cons_of_neg (by simpa using hap),
            List.filter_cons_of_neg (by simpa using hap)]
          exact ih

/-- A store in the pool entry of one task keeps where another task is. -/
theorem updateEntry_owned_other (id : Nat) (f : task_pool_t → task_pool_t)
    (hf : ∀ t, (f t).id = t.id) (s : Scheduler) (task : Nat × Nat × Nat × Nat)
    (hne : task.1 ≠ id) (h : Owned s task) : Owned (updateEntry id f s) task := by
  have hid : ∀ t : task_pool_t, (if t.id = id then f t else t).id = t.id := by
    intro t
    split
    · exact hf t
    · rfl
  have hfix : ∀ t : task_pool_t, t.id = task.1 → (if t.id = id then f t else t) = t := by
    intro t ht
    rw [if_neg (by rw [ht]; exact hne)]
  rcases h with ⟨h1, h2, h3⟩ | ⟨h1, h2, h3, h4⟩ | h
  · refine Or.inl ⟨?_, ?_, h3⟩
    · show (s.task_pool.map (fun t => if t.id = id then f t else t)).filter _ = _
      rw [updateEntry_filter id f hf task.1 hne]
      exact h1
    · intro x hx
      obtain ⟨t, ht, heq⟩ := (updateEntry_executing id f s x).1 hx
      rw [heq, hid]
      exact h2 t ht
  · refine Or.inr (Or.inl ⟨?_, ?_, ?_, h4⟩)
    · intro x hx
      have hx' : x ∈ s.task_pool.map (fun t => if t.id = id then f t else t) := hx
      obtain ⟨t, ht, heq⟩ := List.mem_map.1 hx'
      rw [← heq, hid]
      exact h1 t ht
    · exact (updateEntry_executing id f s _).2 ⟨_, h2, (hfix _ rfl).symm⟩
    · intro x hx hxid
      obtain ⟨t, ht, heq⟩ := (updateEntry_executing id f s x).1 hx
      have htid : t.id = task.1 := by rw [← hid t, ← heq]; exact hxid
      rw [heq, hfix t htid]
      exact h3 t ht htid
  · exact Or.inr (Or.inr h)

theorem updateEntry_detached_other (id : Nat) (f : task_pool_t → task_pool_t)
    (s : Scheduler) (task : Nat × Nat × Nat × Nat)
    (hne : task.1 ≠ id) (h : Detached s task) : Detached (updateEntry id f s) task := by
  rcases h with h | h
  · exact Or.inl ((updateEntry_executing id f s _).2 ⟨_, h, by rw [if_neg hne]⟩)
  · exact Or.inr h

theorem joiner_claim_other (entry id : Nat) (s : Scheduler) (task : Nat × Nat × Nat × Nat)
    (hne : task.1 ≠ id) :
    (Owned s task → Owned (joiner_claim entry id s) task) ∧
    (Detached s task → Detached (joiner_claim entry id s) task) ∧
    (joiner_claim entry id s).completed = s.completed := by
  unfold joiner_claim
  split
  · exact ⟨fun h => h, fun h => h, rfl⟩
  · split
    · split
      · exact ⟨updateEntry_owned_other id (fun t => { t with task_list := none })
            (fun _ => rfl) s task hne,
          updateEntry_detached_other id (fun t => { t with task_list := none }) s task hne,
          rfl⟩
      · exact ⟨fun h => updateEntry_owned_other id (fun t => { t with begun := true })
            (fun _ => rfl) s task hne h,
          fun h => updateEntry_detached_other id (fun t => { t with begun := true }) s task
            hne h,
          rfl⟩
    · exact ⟨fun h => h, fun h => h, rfl⟩

theorem findSome_held (id : Nat) :
    ∀ (workers : List Worker) (t : task_pool_t),
      Worker.executing t ∈ workers → t.id = id →
      ∃ x, Worker.executing x ∈ workers ∧ x.id = id ∧
        workers.findSome? (fun w =>
          match w with
          | Worker.executing t => if t.id = id then some t else none
          | Worker.waiting => none) = some x
  | [], _, h, _ => by simp at h
  | w :: workers, t, h, hid => by
      cases w with
      | waiting =>
        have h' : Worker.executing t ∈ workers := by
          rcases List.mem_cons.1 h with h | h
          · cases h
          · exact h
        obtain ⟨x, hx, hxid, hfind⟩ := findSome_held id workers t h' hid
        exact ⟨x, List.mem_cons_of_mem _ hx, hxid, by
          simp only [List.findSome?_cons]
          exact hfind⟩
      | executing t0 =>
        by_cases h0 : t0.id = id
        · exact ⟨t0, List.mem_cons_self _ _, h0, by simp [List.findSome?_cons, h0]⟩
        · have h' : Worker.executing t ∈ workers := by
            rcases List.mem_cons.1 h with h | h
            · cases h
              exact absurd hid h0
            · exact h
          obtain ⟨x, hx, hxid, hfind⟩ := findSome_held id workers t h' hid
          exact ⟨x, List.mem_cons_of_mem _ hx, hxid, by
            simp only [List.findSome?_cons, if_neg h0]
            exact hfind⟩

/-- The joiner at the list entry of a task that is not completed: the pool
entry is there; either it has not begun and the joiner begins it, or a worker
has begun it and the joiner lets go of it. -/
theorem joiner_claim_own (s : Scheduler) (task : Nat × Nat × Nat × Nat) (h : Owned s task)
    (hc : task.2.2.2 ∉ s.completed) :
    (findEntry task.1 s =
        some ⟨task.1, task.2.1, task.2.2.1, false, false, some task.2.2.2⟩) ∨
    (findEntry task.1 s =
        some ⟨task.1, task.2.1, task.2.2.1, false, true, some task.2.2.2⟩ ∧
      Detached (joiner_claim task.2.2.2 task.1 s) task) := by
  rcases h with ⟨h1, _, _⟩ | ⟨h1, h2, h3, _⟩ | h
  · left
    unfold findEntry
    rw [filter_head_find _ _ _ _ h1]
  · right
    have hnone : s.task_pool.find? (fun t => decide (t.id = task.1)) = none := by
      rw [List.find?_eq_none]
      intro x hx
      simpa using h1 x hx
    obtain ⟨x, hx, hxid, hfind⟩ := findSome_held task.1 s.workers _ h2 rfl
    have hx' := h3 x hx hxid
    have hfe : findEntry task.1 s =
        some ⟨task.1, task.2.1, task.2.2.1, false, true, some task.2.2.2⟩ := by
      unfold findEntry
      rw [hnone]
      exact hfind.trans (congrArg some hx')
    refine ⟨hfe, ?_⟩
    unfold joiner_claim
    rw [if_neg hc, hfe]
    dsimp only
    rw [if_pos rfl]
    left
    exact (updateEntry_executing _ _ s _).2 ⟨_, h2, by simp⟩
  · exact absurd h hc

theorem launch_owned (created : Bool) (s : Scheduler) (task : Nat × Nat × Nat × Nat)
    (h : Owned s task) : Owned (launch_next_task created s) task := by
  unfold launch_next_task
  split
  · exact h
  · dsimp only
    split
    · exact skip_owned s task h
    · rename_i t rest hcons
      split
      · refine take_owned (skip_over_begun_tasks s) _ t rest hcons ?_ ?_ ?_ task
          (skip_owned s task h)
        · rfl
        · intro x
          show Worker.executing x ∈ s.workers ++ [Worker.executing { t with begun := true }] ↔ _
          simp only [List.mem_append, List.mem_singleton, Worker.executing.injEq]
          rfl
        · rfl
      · exact skip_owned s task h

theorem launchLoop_owned (maxThreads : Int) (task : Nat × Nat × Nat × Nat) :
    ∀ (howMany : Nat) (outcomes : List Bool) (s : Scheduler), Owned s task →
      Owned (launchLoop maxThreads howMany outcomes s) task
  | 0, _, _, h => h
  | howMany + 1, outcomes, s, h => by
      unfold launchLoop
      split
      · exact launchLoop_owned maxThreads task howMany outcomes.tail _
          (launch_owned (outcomes.headD true) s task h)
      · exact h

theorem schedule_owned (maxThreads : Int) (outcomes : List Bool) (howMany : Nat)
    (s : Scheduler) (task : Nat × Nat × Nat × Nat) (h : Owned s task) :
    Owned (schedule_next_task maxThreads outcomes howMany s) task := by
  unfold schedule_next_task
  split
  · dsimp only
    split
    · exact launchLoop_owned maxThreads task 0 outcomes
        { s with waking_cnt := s.waking_cnt + howMany, signals := s.signals + 1 } h
    · exact launchLoop_owned maxThreads task _ outcomes
        { s with waking_cnt := s.waking_cnt + (s.threads_cnt - s.running_cnt - s.waking_cnt),
                 signals := s.signals + 1 } h
  · exact launchLoop_owned maxThreads task howMany outcomes s h

theorem filter_new_entries :
    ∀ (tasks : List (Nat × Nat × Nat × Nat)) (task : Nat × Nat × Nat × Nat),
      (tasks.map (fun x => x.1)).Nodup → task ∈ tasks →
      (tasks.map (fun x => (⟨x.1, x.2.1, x.2.2.1, false, false, some x.2.2.2⟩ :
          task_pool_t))).filter (fun t => decide (t.id = task.1)) =
        [⟨task.1, task.2.1, task.2.2.1, false, false, some task.2.2.2⟩]
  | [], _, _, h => by cases h
  | a :: tasks, task, hnd, h => by
      have hnd' : a.1 ∉ tasks.map (fun x => x.1) ∧ (tasks.map (fun x => x.1)).Nodup :=
        List.nodup_cons.1 hnd
      rcases List.mem_cons.1 h with h | h
      · subst h
        simp only [List.map_cons]
        rw [List.filter_cons_of_pos (by simp)]
        congr 1
        rw [List.filter_eq_nil_iff]
        intro x hx
        obtain ⟨y, hy, hxy⟩ := List.mem_map.1 hx
        rw [← hxy]
        simp only [decide_eq_true_eq]
        intro heq
        exact hnd'.1 (by rw [← heq]; exact List.mem_map_of_mem _ hy)
      · have hne : a.1 ≠ task.1 := fun heq =>
          hnd'.1 (by rw [heq]; exact List.mem_map_of_mem _ h)
        simp only [List.map_cons]
        rw [List.filter_cons_of_neg (by simpa using hne)]
        exact filter_new_entries tasks task hnd'.2 h

/-- After the first loop of the branch that is not serial, the pool entry of
each task added is in the pool and has not begun. -/
theorem addTaskList_owned (s : Scheduler) (tasks : List (Nat × Nat × Nat × Nat))
    (hnd : (tasks.map (fun x => x.1)).Nodup)
    (hfresh : ∀ task ∈ tasks, (∀ t ∈ s.task_pool, t.id ≠ task.1) ∧
      (∀ t, Worker.executing t ∈ s.workers → t.id ≠ task.1) ∧ task.2.2.2 ∉ s.completed) :
    ∀ task ∈ tasks, Owned (addTaskList s tasks) task := by
  intro task htask
  obtain ⟨h1, h2, h3⟩ := hfresh task htask
  obtain ⟨hpool, hwork⟩ := addTaskList_pool tasks s
  obtain ⟨_, _, _, hcomp, _, _⟩ := addTaskList_other tasks s
  refine Or.inl ⟨?_, by rw [hwork]; exact h2, by rw [hcomp]; exact h3⟩
  rw [hpool, List.filter_append]
  have hnil : s.task_pool.filter (fun t => decide (t.id = task.1)) = [] := by
    rw [List.filter_eq_nil_iff]
    intro x hx
    simpa using h1 x hx
  rw [hnil, List.nil_append]
  exact filter_new_entries tasks task hnd htask

theorem withPoolEntries_taskOf (alloc : Nat → Nat) :
    ∀ (l : List (Nat × chpl_task_list)) (k : Nat),
      (withPoolEntries alloc k l).map taskOf = poolTasks alloc k l
  | [], _ => rfl
  | (a, entry) :: l, k => by
      simp only [withPoolEntries, poolTasks, List.map_cons, withPoolEntries_taskOf alloc l (k + 1)]
      rfl

theorem withPoolEntries_entry (alloc : Nat → Nat) :
    ∀ (l : List (Nat × chpl_task_list)) (k : Nat),
      (∀ g ∈ l, g.2.completed = false) →
      ∀ g ∈ withPoolEntries alloc k l,
        g.2.completed = false ∧ g.2.task_pool_entry = some (taskOf g).1
  | [], _, _, g, h => by cases h
  | (a, entry) :: l, k, hc, g, h => by
      simp only [withPoolEntries, List.mem_cons] at h
      rcases h with h | h
      · rw [h]
        exact ⟨hc (a, entry) (List.mem_cons_self _ _), rfl⟩
      · exact withPoolEntries_entry alloc l (k + 1)
          (fun g' hg' => hc g' (List.mem_cons_of_mem _ hg')) g h

theorem workerOnly_head (env : List (List Event))
    (henv : ∀ es ∈ env, ∀ e ∈ es, e.isWorker = true) :
    (∀ e ∈ env.headD [], e.isWorker = true) ∧
    (∀ es ∈ env.tail, ∀ e ∈ es, e.isWorker = true) := by
  cases env with
  | nil => exact ⟨fun e he => (by cases he), fun es hes => (by cases hes)⟩
  | cons es env =>
    exact ⟨fun e he => henv es (List.mem_cons_self _ _) e he,
      fun es' hes' => henv es' (List.mem_cons_of_mem _ hes')⟩

/-- One turn of the second loop at the list entry of a task of the group: the
entry is found completed, or the joiner runs the task, or it lets go of a task
a worker runs; the other tasks stay where they are. -/
theorem joinerVisit_spec (maxThreads : Int) (env : List (List Event)) (a p : Nat)
    (node : chpl_task_list) (st0 : ProcessState)
    (henv : ∀ es ∈ env, ∀ e ∈ es, e.isWorker = true)
    (hcompleted : node.completed = false) (hentry : node.task_pool_entry = some p)
    (howned : Owned st0.sched (p, node.fn, node.arg, a)) :
    ∃ st1 visit, joinerVisit maxThreads env a node st0 = Except.ok st1 ∧
      st1.lists = st0.lists ∧ st1.actions = st0.actions ++ visit ∧
      (∀ task : Nat × Nat × Nat × Nat, task.1 ≠ p →
        Owned st0.sched task → Owned st1.sched task) ∧
      (∀ task : Nat × Nat × Nat × Nat, task.1 ≠ p →
        Detached st0.sched task → Detached st1.sched task) ∧
      (∀ x ∈ st0.sched.completed, x ∈ st1.sched.completed) ∧
      ((visit = [] ∧ a ∈ st1.sched.completed) ∨
        visit = [Action.run node.fn node.arg] ∨
        (visit = [Action.clear_task_list p] ∧ Detached st1.sched (p, node.fn, node.arg, a))) := by
  obtain ⟨henv1, henvt⟩ := workerOnly_head env henv
  obtain ⟨henv2, _⟩ := workerOnly_head env.tail henvt
  obtain ⟨r1, r2, r3⟩ := runEvents_worker maxThreads (env.headD []) st0.sched henv1
  obtain ⟨q1, q2, q3⟩ := runEvents_worker maxThreads (env.tail.headD [])
    (runEvents maxThreads (env.headD []) st0.sched) henv2
  unfold joinerVisit
  simp only [ProcessState.isCompleted, hcompleted, Bool.false_or, decide_eq_true_eq]
  by_cases hc1 : a ∈ (runEvents maxThreads (env.headD []) st0.sched).completed
  · rw [if_pos hc1]
    exact ⟨_, [], rfl, rfl, by simp, fun task _ h => r1 task h, fun task _ h => r2 task h,
      r3, Or.inl ⟨rfl, hc1⟩⟩
  · rw [if_neg hc1]
    by_cases hc2 : a ∈ (runEvents maxThreads (env.tail.headD [])
        (runEvents maxThreads (env.headD []) st0.sched)).completed
    · rw [if_pos hc2]
      exact ⟨_, [], rfl, rfl, by simp, fun task _ h => q1 task (r1 task h),
        fun task _ h => q2 task (r2 task h), fun x hx => q3 x (r3 x hx), Or.inl ⟨rfl, hc2⟩⟩
    · rw [if_neg hc2]
      simp only [hentry]
      have hown2 := q1 _ (r1 _ howned)
      have hother := fun (task : Nat × Nat × Nat × Nat) (hne : task.1 ≠ p) =>
        joiner_claim_other a p (runEvents maxThreads (env.tail.headD [])
          (runEvents maxThreads (env.headD []) st0.sched)) task hne
      rcases joiner_claim_own _ (p, node.fn, node.arg, a) hown2 hc2 with hfe | ⟨hfe, hdet⟩
      · have hfe' : findEntry p (runEvents maxThreads (env.tail.headD [])
            (runEvents maxThreads (env.headD []) st0.sched)) =
            some ⟨p, node.fn, node.arg, false, false, some a⟩ := hfe
        simp only [hfe', Bool.false_eq_true, if_false]
        refine ⟨_, [Action.run node.fn node.arg], rfl, rfl, rfl, ?_, ?_, ?_, Or.inr (Or.inl rfl)⟩
        · exact fun task hne h => (hother task hne).1 (q1 task (r1 task h))
        · exact fun task hne h => (hother task hne).2.1 (q2 task (r2 task h))
        · intro x hx
          show x ∈ (joiner_claim a p _).completed
          rw [(joiner_claim_other a p _ (p + 1, 0, 0, 0) (by simp)).2.2]
          exact q3 x (r3 x hx)
      · have hfe' : findEntry p (runEvents maxThreads (env.tail.headD [])
            (runEvents maxThreads (env.headD []) st0.sched)) =
            some ⟨p, node.fn, node.arg, false, true, some a⟩ := hfe
        simp only [hfe', if_true]
        refine ⟨_, [Action.clear_task_list p], rfl, rfl, rfl, ?_, ?_, ?_,
          Or.inr (Or.inr ⟨rfl, hdet⟩)⟩
        · exact fun task hne h => (hother task hne).1 (q1 task (r1 task h))
        · exact fun task hne h => (hother task hne).2.1 (q2 task (r2 task h))
        · intro x hx
          show x ∈ (joiner_claim a p _).completed
          rw [(joiner_claim_other a p _ (p + 1, 0, 0, 0) (by simp)).2.2]
          exact q3 x (r3 x hx)

theorem joined_cons (s1 final : Scheduler) (task : Nat × Nat × Nat × Nat)
    (tasks : List (Nat × Nat × Nat × Nat)) (visit acts : List Action)
    (hvisit : (visit = [] ∧ task.2.2.2 ∈ s1.completed) ∨
      visit = [Action.run task.2.1 task.2.2.1] ∨
      (visit = [Action.clear_task_list task.1] ∧ Detached s1 task))
    (hmono : ∀ x ∈ s1.completed, x ∈ final.completed)
    (hdet : Detached s1 task → Detached final task)
    (hrest : Joined final tasks acts) :
    Joined final (task :: tasks) (visit ++ Action.chpl_free task.2.2.2 :: acts) := by
  rcases hvisit with ⟨hv, hc⟩ | hv | ⟨hv, hd⟩
  · rw [hv]
    exact Joined.completed task tasks acts (hmono _ hc) hrest
  · rw [hv]
    exact Joined.run task tasks acts hrest
  · rw [hv]
    exact Joined.detached task tasks acts (hdet hd) hrest

/-- The second loop on the entries from `next_task` to `task_list`, the tasks
of which are where `Owned` says: it returns, whatever the worker threads do in
between, and has done for each task what `Joined` says. -/
theorem joinLoop_segment (maxThreads : Int) (task_list : Nat) :
    ∀ (l : List (Nat × chpl_task_list)) (last : Nat × chpl_task_list) (fuel : Nat)
      (env : List (List Event)) (next_task : Nat) (st : ProcessState),
      segment st.lists (l ++ [last]) next_task → last.1 = task_list →
      ((l ++ [last]).map (fun g => g.1)).Nodup → l.length < fuel →
      (∀ g ∈ l ++ [last], g.2.completed = false ∧ g.2.task_pool_entry = some (taskOf g).1) →
      (((l ++ [last]).map taskOf).map (fun task => task.1)).Nodup →
      (∀ es ∈ env, ∀ e ∈ es, e.isWorker = true) →
      (∀ g ∈ l ++ [last], Owned st.sched (taskOf g)) →
      ∃ final acts, joinLoop maxThreads task_list fuel env next_task st = Except.ok final ∧
        final.actions = st.actions ++ acts ∧
        Joined final.sched ((l ++ [last]).map taskOf) acts ∧
        (∀ x ∈ st.sched.completed, x ∈ final.sched.completed) ∧
        (∀ task : Nat × Nat × Nat × Nat,
          task.1 ∉ ((l ++ [last]).map taskOf).map (fun task => task.1) →
          Detached st.sched task → Detached final.sched task)
  | _, _, 0, _, _, _, _, _, _, hlt, _, _, _, _ => absurd hlt (Nat.not_lt_zero _)
  | [], (a, node), fuel + 1, env, next_task, st, hseg, hlast, _, _, hg, _, henv, hown => by
      obtain ⟨h1, h2, _⟩ := hseg
      subst h1
      have hlast' : next_task = task_list := hlast
      obtain ⟨hc, he⟩ := hg (next_task, node) (by simp)
      obtain ⟨st1, visit, g1, _, g3, _, g5, g6, g7⟩ := joinerVisit_spec maxThreads env
        next_task (taskOf (next_task, node)).1 node st henv hc he
        (hown (next_task, node) (by simp))
      unfold joinLoop
      simp only [h2, g1]
      rw [if_neg (by simp [hlast'])]
      refine ⟨_, visit ++ [Action.chpl_free next_task], rfl, ?_, ?_, g6, ?_⟩
      · simp [ProcessState.chpl_free, g3]
      · exact joined_cons st1.sched _ (taskOf (next_task, node)) [] visit [] g7
          (fun x hx => hx) (fun h => h) Joined.nil
      · intro task hnot hd
        exact g5 task (by simpa using hnot) hd
  | (a, node) :: l, last, fuel + 1, env, next_task, st, hseg, hlast, hnd, hlt, hg, hids,
      henv, hown => by
      obtain ⟨h1, h2, h3⟩ := hseg
      subst h1
      have hnd' : next_task ∉ (l ++ [last]).map (fun g => g.1) ∧
          ((l ++ [last]).map (fun g => g.1)).Nodup := by
        simpa using hnd
      have hids' : (taskOf (next_task, node)).1 ∉
            ((l ++ [last]).map taskOf).map (fun task => task.1) ∧
          (((l ++ [last]).map taskOf).map (fun task => task.1)).Nodup :=
        List.nodup_cons.1 hids
      have hne : next_task ≠ task_list := by
        intro heq
        apply hnd'.1
        rw [heq, ← hlast]
        simp
      obtain ⟨hc, he⟩ := hg (next_task, node) (List.mem_cons_self _ _)
      obtain ⟨st1, visit, g1, g2, g3, g4, g5, g6, g7⟩ := joinerVisit_spec maxThreads env
        next_task (taskOf (next_task, node)).1 node st henv hc he
        (hown (next_task, node) (List.mem_cons_self _ _))
      have hseg' : segment (st1.chpl_free next_task).lists (l ++ [last]) node.next :=
        segment_congr st.lists _ _ _ (fun x hx => by
          have : x ≠ next_task := fun hxa => hnd'.1 (by rw [← hxa]; exact hx)
          simp [ProcessState.chpl_free, this, g2]) h3
      have hown' : ∀ g ∈ l ++ [last], Owned (st1.chpl_free next_task).sched (taskOf g) := by
        intro g hgm
        apply g4 (taskOf g) _ (hown g (List.mem_cons_of_mem _ hgm))
        intro heq
        apply hids'.1
        rw [← heq]
        exact List.mem_map_of_mem _ (List.mem_map_of_mem _ hgm)
      obtain ⟨final, acts, k1, k2, k3, k4, k5⟩ := joinLoop_segment maxThreads task_list l last
        fuel env.tail.tail node.next (st1.chpl_free next_task) hseg' hlast hnd'.2
        (by simp only [List.length_cons] at hlt; omega)
        (fun g hgm => hg g (List.mem_cons_of_mem _ hgm)) hids'.2
        (workerOnly_head env.tail (workerOnly_head env henv).2).2 hown'
      unfold joinLoop
      simp only [h2, g1]
      rw [if_pos hne]
      refine ⟨final, visit ++ Action.chpl_free next_task :: acts, k1, ?_, ?_, ?_, ?_⟩
      · rw [k2]
        simp [ProcessState.chpl_free, g3]
      · exact joined_cons st1.sched final.sched (taskOf (next_task, node)) _ visit acts g7 k4
          (k5 _ hids'.1) k3
      · exact fun x hx => k4 x (g6 x hx)
      · intro task hnot hd
        have hnot' : task.1 ≠ (taskOf (next_task, node)).1 ∧
            task.1 ∉ ((l ++ [last]).map taskOf).map (fun task => task.1) := by
          simpa using hnot
        exact k5 task hnot'.2 (g5 task hnot'.1 hd)

theorem withPoolEntries_append (alloc : Nat → Nat) :
    ∀ (l : List (Nat × chpl_task_list)) (x : Nat × chpl_task_list) (k : Nat),
      withPoolEntries alloc k (l ++ [x]) =
        withPoolEntries alloc k l ++
          [(x.1, { x.2 with task_pool_entry := some (alloc (k + l.length)) })]
  | [], (a, entry), k => rfl
  | (b, entry') :: l, x, k => by
      have hk : k + 1 + l.length = k + (l.length + 1) := by omega
      show (b, { entry' with task_pool_entry := some (alloc k) }) ::
          withPoolEntries alloc (k + 1) (l ++ [x]) = _
      rw [withPoolEntries_append alloc l x (k + 1), hk]
      rfl

theorem withPoolEntries_length (alloc : Nat → Nat) :
    ∀ (l : List (Nat × chpl_task_list)) (k : Nat),
      (withPoolEntries alloc k l).length = l.length
  | [], _ => rfl
  | (a, entry) :: l, k => by
      simp only [withPoolEntries, List.length_cons, withPoolEntries_length alloc l (k + 1)]

/-- C26 (amended): `chpl_process_task_list` not in serial mode, on a task
list of two entries or more whose pool entries get addresses not in use, and
whatever the worker threads do in between, returns, having run task 1 on the
calling thread; for each other task, in the order of the list, its second
loop has found the list entry completed (a worker has finished the task), or
has run the task on the calling thread, or has found the task begun by a
worker and not completed: then it stores a null `task_list` in the pool entry
and goes on without waiting, and at the return the worker still runs the task
or has freed its pool entry since. -/
theorem chpl_process_task_list_join (maxThreads : Int) (ndebug : Bool)
    (outcomes : List Bool) (alloc : Nat → Nat) (env : List (List Event)) (fuel : Nat)
    (task_list : Nat) (st : ProcessState) (e1 : Nat) (n1 : chpl_task_list)
    (rest : List (Nat × chpl_task_list))
    (hc : Circular st.lists task_list ((e1, n1) :: rest))
    (hn : 2 ≤ ((e1, n1) :: rest).length) (hfuel : rest.length ≤ fuel)
    (hcompleted : ∀ g ∈ rest, g.2.completed = false)
    (hnd : ((poolTasks alloc 0 rest).map (fun task => task.1)).Nodup)
    (hfresh : ∀ task ∈ poolTasks alloc 0 rest,
      (∀ t ∈ st.sched.task_pool, t.id ≠ task.1) ∧
      (∀ t, Worker.executing t ∈ st.sched.workers → t.id ≠ task.1) ∧
      task.2.2.2 ∉ st.sched.completed)
    (henv : ∀ es ∈ env, ∀ e ∈ es, e.isWorker = true) :
    ∃ final acts,
      chpl_process_task_list maxThreads ndebug false outcomes alloc env fuel (some task_list)
        st = Except.ok final ∧
      final.actions = st.actions ++ addActions rest ++
        [Action.schedule_next_task rest.length, Action.run n1.fn n1.arg,
          Action.chpl_free e1] ++ acts ∧
      Joined final.sched (poolTasks alloc 0 rest) acts := by
  have hrest : rest ≠ [] := by
    intro h
    rw [h] at hn
    simp at hn
  obtain ⟨st1, g1, g2, g3, g4, g5, last, g6⟩ := process_task_list_first_spec maxThreads ndebug
    outcomes alloc fuel task_list st e1 n1 rest hc hrest hfuel
  obtain ⟨l, hl⟩ := getLast_split rest _ g6
  have hown : ∀ task ∈ poolTasks alloc 0 rest, Owned st1.sched task := by
    intro task htask
    rw [g2]
    unfold process_task_list_add
    exact schedule_owned maxThreads outcomes _ _ task
      (addTaskList_owned st.sched _ hnd hfresh task htask)
  have hsplit : withPoolEntries alloc 0 rest = withPoolEntries alloc 0 l ++
      [(task_list, { last with task_pool_entry := some (alloc (0 + l.length)) })] := by
    rw [hl]
    exact withPoolEntries_append alloc l (task_list, last) 0
  have hseg := g4
  rw [hsplit] at hseg
  have haddr : ((withPoolEntries alloc 0 l ++
      [(task_list, { last with task_pool_entry := some (alloc (0 + l.length)) })]).map
        (fun g : Nat × chpl_task_list => g.1)).Nodup := by
    rw [← hsplit, withPoolEntries_addresses]
    exact g5
  obtain ⟨final, acts, k1, k2, k3, _, _⟩ := joinLoop_segment maxThreads task_list
    (withPoolEntries alloc 0 l)
    (task_list, { last with task_pool_entry := some (alloc (0 + l.length)) }) fuel env n1.next
    st1 hseg rfl haddr
    (by
      rw [withPoolEntries_length]
      rw [hl] at hfuel
      simp only [List.length_append, List.length_singleton] at hfuel
      omega)
    (by
      rw [← hsplit]
      exact withPoolEntries_entry alloc rest 0 hcompleted)
    (by
      rw [← hsplit, withPoolEntries_taskOf]
      exact hnd)
    henv
    (by
      rw [← hsplit]
      intro g hg
      apply hown
      rw [← withPoolEntries_taskOf]
      exact List.mem_map_of_mem _ hg)
  refine ⟨final, acts, ?_, ?_, ?_⟩
  · unfold chpl_process_task_list
    simp only [Bool.false_eq_true, if_false, g1]
    exact k1
  · rw [k2, g3]
  · rw [← hsplit, withPoolEntries_taskOf] at k3
    exact k3

theorem chpl_process_task_list_join_witness :
    ∃ final acts,
      chpl_process_task_list 0 false false [] (fun k => 20 + k) [[Event.worker_finish 0]] 2
        (some 13) ⟨initChplThreads, sampleLists, []⟩ = Except.ok final ∧
      final.actions = [Action.add_to_task_pool 102 2 false 12,
        Action.add_to_task_pool 103 3 false 13, Action.schedule_next_task 2,
        Action.run 101 1, Action.chpl_free 11] ++ acts ∧
      Joined final.sched [(20, 102, 2, 12), (21, 103, 3, 13)] acts :=
  chpl_process_task_list_join 0 false [] (fun k => 20 + k) [[Event.worker_finish 0]] 2 13
    ⟨initChplThreads, sampleLists, []⟩ 11 ⟨101, 1, none, 12, false⟩
    [(12, ⟨102, 2, none, 13, false⟩), (13, ⟨103, 3, none, 11, false⟩)]
    sampleGroup_circular (by decide) (by decide) (by decide) (by decide)
    (fun _ _ => ⟨fun _ h => (nomatch h), fun _ h => (nomatch h), fun h => (nomatch h)⟩)
    (by decide)

/-- C26 as stated fails: on the task list `sampleLists`, from the state of
`initChplThreads` with `maxThreads = 0`, `chpl_process_task_list` returns
while the two threads created for the tasks 2 and 3 still run them
(`running_cnt` is 2 and no list entry is completed): the joiner has found both
pool entries begun and has stored a null `task_list` in each. -/
theorem chpl_process_task_list_join_counterexample :
    (chpl_process_task_list 0 false false [] (fun k => 20 + k) [] 2 (some 13)
      ⟨initChplThreads, sampleLists, []⟩).toOption.map
        (fun st => (st.sched.workers, st.sched.running_cnt, st.sched.completed, st.actions)) =
      some ([Worker.executing ⟨20, 102, 2, false, true, none⟩,
          Worker.executing ⟨21, 103, 3, false, true, none⟩], 2, [],
        [Action.add_to_task_pool 102 2 false 12, Action.add_to_task_pool 103 3 false 13,
          Action.schedule_next_task 2, Action.run 101 1, Action.chpl_free 11,
          Action.clear_task_list 20, Action.chpl_free 12, Action.clear_task_list 21,
          Action.chpl_free 13]) := by
  rfl

theorem executing_add_waiting : ∀ (workers : List Worker),
    executingCount workers + waitingCount workers = workers.length
  | [] => rfl
  | Worker.executing t :: workers => by
      have ih := executing_add_waiting workers
      simp only [executingCount, waitingCount, List.filter_cons, List.length_cons] at ih ⊢
      simp only [if_true, Bool.false_eq_true, if_false, List.length_cons]
      omega
  | Worker.waiting :: workers => by
      have ih := executing_add_waiting workers
      simp only [executingCount, waitingCount, List.filter_cons, List.length_cons] at ih ⊢
      simp only [if_true, Bool.false_eq_true, if_false, List.length_cons]
      omega

/-- C36: in every state reachable from the state of `initChplThreads`,
`running_cnt` is the number of worker threads that run a task and
`threads_cnt` the number of worker threads created, so `running_cnt` plus the
number of workers that wait for work is `threads_cnt`; and `running_cnt` and
`waking_cnt` are not negative. -/
theorem counters_count_workers (maxThreads : Int) (s : Scheduler)
    (h : Reachable maxThreads s) :
    s.running_cnt = (executingCount s.workers : Int) ∧
    s.threads_cnt = (s.workers.length : Int) ∧
    s.running_cnt + (waitingCount s.workers : Int) = s.threads_cnt ∧
    0 ≤ s.running_cnt ∧ 0 ≤ s.waking_cnt := by
  obtain ⟨h1, h2, h3, _⟩ := reachable_inv maxThreads s h
  have h4 := executing_add_waiting s.workers
  refine ⟨h1, h2, ?_, ?_, h3⟩
  · rw [h1, h2]
    exact_mod_cast h4
  · rw [h1]
    exact Int.natCast_nonneg _

theorem counters_count_workers_witness :
    (worker_finish 0 (chpl_begin 0 [true] 1 7 8 false initChplThreads)).map
        (fun s => (s.running_cnt, s.threads_cnt, waitingCount s.workers, s.waking_cnt)) =
      some (0, 1, 1, 0) ∧
    ((⟨[], 0, 0, 1, false, [Worker.waiting], [], [1], 0, 1, 0⟩ : Scheduler).running_cnt +
      (waitingCount [Worker.waiting] : Int) = 1) :=
  ⟨by decide,
    (counters_count_workers 0 ⟨[], 0, 0, 1, false, [Worker.waiting], [], [1], 0, 1, 0⟩
      (Reachable.step _ _
        (Reachable.step _ _ Reachable.init (Step.chpl_begin _ [true] 1 7 8 false))
        (Step.worker_finish _ _ 0 rfl))).2.2.1⟩

/-- C34: the step of a worker from waiting to running a task in
`chpl_begin_helper`, the head of the pool being there and not begun: the step
happens; `waking_cnt` goes down by one exactly when it is positive (and is not
made negative), `running_cnt` goes up by one, the head entry leaves the pool
and is the task of the worker, marked begun, and `wakeup_signal` is signalled
again exactly when entries are left in the pool and `waking_cnt` is positive
after the decrement.  Nothing is freed and no thread is created. -/
theorem worker_take_transition (i : Nat) (s : Scheduler) (task : task_pool_t)
    (rest : List task_pool_t) (hw : s.workers.get? i = some Worker.waiting)
    (hpool : s.task_pool = task :: rest) (hb : task.begun = false) :
    ∃ s', worker_take i s = some s' ∧
      s'.waking_cnt = (if s.waking_cnt > 0 then s.waking_cnt - 1 else s.waking_cnt) ∧
      (0 ≤ s.waking_cnt → 0 ≤ s'.waking_cnt) ∧
      s'.running_cnt = s.running_cnt + 1 ∧
      s'.task_pool = rest ∧
      s'.workers = s.workers.set i (Worker.executing { task with begun := true }) ∧
      s'.signals = (if rest ≠ [] ∧ s'.waking_cnt > 0 then s.signals + 1 else s.signals) ∧
      s'.threads_cnt = s.threads_cnt ∧ s'.freed = s.freed ∧ s'.creations = s.creations := by
  have hdrop : s.task_pool.dropWhile (fun t => t.begun) = task :: rest := by
    rw [hpool, List.dropWhile_cons_of_neg (by rw [hb]; exact Bool.false_ne_true)]
  have htake : s.task_pool.takeWhile (fun t => t.begun) = [] := by
    rw [hpool, List.takeWhile_cons_of_neg (by rw [hb]; exact Bool.false_ne_true)]
  have hskip : (skip_over_begun_tasks s).task_pool = task :: rest := hdrop
  unfold worker_take
  simp only [hw, hskip]
  refine ⟨_, rfl, rfl, ?_, rfl, rfl, rfl, rfl, rfl, ?_, rfl⟩
  · intro h0
    show 0 ≤ (if s.waking_cnt > 0 then s.waking_cnt - 1 else s.waking_cnt)
    split <;> omega
  · show s.freed ++ (s.task_pool.takeWhile (fun t => t.begun)).map (fun t => t.id) = s.freed
    rw [htake]
    simp

theorem worker_take_transition_witness :
    ∃ s', worker_take 0
        { oneIdleWorker with
          waking_cnt := 2
          task_pool := [⟨1, 7, 8, false, false, none⟩, ⟨2, 7, 9, false, false, none⟩] } =
        some s' ∧
      s'.waking_cnt = 1 ∧ (0 ≤ (2 : Int) → 0 ≤ s'.waking_cnt) ∧ s'.running_cnt = 1 ∧
      s'.task_pool = [⟨2, 7, 9, false, false, none⟩] ∧
      s'.workers = [Worker.executing ⟨1, 7, 8, false, true, none⟩] ∧
      s'.signals = (if [(⟨2, 7, 9, false, false, none⟩ : task_pool_t)] ≠ [] ∧ s'.waking_cnt > 0
        then 1 else 0) ∧
      s'.threads_cnt = 1 ∧ s'.freed = [] ∧ s'.creations = 0 :=
  worker_take_transition 0
    { oneIdleWorker with
      waking_cnt := 2
      task_pool := [⟨1, 7, 8, false, false, none⟩, ⟨2, 7, 9, false, false, none⟩] }
    ⟨1, 7, 8, false, false, none⟩ [⟨2, 7, 9, false, false, none⟩] rfl rfl rfl

/-- C35: the step of the joiner in the second loop of `chpl_process_task_list`
at a list entry, no other thread running in between.  An entry that is
completed is left as it is: nothing is run and nothing is written.  For an
entry that is not completed, whose pool entry is at `id`: if the pool entry
has begun, `task_list` of that pool entry is set to null, nothing else of the
scheduler changes and the joiner runs nothing; otherwise the pool entry is
marked begun, `waking_cnt` goes down by one exactly when it is positive, and
the joiner runs the function of the task once, after the critical section. -/
theorem joinerVisit_step (maxThreads : Int) (next_task : Nat) (task : chpl_task_list)
    (st : ProcessState) :
    (st.isCompleted next_task task = true →
      joinerVisit maxThreads [] next_task task st = Except.ok st) ∧
    (∀ (id : Nat) (entry : task_pool_t), st.isCompleted next_task task = false →
      task.task_pool_entry = some id → findEntry id st.sched = some entry →
      (entry.begun = true →
        joinerVisit maxThreads [] next_task task st = Except.ok
          { st with
            sched := updateEntry id (fun t => { t with task_list := none }) st.sched
            actions := st.actions ++ [Action.clear_task_list id] }) ∧
      (entry.begun = false →
        joinerVisit maxThreads [] next_task task st = Except.ok
          { st with
            sched :=
              { updateEntry id (fun t => { t with begun := true }) st.sched with
                waking_cnt :=
                  if st.sched.waking_cnt > 0 then st.sched.waking_cnt - 1
                  else st.sched.waking_cnt }
            actions := st.actions ++ [Action.run entry.fn entry.arg] })) ∧
    (∀ (id : Nat) (f : task_pool_t → task_pool_t),
      (updateEntry id f st.sched).task_pool =
        st.sched.task_pool.map (fun t => if t.id = id then f t else t) ∧
      (updateEntry id f st.sched).workers.length = st.sched.workers.length ∧
      (updateEntry id f st.sched).waking_cnt = st.sched.waking_cnt ∧
      (updateEntry id f st.sched).running_cnt = st.sched.running_cnt ∧
      (updateEntry id f st.sched).threads_cnt = st.sched.threads_cnt ∧
      (updateEntry id f st.sched).completed = st.sched.completed ∧
      (updateEntry id f st.sched).freed = st.sched.freed) := by
  refine ⟨?_, ?_, ?_⟩
  · intro hc
    unfold joinerVisit
    simp only [List.headD_nil, runEvents]
    rw [if_pos hc]
  · intro id entry hc hid hfind
    have hnc : next_task ∉ st.sched.completed := by
      intro hmem
      unfold ProcessState.isCompleted at hc
      simp [hmem] at hc
    constructor
    · intro hb
      unfold joinerVisit
      simp only [List.headD_nil, List.tail_nil, runEvents, hc, Bool.false_eq_true, if_false,
        hid, hfind, hb, if_true]
      unfold joiner_claim
      simp only [hnc, if_false, hfind, hb, if_true]
    · intro hb
      unfold joinerVisit
      simp only [List.headD_nil, List.tail_nil, runEvents, hc, Bool.false_eq_true, if_false,
        hid, hfind, hb]
      unfold joiner_claim
      simp only [hnc, if_false, hfind, hb, Bool.false_eq_true]
      rfl
  · intro id f
    exact ⟨rfl, by simp [updateEntry], rfl, rfl, rfl, rfl, rfl⟩

theorem joinerVisit_step_witness :
    joinerVisit 0 [] 12 ⟨102, 2, some 20, 13, false⟩
        ⟨{ initChplThreads with task_pool := [⟨20, 102, 2, false, false, some 12⟩],
                                waking_cnt := 1 }, sampleLists, []⟩ =
      Except.ok
        ⟨{ initChplThreads with task_pool := [⟨20, 102, 2, false, true, some 12⟩],
                                waking_cnt := 0 }, sampleLists, [Action.run 102 2]⟩ :=
  ((joinerVisit_step 0 12 ⟨102, 2, some 20, 13, false⟩
      ⟨{ initChplThreads with task_pool := [⟨20, 102, 2, false, false, some 12⟩],
                              waking_cnt := 1 }, sampleLists, []⟩).2.1 20
      ⟨20, 102, 2, false, false, some 12⟩ rfl rfl rfl).2 rfl

/-- C33: `chpl_begin(fp, a, ignore_serial, serial_state)` returns 0.  When
`ignore_serial` is false and the serial state of the calling thread is true,
it runs `fp(a)` on the calling thread and leaves the scheduler as it is.
Otherwise it runs nothing on the calling thread: it adds one entry at the tail
of the pool, with `fun = fp`, `arg = a`, `serial_state`, `begun` false and a
null `task_list`, and then calls `schedule_next_task(1)`. -/
theorem chpl_begin_spec (st : ProcessState) (maxThreads : Int) (outcomes : List Bool)
    (serial : Bool) (id fp a : Nat) (ignore_serial serial_state : Bool) :
    (st.chpl_begin maxThreads outcomes serial id fp a ignore_serial serial_state).2 = 0 ∧
    (ignore_serial = false → serial = true →
      (st.chpl_begin maxThreads outcomes serial id fp a ignore_serial serial_state).1.sched =
        st.sched ∧
      (st.chpl_begin maxThreads outcomes serial id fp a ignore_serial serial_state).1.actions =
        st.actions ++ [Action.run fp a]) ∧
    (¬ (ignore_serial = false ∧ serial = true) →
      (st.chpl_begin maxThreads outcomes serial id fp a ignore_serial serial_state).1.sched =
        schedule_next_task maxThreads outcomes 1
          (add_to_task_pool st.sched id fp a serial_state none) ∧
      (add_to_task_pool st.sched id fp a serial_state none).task_pool =
        st.sched.task_pool ++ [⟨id, fp, a, serial_state, false, none⟩] ∧
      (st.chpl_begin maxThreads outcomes serial id fp a ignore_serial serial_state).1.actions =
        st.actions) := by
  refine ⟨?_, ?_, ?_⟩
  · unfold ProcessState.chpl_begin
    split <;> rfl
  · intro h1 h2
    unfold ProcessState.chpl_begin
    rw [h1, h2]
    exact ⟨rfl, rfl⟩
  · intro h
    have hcond : (!ignore_serial && serial) = false := by
      cases ignore_serial <;> cases serial <;> simp at h ⊢
    unfold ProcessState.chpl_begin
    rw [hcond]
    exact ⟨rfl, rfl, rfl⟩

theorem chpl_begin_spec_witness :
    ((⟨oneIdleWorker, sampleLists, []⟩ : ProcessState).chpl_begin 2 [] true 1 7 8 false
        false).1.sched = oneIdleWorker ∧
    ((⟨oneIdleWorker, sampleLists, []⟩ : ProcessState).chpl_begin 2 [] true 1 7 8 false
        false).1.actions = [Action.run 7 8] ∧
    ((⟨oneIdleWorker, sampleLists, []⟩ : ProcessState).chpl_begin 2 [] true 1 7 8 true
        false).1.actions = [] :=
  ⟨((chpl_begin_spec ⟨oneIdleWorker, sampleLists, []⟩ 2 [] true 1 7 8 false false).2.1
      rfl rfl).1,
    ((chpl_begin_spec ⟨oneIdleWorker, sampleLists, []⟩ 2 [] true 1 7 8 false false).2.1
      rfl rfl).2,
    ((chpl_begin_spec ⟨oneIdleWorker, sampleLists, []⟩ 2 [] true 1 7 8 true false).2.2
      (by decide)).2.2⟩

/-- On a consistent pool `skip_over_begun_tasks` returns, having freed the
entries of the longest prefix of the pool that have begun, and leaves the
other entries as they are, in the same order. -/
theorem skip_prefix : ∀ (l : List Nat) (fuel : Nat) (m : PoolMem), m.Consistent →
    chain m.mem l m.task_pool_head → l.length < fuel →
    ∃ m' pre post, l = pre ++ post ∧ m.skip_over_begun_tasks fuel = some m' ∧
      m'.Consistent ∧ chain m'.mem post m'.task_pool_head ∧
      (∀ a ∈ pre, ∃ e, m.mem a = some e ∧ e.begun = true) ∧
      (∀ a ∈ pre, m'.mem a = none) ∧
      (∀ a, a ∉ pre → m'.mem a = m.mem a) ∧
      (∀ a rest, post = a :: rest → ∃ e, m'.mem a = some e ∧ e.begun = false)
  | _, 0, _, _, _, hlt => absurd hlt (Nat.not_lt_zero _)
  | [], fuel + 1, m, h, hl, _ => by
      have hh : m.task_pool_head = none := hl
      refine ⟨m, [], [], rfl, ?_, h, hl, fun a ha => (by cases ha), fun a ha => (by cases ha),
        fun _ _ => rfl, fun a rest hp => (by cases hp)⟩
      unfold PoolMem.skip_over_begun_tasks
      rw [hh]
  | a :: l, fuel + 1, m, h, hl, hlt => by
      obtain ⟨hh, e, he, hrest⟩ := hl
      unfold PoolMem.skip_over_begun_tasks
      rw [hh]
      simp only [he]
      by_cases hb : e.begun = true
      · rw [if_pos hb]
        have hc := pop_consistent m h a e hh he
          ({ m with task_pool_head := e.next }.store a none)
          (fun q hq => by simp [PoolMem.store, hq]) rfl rfl
        have hnm : a ∉ l := chain_not_mem m.mem a l ⟨rfl, e, he, hrest⟩
        have hm : (({ m with task_pool_head := e.next }.store a none).resetTail).mem =
            fun q => if q = a then none else m.mem q := by
          unfold PoolMem.resetTail
          split <;> rfl
        have hd : (({ m with task_pool_head := e.next }.store a none).resetTail).task_pool_head =
            e.next := by
          unfold PoolMem.resetTail
          split <;> rfl
        have hrest' : chain (({ m with task_pool_head := e.next }.store a none).resetTail).mem l
            (({ m with task_pool_head := e.next }.store a none).resetTail).task_pool_head := by
          rw [hm, hd]
          exact chain_congr m.mem _ l e.next
            (fun x hx => by
              have : x ≠ a := fun hxa => hnm (by rw [← hxa]; exact hx)
              simp [this]) hrest
        obtain ⟨m', pre, post, g1, g2, g3, g4, g5, g6, g7, g8⟩ := skip_prefix l fuel _ hc hrest'
          (by simp only [List.length_cons] at hlt; omega)
        have hpre : a ∉ pre := fun ha => hnm (by rw [g1]; exact List.mem_append_left _ ha)
        refine ⟨m', a :: pre, post, by rw [g1]; rfl, g2, g3, g4, ?_, ?_, ?_, g8⟩
        · intro x hx
          rcases List.mem_cons.1 hx with hx | hx
          · rw [hx]
            exact ⟨e, he, hb⟩
          · obtain ⟨e', he', hb'⟩ := g5 x hx
            rw [hm] at he'
            have hxa : x ≠ a := fun hxa => hpre (by rw [← hxa]; exact hx)
            simp only [hxa, if_false] at he'
            exact ⟨e', he', hb'⟩
        · intro x hx
          rcases List.mem_cons.1 hx with hx | hx
          · rw [hx, g7 a hpre, hm]
            simp
          · exact g6 x hx
        · intro x hx
          have hx' : x ≠ a ∧ x ∉ pre := by simpa using hx
          rw [g7 x hx'.2, hm]
          simp [hx'.1]
      · rw [if_neg hb]
        refine ⟨m, [], a :: l, rfl, rfl, h, ⟨hh, e, he, hrest⟩, fun x hx => (by cases hx),
          fun x hx => (by cases hx), fun _ _ => rfl, ?_⟩
        intro x rest hp
        cases hp
        exact ⟨e, he, by simpa using hb⟩

/-- C40: the assertion of the worker loop holds.  On a consistent pool, with
`l` the entries from `task_pool_head` on, `skip_over_begun_tasks` returns,
having freed a prefix of `l` whose entries had all begun, and leaves the rest
of `l` as it was, in the same order, with a first entry that has not begun;
and the wait of `chpl_begin_helper` gets either to `pthread_cond_wait`, the
pool being empty, or to `assert (task_pool_head && !task_pool_head->begun)`
with a head that is not null and an entry there that has not begun: the
condition of the `assert` is true whenever it is reached. -/
theorem worker_assertion_holds (m : PoolMem) (h : m.Consistent) (l : List Nat)
    (hl : chain m.mem l m.task_pool_head) (fuel : Nat) (hfuel : l.length < fuel) :
    (∃ m' pre post, l = pre ++ post ∧ m.skip_over_begun_tasks fuel = some m' ∧
      chain m'.mem post m'.task_pool_head ∧
      (∀ a ∈ pre, ∃ e, m.mem a = some e ∧ e.begun = true) ∧
      (∀ a ∈ pre, m'.mem a = none) ∧
      (∀ a, a ∉ pre → m'.mem a = m.mem a) ∧
      (∀ a rest, post = a :: rest → ∃ e, m'.mem a = some e ∧ e.begun = false)) ∧
    ((∃ m', m.chpl_begin_helper_wait fuel = some (WaitResult.blocked m') ∧
        m'.task_pool_head = none ∧ m'.Consistent) ∨
      (∃ m' task e, m.chpl_begin_helper_wait fuel = some (WaitResult.asserted m' true) ∧
        m'.task_pool_head = some task ∧ m'.mem task = some e ∧ e.begun = false ∧
        m'.Consistent)) ∧
    (∀ m', m.chpl_begin_helper_wait fuel ≠ some (WaitResult.asserted m' false)) := by
  obtain ⟨m', pre, post, g1, g2, g3, g4, g5, g6, g7, g8⟩ := skip_prefix l fuel m h hl hfuel
  have hwait : (∃ m', m.chpl_begin_helper_wait fuel = some (WaitResult.blocked m') ∧
        m'.task_pool_head = none ∧ m'.Consistent) ∨
      (∃ m' task e, m.chpl_begin_helper_wait fuel = some (WaitResult.asserted m' true) ∧
        m'.task_pool_head = some task ∧ m'.mem task = some e ∧ e.begun = false ∧
        m'.Consistent) := by
    unfold PoolMem.chpl_begin_helper_wait
    cases hh : m.task_pool_head with
    | none => exact Or.inl ⟨m, rfl, hh, h⟩
    | some a0 =>
      simp only [g2]
      cases post with
      | nil =>
        have hn : m'.task_pool_head = none := g4
        rw [hn]
        exact Or.inl ⟨m', rfl, hn, g3⟩
      | cons a rest =>
        obtain ⟨e, he, hb⟩ := g8 a rest rfl
        have hs : m'.task_pool_head = some a := g4.1
        rw [hs]
        simp only [he, hb, Bool.not_false]
        exact Or.inr ⟨m', a, e, rfl, hs, he, hb, g3⟩
  refine ⟨⟨m', pre, post, g1, g2, g4, g5, g6, g7, g8⟩, hwait, ?_⟩
  intro m2 hm2
  rcases hwait with ⟨m3, h3, _⟩ | ⟨m3, _, _, h3, _⟩
  · rw [h3] at hm2
    cases hm2
  · rw [h3] at hm2
    cases hm2

theorem samplePool_chain : chain samplePool.mem [1, 2] samplePool.task_pool_head :=
  ⟨rfl, ⟨7, 8, false, none, true, some 2⟩, rfl, rfl, ⟨7, 9, false, none, false, none⟩, rfl, rfl⟩

theorem worker_assertion_holds_witness :
    (∃ m', samplePool.chpl_begin_helper_wait 3 = some (WaitResult.blocked m') ∧
        m'.task_pool_head = none ∧ m'.Consistent) ∨
      (∃ m' task e, samplePool.chpl_begin_helper_wait 3 = some (WaitResult.asserted m' true) ∧
        m'.task_pool_head = some task ∧ m'.mem task = some e ∧ e.begun = false ∧
        m'.Consistent) :=
  (worker_assertion_holds samplePool samplePool_consistent [1, 2] samplePool_chain 3
    (by decide)).2.1

/-- The entries of a segment are allocated and hold what the segment says. -/
theorem segment_mem (lists : Nat → Option chpl_task_list) :
    ∀ (l : List (Nat × chpl_task_list)) (p : Nat), segment lists l p →
      ∀ g ∈ l, lists g.1 = some g.2
  | [], _, _, _, hg => nomatch hg
  | (a, entry) :: l, _, h, g, hg => by
      rcases List.mem_cons.1 hg with hg | hg
      · rw [hg]
        exact h.2.1
      · exact segment_mem lists l entry.next h.2.2 g hg

/-- A segment that ends in the entry at `h`, after the entry at `t` is
appended behind it. -/
theorem segment_snoc (lists lists' : Nat → Option chpl_task_list) (h t : Nat)
    (last last' new : chpl_task_list) (hh : lists' h = some last') (ht : lists' t = some new)
    (hnext : last'.next = t)
    (hother : ∀ q, q ≠ h → q ≠ t → lists' q = lists q) :
    ∀ (pre : List (Nat × chpl_task_list)) (p : Nat),
      segment lists (pre ++ [(h, last)]) p →
      h ∉ pre.map (fun g => g.1) → t ∉ pre.map (fun g => g.1) →
      segment lists' (pre ++ [(h, last'), (t, new)]) p
  | [], _, hs, _, _ => ⟨hs.1, hh, hnext.symm ▸ rfl, ht, trivial⟩
  | (a, entry) :: pre, p, hs, h1, h2 => by
      obtain ⟨g1, g2, g3⟩ := hs
      have h1' : h ≠ a ∧ h ∉ pre.map (fun g => g.1) := by simpa using h1
      have h2' : t ≠ a ∧ t ∉ pre.map (fun g => g.1) := by simpa using h2
      refine ⟨g1, ?_, segment_snoc lists lists' h t last last' new hh ht hnext hother pre
        entry.next g3 h1'.2 h2'.2⟩
      rw [hother a (Ne.symm h1'.1) (Ne.symm h2'.1)]
      exact g2

/-- A call of `chpl_add_to_task_list` on a circular list, with an address
that is not allocated: the list is circular, with the new entry last and
the handle on it. -/
theorem chpl_add_to_task_list_circular (c : AddCall) (lists : Nat → Option chpl_task_list)
    (h : Nat) (group : List (Nat × chpl_task_list)) (hc : Circular lists h group)
    (hfresh : lists c.task = none) :
    ∃ lists' group', chpl_add_to_task_list c lists (some h) = Except.ok (lists', some c.task) ∧
      Circular lists' c.task group' ∧
      group'.map entryFields = group.map entryFields ++ [c.written] ∧
      group'.head?.map (fun g => g.1) = group.head?.map (fun g => g.1) ∧
      (∀ q, q ≠ c.task → q ∉ group.map (fun g => g.1) → lists' q = lists q) := by
  obtain ⟨hnd, first, last, hfirst, hlast, hnext, hseg⟩ := hc
  obtain ⟨pre, hpre⟩ := getLast_split group _ hlast
  subst hpre
  have hmem := segment_mem lists _ _ hseg
  have hhl : lists h = some last := hmem (h, last) (by simp)
  have hne : h ≠ c.task := by
    intro he
    rw [he, hfresh] at hhl
    cases hhl
  have hnd' : (pre.map (fun g : Nat × chpl_task_list => g.1)).Nodup ∧
      h ∉ pre.map (fun g : Nat × chpl_task_list => g.1) := by
    rw [List.map_append, List.nodup_append] at hnd
    refine ⟨hnd.1, fun hm => hnd.2.2 hm (by simp)⟩
  have htpre : c.task ∉ pre.map (fun g : Nat × chpl_task_list => g.1) := by
    intro hm
    obtain ⟨g, hg, hg1⟩ := List.mem_map.1 hm
    have := hmem g (List.mem_append_left _ hg)
    rw [hg1, hfresh] at this
    cases this
  refine ⟨fun q => if q = h then some { last with next := c.task }
      else if q = c.task then some ⟨c.fn, c.arg, c.junk.task_pool_entry, last.next, false⟩
      else if q = c.task then some ⟨c.fn, c.arg, c.junk.task_pool_entry, c.junk.next, false⟩
      else lists q, pre ++ [(h, { last with next := c.task }),
    (c.task, ⟨c.fn, c.arg, c.junk.task_pool_entry, last.next, false⟩)],
    ?_, ?_, ?_, ?_, ?_⟩
  · unfold chpl_add_to_task_list
    simp only [hne, if_false, hhl]
  · have hnd2 : ((pre ++ [(h, ({ last with next := c.task } : chpl_task_list)),
        (c.task, (⟨c.fn, c.arg, c.junk.task_pool_entry, last.next, false⟩ :
          chpl_task_list))]).map (fun g => g.1)).Nodup := by
      rw [List.map_append, List.nodup_append]
      refine ⟨hnd'.1, ?_, ?_⟩
      · simp [hne]
      · intro x hx hx'
        simp only [List.map_cons, List.map_nil, List.mem_cons, List.mem_singleton,
          List.not_mem_nil, or_false] at hx'
        rcases hx' with hx' | hx'
        · exact hnd'.2 (hx' ▸ hx)
        · exact htpre (hx' ▸ hx)
    have hgl : (pre ++ [(h, ({ last with next := c.task } : chpl_task_list)),
        (c.task, (⟨c.fn, c.arg, c.junk.task_pool_entry, last.next, false⟩ :
          chpl_task_list))]).getLast? =
        some (c.task, ⟨c.fn, c.arg, c.junk.task_pool_entry, last.next, false⟩) := by
      rw [show pre ++ [(h, ({ last with next := c.task } : chpl_task_list)),
          (c.task, (⟨c.fn, c.arg, c.junk.task_pool_entry, last.next, false⟩ : chpl_task_list))] =
          (pre ++ [(h, ({ last with next := c.task } : chpl_task_list))]) ++
          [(c.task, (⟨c.fn, c.arg, c.junk.task_pool_entry, last.next, false⟩ :
            chpl_task_list))] by simp]
      exact List.getLast?_concat _
    have hseg' := segment_snoc lists (fun q => if q = h then some { last with next := c.task }
      else if q = c.task then some ⟨c.fn, c.arg, c.junk.task_pool_entry, last.next, false⟩
      else if q = c.task then some ⟨c.fn, c.arg, c.junk.task_pool_entry, c.junk.next, false⟩
      else lists q) h c.task last { last with next := c.task }
      ⟨c.fn, c.arg, c.junk.task_pool_entry, last.next, false⟩ (by simp)
      (by simp [Ne.symm hne]) rfl (fun q hq1 hq2 => by simp [hq1, hq2]) pre first.1 hseg
      hnd'.2 htpre
    cases pre with
    | nil =>
      simp only [List.nil_append, List.head?_cons] at hfirst
      cases hfirst
      exact ⟨hnd2, _, _, rfl, hgl, hnext, hseg'⟩
    | cons a pre =>
      simp only [List.cons_append, List.head?_cons] at hfirst
      cases hfirst
      exact ⟨hnd2, _, _, rfl, hgl, hnext, hseg'⟩
  · simp [entryFields, AddCall.written]
  · cases pre <;> rfl
  · intro q hq1 hq2
    have hq3 : q ≠ h := by
      intro he
      apply hq2
      rw [he]
      simp
    simp [hq1, hq3]

/-- The last of the addresses of a list of calls. -/
theorem getLastD_task : ∀ (cs : List AddCall) (c : AddCall),
    (cs.map (fun x => x.task)).getLastD c.task = (cs.getLastD c).task
  | [], _ => rfl
  | d :: cs, _ => by
      simp only [List.map_cons, List.getLastD_cons]
      exact getLastD_task cs d

/-- Calls of `chpl_add_to_task_list` on a circular list, with addresses that
are distinct and not allocated. -/
theorem addCalls_circular : ∀ (cs : List AddCall) (lists : Nat → Option chpl_task_list)
    (h : Nat) (group : List (Nat × chpl_task_list)), Circular lists h group →
    (cs.map (fun x => x.task)).Nodup → (∀ x ∈ cs, lists x.task = none) →
    ∃ lists' group', addCalls cs lists (some h) =
        Except.ok (lists', some ((cs.map (fun x => x.task)).getLastD h)) ∧
      Circular lists' ((cs.map (fun x => x.task)).getLastD h) group' ∧
      group'.map entryFields = group.map entryFields ++ cs.map AddCall.written ∧
      group'.head?.map (fun g => g.1) = group.head?.map (fun g => g.1) ∧
      (∀ q, q ∉ cs.map (fun x => x.task) → q ∉ group.map (fun g => g.1) → lists' q = lists q)
  | [], lists, h, group, hc, _, _ =>
      ⟨lists, group, rfl, hc, by simp, rfl, fun _ _ _ => rfl⟩
  | c :: cs, lists, h, group, hc, hnd, hfresh => by
      obtain ⟨l1, g1, e1, c1, f1, hd1, o1⟩ :=
        chpl_add_to_task_list_circular c lists h group hc (hfresh c (by simp))
      have hnd' : c.task ∉ cs.map (fun x => x.task) ∧ (cs.map (fun x => x.task)).Nodup := by
        simpa using hnd
      have hgroup : ∀ x ∈ cs, x.task ∉ group.map (fun g => g.1) := by
        intro x hx hm
        obtain ⟨g, hg, hg1⟩ := List.mem_map.1 hm
        obtain ⟨_, _, _, _, _, _, hseg⟩ := hc
        have := segment_mem lists _ _ hseg g hg
        rw [hg1, hfresh x (List.mem_cons_of_mem _ hx)] at this
        cases this
      have hfresh' : ∀ x ∈ cs, l1 x.task = none := by
        intro x hx
        rw [o1 x.task (fun he => hnd'.1 (by rw [← he]; exact List.mem_map_of_mem _ hx))
          (hgroup x hx)]
        exact hfresh x (List.mem_cons_of_mem _ hx)
      obtain ⟨l2, g2, e2, c2, f2, hd2, o2⟩ := addCalls_circular cs l1 c.task g1 c1 hnd'.2 hfresh'
      refine ⟨l2, g2, ?_, ?_, ?_, ?_, ?_⟩
      · unfold addCalls
        rw [e1]
        simp only [List.map_cons, List.getLastD_cons]
        exact e2
      · simp only [List.map_cons, List.getLastD_cons]
        exact c2
      · rw [f2, f1]
        simp
      · rw [hd2, hd1]
      · intro q hq1 hq2
        have hq1' : q ≠ c.task ∧ q ∉ cs.map (fun x => x.task) := by simpa using hq1
        have hg1 : q ∉ g1.map (fun g => g.1) := by
          have hm : g1.map (fun g => g.1) = group.map (fun g => g.1) ++ [c.task] := by
            have := congrArg (List.map (fun (w : Nat × Nat × Nat × Option Nat × Bool) => w.1)) f1
            simpa [entryFields, AddCall.written, Function.comp_def] using this
          rw [hm]
          simp [hq2, hq1'.1]
        rw [o2 q hq1'.2 hg1, o1 q hq1'.1 hq2]

/-- C32: `chpl_add_to_task_list` keeps the task list circular, with the handle
on the entry inserted last.  After the calls `c :: cs` on an empty handle,
each with an address that is not allocated and is not the address of another
call, every call has returned, the handle is the address of the last call,
the entry there has `next` on the entry of the first call, the entries
reached from that one by `next` are the entries of the calls in their order
(each with the function and the argument of its call and `completed` false),
the last one pointing back to the first, and the memory is unchanged
elsewhere. -/
theorem chpl_add_to_task_list_appends (c : AddCall) (cs : List AddCall)
    (lists : Nat → Option chpl_task_list)
    (hnd : ((c :: cs).map (fun x => x.task)).Nodup)
    (hfresh : ∀ x ∈ c :: cs, lists x.task = none) :
    ∃ lists' group last, addCalls (c :: cs) lists none =
        Except.ok (lists', some (cs.getLastD c).task) ∧
      lists' (cs.getLastD c).task = some last ∧ last.next = c.task ∧
      Circular lists' (cs.getLastD c).task group ∧
      segment lists' group c.task ∧
      group.map entryFields = (c :: cs).map AddCall.written ∧
      (∀ g ∈ group, g.2.completed = false) ∧
      (∀ q, q ∉ (c :: cs).map (fun x => x.task) → lists' q = lists q) := by
  have hnd' : c.task ∉ cs.map (fun x => x.task) ∧ (cs.map (fun x => x.task)).Nodup := by
    simpa using hnd
  have hc0 : Circular (fun q => if q = c.task then
        some (⟨c.fn, c.arg, c.junk.task_pool_entry, c.task, false⟩ : chpl_task_list)
      else if q = c.task then
        some ({ c.junk with fn := c.fn, arg := c.arg, completed := false } : chpl_task_list)
      else lists q) c.task
      [(c.task, (⟨c.fn, c.arg, c.junk.task_pool_entry, c.task, false⟩ : chpl_task_list))] :=
    ⟨by simp, _, _, rfl, rfl, rfl, rfl, by simp, trivial⟩
  have hfresh' : ∀ x ∈ cs, (fun q => if q = c.task then
        some (⟨c.fn, c.arg, c.junk.task_pool_entry, c.task, false⟩ : chpl_task_list)
      else if q = c.task then
        some ({ c.junk with fn := c.fn, arg := c.arg, completed := false } : chpl_task_list)
      else lists q) x.task = none := by
    intro x hx
    have hne : x.task ≠ c.task := fun he => hnd'.1 (by rw [← he]; exact List.mem_map_of_mem _ hx)
    simp only [hne, if_false]
    exact hfresh x (List.mem_cons_of_mem _ hx)
  obtain ⟨l2, g2, e2, c2, f2, hd2, o2⟩ := addCalls_circular cs _ c.task _ hc0 hnd'.2 hfresh'
  rw [getLastD_task] at e2 c2
  have hc2 := c2
  obtain ⟨_, first, last, hfirst, hlast, hnext, hseg⟩ := c2
  have hf1 : first.1 = c.task := by
    rw [hfirst] at hd2
    simpa using hd2
  have hlast' : (cs.getLastD c |>.task, last) ∈ g2 := by
    obtain ⟨pre, hpre⟩ := getLast_split g2 _ hlast
    rw [hpre]
    simp
  have hfields : g2.map entryFields = (c :: cs).map AddCall.written := by
    rw [f2]
    simp [entryFields, AddCall.written]
  refine ⟨l2, g2, last, ?_, segment_mem l2 _ _ hseg _ hlast', hnext.trans hf1, hc2,
    hf1 ▸ hseg, hfields, ?_, ?_⟩
  · unfold addCalls chpl_add_to_task_list
    exact e2
  · intro g hg
    have hm : entryFields g ∈ (c :: cs).map AddCall.written := by
      rw [← hfields]
      exact List.mem_map_of_mem _ hg
    obtain ⟨x, _, hx⟩ := List.mem_map.1 hm
    have := congrArg (fun (w : Nat × Nat × Nat × Option Nat × Bool) => w.2.2.2.2) hx
    simpa [entryFields, AddCall.written] using this.symm
  · intro q hq
    have hq' : q ≠ c.task ∧ q ∉ cs.map (fun x => x.task) := by simpa using hq
    rw [o2 q hq'.2 (by simp [hq'.1])]
    simp [hq'.1]

theorem chpl_add_to_task_list_appends_witness :
    ∃ lists' group last, addCalls sampleCalls (fun _ => none) none =
        Except.ok (lists', some 13) ∧
      lists' 13 = some last ∧ last.next = 11 ∧
      Circular lists' 13 group ∧
      segment lists' group 11 ∧
      group.map entryFields = sampleCalls.map AddCall.written ∧
      (∀ g ∈ group, g.2.completed = false) ∧
      (∀ q, q ∉ sampleCalls.map (fun x => x.task) → lists' q = (fun _ => none) q) :=
  chpl_add_to_task_list_appends ⟨7, 1, 11, ⟨0, 0, none, 0, true⟩⟩
    [⟨7, 2, 12, ⟨0, 0, some 5, 3, true⟩⟩, ⟨8, 3, 13, ⟨9, 9, none, 11, false⟩⟩]
    (fun _ => none) (by decide) (fun _ _ => rfl)

/-- The records of a list are allocated. -/
theorem reportChain_mem (records : Nat → Option lockReport) :
    ∀ (l : List Nat) (p : Option Nat), reportChain records l p →
      ∀ a ∈ l, ∃ r, records a = some r
  | [], _, _, _, ha => nomatch ha
  | b :: l, _, h, a, ha => by
      obtain ⟨_, r, hr, hrest⟩ := h
      rcases List.mem_cons.1 ha with ha | ha
      · rw [ha]
        exact ⟨r, hr⟩
      · exact reportChain_mem records l r.next hrest a ha

/-- A list of records is the same list after stores that keep `next`. -/
theorem reportChain_congr (records records' : Nat → Option lockReport) :
    ∀ (l : List Nat) (p : Option Nat),
      (∀ q ∈ l, ∀ r, records q = some r → ∃ r', records' q = some r' ∧ r'.next = r.next) →
      reportChain records l p → reportChain records' l p
  | [], _, _, h => h
  | b :: l, _, hq, h => by
      obtain ⟨h1, r, hr, hrest⟩ := h
      obtain ⟨r', hr', hn⟩ := hq b (by simp) r hr
      refine ⟨h1, r', hr', ?_⟩
      rw [hn]
      exact reportChain_congr records records' l r.next
        (fun q hm => hq q (List.mem_cons_of_mem _ hm)) hrest

/-- A list of records that ends in the record at `t`, after the record at `a`
is linked behind it. -/
theorem reportChain_snoc (records records' : Nat → Option lockReport) (t a : Nat)
    (rt ra : lockReport) (ht : records' t = some rt) (hnext : rt.next = some a)
    (ha : records' a = some ra) (hnone : ra.next = none)
    (hother : ∀ q, q ≠ t → q ≠ a → records' q = records q) :
    ∀ (pre : List Nat) (p : Option Nat), reportChain records (pre ++ [t]) p →
      t ∉ pre → a ∉ pre → reportChain records' (pre ++ [t, a]) p
  | [], _, h, _, _ => ⟨h.1, rt, ht, hnext, ra, ha, hnone⟩
  | b :: pre, _, h, h1, h2 => by
      obtain ⟨g1, r, hr, hrest⟩ := h
      have h1' : t ≠ b ∧ t ∉ pre := by simpa using h1
      have h2' : a ≠ b ∧ a ∉ pre := by simpa using h2
      refine ⟨g1, r, ?_, reportChain_snoc records records' t a rt ra ht hnext ha hnone hother
        pre r.next hrest h1'.2 h2'.2⟩
      rw [hother b (Ne.symm h1'.1) (Ne.symm h2'.1)]
      exact hr

/-- A store to a record that keeps its `next` keeps the list. -/
theorem storeRecord_linked (st : ReportState) (l : List Nat) (p : Nat) (r r' : lockReport)
    (h : st.Linked l) (hp : st.records p = some r) (hn : r'.next = r.next) :
    (st.storeRecord p r').Linked l := by
  refine ⟨h.1, ?_, h.2.2⟩
  refine reportChain_congr st.records _ l _ ?_ h.2.1
  intro q _ rq hq
  by_cases hqp : q = p
  · refine ⟨r', by simp [ReportState.storeRecord, hqp], ?_⟩
    rw [hqp, hp] at hq
    cases hq
    exact hn
  · exact ⟨rq, by simp [ReportState.storeRecord, hqp, hq], rfl⟩

/-- On a thread that has a record, `setBlockingLocation` writes it. -/
theorem setBlockingLocation_spec (self : Nat) (lineno : Int) (filename : Nat)
    (st : ReportState) (p : Nat) (r : lockReport) (hb : st.blockreport = true)
    (hk : st.lock_report_key self = some p) (hr : st.records p = some r) :
    setBlockingLocation self lineno filename st =
      Except.ok (st.storeRecord p ⟨filename, lineno, 1, r.next⟩) := by
  unfold setBlockingLocation
  simp only [hb, hk, hr, Bool.not_true, Bool.false_eq_true, if_false]

/-- On a thread that has a record, `unsetBlockingLocation` writes it. -/
theorem unsetBlockingLocation_spec (self : Nat) (st : ReportState) (p : Nat) (r : lockReport)
    (hb : st.blockreport = true) (hk : st.lock_report_key self = some p)
    (hr : st.records p = some r) :
    unsetBlockingLocation self st =
      Except.ok (st.storeRecord p ⟨r.filename, r.lineno, 0, r.next⟩) := by
  unfold unsetBlockingLocation
  simp only [hb, hk, hr, Bool.not_true, Bool.false_eq_true, if_false]

/-- A store to a record that is allocated leaves the same addresses
allocated. -/
theorem storeRecord_allocated (st : ReportState) (p : Nat) (r r' : lockReport)
    (hp : st.records p = some r) (q : Nat) :
    (st.storeRecord p r').records q = none ↔ st.records q = none := by
  by_cases hq : q = p
  · simp [ReportState.storeRecord, hq, hp]
  · simp [ReportState.storeRecord, hq]

/-- The waits of a worker that has a record: every `setBlockingLocation` and
`unsetBlockingLocation` finds it, and the list is as it was. -/
theorem workerWaits_spec (self idleThreadName : Nat) (l : List Nat) (p : Nat) :
    ∀ (waits : List Bool) (st : ReportState), st.blockreport = true → st.Linked l →
      st.lock_report_key self = some p → p ∈ l →
      ∃ st', workerWaits self idleThreadName waits st = Except.ok st' ∧
        st'.blockreport = true ∧ st'.Linked l ∧ st'.lock_report_key = st.lock_report_key ∧
        (∀ q, st'.records q = none ↔ st.records q = none)
  | [], st, hb, hl, _, _ => ⟨st, rfl, hb, hl, rfl, fun _ => Iff.rfl⟩
  | woken :: waits, st, hb, hl, hk, hp => by
      obtain ⟨r, hr⟩ := reportChain_mem st.records l _ hl.2.1 p hp
      have hset := setBlockingLocation_spec self 0 idleThreadName st p r hb hk hr
      have hl1 : (st.storeRecord p ⟨idleThreadName, 0, 1, r.next⟩).Linked l :=
        storeRecord_linked st l p r _ hl hr rfl
      have ha1 := storeRecord_allocated st p r ⟨idleThreadName, 0, 1, r.next⟩ hr
      unfold workerWaits
      rw [hset]
      cases woken with
      | false =>
        simp only [Bool.false_eq_true, if_false]
        obtain ⟨st', g1, g2, g3, g4, g5⟩ := workerWaits_spec self idleThreadName l p waits
          (st.storeRecord p ⟨idleThreadName, 0, 1, r.next⟩) hb hl1 hk hp
        exact ⟨st', g1, g2, g3, g4, fun q => (g5 q).trans (ha1 q)⟩
      | true =>
        simp only [if_true]
        have hr1 : (st.storeRecord p ⟨idleThreadName, 0, 1, r.next⟩).records p =
            some ⟨idleThreadName, 0, 1, r.next⟩ := by
          simp [ReportState.storeRecord]
        have hunset := unsetBlockingLocation_spec self
          (st.storeRecord p ⟨idleThreadName, 0, 1, r.next⟩) p _ hb hk hr1
        rw [hunset]
        have hl2 : ((st.storeRecord p ⟨idleThreadName, 0, 1, r.next⟩).storeRecord p
            ⟨idleThreadName, 0, 0, r.next⟩).Linked l :=
          storeRecord_linked _ l p _ _ hl1 hr1 rfl
        have ha2 := storeRecord_allocated (st.storeRecord p ⟨idleThreadName, 0, 1, r.next⟩) p
          ⟨idleThreadName, 0, 1, r.next⟩ ⟨idleThreadName, 0, 0, r.next⟩ hr1
        obtain ⟨st', g1, g2, g3, g4, g5⟩ := workerWaits_spec self idleThreadName l p waits
          ((st.storeRecord p ⟨idleThreadName, 0, 1, r.next⟩).storeRecord p
            ⟨idleThreadName, 0, 0, r.next⟩) hb hl2 hk hp
        exact ⟨st', g1, g2, g3, g4, fun q => ((g5 q).trans (ha2 q)).trans (ha1 q)⟩

/-- A call of `chpl_thread_init` with `blockreport` set: it returns, with a new
record that is the record of the calling thread and the last one of the
list. -/
theorem chpl_thread_init_spec (self a : Nat) (junk : lockReport) (st : ReportState)
    (l : List Nat) (hb : st.blockreport = true) (hl : st.Linked l)
    (hfresh : st.records a = none) :
    ∃ st', chpl_thread_init self a junk st = Except.ok st' ∧
      st'.blockreport = true ∧ st'.Linked (l ++ [a]) ∧
      st'.lock_report_key self = some a ∧
      (∀ t, t ≠ self → st'.lock_report_key t = st.lock_report_key t) ∧
      (∀ q, st'.records q = none ↔ (st.records q = none ∧ q ≠ a)) := by
  have hal : a ∉ l := by
    intro hm
    obtain ⟨r, hr⟩ := reportChain_mem st.records l _ hl.2.1 a hm
    rw [hfresh] at hr
    cases hr
  unfold chpl_thread_init initializeLockReportForThread
  simp only [hb, if_true, Bool.not_true, Bool.false_eq_true, if_false]
  rcases List.eq_nil_or_concat l with hnil | ⟨pre, t, hpre⟩
  · subst hnil
    have hh : st.lockReportHead = none := hl.2.1
    simp only [ReportState.storeRecord, hh]
    refine ⟨_, rfl, hb, ⟨by simp, ⟨rfl, ⟨junk.filename, junk.lineno, 0, none⟩, by simp, rfl⟩,
      rfl⟩, by simp, ?_, ?_⟩
    · intro t ht
      simp [ht]
    · intro q
      by_cases hq : q = a
      · simp [hq]
      · simp [hq]
  · subst hpre
    have hnd : pre.Nodup ∧ t ∉ pre := by
      have := hl.1
      rw [List.concat_eq_append, List.nodup_append] at this
      exact ⟨this.1, fun hm => this.2.2 hm (by simp)⟩
    have htail : st.lockReportTail = some t := by
      rw [hl.2.2, List.concat_eq_append, List.getLast?_concat]
    obtain ⟨rt, hrt⟩ := reportChain_mem st.records _ _ hl.2.1 t (by simp)
    have hta : t ≠ a := by
      intro he
      rw [he, hfresh] at hrt
      cases hrt
    have hhead : ∃ b, st.lockReportHead = some b := by
      have hc := hl.2.1
      rw [List.concat_eq_append] at hc
      cases pre with
      | nil => exact ⟨t, hc.1⟩
      | cons b pre => exact ⟨b, hc.1⟩
    obtain ⟨b, hb0⟩ := hhead
    simp only [ReportState.storeRecord, hb0, htail, hta, if_false, hrt]
    have hapre : a ∉ pre := fun hm => hal (by rw [List.concat_eq_append]; simp [hm])
    refine ⟨_, rfl, hb, ⟨?_, ?_, ?_⟩, by simp, ?_, ?_⟩
    · rw [List.concat_eq_append, List.append_assoc, List.nodup_append]
      refine ⟨hnd.1, by simp [hta], ?_⟩
      intro x hx hx'
      simp only [List.cons_append, List.nil_append, List.mem_cons, List.mem_singleton,
        List.not_mem_nil, or_false] at hx'
      rcases hx' with hx' | hx'
      · exact hnd.2 (hx' ▸ hx)
      · exact hapre (hx' ▸ hx)
    · have hc := hl.2.1
      rw [List.concat_eq_append] at hc
      rw [List.concat_eq_append, List.append_assoc]
      refine reportChain_snoc st.records _ t a { rt with next := some a }
        { junk with next := none, maybeLocked := 0 } ?_ rfl ?_ rfl ?_ pre _ (by rw [hb0] at hc; exact hb0 ▸ hc)
        hnd.2 hapre
      · simp
      · simp [Ne.symm hta]
      · intro q hq1 hq2
        simp [hq1, hq2]
    · rw [List.concat_eq_append, List.append_assoc]
      show some a = (pre ++ ([t] ++ [a])).getLast?
      rw [← List.append_assoc, List.getLast?_concat]
    · intro x hx
      simp [hx]
    · intro q
      by_cases hq : q = a
      · simp [hq, Ne.symm hta]
      · by_cases hq2 : q = t
        · simp [hq2, hta, hrt]
        · simp [hq, hq2]

/-- The last of the records the tasks create, or `p` when they create none. -/
theorem initRecords_cons_some (a : Nat) (junk : lockReport) (waits : List Bool)
    (ts : List WorkerTask) :
    initRecords (⟨some (a, junk), waits⟩ :: ts) = a :: initRecords ts := rfl

theorem initRecords_cons_none (waits : List Bool) (ts : List WorkerTask) :
    initRecords (⟨none, waits⟩ :: ts) = initRecords ts := rfl

/-- A worker that has a record in the list: it runs the tasks and waits after
each one without a fault, every call of `chpl_thread_init` by a task adding a
record at the end of the list that becomes the record of the worker. -/
theorem chpl_begin_helper_report_spec (self idleThreadName : Nat) :
    ∀ (ts : List WorkerTask) (st : ReportState) (l : List Nat) (p : Nat),
      st.blockreport = true → st.Linked l → st.lock_report_key self = some p → p ∈ l →
      (initRecords ts).Nodup → (∀ a ∈ initRecords ts, st.records a = none) →
      ∃ st', chpl_begin_helper_report self idleThreadName ts st = Except.ok st' ∧
        st'.blockreport = true ∧ st'.Linked (l ++ initRecords ts) ∧
        st'.lock_report_key self = some ((initRecords ts).getLastD p) ∧
        (∀ t, t ≠ self → st'.lock_report_key t = st.lock_report_key t)
  | [], st, l, p, hb, hl, hk, _, _, _ =>
      ⟨st, rfl, hb, by simpa [initRecords] using hl, hk, fun _ _ => rfl⟩
  | ⟨none, waits⟩ :: ts, st, l, p, hb, hl, hk, hp, hnd, hfresh => by
      obtain ⟨st1, e1, b1, l1, k1, a1⟩ := workerWaits_spec self idleThreadName l p waits st
        hb hl hk hp
      rw [initRecords_cons_none] at hnd hfresh ⊢
      obtain ⟨st2, e2, b2, l2, k2, o2⟩ := chpl_begin_helper_report_spec self idleThreadName ts
        st1 l p b1 l1 (by rw [k1]; exact hk) hp hnd
        (fun a ha => (a1 a).2 (hfresh a ha))
      refine ⟨st2, ?_, b2, l2, k2, fun t ht => (o2 t ht).trans (by rw [k1])⟩
      unfold chpl_begin_helper_report
      simp only [e1]
      exact e2
  | ⟨some (a, junk), waits⟩ :: ts, st, l, p, hb, hl, hk, hp, hnd, hfresh => by
      rw [initRecords_cons_some] at hnd hfresh ⊢
      have hnd' : a ∉ initRecords ts ∧ (initRecords ts).Nodup := by simpa using hnd
      obtain ⟨st0, e0, b0, l0, k0, o0, a0⟩ := chpl_thread_init_spec self a junk st l hb hl
        (hfresh a (by simp))
      obtain ⟨st1, e1, b1, l1, k1, a1⟩ := workerWaits_spec self idleThreadName (l ++ [a]) a
        waits st0 b0 l0 k0 (by simp)
      obtain ⟨st2, e2, b2, l2, k2, o2⟩ := chpl_begin_helper_report_spec self idleThreadName ts
        st1 (l ++ [a]) a b1 l1 (by rw [k1]; exact k0) (by simp) hnd'.2
        (fun x hx => (a1 x).2 ((a0 x).2 ⟨hfresh x (List.mem_cons_of_mem _ hx),
          fun he => hnd'.1 (he ▸ hx)⟩))
      refine ⟨st2, ?_, b2, by simpa using l2, by rw [List.getLastD_cons]; exact k2,
        fun t ht => (o2 t ht).trans (by rw [k1]; exact o0 t ht)⟩
      unfold chpl_begin_helper_report
      simp only [e0, e1]
      exact e2
theorem sampleReport_linked : sampleReport.Linked [1] :=
  ⟨by simp, ⟨rfl, ⟨0, 0, 0, none⟩, rfl, rfl⟩, rfl⟩

/-- What a new worker (no value for `lock_report_key`) finds of the
blocking-location records, with `blockreport` set and on a well-formed list of
records: `launch_next_task` and `chpl_begin_helper` create no record.  If the
function of its first task does not call `chpl_thread_init`, the first
`setBlockingLocation` of the worker loop reads a null pointer; if it does, the
worker runs its tasks and every `setBlockingLocation` and
`unsetBlockingLocation` of the worker loop finds a record of the thread, each
call of `chpl_thread_init` by a task having added one record at the end of
the list, the last of them being the record of the thread; the records of the
other threads are as they were. -/
theorem worker_blocking_location (self idleThreadName : Nat) (t : WorkerTask)
    (ts : List WorkerTask) (st : ReportState) (l : List Nat)
    (hb : st.blockreport = true) (hl : st.Linked l)
    (hnew : st.lock_report_key self = none)
    (hnd : (initRecords (t :: ts)).Nodup)
    (hfresh : ∀ a ∈ initRecords (t :: ts), st.records a = none) :
    (t.init = none → t.waits ≠ [] →
      chpl_begin_helper_report self idleThreadName (t :: ts) st = Except.error Fault.memory) ∧
    (∀ a junk, t.init = some (a, junk) →
      ∃ st', chpl_begin_helper_report self idleThreadName (t :: ts) st = Except.ok st' ∧
        st'.blockreport = true ∧ st'.Linked (l ++ initRecords (t :: ts)) ∧
        st'.lock_report_key self = some ((initRecords ts).getLastD a) ∧
        (initRecords ts).getLastD a ∈ initRecords (t :: ts) ∧
        (∀ other, other ≠ self → st'.lock_report_key other = st.lock_report_key other)) := by
  obtain ⟨init, waits⟩ := t
  constructor
  · intro hinit hwaits
    have hinit' : init = none := hinit
    subst hinit'
    cases waits with
    | nil => exact absurd rfl hwaits
    | cons woken waits =>
      unfold chpl_begin_helper_report
      simp only
      unfold workerWaits setBlockingLocation
      simp only [hb, hnew, Bool.not_true, Bool.false_eq_true, if_false]
  · intro a junk hinit
    have hinit' : init = some (a, junk) := hinit
    subst hinit'
    rw [initRecords_cons_some] at hnd hfresh ⊢
    have hnd' : a ∉ initRecords ts ∧ (initRecords ts).Nodup := by simpa using hnd
    obtain ⟨st0, e0, b0, l0, k0, o0, a0⟩ := chpl_thread_init_spec self a junk st l hb hl
      (hfresh a (by simp))
    obtain ⟨st1, e1, b1, l1, k1, a1⟩ := workerWaits_spec self idleThreadName (l ++ [a]) a
      waits st0 b0 l0 k0 (by simp)
    obtain ⟨st2, e2, b2, l2, k2, o2⟩ := chpl_begin_helper_report_spec self idleThreadName ts
      st1 (l ++ [a]) a b1 l1 (by rw [k1]; exact k0) (by simp) hnd'.2
      (fun x hx => (a1 x).2 ((a0 x).2 ⟨hfresh x (List.mem_cons_of_mem _ hx),
        fun he => hnd'.1 (he ▸ hx)⟩))
    refine ⟨st2, ?_, b2, by simpa using l2, k2, ?_,
      fun other ho => (o2 other ho).trans (by rw [k1]; exact o0 other ho)⟩
    · unfold chpl_begin_helper_report
      simp only [e0, e1]
      exact e2
    · rw [← List.getLastD_cons]
      cases hts : initRecords ts with
      | nil => simp
      | cons b rest =>
        have : (a :: b :: rest).getLastD a = (b :: rest).getLast (by simp) := by
          simp [List.getLastD_cons, List.getLastD_eq_getLast?, List.getLast?_eq_getLast]
        rw [this]
        exact List.mem_cons_of_mem _ (List.getLast_mem _)

theorem worker_blocking_location_witness :
    ∃ st', chpl_begin_helper_report 1 0
        (⟨some (2, ⟨0, 0, 0, none⟩), [true, false]⟩ ::
          [⟨none, [true]⟩, ⟨some (3, ⟨5, 5, 1, some 9⟩), [false]⟩]) sampleReport = Except.ok st' ∧
      st'.blockreport = true ∧
      st'.Linked ([1] ++ initRecords (⟨some (2, ⟨0, 0, 0, none⟩), [true, false]⟩ ::
          [⟨none, [true]⟩, ⟨some (3, ⟨5, 5, 1, some 9⟩), [false]⟩])) ∧
      st'.lock_report_key 1 = some ((initRecords
          [⟨none, [true]⟩, ⟨some (3, ⟨5, 5, 1, some 9⟩), [false]⟩]).getLastD 2) ∧
      (initRecords [⟨none, [true]⟩, ⟨some (3, ⟨5, 5, 1, some 9⟩), [false]⟩]).getLastD 2 ∈
        initRecords (⟨some (2, ⟨0, 0, 0, none⟩), [true, false]⟩ ::
          [⟨none, [true]⟩, ⟨some (3, ⟨5, 5, 1, some 9⟩), [false]⟩]) ∧
      (∀ other, other ≠ 1 → st'.lock_report_key other = sampleReport.lock_report_key other) :=
  (worker_blocking_location 1 0 ⟨some (2, ⟨0, 0, 0, none⟩), [true, false]⟩
    [⟨none, [true]⟩, ⟨some (3, ⟨5, 5, 1, some 9⟩), [false]⟩] sampleReport [1] rfl
    sampleReport_linked rfl (by decide) (by decide)).2 2 ⟨0, 0, 0, none⟩ rfl

/-- A worker that has no record, with `blockreport` set, after a first task
whose function has not called `chpl_thread_init`: the `setBlockingLocation` of
its first wait reads the null pointer. -/
theorem worker_first_wait_faults (self idleThreadName : Nat) (woken : Bool)
    (waits : List Bool) (ts : List WorkerTask) (st : ReportState)
    (hb : st.blockreport = true) (hnew : st.lock_report_key self = none) :
    chpl_begin_helper_report self idleThreadName (⟨none, woken :: waits⟩ :: ts) st =
      Except.error Fault.memory := by
  unfold chpl_begin_helper_report
  simp only
  unfold workerWaits setBlockingLocation
  simp only [hb, hnew, Bool.not_true, Bool.false_eq_true, if_false]

/-- C37, the code with `blockreport` set: `initChplThreads` calls
`chpl_thread_init` on the main thread (thread 0), which creates its record
(at address 1) and links it; a worker (thread 1) that `launch_next_task`
creates starts in `chpl_begin_helper`, which does not call
`initializeLockReportForThread`, and has no record
(`pthread_getspecific(lock_report_key)` is null for it); when the function of
its first task has not called `chpl_thread_init` either, the
`setBlockingLocation` of its first wait for a task writes through the null
pointer, whatever the waits and the tasks that would follow. -/
theorem chpl_begin_helper_without_record :
    ∃ st, chpl_thread_init 0 1 ⟨0, 0, 5, some 7⟩
        ⟨true, fun _ => none, none, none, fun _ => none⟩ = Except.ok st ∧
      st.blockreport = true ∧ st.Linked [1] ∧ st.lock_report_key 0 = some 1 ∧
      st.lock_report_key 1 = none ∧
      ∀ idleThreadName woken waits ts,
        chpl_begin_helper_report 1 idleThreadName (⟨none, woken :: waits⟩ :: ts) st =
          Except.error Fault.memory := by
  refine ⟨_, rfl, rfl, ⟨by simp, ⟨rfl, ⟨0, 0, 0, none⟩, rfl, rfl⟩, rfl⟩, rfl, rfl, ?_⟩
  intro idleThreadName woken waits ts
  exact worker_first_wait_faults 1 idleThreadName woken waits ts _ rfl rfl

theorem moves_refl (s : Scheduler) : Moves s s [] [] :=
  ⟨fun _ => rfl, fun _ => rfl, fun _ => Nat.le_refl _⟩

theorem moves_trans (s s1 s2 : Scheduler) (b1 b2 a1 a2 : List Nat)
    (h1 : Moves s s1 b1 a1) (h2 : Moves s1 s2 b2 a2) :
    Moves s s2 (b1 ++ b2) (a1 ++ a2) := by
  refine ⟨fun x => ?_, fun x => ?_, fun x => ?_⟩
  · have := h1.1 x
    have := h2.1 x
    simp only [List.count_append]
    omega
  · have := h1.2.1 x
    have := h2.2.1 x
    simp only [List.count_append]
    omega
  · exact Nat.le_trans (h1.2.2 x) (h2.2.2 x)

/-- The accounts of the pool: what `skip_over_begun_tasks` takes from the
head of the pool has begun. -/
theorem skip_counts : ∀ (pool : List task_pool_t),
    ((pool.dropWhile (fun t => t.begun)).filter (fun t => !t.begun)).map (fun t => t.id) =
      (pool.filter (fun t => !t.begun)).map (fun t => t.id) ∧
    ∀ x, (((pool.dropWhile (fun t => t.begun)).filter (fun t => t.begun)).map
        (fun t => t.id)).count x +
      ((pool.takeWhile (fun t => t.begun)).map (fun t => t.id)).count x =
      ((pool.filter (fun t => t.begun)).map (fun t => t.id)).count x
  | [] => ⟨rfl, fun _ => rfl⟩
  | t :: pool => by
      obtain ⟨h1, h2⟩ := skip_counts pool
      by_cases hb : t.begun = true
      · rw [List.dropWhile_cons_of_pos (by simpa using hb),
          List.takeWhile_cons_of_pos (by simpa using hb)]
        refine ⟨?_, fun x => ?_⟩
        · rw [h1]
          simp [List.filter_cons, hb]
        · have := h2 x
          simp only [List.filter_cons, hb, if_true, List.map_cons, List.count_cons]
          omega
      · rw [List.dropWhile_cons_of_neg (by simpa using hb),
          List.takeWhile_cons_of_neg (by simpa using hb)]
        exact ⟨rfl, fun x => by simp⟩

theorem skip_moves (s : Scheduler) :
    Moves s (skip_over_begun_tasks s) [] [] ∧
    (skip_over_begun_tasks s).workers = s.workers := by
  obtain ⟨h1, h2⟩ := skip_counts s.task_pool
  refine ⟨⟨fun x => ?_, fun x => ?_, fun x => ?_⟩, rfl⟩
  · show (((s.task_pool.dropWhile (fun t => t.begun)).filter (fun t => !t.begun)).map
      (fun t => t.id)).count x + 0 = _
    rw [h1]
    rfl
  · have := h2 x
    simp only [begunLive, skip_over_begun_tasks, List.count_append, List.count_nil]
    omega
  · simp only [skip_over_begun_tasks, List.count_append]
    omega

theorem add_moves (s : Scheduler) (id fp a : Nat) (serial : Bool) (task_list : Option Nat) :
    Moves s (add_to_task_pool s id fp a serial task_list) [] [id] ∧
    (add_to_task_pool s id fp a serial task_list).workers = s.workers := by
  refine ⟨⟨fun x => ?_, fun x => ?_, fun x => Nat.le_refl _⟩, rfl⟩
  · simp [notBegun, add_to_task_pool, List.filter_append, List.count_append]
  · simp [begunLive, add_to_task_pool, List.filter_append, List.count_append]

theorem heldIds_append (a b : List Worker) : heldIds (a ++ b) = heldIds a ++ heldIds b := by
  simp [heldIds, List.filterMap_append]

/-- The entries begun by the workers of a list are the entries they hold. -/
theorem startedBy_nil_held : ∀ (extra : List Worker), startedBy [] extra = heldIds extra
  | [] => rfl
  | Worker.executing t :: extra => by
      show t.id :: startedBy [] extra = t.id :: heldIds extra
      rw [startedBy_nil_held extra]
  | Worker.waiting :: extra => by
      show startedBy [] extra = heldIds extra
      exact startedBy_nil_held extra

theorem launches_refl (s : Scheduler) : Launches s s :=
  ⟨[], by simp, moves_refl s, fun h => h⟩

theorem launches_trans (s s1 s2 : Scheduler) (h1 : Launches s s1) (h2 : Launches s1 s2) :
    Launches s s2 := by
  obtain ⟨e1, w1, m1, g1⟩ := h1
  obtain ⟨e2, w2, m2, g2⟩ := h2
  refine ⟨e1 ++ e2, by rw [w2, w1, List.append_assoc], ?_, fun h => g2 (g1 h)⟩
  rw [startedBy_nil_append]
  exact moves_trans s s1 s2 _ _ [] [] m1 m2

theorem launch_moves (created : Bool) (s : Scheduler) :
    Launches s (launch_next_task created s) := by
  unfold launch_next_task
  split
  · exact launches_refl s
  · obtain ⟨hm, hw⟩ := skip_moves s
    dsimp only
    split
    · exact ⟨[], by simp [skip_over_begun_tasks], hm, fun h => h⟩
    · rename_i task rest hcons
      have hnb : task.begun = false := by
        have := dropWhile_head_not (fun t => t.begun) s.task_pool task rest hcons
        simpa using this
      split
      · refine ⟨[Worker.executing { task with begun := true }], rfl, ?_, ?_⟩
        · obtain ⟨m1, m2, m3⟩ := hm
          refine ⟨fun x => ?_, fun x => ?_, fun x => m3 x⟩
          · have := m1 x
            simp only [notBegun, hcons, List.filter_cons, hnb, Bool.not_false, if_true,
              List.map_cons, List.count_cons, List.count_nil, startedBy] at this ⊢
            omega
          · have := m2 x
            simp only [begunLive, hcons, List.filter_cons, hnb, Bool.false_eq_true, if_false,
              List.count_append, List.count_nil, startedBy, heldIds_append] at this ⊢
            simp only [heldIds, List.filterMap_cons, List.filterMap_nil, List.count_cons,
              List.count_nil] at this ⊢
            omega
        · intro h t ht
          rcases List.mem_append.1 ht with ht | ht
          · exact h t ht
          · simp only [List.mem_singleton, Worker.executing.injEq] at ht
            rw [ht]
      · exact ⟨[], by simp [skip_over_begun_tasks], hm, fun h => h⟩

theorem launchLoop_moves (maxThreads : Int) :
    ∀ (howMany : Nat) (outcomes : List Bool) (s : Scheduler),
      Launches s (launchLoop maxThreads howMany outcomes s)
  | 0, _, s => launches_refl s
  | howMany + 1, outcomes, s => by
      unfold launchLoop
      split
      · exact launches_trans _ _ _ (launch_moves (outcomes.headD true) s)
          (launchLoop_moves maxThreads howMany outcomes.tail _)
      · exact launches_refl s

theorem schedule_moves (maxThreads : Int) (outcomes : List Bool) (howMany : Nat)
    (s : Scheduler) : Launches s (schedule_next_task maxThreads outcomes howMany s) := by
  unfold schedule_next_task
  split
  · dsimp only
    split
    · exact launchLoop_moves maxThreads 0 outcomes
        { s with waking_cnt := s.waking_cnt + howMany, signals := s.signals + 1 }
    · exact launchLoop_moves maxThreads _ outcomes
        { s with waking_cnt := s.waking_cnt + (s.threads_cnt - s.running_cnt - s.waking_cnt),
                 signals := s.signals + 1 }
  · exact launchLoop_moves maxThreads howMany outcomes s

theorem addTaskList_moves : ∀ (tasks : List (Nat × Nat × Nat × Nat)) (s : Scheduler),
    Moves s (addTaskList s tasks) [] (tasks.map (fun task => task.1)) ∧
    (addTaskList s tasks).workers = s.workers
  | [], s => ⟨moves_refl s, rfl⟩
  | (id, fp, a, entry) :: rest, s => by
      unfold addTaskList
      obtain ⟨h1, h2⟩ := add_moves s id fp a false (some entry)
      obtain ⟨h3, h4⟩ := addTaskList_moves rest (add_to_task_pool s id fp a false (some entry))
      exact ⟨moves_trans _ _ _ [] [] [id] _ h1 h3, h4.trans h2⟩

theorem startedBy_self (l : List Worker) : startedBy l l = [] := by
  simpa using startedBy_append l []

/-- A worker that was waiting and holds an entry: the entries held are those
that were held and this one. -/
theorem heldIds_set_executing : ∀ (l : List Worker) (i : Nat) (t : task_pool_t),
    l.get? i = some Worker.waiting →
    ∀ x, (heldIds (l.set i (Worker.executing t))).count x = (heldIds l).count x + [t.id].count x
  | [], _, _, h => by simp at h
  | Worker.executing t0 :: l, 0, t, h => by simp at h
  | Worker.waiting :: l, 0, t, _ => by
      intro x
      simp only [List.set_cons_zero, heldIds, List.filterMap_cons, List.count_cons,
        List.count_nil]
      omega
  | Worker.executing t0 :: l, i + 1, t, h => by
      intro x
      have := heldIds_set_executing l i t (by simpa using h) x
      simp only [List.set_cons_succ, heldIds, List.filterMap_cons, List.count_cons,
        List.count_nil] at this ⊢
      omega
  | Worker.waiting :: l, i + 1, t, h => by
      intro x
      have := heldIds_set_executing l i t (by simpa using h) x
      simp only [List.set_cons_succ, heldIds, List.filterMap_cons, List.count_cons,
        List.count_nil] at this ⊢
      omega

/-- A worker that held an entry and waits: the entries held are those that
were held, without this one. -/
theorem heldIds_set_waiting : ∀ (l : List Worker) (i : Nat) (t : task_pool_t),
    l.get? i = some (Worker.executing t) →
    ∀ x, (heldIds (l.set i Worker.waiting)).count x + [t.id].count x = (heldIds l).count x
  | [], _, _, h => by simp at h
  | Worker.waiting :: l, 0, t, h => by simp at h
  | Worker.executing t0 :: l, 0, t, h => by
      intro x
      have ht : t0 = t := by simpa using h
      subst ht
      simp only [List.set_cons_zero, heldIds, List.filterMap_cons, List.count_cons,
        List.count_nil]
      omega
  | Worker.executing t0 :: l, i + 1, t, h => by
      intro x
      have := heldIds_set_waiting l i t (by simpa using h) x
      simp only [List.set_cons_succ, heldIds, List.filterMap_cons, List.count_cons,
        List.count_nil] at this ⊢
      omega
  | Worker.waiting :: l, i + 1, t, h => by
      intro x
      have := heldIds_set_waiting l i t (by simpa using h) x
      simp only [List.set_cons_succ, heldIds, List.filterMap_cons, List.count_cons,
        List.count_nil] at this ⊢
      omega
theorem worker_finish_moves (i : Nat) (s s' : Scheduler) (hh : HeldBegun s)
    (he : worker_finish i s = some s') :
    Moves s s' (startedBy s.workers s'.workers) [] ∧ HeldBegun s' := by
  unfold worker_finish at he
  split at he
  · rename_i task hw
    simp only [Option.some.injEq] at he
    subst he
    refine ⟨?_, ?_⟩
    · show Moves s _ (startedBy s.workers (s.workers.set i Worker.waiting)) []
      rw [startedBy_set_waiting]
      refine ⟨fun x => rfl, fun x => ?_, fun x => ?_⟩
      · have := heldIds_set_waiting s.workers i task hw x
        simp only [begunLive, List.count_append, List.count_nil] at this ⊢
        omega
      · simp only [List.count_append]
        omega
    · intro t ht
      rcases mem_set_cases _ _ _ _ ht with ht | ht
      · cases ht
      · exact hh t ht
  · exact Option.noConfusion he

theorem worker_take_moves (i : Nat) (s s' : Scheduler) (hh : HeldBegun s)
    (he : worker_take i s = some s') :
    Moves s s' (startedBy s.workers s'.workers) [] ∧ HeldBegun s' := by
  unfold worker_take at he
  split at he
  · rename_i hw
    obtain ⟨hm, _⟩ := skip_moves s
    dsimp only at he
    split at he
    · simp only [Option.some.injEq] at he
      subst he
      refine ⟨?_, hh⟩
      show Moves s _ (startedBy s.workers s.workers) []
      rw [startedBy_self]
      exact hm
    · rename_i task rest hcons
      have hnb : task.begun = false := by
        have := dropWhile_head_not (fun t => t.begun) s.task_pool task rest hcons
        simpa using this
      simp only [Option.some.injEq] at he
      subst he
      refine ⟨?_, ?_⟩
      · show Moves s _ (startedBy s.workers
          (s.workers.set i (Worker.executing { task with begun := true }))) []
        rw [startedBy_set_executing s.workers i _ hw]
        obtain ⟨m1, m2, m3⟩ := hm
        refine ⟨fun x => ?_, fun x => ?_, fun x => m3 x⟩
        · have := m1 x
          simp only [notBegun, hcons, List.filter_cons, hnb, Bool.not_false, if_true,
            List.map_cons, List.count_cons, List.count_nil] at this ⊢
          omega
        · have := m2 x
          have h3 := heldIds_set_executing s.workers i { task with begun := true } hw x
          have hw' : (skip_over_begun_tasks s).workers = s.workers := rfl
          simp only [begunLive, hcons, hw', List.filter_cons, hnb, Bool.false_eq_true, if_false,
            List.count_append, List.count_nil, List.count_cons] at this h3 ⊢
          omega
      · intro t ht
        rcases mem_set_cases _ _ _ _ ht with ht | ht
        · cases ht
          rfl
        · exact hh t ht
  · exact Option.noConfusion he

/-- A store to the fields of an entry other than its address keeps the
entries that workers hold. -/
theorem heldIds_update (id : Nat) (f : task_pool_t → task_pool_t)
    (hf : ∀ t, (f t).id = t.id) : ∀ (workers : List Worker),
    heldIds (workers.map (fun w =>
      match w with
      | Worker.executing t => if t.id = id then Worker.executing (f t) else Worker.executing t
      | Worker.waiting => Worker.waiting)) = heldIds workers ∧
    startedBy workers (workers.map (fun w =>
      match w with
      | Worker.executing t => if t.id = id then Worker.executing (f t) else Worker.executing t
      | Worker.waiting => Worker.waiting)) = []
  | [] => ⟨rfl, rfl⟩
  | Worker.waiting :: workers => by
      obtain ⟨h1, h2⟩ := heldIds_update id f hf workers
      refine ⟨?_, ?_⟩
      · simp only [List.map_cons, heldIds, List.filterMap_cons] at h1 ⊢
        exact h1
      · simp only [List.map_cons, startedBy]
        exact h2
  | Worker.executing t :: workers => by
      obtain ⟨h1, h2⟩ := heldIds_update id f hf workers
      by_cases ht : t.id = id
      · refine ⟨?_, ?_⟩
        · simp only [List.map_cons, heldIds, List.filterMap_cons, if_pos ht, hf] at h1 ⊢
          rw [h1]
        · simp only [List.map_cons, if_pos ht, startedBy]
          exact h2
      · refine ⟨?_, ?_⟩
        · simp only [List.map_cons, heldIds, List.filterMap_cons, if_neg ht] at h1 ⊢
          rw [h1]
        · simp only [List.map_cons, if_neg ht, startedBy]
          exact h2

/-- A store to an entry that keeps its address and `begun` keeps the accounts
of the pool. -/
theorem pool_update_same (id : Nat) (f : task_pool_t → task_pool_t)
    (hf : ∀ t, (f t).id = t.id) (hb : ∀ t, (f t).begun = t.begun) (p : Bool → Bool) :
    ∀ (pool : List task_pool_t),
      ((pool.map (fun t => if t.id = id then f t else t)).filter (fun t => p t.begun)).map
        (fun t => t.id) = (pool.filter (fun t => p t.begun)).map (fun t => t.id)
  | [] => rfl
  | a :: pool => by
      have ih := pool_update_same id f hf hb p pool
      by_cases ha : a.id = id
      · by_cases hp : p a.begun = true
        · simp only [List.map_cons, if_pos ha, List.filter_cons, hb, hp, if_true, hf, ih]
        · simp only [List.map_cons, if_pos ha, List.filter_cons, hb, hp, Bool.false_eq_true,
            if_false]
          exact ih
      · by_cases hp : p a.begun = true
        · simp only [List.map_cons, if_neg ha, List.filter_cons, hp, if_true, ih]
        · simp only [List.map_cons, if_neg ha, List.filter_cons, hp, Bool.false_eq_true,
            if_false]
          exact ih

/-- A store of `begun` in the entry at `id`, which is in the pool once and has
not begun. -/
theorem pool_update_begun (id : Nat) : ∀ (pool : List task_pool_t) (t : task_pool_t),
    (pool.map (fun t => t.id)).Nodup → t ∈ pool → t.id = id → t.begun = false →
    ∀ x,
      (((pool.map (fun t => if t.id = id then { t with begun := true } else t)).filter
        (fun t => !t.begun)).map (fun t => t.id)).count x + [id].count x =
        ((pool.filter (fun t => !t.begun)).map (fun t => t.id)).count x ∧
      (((pool.map (fun t => if t.id = id then { t with begun := true } else t)).filter
        (fun t => t.begun)).map (fun t => t.id)).count x =
        ((pool.filter (fun t => t.begun)).map (fun t => t.id)).count x + [id].count x
  | [], _, _, h, _, _ => nomatch h
  | a :: pool, t, hnd, hmem, hid, hb => by
      intro x
      have hnd' : a.id ∉ pool.map (fun t => t.id) ∧ (pool.map (fun t => t.id)).Nodup := by
        simpa using hnd
      by_cases ha : a.id = id
      · have hat : t = a := by
          rcases List.mem_cons.1 hmem with h | h
          · exact h
          · exact absurd (List.mem_map.2 ⟨t, h, hid.trans ha.symm⟩) hnd'.1
        subst hat
        have hrest : pool.map (fun t => if t.id = id then { t with begun := true } else t) =
            pool := by
          conv_rhs => rw [← List.map_id pool]
          apply List.map_congr_left
          intro y hy
          have : y.id ≠ id := fun h =>
            hnd'.1 (List.mem_map.2 ⟨y, hy, h.trans ha.symm⟩)
          simp [this]
        simp only [List.map_cons, if_pos ha, hrest, List.filter_cons, hb, Bool.not_true,
          Bool.not_false, Bool.false_eq_true, if_false, if_true, List.count_cons,
          List.count_nil, ha]
        omega
      · have hmem' : t ∈ pool := by
          rcases List.mem_cons.1 hmem with h | h
          · exact absurd (h ▸ hid) ha
          · exact h
        obtain ⟨i1, i2⟩ := pool_update_begun id pool t hnd'.2 hmem' hid hb x
        by_cases hab : a.begun = true
        · simp only [List.map_cons, if_neg ha, List.filter_cons, hab, Bool.not_true,
            Bool.false_eq_true, if_false, if_true, List.count_cons, List.count_nil] at i1 i2 ⊢
          omega
        · have hab' : a.begun = false := by simpa using hab
          simp only [List.map_cons, if_neg ha, List.filter_cons, hab', Bool.not_false,
            Bool.false_eq_true, if_false, if_true, List.count_cons, List.count_nil] at i1 i2 ⊢
          omega

/-- What `findEntry` finds is in the pool or in the hands of a worker. -/
theorem findEntry_some (id : Nat) (s : Scheduler) (t : task_pool_t)
    (h : findEntry id s = some t) :
    (t ∈ s.task_pool ∧ t.id = id) ∨ (Worker.executing t ∈ s.workers ∧ t.id = id) := by
  unfold findEntry at h
  split at h
  · rename_i t0 hfind
    cases h
    have h1 := List.mem_of_find?_eq_some hfind
    have h2 := List.find?_some hfind
    exact Or.inl ⟨h1, by simpa using h2⟩
  · obtain ⟨w, hw, hw2⟩ := List.exists_of_findSome?_eq_some h
    cases w with
    | waiting => cases hw2
    | executing t0 =>
      dsimp only at hw2
      split at hw2
      · rename_i hid
        cases hw2
        exact Or.inr ⟨hw, hid⟩
      · cases hw2

/-- An address that is neither in the pool nor held by a worker: `findEntry`
finds nothing there. -/
theorem findEntry_none (id : Nat) (s : Scheduler)
    (h1 : id ∉ s.task_pool.map (fun t => t.id)) (h2 : id ∉ heldIds s.workers) :
    findEntry id s = none := by
  cases h : findEntry id s with
  | none => rfl
  | some t =>
    rcases findEntry_some id s t h with ⟨hm, hid⟩ | ⟨hm, hid⟩
    · exact absurd (List.mem_map.2 ⟨t, hm, hid⟩) h1
    · refine absurd ?_ h2
      unfold heldIds
      rw [List.mem_filterMap]
      exact ⟨Worker.executing t, hm, congrArg some hid⟩

/-- A store to the entry at `id` that keeps its address and `begun`. -/
theorem update_same_moves (id : Nat) (f : task_pool_t → task_pool_t)
    (hf : ∀ t, (f t).id = t.id) (hb : ∀ t, (f t).begun = t.begun) (s s2 : Scheduler)
    (hp : s2.task_pool = s.task_pool.map (fun t => if t.id = id then f t else t))
    (hw : s2.workers = s.workers.map (fun w =>
      match w with
      | Worker.executing t => if t.id = id then Worker.executing (f t) else Worker.executing t
      | Worker.waiting => Worker.waiting))
    (hfr : s2.freed = s.freed) :
    Moves s s2 (startedBy s.workers s2.workers) [] := by
  obtain ⟨w1, w2⟩ := heldIds_update id f hf s.workers
  have hp1 := pool_update_same id f hf hb (fun b => !b) s.task_pool
  have hp2 := pool_update_same id f hf hb (fun b => b) s.task_pool
  rw [hw, w2]
  refine ⟨fun x => ?_, fun x => ?_, fun x => by rw [hfr]⟩
  · simp only [notBegun, hp, hp1]
  · simp only [begunLive, hp, hp2, hw, w1, hfr]
    rfl

/-- A store of `begun` in the entry at `id`, which is in the pool and has not
begun. -/
theorem update_begun_moves (id : Nat) (s s2 : Scheduler) (t : task_pool_t)
    (hnd : (s.task_pool.map (fun t => t.id)).Nodup) (hmem : t ∈ s.task_pool)
    (hid : t.id = id) (hb : t.begun = false)
    (hp : s2.task_pool =
      s.task_pool.map (fun t => if t.id = id then { t with begun := true } else t))
    (hw : s2.workers = s.workers.map (fun w =>
      match w with
      | Worker.executing t =>
          if t.id = id then Worker.executing { t with begun := true } else Worker.executing t
      | Worker.waiting => Worker.waiting))
    (hfr : s2.freed = s.freed) :
    Moves s s2 (startedBy s.workers s2.workers ++ [id]) [] := by
  obtain ⟨w1, w2⟩ := heldIds_update id (fun t => { t with begun := true }) (fun _ => rfl)
    s.workers
  rw [hw, w2]
  refine ⟨fun x => ?_, fun x => ?_, fun x => by rw [hfr]⟩
  · have := (pool_update_begun id s.task_pool t hnd hmem hid hb x).1
    simp only [notBegun, hp, List.nil_append, List.count_nil] at this ⊢
    omega
  · have := (pool_update_begun id s.task_pool t hnd hmem hid hb x).2
    simp only [begunLive, hp, hw, w1, hfr, List.nil_append, List.count_append] at this ⊢
    omega

theorem joiner_claim_moves (entry id : Nat) (s : Scheduler)
    (hnd : (s.task_pool.map (fun t => t.id)).Nodup) (hh : HeldBegun s) :
    Moves s (joiner_claim entry id s)
      (startedBy s.workers (joiner_claim entry id s).workers ++
        (Event.joiner_claim entry id).claimed s) [] ∧
    HeldBegun (joiner_claim entry id s) := by
  by_cases hc : entry ∈ s.completed
  · have h1 : joiner_claim entry id s = s := by
      unfold joiner_claim
      rw [if_pos hc]
    have h2 : (Event.joiner_claim entry id).claimed s = [] := by
      simp only [Event.claimed, if_pos hc]
    rw [h1, h2, startedBy_self]
    exact ⟨moves_refl s, hh⟩
  · cases hfind : findEntry id s with
    | none =>
      have h1 : joiner_claim entry id s = s := by
        unfold joiner_claim
        rw [if_neg hc, hfind]
      have h2 : (Event.joiner_claim entry id).claimed s = [] := by
        simp only [Event.claimed, if_neg hc, hfind]
      rw [h1, h2, startedBy_self]
      exact ⟨moves_refl s, hh⟩
    | some t =>
      by_cases hb : t.begun = true
      · have h1 : joiner_claim entry id s =
            updateEntry id (fun t => { t with task_list := none }) s := by
          unfold joiner_claim
          rw [if_neg hc, hfind]
          simp only [hb, if_true]
        have h2 : (Event.joiner_claim entry id).claimed s = [] := by
          simp only [Event.claimed, if_neg hc, hfind, hb, if_true]
        rw [h1, h2, List.append_nil]
        refine ⟨update_same_moves id (fun t => { t with task_list := none }) (fun _ => rfl)
          (fun _ => rfl) s _ rfl rfl rfl, ?_⟩
        intro x hx
        obtain ⟨t0, ht0, hx0⟩ := (updateEntry_executing id _ s x).1 hx
        rw [hx0]
        split
        · exact hh t0 ht0
        · exact hh t0 ht0
      · have hb' : t.begun = false := by simpa using hb
        have h1 : joiner_claim entry id s =
            { updateEntry id (fun t => { t with begun := true }) s with
              waking_cnt := if s.waking_cnt > 0 then s.waking_cnt - 1 else s.waking_cnt } := by
          unfold joiner_claim
          rw [if_neg hc, hfind]
          simp only [hb', Bool.false_eq_true, if_false]
        have h2 : (Event.joiner_claim entry id).claimed s = [id] := by
          simp only [Event.claimed, if_neg hc, hfind, hb', Bool.false_eq_true, if_false]
        have hpool : t ∈ s.task_pool ∧ t.id = id := by
          rcases findEntry_some id s t hfind with h | ⟨h, _⟩
          · exact h
          · rw [hh t h] at hb'
            cases hb'
        rw [h1, h2]
        refine ⟨update_begun_moves id s _ t hnd hpool.1 hpool.2 hb' rfl rfl rfl, ?_⟩
        intro x hx
        have hx' : Worker.executing x ∈
            (updateEntry id (fun t => { t with begun := true }) s).workers := hx
        obtain ⟨t0, ht0, hx0⟩ := (updateEntry_executing id _ s x).1 hx'
        rw [hx0]
        split
        · rfl
        · exact hh t0 ht0
theorem event_moves (maxThreads : Int) (e : Event) (s s' : Scheduler)
    (hnd : (s.task_pool.map (fun t => t.id)).Nodup) (hh : HeldBegun s)
    (he : e.apply maxThreads s = some s') :
    Moves s s' (startedBy s.workers s'.workers ++ e.claimed s) e.added ∧ HeldBegun s' := by
  cases e with
  | chpl_begin outcomes id fp a serial_state =>
    simp only [Event.apply, Option.some.injEq] at he
    subst he
    obtain ⟨m1, w1⟩ := add_moves s id fp a serial_state none
    obtain ⟨extra, w2, m2, g2⟩ := schedule_moves maxThreads outcomes 1
      (add_to_task_pool s id fp a serial_state none)
    unfold ChplThreads.chpl_begin
    rw [w2, w1, startedBy_append]
    have h3 : Moves s (schedule_next_task maxThreads outcomes 1
        (add_to_task_pool s id fp a serial_state none)) (startedBy [] extra) [id] := by
      simpa using moves_trans _ _ _ _ _ _ _ m1 m2
    refine ⟨?_, g2 hh⟩
    show Moves s _ (startedBy [] extra ++ []) [id]
    rw [List.append_nil]
    exact h3
  | process_task_list_add outcomes tasks =>
    simp only [Event.apply, Option.some.injEq] at he
    subst he
    obtain ⟨m1, w1⟩ := addTaskList_moves tasks s
    obtain ⟨extra, w2, m2, g2⟩ := schedule_moves maxThreads outcomes tasks.length
      (addTaskList s tasks)
    unfold ChplThreads.process_task_list_add
    rw [w2, w1, startedBy_append]
    have h3 : Moves s (schedule_next_task maxThreads outcomes tasks.length
        (addTaskList s tasks)) (startedBy [] extra) (tasks.map (fun task => task.1)) := by
      simpa using moves_trans _ _ _ _ _ _ _ m1 m2
    refine ⟨?_, g2 (fun t ht => hh t (w1 ▸ ht))⟩
    show Moves s _ (startedBy [] extra ++ []) (tasks.map (fun task => task.1))
    rw [List.append_nil]
    exact h3
  | worker_finish i =>
    obtain ⟨m, g⟩ := worker_finish_moves i s s' hh he
    refine ⟨?_, g⟩
    show Moves s s' (startedBy s.workers s'.workers ++ []) []
    rw [List.append_nil]
    exact m
  | worker_take i =>
    obtain ⟨m, g⟩ := worker_take_moves i s s' hh he
    refine ⟨?_, g⟩
    show Moves s s' (startedBy s.workers s'.workers ++ []) []
    rw [List.append_nil]
    exact m
  | joiner_claim entry id =>
    simp only [Event.apply, Option.some.injEq] at he
    subst he
    exact joiner_claim_moves entry id s hnd hh

/-- The entries of the pool are those that have not begun and those that
have. -/
theorem pool_count : ∀ (pool : List task_pool_t) (x : Nat),
    (pool.map (fun t => t.id)).count x =
      ((pool.filter (fun t => !t.begun)).map (fun t => t.id)).count x +
      ((pool.filter (fun t => t.begun)).map (fun t => t.id)).count x
  | [], _ => rfl
  | a :: pool, x => by
      have ih := pool_count pool x
      by_cases hb : a.begun = true
      · simp only [List.map_cons, List.filter_cons, hb, Bool.not_true, Bool.false_eq_true,
          if_false, if_true, List.count_cons] at ih ⊢
        omega
      · have hb' : a.begun = false := by simpa using hb
        simp only [List.map_cons, List.filter_cons, hb', Bool.not_false, Bool.false_eq_true,
          if_false, if_true, List.count_cons] at ih ⊢
        omega

theorem pool_nodup (s : Scheduler) (h : ∀ x, (allIds s).count x ≤ 1) :
    (s.task_pool.map (fun t => t.id)).Nodup := by
  rw [List.nodup_iff_count_le_one]
  intro x
  have h1 := pool_count s.task_pool x
  have h2 := h x
  simp only [allIds, notBegun, begunLive, List.count_append] at h2
  omega

/-- The account of a run of critical sections in which no address is added
twice. -/
theorem beginLog_moves (maxThreads : Int) :
    ∀ (events : List Event) (s t : Scheduler) (log : List Nat),
      (∀ x, (allIds s).count x + (addedBy events).count x ≤ 1) → HeldBegun s →
      beginLog maxThreads events s = some (t, log) →
      Moves s t log (addedBy events) ∧ HeldBegun t
  | [], s, t, log, _, hh, hrun => by
      simp only [beginLog, Option.some.injEq, Prod.mk.injEq] at hrun
      obtain ⟨h1, h2⟩ := hrun
      subst h1; subst h2
      exact ⟨moves_refl s, hh⟩
  | e :: events, s, t, log, hc, hh, hrun => by
      unfold beginLog at hrun
      split at hrun
      · exact Option.noConfusion hrun
      · rename_i s' he
        split at hrun
        · exact Option.noConfusion hrun
        · rename_i t' log' hrest
          simp only [Option.some.injEq, Prod.mk.injEq] at hrun
          obtain ⟨h1, h2⟩ := hrun
          subst h1; subst h2
          have hnd : (s.task_pool.map (fun t => t.id)).Nodup :=
            pool_nodup s (fun x => by have := hc x; omega)
          obtain ⟨m, g⟩ := event_moves maxThreads e s s' hnd hh he
          have hc' : ∀ x, (allIds s').count x + (addedBy events).count x ≤ 1 := by
            intro x
            have h1 := hc x
            have h2 := m.1 x
            have h3 := m.2.1 x
            simp only [allIds, addedBy, List.count_append] at h1 ⊢
            omega
          obtain ⟨m', g'⟩ := beginLog_moves maxThreads events s' t' log' hc' g hrest
          exact ⟨moves_trans s s' t' _ _ _ _ m m', g'⟩

/-- C31 (amended): release and execution happen at most once.  In every run
of critical sections of workers, launchers (`chpl_begin`, the first critical
section of `chpl_process_task_list`) and joiners, from a state in which
every pool entry is in one place and workers hold entries that have begun,
the addresses added being new: every pool entry stays in one place (in the
pool once, or held by one worker, or freed once); `begun` is set at most once
for an entry (`log` has no entry twice), only for an entry of the pool that
has not begun, and is not reset (the entry is then in the pool with `begun`
set, or held by a worker, or freed); no entry is freed twice; a freed entry is
neither in the pool nor held by a worker, so that no critical section finds
it, and had begun; and what is freed stays freed.  The thread that sets
`begun` is the worker that takes the entry, or the joiner that runs the task,
or the thread in `launch_next_task`, for the thread it creates; and an entry
that has begun need not be freed at all. -/
theorem begun_and_freed_once (maxThreads : Int) (events : List Event) (s t : Scheduler)
    (log : List Nat) (hh : HeldBegun s) (hfresh : (allIds s ++ addedBy events).Nodup)
    (hrun : beginLog maxThreads events s = some (t, log)) :
    Exclusive t ∧ log.Nodup ∧
    (∀ x ∈ log, (x ∈ notBegun s ∨ x ∈ addedBy events) ∧ (x ∈ begunLive t ∨ x ∈ t.freed)) ∧
    (∀ x ∈ begunLive s, x ∉ log ∧ (x ∈ begunLive t ∨ x ∈ t.freed)) ∧
    t.freed.Nodup ∧
    (∀ x ∈ t.freed, findEntry x t = none ∧ (x ∈ s.freed ∨ x ∈ begunLive s ∨ x ∈ log)) ∧
    (∀ x ∈ s.freed, x ∈ t.freed ∧ x ∉ log) := by
  have hc : ∀ x, (allIds s).count x + (addedBy events).count x ≤ 1 := by
    intro x
    have := List.nodup_iff_count_le_one.1 hfresh x
    rwa [List.count_append] at this
  obtain ⟨⟨m1, m2, m3⟩, g⟩ := beginLog_moves maxThreads events s t log hc hh hrun
  have hall : ∀ x, (allIds t).count x ≤ 1 := by
    intro x
    have h1 := hc x
    have h2 := m1 x
    have h3 := m2 x
    simp only [allIds, List.count_append] at h1 ⊢
    omega
  refine ⟨⟨List.nodup_iff_count_le_one.2 hall, g⟩, ?_, ?_, ?_, ?_, ?_, ?_⟩
  · rw [List.nodup_iff_count_le_one]
    intro x
    have h1 := hc x
    have h2 := m1 x
    simp only [allIds, List.count_append] at h1
    omega
  · intro x hx
    have hx' := List.count_pos_iff.2 hx
    have h2 := m1 x
    have h3 := m2 x
    constructor
    · by_contra hn
      push_neg at hn
      have e1 := List.count_eq_zero.2 hn.1
      have e2 := List.count_eq_zero.2 hn.2
      omega
    · by_contra hn
      push_neg at hn
      have e1 := List.count_eq_zero.2 hn.1
      have e2 := List.count_eq_zero.2 hn.2
      omega
  · intro x hx
    have hx' := List.count_pos_iff.2 hx
    have h1 := hc x
    have h2 := m1 x
    have h3 := m2 x
    simp only [allIds, List.count_append] at h1
    constructor
    · intro hl
      have := List.count_pos_iff.2 hl
      omega
    · by_contra hn
      push_neg at hn
      have e1 := List.count_eq_zero.2 hn.1
      have e2 := List.count_eq_zero.2 hn.2
      omega
  · rw [List.nodup_iff_count_le_one]
    intro x
    have := hall x
    simp only [allIds, List.count_append] at this
    omega
  · intro x hx
    have hx' := List.count_pos_iff.2 hx
    have h0 := hall x
    have h3 := m2 x
    simp only [allIds, notBegun, begunLive, List.count_append] at h0
    constructor
    · apply findEntry_none
      · apply List.count_eq_zero.1
        have := pool_count t.task_pool x
        omega
      · apply List.count_eq_zero.1
        omega
    · by_contra hn
      push_neg at hn
      have e1 := List.count_eq_zero.2 hn.1
      have e2 := List.count_eq_zero.2 hn.2.1
      have e3 := List.count_eq_zero.2 hn.2.2
      omega
  · intro x hx
    have hx' := List.count_pos_iff.2 hx
    have h1 := hc x
    have h2 := m1 x
    have h3 := m3 x
    simp only [allIds, List.count_append] at h1
    constructor
    · apply List.count_pos_iff.1
      omega
    · intro hl
      have := List.count_pos_iff.2 hl
      omega
theorem begun_and_freed_once_witness :
    Exclusive ⟨[], 0, 1, 1, true, [Worker.executing ⟨3, 7, 10, false, true, some 13⟩], [],
      [1, 2], 0, 2, 1⟩ ∧
    [1, 2, 3].Nodup ∧ [1, 2].Nodup :=
  have h := begun_and_freed_once 0 sampleTrace initChplThreads
    ⟨[], 0, 1, 1, true, [Worker.executing ⟨3, 7, 10, false, true, some 13⟩], [], [1, 2], 0, 2, 1⟩
    [1, 2, 3] (fun _ ht => nomatch ht) (by decide) (by decide)
  ⟨h.1, h.2.1, h.2.2.2.2.1⟩

/-- C31 as stated fails, in two places.  (1) The thread that sets `begun` need
not run the function: `launch_next_task`, called with entry 5 in the pool and
no worker, ends with `begun` set in entry 5 and a new worker that holds it;
the store `task->begun = true` is made by the caller of `launch_next_task`,
and the function is run by the thread `pthread_create` starts.  (2) An entry
need not be freed: with `maxThreads = 1`, after a task list has added entry 5
and the joiner has claimed it (and runs the task), the entry is in the pool
with `begun` set, and whatever critical sections follow, it is still in the
pool and nothing is freed. -/
theorem begun_and_freed_once_counterexample :
    (add_to_task_pool initChplThreads 5 7 8 false none).workers = [] ∧
    (launch_next_task true (add_to_task_pool initChplThreads 5 7 8 false none)).workers =
      [Worker.executing ⟨5, 7, 8, false, true, none⟩] ∧
    beginLog 1 [Event.process_task_list_add [] [(5, 7, 8, 13)], Event.joiner_claim 13 5]
      initChplThreads = some (claimedEntry, [5]) ∧
    ∀ events t log, runLog 1 events claimedEntry = some (t, log) →
      t.freed = [] ∧ 5 ∈ t.task_pool.map (fun x => x.id) := by
  refine ⟨rfl, by decide, by decide, ?_⟩
  intro events t log hrun
  obtain ⟨_, _, h3, _, h5, _⟩ := runLog_one events claimedEntry t log ⟨rfl, rfl, rfl, rfl⟩ hrun
  refine ⟨h3, ?_⟩
  rw [h5]
  exact List.mem_append_left _ (by decide)

end ChplThreads
